import Mathlib

/-!
# tweedledum: the just-in-time router (`jit_router`)

A shallow embedding of `tweedledum/algorithms/mapping/routing/jit_router.hpp`
(the file `jit_router.h` is the same code after a renaming pass) and of the
collaborator interfaces it is written against.

* `std::vector` is `List`; `vector::at` is `at_`, which fails with
  `Err.out_of_range` where the C++ throws `std::out_of_range`.
* `wire::id` values stored in the index maps (`v_to_phy_`, `phy_to_v_`) are
  `Option Nat`: `none` is `wire::invalid_id`, `some p` is `wire::make_qubit(p)`.
* `assert(...)` is a failure `Err.assertion`.
* The driver loop of `route` is not structurally terminating; it carries a fuel
  argument and fails with `Err.out_of_fuel` when the fuel is used up.
* `double`/`float` quantities are exact rationals.
* `uint32_t` arithmetic is reduced modulo `2 ^ 32` where the code can wrap
  (`distance - 1`, `num_swap_searches`); the per-node discharge counters are
  plain naturals: a counter is incremented at most once per incoming edge.
-/

namespace tweedledum

/-! ## Collaborator interfaces -/

/-- Ways in which a call can fail to return normally. -/
inductive Err where
  /-- an `assert(...)` failed -/
  | assertion
  /-- `std::vector::at` was called with an index outside the vector -/
  | out_of_range
  /-- unsigned remainder with a zero divisor -/
  | div_by_zero
  /-- the iteration budget of the model ran out; not a behaviour of the code -/
  | out_of_fuel
  deriving DecidableEq, Repr

deriving instance DecidableEq for Except

/-- Modelled from the spec: `wire::id` as carried by an operation (`wire.hpp` is not part of
the sources): a small integer plus the "complemented" flag of the reference. -/
structure wire_id where
  uid : Nat
  is_complemented : Bool := false
  deriving DecidableEq, Repr

/-- Modelled from the spec: the per-node operation of the input DAG (the operation types
`w3_op`, `wn32_op` are not part of the sources): `is_meta`, `num_wires` (arity),
`control()`, `target()`. `gate` is the identifier of the gate kind. -/
structure op_type where
  gate : Nat
  is_meta : Bool
  num_wires : Nat
  control : wire_id
  target : wire_id
  deriving DecidableEq, Repr

/-- Modelled from the spec: `op.is_one_qubit()`, an operation of arity one. -/
def op_type.is_one_qubit (op : op_type) : Bool := op.num_wires == 1

/-- Modelled from the spec: `op.is_two_qubit()`, an operation of arity two. -/
def op_type.is_two_qubit (op : op_type) : Bool := op.num_wires == 2

/-- The `Network` template parameter of `jit_router`, as far as the router uses it:
`node(id).op` (`nodes`), the order of `foreach_output` (`outputs`), the order in which
`foreach_child(node(id), fn)` calls `fn` (`children`), and for every wire `w` listed by
`foreach_wire` the virtual qubit `mapped_->wire(name)` of its name (`wire_v`). The
per-node value `node.data` is mutable state and lives in `jit_router.values`. -/
structure Network where
  nodes : List op_type
  outputs : List Nat
  children : List (List Nat)
  wire_v : List Nat
  deriving Repr

/-- The device (`utils/device.hpp` is not part of the sources): qubit count, the edge list in
enumeration order, the adjacency test and the distance oracle. -/
structure device where
  num_qubits : Nat
  edges : List (Nat × Nat)
  are_connected : Nat → Nat → Bool
  distance : Nat → Nat → Nat

/-- Configuration parameters for `jit_router` (`struct jit_config`). -/
structure jit_config where
  e_set_size : Nat := 20
  e_weight : ℚ := 1 / 2
  decay_delta : ℚ := 1 / 1000
  num_rounds_decay_reset : Nat := 5
  randomize_initial_map : Bool := false
  use_look_ahead : Bool := true

/-- A `gate const&` handed to `create_op`: either the operation stored in an input node
(the reference is the node) or the library constant `gate_lib::swap`. -/
inductive gate_ref where
  | node (id : Nat)
  | swap
  deriving DecidableEq, Repr

/-- An operation appended to the mapped DAG: `create_op(g, phy)` or
`create_op(g, phy0, phy1)`; `phy0` keeps the complemented flag of the reference. -/
inductive mapped_op where
  | one (g : gate_ref) (phy : Nat)
  | two (g : gate_ref) (phy0 : wire_id) (phy1 : Nat)
  deriving DecidableEq, Repr

/-- The members of `jit_router`, together with the two objects a call of `route` mutates
through pointers: the discharge counters `node.data` of the input network (`values`) and
the mapped DAG under construction (`mapped` its operations, `published` the `v_to_phy`
set on it). -/
structure jit_router where
  front_layer : List Nat
  extended_layer : List Nat
  involved_phy : List Bool
  phy_decay : List ℚ
  unexectued : List (List gate_ref)
  wire_to_v : List Nat
  v_to_phy : List (Option Nat)
  phy_to_v : List (Option Nat)
  values : List Nat
  mapped : List mapped_op
  published : List (Option Nat)
  deriving DecidableEq, Repr

/-! ## Vectors -/

/-- The call `xs.at(i)` used as a value. -/
def at_ {α : Type} (xs : List α) (i : Nat) : Except Err α :=
  match xs[i]? with
  | some x => .ok x
  | none => .error .out_of_range

/-- The call `xs.at(i)` where `i` is a `wire::id` that may be `invalid_id`. -/
def at_id {α : Type} (xs : List α) (i : Option Nat) : Except Err α :=
  match i with
  | some i => at_ xs i
  | none => .error .out_of_range

/-- The assignment `xs.at(i) = x`. -/
def set_at {α : Type} (xs : List α) (i : Nat) (x : α) : Except Err (List α) :=
  if i < xs.length then .ok (xs.set i x) else .error .out_of_range

/-- The assignment `xs.at(i) = x` where `i` is a `wire::id` that may be `invalid_id`. -/
def set_at_id {α : Type} (xs : List α) (i : Option Nat) (x : α) : Except Err (List α) :=
  match i with
  | some i => set_at xs i x
  | none => .error .out_of_range

/-- The call `xs.resize(n, x)`. -/
def resize {α : Type} (xs : List α) (n : Nat) (x : α) : List α :=
  (xs ++ List.replicate (n - xs.length) x).take n

/-! ## Network counters and the mapped DAG -/

/-- The call `netlist::clear_values`: every `node.data` becomes zero. -/
def clear_values (net : Network) : List Nat :=
  net.nodes.map (fun _ => 0)

/-- The call `netlist::incr_value`: `++node.data`, returning the new value. -/
def incr_value (values : List Nat) (id : Nat) : List Nat × Nat :=
  (values.set id (values.getD id 0 + 1), values.getD id 0 + 1)

/-- The call `netlist::decr_value`: `assert(node.data > 0); --node.data`. -/
def decr_value (values : List Nat) (id : Nat) : Except Err (List Nat) :=
  if 0 < values.getD id 0 then .ok (values.set id (values.getD id 0 - 1))
  else .error .assertion

/-- Modelled from the spec: the one-qubit form of `mapped_dag::create_op`
(`mapped_dag.hpp` is not part of the sources); it appends and never fails. -/
def create_op1 (mapped : List mapped_op) (g : gate_ref) (phy : Nat) : List mapped_op :=
  mapped ++ [.one g phy]

/-- Modelled from the spec: the two-qubit form of `mapped_dag::create_op`
(`mapped_dag.hpp` is not part of the sources); it appends the operation and returns `true`
("a valid id"), or returns `false` ("`node::invalid`") iff the physicals are not connected. -/
def create_op2 (dev : device) (mapped : List mapped_op) (g : gate_ref) (phy0 : wire_id)
    (phy1 : Nat) : List mapped_op × Bool :=
  if dev.are_connected phy0.uid phy1 then (mapped ++ [.two g phy0 phy1], true)
  else (mapped, false)

/-! ## The router -/

/-- The constructor `jit_router(device, parameters)`. -/
def jit_router.init (dev : device) : jit_router :=
  { front_layer := [], extended_layer := [],
    involved_phy := List.replicate dev.num_qubits false,
    phy_decay := List.replicate dev.num_qubits 1,
    unexectued := List.replicate dev.num_qubits [],
    wire_to_v := [], v_to_phy := [], phy_to_v := [],
    values := [], mapped := [], published := [] }

/-- The method `jit_router::reset`. -/
def reset (s : jit_router) : jit_router :=
  { s with wire_to_v := [], phy_to_v := [], phy_decay := s.phy_decay.map (fun _ => 1) }

/-- The loop of `new_mapping` that fills `phy_to_v_`: `vs` is the part of `v_to_phy_` from
index `i` on. -/
def new_mapping_fill : List (Option Nat) → Nat → List (Option Nat) →
    Except Err (List (Option Nat))
  | [], _, p2v => .ok p2v
  | none :: vs, i, p2v => new_mapping_fill vs (i + 1) p2v
  | some p :: vs, i, p2v =>
    match set_at p2v p (some i) with
    | .ok p2v1 => new_mapping_fill vs (i + 1) p2v1
    | .error e => .error e

/-- The method `jit_router::new_mapping`. -/
def new_mapping (dev : device) (net : Network) (placement : List (Option Nat))
    (s : jit_router) : Except Err jit_router :=
  match new_mapping_fill placement 0 (resize s.phy_to_v dev.num_qubits none) with
  | .ok p2v =>
    .ok { s with wire_to_v := net.wire_v, v_to_phy := placement, published := placement,
                 phy_to_v := p2v }
  | .error e => .error e

/-- The method `jit_router::wire_to_phy`. -/
def wire_to_phy (s : jit_router) (w0 : wire_id) : Except Err (Option Nat) :=
  match at_ s.wire_to_v w0.uid with
  | .ok v => at_ s.v_to_phy v
  | .error e => .error e

/-- The loop of `jit_add`: one `create_op(*g, v_to_phy_.at(v))` per buffered gate. -/
def jit_add_loop (v_to_phy : List (Option Nat)) (v : Nat) :
    List gate_ref → List mapped_op → Except Err (List mapped_op)
  | [], mapped => .ok mapped
  | g :: gs, mapped =>
    match at_ v_to_phy v with
    | .ok (some phy) => jit_add_loop v_to_phy v gs (create_op1 mapped g phy)
    | .ok none => .error .out_of_range
    | .error e => .error e

/-- The method `jit_router::jit_add`. -/
def jit_add (v : Nat) (s : jit_router) : Except Err jit_router :=
  if v < s.unexectued.length then
    match jit_add_loop s.v_to_phy v (s.unexectued.getD v []) s.mapped with
    | .ok mapped => .ok { s with mapped := mapped, unexectued := s.unexectued.set v [] }
    | .error e => .error e
  else .error .assertion

/-- The method `jit_router::add_op` (one-qubit operations). -/
def add_op (g : gate_ref) (w0 : wire_id) (s : jit_router) : Except Err (Bool × jit_router) :=
  match wire_to_phy s w0 with
  | .ok none =>
    match at_ s.wire_to_v w0.uid with
    | .ok v =>
      if v < s.unexectued.length then
        .ok (true, { s with unexectued := s.unexectued.set v (s.unexectued.getD v [] ++ [g]) })
      else .error .out_of_range
    | .error e => .error e
  | .ok (some phy0) => .ok (true, { s with mapped := create_op1 s.mapped g phy0 })
  | .error e => .error e

/-- The method `jit_router::add_swap`. -/
def add_swap (dev : device) (phy0 phy1 : Nat) (s : jit_router) : Except Err jit_router :=
  if dev.are_connected phy0 phy1 then
    match at_ s.phy_to_v phy0, at_ s.phy_to_v phy1 with
    | .ok v0, .ok v1 =>
      match (match v0 with
             | some a => set_at s.v_to_phy a (some phy1)
             | none => .ok s.v_to_phy) with
      | .ok v2p1 =>
        match (match v1 with
               | some b => set_at v2p1 b (some phy0)
               | none => .ok v2p1) with
        | .ok v2p2 =>
          .ok { s with v_to_phy := v2p2,
                       phy_to_v := (s.phy_to_v.set phy0 v1).set phy1 v0,
                       mapped := (create_op2 dev s.mapped .swap ⟨phy0, false⟩ phy1).1 }
        | .error e => .error e
      | .error e => .error e
    | .error e, _ => .error e
    | _, .error e => .error e
  else .error .assertion

/-- The method `jit_router::find_free_phy`, scanning the part `p2v` of `phy_to_v_` that
starts at index `i`. -/
def find_free_phy_from : List (Option Nat) → Nat → List Nat
  | [], _ => []
  | none :: rest, i => i :: find_free_phy_from rest (i + 1)
  | some _ :: rest, i => find_free_phy_from rest (i + 1)

/-- The method `jit_router::find_free_phy`. -/
def find_free_phy (s : jit_router) : List Nat :=
  find_free_phy_from s.phy_to_v 0

/-- The inner loop of the scan of `place_two_v`: `i_phy` against every later free qubit.
The accumulator is `(min_dist, phy0, phy1)`. -/
def place_two_inner (dev : device) (i_phy : Nat) :
    List Nat → Nat × Option Nat × Option Nat → Nat × Option Nat × Option Nat
  | [], acc => acc
  | j_phy :: js, acc =>
    if acc.1 < dev.distance i_phy j_phy then place_two_inner dev i_phy js acc
    else place_two_inner dev i_phy js (dev.distance i_phy j_phy, some i_phy, some j_phy)

/-- The outer loop of the scan of `place_two_v` over the pairs `i < j` of free qubits. -/
def place_two_scan (dev : device) :
    List Nat → Nat × Option Nat × Option Nat → Nat × Option Nat × Option Nat
  | [], acc => acc
  | i_phy :: rest, acc => place_two_scan dev rest (place_two_inner dev i_phy rest acc)

/-- The choice of `(phy0, phy1)` made by `place_two_v` from the free list. -/
def place_two_choice (dev : device) (free_phy : List Nat) (phy0 phy1 : Option Nat) :
    Option Nat × Option Nat :=
  match free_phy with
  | [a, b] => (some a, some b)
  | _ => (place_two_scan dev free_phy (2 ^ 32 - 1, phy0, phy1)).2

/-- The method `jit_router::place_two_v`. -/
def place_two_v (dev : device) (v0 v1 : Nat) (s : jit_router) : Except Err jit_router :=
  match at_ s.v_to_phy v0, at_ s.v_to_phy v1 with
  | .ok phy0, .ok phy1 =>
    if 2 ≤ (find_free_phy s).length then
      let c := place_two_choice dev (find_free_phy s) phy0 phy1
      match set_at s.v_to_phy v0 c.1 with
      | .ok v2p1 =>
        match set_at v2p1 v1 c.2 with
        | .ok v2p2 =>
          match set_at_id s.phy_to_v c.1 (some v0) with
          | .ok p2v1 =>
            match set_at_id p2v1 c.2 (some v1) with
            | .ok p2v2 =>
              match jit_add v0 { s with v_to_phy := v2p2, phy_to_v := p2v2 } with
              | .ok s1 => jit_add v1 s1
              | .error e => .error e
            | .error e => .error e
          | .error e => .error e
        | .error e => .error e
      | .error e => .error e
    else .error .assertion
  | .error e, _ => .error e
  | _, .error e => .error e

/-- The loop of `place_one_v` over `free_phy.at(1)`, ...: the accumulator is
`(min_dist, phy0)`. -/
def place_one_scan (dev : device) (phy1 : Nat) : List Nat → Nat × Nat → Nat × Nat
  | [], acc => acc
  | f :: fs, acc =>
    if acc.1 > dev.distance phy1 f then place_one_scan dev phy1 fs (dev.distance phy1 f, f)
    else place_one_scan dev phy1 fs acc

/-- The method `jit_router::place_one_v`. After the normalising exchange `v0` is the
virtual qubit that receives the assignment and `phy1` is where its partner sits; a partner
that is itself unplaced has no distance to anything (`Err.out_of_range`). -/
def place_one_v (dev : device) (v0 v1 : Nat) (s : jit_router) : Except Err jit_router :=
  match at_ s.v_to_phy v0, at_ s.v_to_phy v1 with
  | .ok phy0, .ok phy1 =>
    match find_free_phy s with
    | [] => .error .assertion
    | f0 :: fs =>
      let v0n := if phy1 = none then v1 else v0
      let phy1n := if phy1 = none then phy0 else phy1
      match phy1n with
      | none => .error .out_of_range
      | some p1 =>
        let c := (place_one_scan dev p1 fs (dev.distance p1 f0, f0)).2
        match set_at s.v_to_phy v0n (some c) with
        | .ok v2p =>
          match set_at s.phy_to_v c (some v0n) with
          | .ok p2v => jit_add v0n { s with v_to_phy := v2p, phy_to_v := p2v }
          | .error e => .error e
        | .error e => .error e
  | .error e, _ => .error e
  | _, .error e => .error e

/-- The placement step at the head of `try_add_op`: JIT-place whichever operand is
unplaced, then read both physical qubits (again). -/
def try_add_op_place (dev : device) (w0 w1 : wire_id) (s : jit_router) :
    Except Err (jit_router × Option Nat × Option Nat) :=
  match wire_to_phy s w0, wire_to_phy s w1 with
  | .ok phy0, .ok phy1 =>
    if phy0 = none ∨ phy1 = none then
      match at_ s.wire_to_v w0.uid, at_ s.wire_to_v w1.uid with
      | .ok v0, .ok v1 =>
        match (if phy0 = none ∧ phy1 = none then place_two_v dev v0 v1 s
               else place_one_v dev v0 v1 s) with
        | .ok s1 =>
          match wire_to_phy s1 w0, wire_to_phy s1 w1 with
          | .ok q0, .ok q1 => .ok (s1, q0, q1)
          | .error e, _ => .error e
          | _, .error e => .error e
        | .error e => .error e
      | .error e, _ => .error e
      | _, .error e => .error e
    else .ok (s, phy0, phy1)
  | .error e, _ => .error e
  | _, .error e => .error e

/-- The method `jit_router::try_add_op` (two-qubit operations). Both operands are placed
once the placement step has returned; a still invalid operand has no device index
(`Err.out_of_range`). -/
def try_add_op (dev : device) (g : gate_ref) (w0 w1 : wire_id) (s : jit_router) :
    Except Err (Bool × jit_router) :=
  match try_add_op_place dev w0 w1 s with
  | .ok (s1, some phy0, some phy1) =>
    if dev.are_connected phy0 phy1 then
      let r := create_op2 dev s1.mapped g ⟨phy0, w0.is_complemented⟩ phy1
      .ok (r.2, { s1 with mapped := r.1 })
    else .ok (false, s1)
  | .ok _ => .error .out_of_range
  | .error e => .error e

/-- The `foreach_child` callback of `try_add_front_layer`, run over the children `cs` of
an executed node; the accumulator is `(values, new_front_layer)`. -/
def advance_children (net : Network) :
    List Nat → List Nat × List Nat → Except Err (List Nat × List Nat)
  | [], acc => .ok acc
  | child_id :: cs, acc =>
    match at_ net.nodes child_id with
    | .ok child =>
      if child.is_meta then advance_children net cs acc
      else
        let r := incr_value acc.1 child_id
        if r.2 = child.num_wires then advance_children net cs (r.1, acc.2 ++ [child_id])
        else advance_children net cs (r.1, acc.2)
    | .error e => .error e

/-- One iteration of the loop of `try_add_front_layer`, for the front-layer node `n_id`;
the accumulator is `(executed, new_front_layer, router)`. -/
def try_add_front_layer_step (dev : device) (net : Network)
    (acc : Bool × List Nat × jit_router) (n_id : Nat) :
    Except Err (Bool × List Nat × jit_router) :=
  match at_ net.nodes n_id with
  | .ok op =>
    if op.is_meta then .ok acc
    else
      match (if op.is_one_qubit then add_op (.node n_id) op.target acc.2.2
             else try_add_op dev (.node n_id) op.control op.target acc.2.2) with
      | .ok (true, s1) =>
        match advance_children net (net.children.getD n_id []) (s1.values, acc.2.1) with
        | .ok (values, nfl) => .ok (true, nfl, { s1 with values := values })
        | .error e => .error e
      | .ok (false, s1) =>
        match wire_to_phy s1 op.control, wire_to_phy s1 op.target with
        | .ok c, .ok t =>
          match set_at_id s1.involved_phy c true with
          | .ok inv1 =>
            match set_at_id inv1 t true with
            | .ok inv2 => .ok (acc.1, acc.2.1 ++ [n_id], { s1 with involved_phy := inv2 })
            | .error e => .error e
          | .error e => .error e
        | .error e, _ => .error e
        | _, .error e => .error e
      | .error e => .error e
  | .error e => .error e

/-- The loop of `try_add_front_layer` over the nodes of the front layer. -/
def try_add_front_layer_loop (dev : device) (net : Network) :
    List Nat → Bool × List Nat × jit_router → Except Err (Bool × List Nat × jit_router)
  | [], acc => .ok acc
  | n_id :: ns, acc =>
    match try_add_front_layer_step dev net acc n_id with
    | .ok acc1 => try_add_front_layer_loop dev net ns acc1
    | .error e => .error e

/-- The method `jit_router::try_add_front_layer`. -/
def try_add_front_layer (dev : device) (net : Network) (s : jit_router) :
    Except Err (Bool × jit_router) :=
  match try_add_front_layer_loop dev net s.front_layer (false, [], s) with
  | .ok (executed, nfl, s1) => .ok (executed, { s1 with front_layer := nfl })
  | .error e => .error e

/-- The accumulator of `select_extended_layer`. -/
structure ext_acc where
  values : List Nat
  incremented_nodes : List Nat
  new_tmp_front_layer : List Nat
  extended_layer : List Nat
  deriving Repr

/-- The `foreach_child` callback of `select_extended_layer`, run over the children `cs` of
one node of the working frontier. -/
def extend_children (net : Network) : List Nat → ext_acc → Except Err ext_acc
  | [], acc => .ok acc
  | c_id :: cs, acc =>
    match at_ net.nodes c_id with
    | .ok child =>
      if child.is_meta then extend_children net cs acc
      else
        let r := incr_value acc.values c_id
        let acc1 : ext_acc := { acc with values := r.1,
                                         incremented_nodes := acc.incremented_nodes ++ [c_id] }
        if r.2 = child.num_wires then
          if child.is_two_qubit then
            extend_children net cs
              { acc1 with new_tmp_front_layer := acc1.new_tmp_front_layer ++ [c_id],
                          extended_layer := acc1.extended_layer ++ [c_id] }
          else
            extend_children net cs
              { acc1 with new_tmp_front_layer := acc1.new_tmp_front_layer ++ [c_id] }
        else extend_children net cs acc1
    | .error e => .error e

/-- The `for` loop of `select_extended_layer` over the working frontier; the Boolean of the
result says that the loop was left through `goto undo_increment`. -/
def extend_layer (net : Network) (e_set_size : Nat) :
    List Nat → ext_acc → Except Err (Bool × ext_acc)
  | [], acc => .ok (false, acc)
  | n_id :: ns, acc =>
    match at_ net.nodes n_id with
    | .ok _ =>
      match extend_children net (net.children.getD n_id []) acc with
      | .ok acc1 =>
        if acc1.extended_layer.length ≥ e_set_size then .ok (true, acc1)
        else extend_layer net e_set_size ns acc1
      | .error e => .error e
    | .error e => .error e

/-- The `while` loop of `select_extended_layer`; `acc.new_tmp_front_layer` is unused on
entry of an iteration and `tmp` is the working frontier. -/
def extend_loop (net : Network) (e_set_size : Nat) :
    Nat → List Nat → ext_acc → Except Err ext_acc
  | 0, tmp, acc => if tmp.isEmpty then .ok acc else .error .out_of_fuel
  | fuel + 1, tmp, acc =>
    if tmp.isEmpty then .ok acc
    else
      match extend_layer net e_set_size tmp { acc with new_tmp_front_layer := [] } with
      | .ok (true, acc1) => .ok acc1
      | .ok (false, acc1) => extend_loop net e_set_size fuel acc1.new_tmp_front_layer acc1
      | .error e => .error e

/-- The undo loop of `select_extended_layer`. -/
def undo_increment (net : Network) : List Nat → List Nat → Except Err (List Nat)
  | [], values => .ok values
  | n_id :: ns, values =>
    match at_ net.nodes n_id with
    | .ok _ =>
      match decr_value values n_id with
      | .ok values1 => undo_increment net ns values1
      | .error e => .error e
    | .error e => .error e

/-- The method `jit_router::select_extended_layer`. A node joins the working frontier only
at the increment that makes its counter equal to its arity, so the `while` loop is given
one round per node and one more. -/
def select_extended_layer (net : Network) (cfg : jit_config) (s : jit_router) :
    Except Err jit_router :=
  match extend_loop net cfg.e_set_size (net.nodes.length + 1) s.front_layer
      { values := s.values, incremented_nodes := [], new_tmp_front_layer := [],
        extended_layer := [] } with
  | .ok acc =>
    match undo_increment net acc.incremented_nodes acc.values with
    | .ok values => .ok { s with extended_layer := acc.extended_layer, values := values }
    | .error e => .error e
  | .error e => .error e

/-- The method `jit_router::compute_cost`; `distance - 1` is unsigned 32-bit. -/
def compute_cost (dev : device) (net : Network) (wire_to_v : List Nat)
    (tmp_v_to_phy : List (Option Nat)) : List Nat → ℚ → Except Err ℚ
  | [], cost => .ok cost
  | n_id :: ns, cost =>
    match at_ net.nodes n_id with
    | .ok op =>
      match at_ wire_to_v op.control.uid, at_ wire_to_v op.target.uid with
      | .ok vc, .ok vt =>
        match at_ tmp_v_to_phy vc, at_ tmp_v_to_phy vt with
        | .ok (some phy0), .ok (some phy1) =>
          compute_cost dev net wire_to_v tmp_v_to_phy ns
            (cost + (((dev.distance phy0 phy1 + (2 ^ 32 - 1)) % 2 ^ 32 : Nat) : ℚ))
        | .ok _, .ok _ => compute_cost dev net wire_to_v tmp_v_to_phy ns cost
        | .error e, _ => .error e
        | _, .error e => .error e
      | .error e, _ => .error e
      | _, .error e => .error e
    | .error e => .error e

/-- The candidate list of `find_swap`: the device edges with an involved end. -/
def swap_candidates (involved_phy : List Bool) :
    List (Nat × Nat) → Except Err (List (Nat × Nat))
  | [] => .ok []
  | (u, v) :: es =>
    match at_ involved_phy u with
    | .ok iu =>
      match (if iu then .ok true else at_ involved_phy v) with
      | .ok b =>
        match swap_candidates involved_phy es with
        | .ok rest => .ok (if b then (u, v) :: rest else rest)
        | .error e => .error e
      | .error e => .error e
    | .error e => .error e

/-- The hypothetical placement `tmp_v_to_phy` that `find_swap` builds for a candidate. -/
def tmp_v_to_phy (s : jit_router) (phy0 phy1 : Nat) : Except Err (List (Option Nat)) :=
  match at_ s.phy_to_v phy0, at_ s.phy_to_v phy1 with
  | .ok v0, .ok v1 =>
    match (match v0 with
           | some a => set_at s.v_to_phy a (some phy1)
           | none => .ok s.v_to_phy) with
    | .ok t1 =>
      match v1 with
      | some b => set_at t1 b (some phy0)
      | none => .ok t1
    | .error e => .error e
  | .error e, _ => .error e
  | _, .error e => .error e

/-- The score `find_swap` gives to the candidate `(phy0, phy1)`. -/
def swap_score (dev : device) (cfg : jit_config) (net : Network) (s : jit_router)
    (phy0 phy1 : Nat) : Except Err ℚ :=
  match tmp_v_to_phy s phy0 phy1 with
  | .ok tmp =>
    match compute_cost dev net s.wire_to_v tmp s.front_layer 0 with
    | .ok swap_cost =>
      match at_ s.phy_decay phy0, at_ s.phy_decay phy1 with
      | .ok d0, .ok d1 =>
        if s.extended_layer.isEmpty then .ok (max d0 d1 * swap_cost)
        else
          match compute_cost dev net s.wire_to_v tmp s.extended_layer 0 with
          | .ok e_cost =>
            .ok (max d0 d1 * (swap_cost / (s.front_layer.length : ℚ)
                  + cfg.e_weight * (e_cost / (s.extended_layer.length : ℚ))))
          | .error e => .error e
      | .error e, _ => .error e
      | _, .error e => .error e
    | .error e => .error e
  | .error e => .error e

/-- The cost vector of `find_swap`: one score per candidate, in candidate order. -/
def swap_costs (dev : device) (cfg : jit_config) (net : Network) (s : jit_router) :
    List (Nat × Nat) → Except Err (List ℚ)
  | [] => .ok []
  | (phy0, phy1) :: cs =>
    match swap_score dev cfg net s phy0 phy1 with
    | .ok c =>
      match swap_costs dev cfg net s cs with
      | .ok rest => .ok (c :: rest)
      | .error e => .error e
    | .error e => .error e

/-- The argmin loop of `find_swap`: `i` runs over the indices of `cs`, the part of `cost`
not yet seen, and `min` is the index of the best entry so far. -/
def find_min (cost : List ℚ) : List ℚ → Nat → Nat → Nat
  | [], _, min => min
  | c :: cs, i, min =>
    if c < cost.getD min 0 then find_min cost cs (i + 1) i
    else find_min cost cs (i + 1) min

/-- The method `jit_router::find_swap`. -/
def find_swap (dev : device) (cfg : jit_config) (net : Network) (s : jit_router) :
    Except Err ((Nat × Nat) × jit_router) :=
  match swap_candidates s.involved_phy dev.edges with
  | .ok cands =>
    match (if cfg.use_look_ahead then select_extended_layer net cfg s else .ok s) with
    | .ok s1 =>
      match swap_costs dev cfg net s1 cands with
      | .ok cost =>
        match at_ cands (find_min cost cost.tail 1 0) with
        | .ok c => .ok (c, s1)
        | .error e => .error e
      | .error e => .error e
    | .error e => .error e
  | .error e => .error e

/-- The decay update of the driver loop after the `k`-th SWAP search. -/
def update_decay (cfg : jit_config) (num_swap_searches phy0 phy1 : Nat) (phy_decay : List ℚ) :
    Except Err (List ℚ) :=
  if cfg.num_rounds_decay_reset = 0 then .error .div_by_zero
  else if num_swap_searches % cfg.num_rounds_decay_reset = 0 then
    .ok (phy_decay.map (fun _ => 1))
  else
    match at_ phy_decay phy0 with
    | .ok d0 =>
      match at_ (phy_decay.set phy0 (d0 + cfg.decay_delta)) phy1 with
      | .ok d1 => .ok ((phy_decay.set phy0 (d0 + cfg.decay_delta)).set phy1 (d1 + cfg.decay_delta))
      | .error e => .error e
    | .error e => .error e

/-- The SWAP branch of the driver loop: search, decay update, `add_swap`, and the clearing
of `involved_phy_`. The argument is the already incremented `num_swap_searches`. -/
def swap_round (dev : device) (cfg : jit_config) (net : Network) (num_swap_searches : Nat)
    (s : jit_router) : Except Err jit_router :=
  match find_swap dev cfg net s with
  | .ok ((phy0, phy1), s1) =>
    match update_decay cfg num_swap_searches phy0 phy1 s1.phy_decay with
    | .ok decay =>
      match add_swap dev phy0 phy1 { s1 with phy_decay := decay } with
      | .ok s2 => .ok { s2 with involved_phy := s2.involved_phy.map (fun _ => false) }
      | .error e => .error e
    | .error e => .error e
  | .error e => .error e

/-- The driver loop `while (!front_layer_.empty())` of `route`. -/
def route_loop (dev : device) (cfg : jit_config) (net : Network) :
    Nat → Nat → jit_router → Except Err jit_router
  | 0, _, s => if s.front_layer.isEmpty then .ok s else .error .out_of_fuel
  | fuel + 1, num_swap_searches, s =>
    if s.front_layer.isEmpty then .ok s
    else
      match try_add_front_layer dev net s with
      | .ok (true, s1) => route_loop dev cfg net fuel num_swap_searches s1
      | .ok (false, s1) =>
        match swap_round dev cfg net ((num_swap_searches + 1) % 2 ^ 32) s1 with
        | .ok s2 => route_loop dev cfg net fuel ((num_swap_searches + 1) % 2 ^ 32) s2
        | .error e => .error e
      | .error e => .error e

/-- The `foreach_output` callback of `route` that seeds the front layer; the accumulator is
`(values, front_layer)`. -/
def seed_front_layer (net : Network) :
    List Nat → List Nat × List Nat → Except Err (List Nat × List Nat)
  | [], acc => .ok acc
  | id :: ids, acc =>
    match at_ net.nodes id with
    | .ok node =>
      if node.is_meta then seed_front_layer net ids acc
      else
        let r := incr_value acc.1 id
        if r.2 = node.num_wires then seed_front_layer net ids (r.1, acc.2 ++ [id])
        else seed_front_layer net ids (r.1, acc.2)
    | .error e => .error e

/-- The finalisation loop of `route` over the part `vs` of `v_to_phy_` from index `i` on;
`free_phy` is kept reversed, so its back is the head of the list. -/
def finalize_loop : Nat → Nat → List Nat → jit_router → Except Err jit_router
  | 0, _, _, s => .ok s
  | n + 1, i, free_phy, s =>
    match at_ s.v_to_phy i with
    | .ok none =>
      match free_phy with
      | [] => .error .assertion
      | phy :: rest =>
        match set_at s.v_to_phy i (some phy) with
        | .ok v2p =>
          match jit_add i { s with v_to_phy := v2p } with
          | .ok s1 => finalize_loop n (i + 1) rest s1
          | .error e => .error e
        | .error e => .error e
    | .ok (some _) => finalize_loop n (i + 1) free_phy s
    | .error e => .error e

/-- The entry of `route`, up to the driver loop: the size assertion, `reset`, the fresh
mapped DAG, `new_mapping`, `clear_values` and the seeding of the front layer. -/
def route_entry (dev : device) (net : Network) (placement : List (Option Nat))
    (s : jit_router) : Except Err jit_router :=
  if placement.length = dev.num_qubits then
    match new_mapping dev net placement { reset s with mapped := [], published := [] } with
    | .ok s1 =>
      match seed_front_layer net net.outputs (clear_values net, s1.front_layer) with
      | .ok (values, fl) => .ok { s1 with values := values, front_layer := fl }
      | .error e => .error e
    | .error e => .error e
  else .error .assertion

/-- The method `jit_router::route`. The result holds the returned mapped DAG (`mapped`,
`published`) and the state in which the call leaves the router and the input network. -/
def route (dev : device) (cfg : jit_config) (net : Network) (placement : List (Option Nat))
    (finalize : Bool) (fuel : Nat) (s : jit_router) : Except Err jit_router :=
  match route_entry dev net placement s with
  | .ok s1 =>
    match route_loop dev cfg net fuel 0 s1 with
    | .ok s2 =>
      match (if finalize then
               finalize_loop s2.v_to_phy.length 0 (find_free_phy s2).reverse s2
             else .ok s2) with
      | .ok s3 => .ok { s3 with published := s3.v_to_phy }
      | .error e => .error e
    | .error e => .error e
  | .error e => .error e

/-! ## Specification-side definitions -/

/-- The transposition of the physical qubits `p0` and `p1`, applied to a physical qubit. -/
def swap_phy (p0 p1 p : Nat) : Nat :=
  if p = p0 then p1 else if p = p1 then p0 else p

/-- Applying the emitted SWAPs, in emission order, to a physical qubit. -/
def apply_swaps_phy : List mapped_op → Nat → Nat
  | [], p => p
  | .two .swap p0 p1 :: ops, p => apply_swaps_phy ops (swap_phy p0.uid p1 p)
  | _ :: ops, p => apply_swaps_phy ops p

/-- Applying the emitted SWAPs, in emission order, to a placement. -/
def apply_swaps (ops : List mapped_op) (placement : List (Option Nat)) : List (Option Nat) :=
  placement.map (Option.map (apply_swaps_phy ops))

/-! ## Concrete devices and circuits -/

/-- The line device 0 - 1 - 2. -/
def line3 : device :=
  { num_qubits := 3, edges := [(0, 1), (1, 2)],
    are_connected := fun a b => decide ((a, b) ∈ [(0, 1), (1, 0), (1, 2), (2, 1)]),
    distance := fun a b =>
      if a = b then 0 else if (a = 0 ∧ b = 2) ∨ (a = 2 ∧ b = 0) then 2 else 1 }

/-- The circuit `H(q1); CX(q0, q1)` on three wires: node 0 is the `H`, node 1 the `CX`. -/
def circuit_h_cx : Network :=
  { nodes := [⟨1, false, 1, ⟨1, false⟩, ⟨1, false⟩⟩, ⟨2, false, 2, ⟨0, false⟩, ⟨1, false⟩⟩],
    outputs := [1, 0], children := [[1], []], wire_v := [0, 1, 2] }

/-- The circuit `CX(q0, q2)` on three wires. -/
def circuit_cx02 : Network :=
  { nodes := [⟨2, false, 2, ⟨0, false⟩, ⟨2, false⟩⟩],
    outputs := [0, 0], children := [[]], wire_v := [0, 1, 2] }

/-- The router state in which the driver loop searches its first SWAP for `circuit_cx02`
on `line3` from the placement `[0, 1, 2]`. -/
def stuck_cx02 : jit_router :=
  { front_layer := [0], extended_layer := [], involved_phy := [true, false, true],
    phy_decay := [1, 1, 1], unexectued := [[], [], []], wire_to_v := [0, 1, 2],
    v_to_phy := [some 0, some 1, some 2], phy_to_v := [some 0, some 1, some 2],
    values := [2], mapped := [], published := [some 0, some 1, some 2] }

/-- A configuration with `num_rounds_decay_reset = 0`. -/
def config_zero_reset : jit_config := { num_rounds_decay_reset := 0 }

/-- A device with a single qubit. -/
def single_qubit : device :=
  { num_qubits := 1, edges := [], are_connected := fun _ _ => false, distance := fun _ _ => 0 }

/-- The circuit `H(q0)` on one wire. -/
def circuit_h : Network :=
  { nodes := [⟨1, false, 1, ⟨0, false⟩, ⟨0, false⟩⟩],
    outputs := [0], children := [[]], wire_v := [0] }

/-- The circuit without gates on one wire. -/
def circuit_empty : Network :=
  { nodes := [], outputs := [], children := [], wire_v := [0] }

/-- The ring device 0 - 2 - 1 - 3 - 0. -/
def ring4 : device :=
  { num_qubits := 4, edges := [(0, 2), (2, 1), (1, 3), (3, 0)],
    are_connected := fun a b =>
      decide ((a, b) ∈ [(0, 2), (2, 0), (2, 1), (1, 2), (1, 3), (3, 1), (3, 0), (0, 3)]),
    distance := fun a b =>
      if a = b then 0
      else if (a, b) ∈ [(0, 1), (1, 0), (2, 3), (3, 2)] then 2 else 1 }

/-- The circuit `CX(q0, q1); CX(q2, q3); CX(q0, q2); CX(q1, q3)` on four wires. -/
def circuit_square : Network :=
  { nodes := [⟨2, false, 2, ⟨0, false⟩, ⟨1, false⟩⟩, ⟨2, false, 2, ⟨2, false⟩, ⟨3, false⟩⟩,
              ⟨2, false, 2, ⟨0, false⟩, ⟨2, false⟩⟩, ⟨2, false, 2, ⟨1, false⟩, ⟨3, false⟩⟩],
    outputs := [0, 0, 1, 1], children := [[2, 3], [2, 3], [], []], wire_v := [0, 1, 2, 3] }

/-! ## Auxiliary definitions -/

/-- The operations `jit_add` appends for the buffered gates `gs` on the physical qubit `phy`. -/
def flushed (gs : List gate_ref) (phy : Nat) : List mapped_op :=
  gs.map (fun g => mapped_op.one g phy)

/-- The assignment `xs.at(i) = x` that the code guards with `i != wire::invalid_id`. -/
def set_valid {α : Type} (xs : List α) (i : Option Nat) (x : α) : List α :=
  match i with
  | some a => xs.set a x
  | none => xs

/-- The effect of JIT-placing the virtual qubit `v` on the physical qubit `c`: both maps are
updated and the buffer of `v` is flushed onto `c`. -/
def placed (v c : Nat) (s : jit_router) : jit_router :=
  { s with v_to_phy := s.v_to_phy.set v (some c), phy_to_v := s.phy_to_v.set c (some v),
           mapped := s.mapped ++ flushed (s.unexectued.getD v []) c,
           unexectued := s.unexectued.set v [] }

/-- An operation of the mapped DAG is admissible for the device: a two-qubit operation acts
on a connected pair. -/
def conn_ok (dev : device) : mapped_op → Prop
  | .one _ _ => True
  | .two _ phy0 phy1 => dev.are_connected phy0.uid phy1 = true

/-- Every operation of the mapped DAG under construction is admissible for the device. -/
def all_conn (dev : device) (s : jit_router) : Prop :=
  ∀ op ∈ s.mapped, conn_ok dev op

/-- A property of the router state that the driver loop keeps: it is kept by the three
emitting mutators, as the front-layer engine and the driver call them, and it does not
depend on the layers, the involved set, the decay vector or the discharge counters. -/
structure loop_invariant (dev : device) (net : Network) (I : jit_router → Prop) : Prop where
  add_op : ∀ (n : Nat) (op : op_type) (s : jit_router) (r : Bool × jit_router),
    net.nodes[n]? = some op → op.is_meta = false → op.is_one_qubit = true →
    add_op (.node n) op.target s = .ok r → I s → I r.2
  try_add_op : ∀ (n : Nat) (op : op_type) (s : jit_router) (r : Bool × jit_router),
    net.nodes[n]? = some op → op.is_meta = false → op.is_one_qubit = false →
    try_add_op dev (.node n) op.control op.target s = .ok r → I s → I r.2
  add_swap : ∀ (phy0 phy1 : Nat) (s s1 : jit_router),
    add_swap dev phy0 phy1 s = .ok s1 → I s → I s1
  frame : ∀ (s : jit_router) (fl el : List Nat) (inv : List Bool) (dec : List ℚ)
    (vals : List Nat), I s →
    I { s with front_layer := fl, extended_layer := el, involved_phy := inv,
               phy_decay := dec, values := vals }

/-- The result of routing `H(q1); CX(q0, q1)` on the line from `[0, unplaced, 1]`. -/
def routed_h_cx : jit_router :=
  { front_layer := [], extended_layer := [], involved_phy := [false, false, false],
    phy_decay := [1001 / 1000, 1001 / 1000, 1], unexectued := [[], [], []],
    wire_to_v := [0, 1, 2], v_to_phy := [some 1, some 2, some 0],
    phy_to_v := [some 2, some 0, some 1], values := [1, 2],
    mapped := [.one (.node 0) 2, .two .swap ⟨0, false⟩ 1, .two (.node 1) ⟨1, false⟩ 2],
    published := [some 1, some 2, some 0] }

/-- The counters after one `incr_value` for every node of `ids`, in order. -/
def incr_all (values : List Nat) (ids : List Nat) : List Nat :=
  ids.foldl (fun v id => (incr_value v id).1) values

/-- The look-ahead accumulator is consistent with the counters `v0` it started from: the
counters are `v0` with one increment per recorded node. -/
def ext_consistent (v0 : List Nat) (acc : ext_acc) : Prop :=
  acc.values = incr_all v0 acc.incremented_nodes

/-- The router state after the first SWAP round for `circuit_cx02` on `line3`. -/
def swapped_cx02 : jit_router :=
  { front_layer := [0], extended_layer := [], involved_phy := [false, false, false],
    phy_decay := [1001 / 1000, 1001 / 1000, 1], unexectued := [[], [], []],
    wire_to_v := [0, 1, 2], v_to_phy := [some 1, some 0, some 2],
    phy_to_v := [some 1, some 0, some 2], values := [2],
    mapped := [.two .swap ⟨0, false⟩ 1], published := [some 0, some 1, some 2] }

/-- The router state in which the driver loop searches its first SWAP for `circuit_square`
on `ring4` from the placement `[0, 1, 2, 3]`. -/
def stuck_square : jit_router :=
  { front_layer := [0, 1], extended_layer := [], involved_phy := [true, true, true, true],
    phy_decay := [1, 1, 1, 1], unexectued := [[], [], [], []], wire_to_v := [0, 1, 2, 3],
    v_to_phy := [some 0, some 1, some 2, some 3], phy_to_v := [some 0, some 1, some 2, some 3],
    values := [2, 2, 0, 0], mapped := [], published := [some 0, some 1, some 2, some 3] }

/-- The state `s1` is the state `s` after a sequence of JIT placements, each of an unplaced
virtual qubit on a free physical qubit. -/
inductive jit_placements : jit_router → jit_router → Prop where
  | refl (s : jit_router) : jit_placements s s
  | step (s s1 : jit_router) (v c : Nat) (hv : s.v_to_phy[v]? = some none)
      (hc : s.phy_to_v[c]? = some none) (hb : v < s.unexectued.length)
      (rest : jit_placements (placed v c s) s1) : jit_placements s s1

/-- Placement coherence for a device of `N` qubits: both maps have `N` entries and
`phy_to_v` is the inverse of `v_to_phy` on the placed virtual qubits. -/
def coherent (N : Nat) (s : jit_router) : Prop :=
  s.v_to_phy.length = N ∧ s.phy_to_v.length = N ∧
  ∀ v p : Nat, s.v_to_phy[v]? = some (some p) ↔ s.phy_to_v[p]? = some (some v)

/-- Every virtual qubit placed by the initial placement sits where the emitted SWAPs,
applied in emission order, take its initial physical qubit. -/
def tracks (placement : List (Option Nat)) (s : jit_router) : Prop :=
  ∀ v p : Nat, placement[v]? = some (some p) →
    s.v_to_phy[v]? = some (some (apply_swaps_phy s.mapped p))

/-- The operands of every gate that is not a one-qubit gate are two different virtual
qubits. -/
def distinct_operands (net : Network) : Prop :=
  ∀ (n : Nat) (op : op_type), net.nodes[n]? = some op → op.is_meta = false →
    op.is_one_qubit = false →
    ∀ v0 v1 : Nat, net.wire_v[op.control.uid]? = some v0 →
      net.wire_v[op.target.uid]? = some v1 → v0 ≠ v1

/-- The placement state of a routing call in progress on a device of `N` qubits, started
from `placement`: the wire map of the input is installed, the two placement maps are
coherent, there is one buffer per virtual qubit, and the initially placed virtual qubits
follow the emitted SWAPs. -/
def routing_state (N : Nat) (net : Network) (placement : List (Option Nat))
    (s : jit_router) : Prop :=
  s.wire_to_v = net.wire_v ∧ coherent N s ∧ s.unexectued.length = N ∧ tracks placement s

/-- No physical qubit is given to two virtual qubits. -/
def placement_injective (placement : List (Option Nat)) : Prop :=
  ∀ v v1 p : Nat, placement[v]? = some (some p) → placement[v1]? = some (some p) → v = v1

/-- The finalisation of a placement: the `k`-th unplaced entry, in ascending index order,
receives the `k`-th element of `free_phy`. -/
def assign_free : List (Option Nat) → List Nat → List (Option Nat)
  | [], _ => []
  | some p :: vs, free_phy => some p :: assign_free vs free_phy
  | none :: vs, f :: free_phy => some f :: assign_free vs free_phy
  | none :: vs, [] => none :: assign_free vs []

/-- The effect of one finalisation step: the unplaced virtual qubit `v` is given the
physical qubit `c` (only `v_to_phy` is updated) and its buffer is flushed onto `c`. -/
def assigned (v c : Nat) (s : jit_router) : jit_router :=
  { s with v_to_phy := s.v_to_phy.set v (some c),
           mapped := s.mapped ++ flushed (s.unexectued.getD v []) c,
           unexectued := s.unexectued.set v [] }

/-- The state `s1` is the state `s` after a sequence of finalisation steps, each on an
unplaced virtual qubit. -/
inductive finalisations : jit_router → jit_router → Prop where
  | refl (s : jit_router) : finalisations s s
  | step (s s1 : jit_router) (v c : Nat) (hv : s.v_to_phy[v]? = some none)
      (hb : v < s.unexectued.length) (rest : finalisations (assigned v c s) s1) :
      finalisations s s1

/-- The circuit `H(q1)` on three wires. -/
def circuit_h1 : Network :=
  { nodes := [⟨1, false, 1, ⟨1, false⟩, ⟨1, false⟩⟩],
    outputs := [0], children := [[]], wire_v := [0, 1, 2] }

/-- The router state at the entry of the driver loop for `circuit_h1` on `line3` from the
placement `[1, unplaced, unplaced]`. -/
def entered_h1 : jit_router :=
  { front_layer := [0], extended_layer := [], involved_phy := [false, false, false],
    phy_decay := [1, 1, 1], unexectued := [[], [], []], wire_to_v := [0, 1, 2],
    v_to_phy := [some 1, none, none], phy_to_v := [none, some 0, none], values := [1],
    mapped := [], published := [some 1, none, none] }

/-- The router state after the driver loop for `circuit_h1`: the `H` is buffered. -/
def looped_h1 : jit_router :=
  { entered_h1 with front_layer := [], unexectued := [[], [.node 0], []] }

/-- The node `n` of the input holds a gate: it exists and is not a meta-operation. -/
def is_gate (net : Network) (n : Nat) : Prop :=
  ∃ op, net.nodes[n]? = some op ∧ op.is_meta = false

/-- The number of times `foreach_child` hands the node `n` to the callback for node `p`. -/
def edge_count (net : Network) (p n : Nat) : Nat :=
  (net.children.getD p []).count n

/-- The number of discharges the node `n` receives from the nodes `ps`. -/
def discharges (net : Network) (ps : List Nat) (n : Nat) : Nat :=
  (ps.map (fun p => edge_count net p n)).sum

/-- The nodes of the input that hold a gate, in ascending order. -/
def gates (net : Network) : List Nat :=
  (List.range net.nodes.length).filter
    (fun n => match net.nodes[n]? with
      | some op => !op.is_meta
      | none => false)

/-- The input node whose gate a mapped operation was created from, if any. -/
def node_of : mapped_op → Option Nat
  | .one (.node n) _ => some n
  | .two (.node n) _ _ => some n
  | _ => none

/-- The input node a gate reference points to, if any. -/
def ref_node : gate_ref → Option Nat
  | .node n => some n
  | .swap => none

/-- The input nodes whose gates have been emitted into the mapped DAG, in emission order. -/
def emitted (s : jit_router) : List Nat :=
  s.mapped.filterMap node_of

/-- The input nodes whose gates wait in the buffer of the virtual qubit `v`. -/
def buffer_nodes (s : jit_router) (v : Nat) : List Nat :=
  (s.unexectued.getD v []).filterMap ref_node

/-- The input nodes whose gates wait in some buffer. -/
def buffered (s : jit_router) : List Nat :=
  s.unexectued.flatten.filterMap ref_node

/-- The input nodes that the front-layer engine has executed: emitted or buffered. -/
def executed (s : jit_router) : List Nat :=
  emitted s ++ buffered s

/-- The SWAPs that the router has inserted into the mapped DAG. -/
def inserted_swaps (s : jit_router) : List mapped_op :=
  s.mapped.filter (fun op => match op with
    | .two .swap _ _ => true
    | _ => false)

/-- Emission order: every node of the list comes after every gate that has it as a child,
the nodes of `seen` counting as earlier. -/
def order_ok (net : Network) : List Nat → List Nat → Prop
  | _, [] => True
  | seen, b :: l =>
    (∀ a, is_gate net a → b ∈ net.children.getD a [] → a ∈ seen) ∧ order_ok net (b :: seen) l

/-- The input is a well-formed circuit DAG of one- and two-qubit gates: the arity of a gate
is positive and equals the number of discharges it receives (from `foreach_output` and
from the gates that have it as a child), and a child of a one-qubit gate acts on the
virtual qubit of that gate. -/
structure well_formed (net : Network) : Prop where
  arity_pos : ∀ (n : Nat) (op : op_type), net.nodes[n]? = some op → op.is_meta = false →
    1 ≤ op.num_wires
  arity_eq : ∀ (n : Nat) (op : op_type), net.nodes[n]? = some op → op.is_meta = false →
    op.num_wires = net.outputs.count n + discharges net (gates net) n
  same_wire : ∀ (a b : Nat) (opa opb : op_type), net.nodes[a]? = some opa →
    opa.is_meta = false → opa.is_one_qubit = true → b ∈ net.children.getD a [] →
    net.nodes[b]? = some opb → opb.is_meta = false →
    (opb.is_one_qubit = true → net.wire_v[opb.target.uid]? = net.wire_v[opa.target.uid]?) ∧
    (opb.is_one_qubit = false →
      net.wire_v[opb.control.uid]? = net.wire_v[opa.target.uid]? ∨
      net.wire_v[opb.target.uid]? = net.wire_v[opa.target.uid]?)

/-- The state of the traversal of the input DAG: `pending` are the nodes that have entered
the front layer and are not executed yet, `todo` the children (or outputs) whose discharge
by the node being processed is still to come. -/
structure trav (net : Network) (s : jit_router) (pending todo : List Nat) : Prop where
  wire : s.wire_to_v = net.wire_v
  values_length : s.values.length = net.nodes.length
  nodup : (executed s ++ pending).Nodup
  gate : ∀ n ∈ executed s ++ pending, is_gate net n
  counted : ∀ n, is_gate net n →
    s.values.getD n 0 + todo.count n = net.outputs.count n + discharges net (executed s) n
  entered : ∀ (n : Nat) (op : op_type), net.nodes[n]? = some op → op.is_meta = false →
    (n ∈ executed s ++ pending ↔ op.num_wires ≤ s.values.getD n 0)
  emitted_order : order_ok net [] (emitted s)
  buffer_order : ∀ v, order_ok net (emitted s) (buffer_nodes s v)
  buffer_home : ∀ (v : Nat) (g : gate_ref), g ∈ s.unexectued.getD v [] →
    ∃ (n : Nat) (op : op_type), g = .node n ∧ net.nodes[n]? = some op ∧
      op.is_one_qubit = true ∧ net.wire_v[op.target.uid]? = some v
  buffer_unplaced : ∀ v : Nat, s.unexectued.getD v [] ≠ [] → s.v_to_phy[v]? = some none

/-- The effect of buffering the gate `g` for the unplaced virtual qubit `v`. -/
def queued (v : Nat) (g : gate_ref) (s : jit_router) : jit_router :=
  { s with unexectued := s.unexectued.set v (s.unexectued.getD v [] ++ [g]) }

/-- The effect of appending the operation `op` to the mapped DAG. -/
def emitting (op : mapped_op) (s : jit_router) : jit_router :=
  { s with mapped := s.mapped ++ [op] }

/-- The router is between calls with nothing left over: the front layer is empty and there
is one empty buffer per qubit of the device. -/
def ready (dev : device) (s : jit_router) : Prop :=
  s.front_layer = [] ∧ s.unexectued = List.replicate dev.num_qubits []

/-- The input has no cycle: the nodes can be ranked so that every child of a gate ranks
above it. -/
def acyclic (net : Network) : Prop :=
  ∃ rank : Nat → Nat, ∀ a b : Nat, is_gate net a → b ∈ net.children.getD a [] → rank a < rank b

/-- The mapped DAG holds only operations created from input nodes and inserted SWAPs, and
the buffers hold only references to input nodes. -/
def tidy (s : jit_router) : Prop :=
  (∀ op ∈ s.mapped, (node_of op).isSome = true ∨ ∃ p0 p1, op = mapped_op.two .swap p0 p1) ∧
  (∀ v : Nat, ∀ g ∈ s.unexectued.getD v [], g ≠ gate_ref.swap)

/-- The wire map of the input is installed and the router is tidy. -/
def tidy_state (net : Network) (s : jit_router) : Prop :=
  s.wire_to_v = net.wire_v ∧ tidy s

/-- A circuit without gates on three wires: the nodes are the three input markers. -/
def circuit_wires3 : Network :=
  { nodes := [⟨0, true, 1, ⟨0, false⟩, ⟨0, false⟩⟩, ⟨0, true, 1, ⟨1, false⟩, ⟨1, false⟩⟩,
              ⟨0, true, 1, ⟨2, false⟩, ⟨2, false⟩⟩],
    outputs := [0, 1, 2], children := [[], [], []], wire_v := [0, 1, 2] }

/-- The router has emitted nothing and holds no buffered gate. -/
def idle (s : jit_router) : Prop :=
  s.mapped = [] ∧ ∀ v : Nat, s.unexectued.getD v [] = []

/-- The line device 0 - 1 - 2 - 3 - 4 - 5, its edges enumerated from the middle. -/
def line6 : device :=
  { num_qubits := 6, edges := [(3, 4), (4, 5), (0, 1), (1, 2), (2, 3)],
    are_connected := fun a b => decide (a + 1 = b ∨ b + 1 = a),
    distance := fun a b => (a - b) + (b - a) }

/-- The circuit `CX(q0, q2); CX(q3, q5); CX(q0, q2)` on six wires: node 2 follows node 0 on
both of its wires. -/
def circuit_two_pairs : Network :=
  { nodes := [⟨2, false, 2, ⟨0, false⟩, ⟨2, false⟩⟩, ⟨2, false, 2, ⟨3, false⟩, ⟨5, false⟩⟩,
              ⟨2, false, 2, ⟨0, false⟩, ⟨2, false⟩⟩],
    outputs := [0, 0, 1, 1], children := [[2, 2], [], []], wire_v := [0, 1, 2, 3, 4, 5] }

/-- The router state in which the driver loop searches its first SWAP for
`circuit_two_pairs` on `line6` from the identity placement. -/
def stuck_two_pairs : jit_router :=
  { front_layer := [0, 1], extended_layer := [],
    involved_phy := [true, false, true, true, false, true],
    phy_decay := [1, 1, 1, 1, 1, 1], unexectued := [[], [], [], [], [], []],
    wire_to_v := [0, 1, 2, 3, 4, 5],
    v_to_phy := [some 0, some 1, some 2, some 3, some 4, some 5],
    phy_to_v := [some 0, some 1, some 2, some 3, some 4, some 5],
    values := [2, 2, 0], mapped := [],
    published := [some 0, some 1, some 2, some 3, some 4, some 5] }

/-! ## The netlist (`networks/netlist.hpp`) -/

/-- Modelled from the spec: the enumeration `wire_modes` (`networks/wire_id.hpp` is not part
of the sources); the netlist only passes a mode on to the wire storage. -/
inductive wire_modes where
  | in_
  | out
  | inout
  | ancilla
  deriving DecidableEq, Repr

/-- Modelled from the spec: `wire::storage` (`networks/wire_id.hpp` is not part of the
sources), as far as the netlist uses it: the wires in creation order, each with its name,
whether it is a qubit, and its mode. -/
structure wire_storage where
  wires : List (String × Bool × wire_modes)
  deriving Repr

/-- Modelled from the spec: `wire::storage::num_qubits`. -/
def wire_storage.num_qubits (ws : wire_storage) : Nat :=
  (ws.wires.filter (fun w => w.2.1)).length

/-- Modelled from the spec: `wire::storage::num_cbits`. -/
def wire_storage.num_cbits (ws : wire_storage) : Nat :=
  (ws.wires.filter (fun w => !w.2.1)).length

/-- Modelled from the spec: `wire::storage::create_qubit`; the new wire receives the next
identifier. -/
def wire_storage.create_qubit (ws : wire_storage) (name : String) (mode : wire_modes) :
    wire_id × wire_storage :=
  (⟨ws.wires.length, false⟩, { wires := ws.wires ++ [(name, true, mode)] })

/-- Modelled from the spec: `wire::storage::create_cbit`; the new wire receives the next
identifier. -/
def wire_storage.create_cbit (ws : wire_storage) (name : String) (mode : wire_modes) :
    wire_id × wire_storage :=
  (⟨ws.wires.length, false⟩, { wires := ws.wires ++ [(name, false, mode)] })

/-- Modelled from the spec: the members of `gate_ids` that the netlist and its tests name
(`gates/gate.hpp` is not part of the sources); their numeric values are a parameter. -/
structure gate_ids where
  input : Nat
  swap : Nat

/-- Modelled from the spec: a `gate` (`gates/gate.hpp` is not part of the sources), as far as
the netlist reads it: its identifier `id()`. -/
structure gate where
  id : Nat
  deriving DecidableEq, Repr

/-- Modelled from the spec: the `Operation` template parameter of `netlist` (`w3_op.hpp` and
`wn32_op.hpp` are not part of the sources): the identifier of its gate, its controls and its
targets. -/
structure Operation where
  id : Nat
  controls : List wire_id
  targets : List wire_id
  deriving DecidableEq, Repr

/-- Modelled from the spec: the constructor `Operation(g, t)`: one target. -/
def Operation.mk1 (g : gate) (t : wire_id) : Operation :=
  { id := g.id, controls := [], targets := [t] }

/-- Modelled from the spec: the constructor `Operation(g, w0, w1)`: two targets for `swap`,
a control and a target otherwise. -/
def Operation.mk2 (ids : gate_ids) (g : gate) (w0 w1 : wire_id) : Operation :=
  if g.id = ids.swap then { id := g.id, controls := [], targets := [w0, w1] }
  else { id := g.id, controls := [w0], targets := [w1] }

/-- Modelled from the spec: the constructor `Operation(g, c0, c1, t)`: two controls and a
target. -/
def Operation.mk3 (g : gate) (c0 c1 t : wire_id) : Operation :=
  { id := g.id, controls := [c0, c1], targets := [t] }

/-- Modelled from the spec: the constructor `Operation(g, cs, ts)`. -/
def Operation.mkn (g : gate) (cs ts : List wire_id) : Operation :=
  { id := g.id, controls := cs, targets := ts }

/-- Modelled from the spec: the accessor `op.control(i)`. -/
def Operation.control (op : Operation) (i : Nat) : Option wire_id := op.controls[i]?

/-- Modelled from the spec: the accessor `op.target(i)`. -/
def Operation.target (op : Operation) (i : Nat) : Option wire_id := op.targets[i]?

/-- The node type `node_wrapper<Operation>` (`networks/storage.hpp` is not part of the
sources): an operation and the per-node value `data`. -/
structure node_wrapper where
  op : Operation
  data : Nat
  deriving DecidableEq, Repr

/-- The class `netlist`: the members of its node storage `data_` (`name`, `default_value`,
`gate_set`, `nodes`, `inputs`, `outputs`) and its wire storage `wires_`. -/
structure netlist where
  name : String
  default_value : Nat
  gate_set : Nat
  nodes : List node_wrapper
  inputs : List Nat
  outputs : List Nat
  wires : wire_storage
  deriving Repr

/-- The constructor `netlist()`: empty storages. -/
def netlist.init : netlist :=
  { name := "tweedledum_netlist", default_value := 0, gate_set := 0, nodes := [], inputs := [],
    outputs := [], wires := { wires := [] } }

/-- The method `netlist::size`: the number of nodes as a `uint32_t`. -/
def netlist.size (nl : netlist) : Nat := nl.nodes.length % 2 ^ 32

/-- The method `netlist::num_operations`: `nodes.size() - inputs.size()`, a `size_t`
difference returned as a `uint32_t`. -/
def netlist.num_operations (nl : netlist) : Nat :=
  (nl.nodes.length + 2 ^ 64 - nl.inputs.length) % 2 ^ 64 % 2 ^ 32

/-- The method `netlist::node`: `data_->nodes.at(id)`. -/
def netlist.node (nl : netlist) (id : Nat) : Except Err node_wrapper := at_ nl.nodes id

/-- The method `netlist::connect_wire`: a new input node for the wire, recorded as an input
and as an output. -/
def netlist.connect_wire (ids : gate_ids) (nl : netlist) (w_id : wire_id) : netlist :=
  { nl with nodes := nl.nodes ++ [{ op := Operation.mk1 { id := ids.input } w_id,
                                    data := nl.default_value }],
            inputs := nl.inputs ++ [nl.nodes.length % 2 ^ 32],
            outputs := nl.outputs ++ [nl.nodes.length % 2 ^ 32] }

/-- The method `netlist::create_qubit(name, mode)`. -/
def netlist.create_qubit (ids : gate_ids) (nl : netlist) (name : String) (mode : wire_modes) :
    wire_id × netlist :=
  ((nl.wires.create_qubit name mode).1,
    netlist.connect_wire ids { nl with wires := (nl.wires.create_qubit name mode).2 }
      (nl.wires.create_qubit name mode).1)

/-- The method `netlist::create_qubit(mode)`: the name is made from `num_qubits()`. -/
def netlist.create_qubit_unnamed (ids : gate_ids) (nl : netlist) (mode : wire_modes) :
    wire_id × netlist :=
  netlist.create_qubit ids nl ("__dum_q" ++ toString nl.wires.num_qubits) mode

/-- The method `netlist::create_cbit(name, mode)`. -/
def netlist.create_cbit (ids : gate_ids) (nl : netlist) (name : String) (mode : wire_modes) :
    wire_id × netlist :=
  ((nl.wires.create_cbit name mode).1,
    netlist.connect_wire ids { nl with wires := (nl.wires.create_cbit name mode).2 }
      (nl.wires.create_cbit name mode).1)

/-- The method `netlist::create_cbit(mode)`: the name is made from `num_cbits()`. -/
def netlist.create_cbit_unnamed (ids : gate_ids) (nl : netlist) (mode : wire_modes) :
    wire_id × netlist :=
  netlist.create_cbit ids nl ("__dum_c" ++ toString nl.wires.num_cbits) mode

/-- The method `netlist::emplace_op`: the identifier of the new node and the netlist with
the node appended. The gate set is kept as a natural number. -/
def netlist.emplace_op (nl : netlist) (op : Operation) : Nat × netlist :=
  (nl.nodes.length % 2 ^ 32,
    { nl with gate_set := nl.gate_set ||| (1 <<< op.id),
              nodes := nl.nodes ++ [{ op := op, data := nl.default_value }] })

/-- The method `netlist::create_op(g, t)`. -/
def netlist.create_op1 (nl : netlist) (g : gate) (t : wire_id) : Nat × netlist :=
  nl.emplace_op (Operation.mk1 g t)

/-- The method `netlist::create_op(g, w0, w1)`. -/
def netlist.create_op2 (ids : gate_ids) (nl : netlist) (g : gate) (w0 w1 : wire_id) :
    Nat × netlist :=
  nl.emplace_op (Operation.mk2 ids g w0 w1)

/-- The method `netlist::create_op(g, c0, c1, t)`. -/
def netlist.create_op3 (nl : netlist) (g : gate) (c0 c1 t : wire_id) : Nat × netlist :=
  nl.emplace_op (Operation.mk3 g c0 c1 t)

/-- The method `netlist::create_op(g, cs, ts)`. -/
def netlist.create_opn (nl : netlist) (g : gate) (cs ts : List wire_id) : Nat × netlist :=
  nl.emplace_op (Operation.mkn g cs ts)

/-- A call that creates a wire: a qubit or a classical bit, named or not, with a mode. -/
inductive wire_call where
  | qubit (name : Option String) (mode : wire_modes)
  | cbit (name : Option String) (mode : wire_modes)
  deriving Repr

/-- The netlist after one wire-creating call. -/
def netlist.create_wire (ids : gate_ids) (nl : netlist) : wire_call → netlist
  | .qubit (some name) mode => (nl.create_qubit ids name mode).2
  | .qubit none mode => (nl.create_qubit_unnamed ids mode).2
  | .cbit (some name) mode => (nl.create_cbit ids name mode).2
  | .cbit none mode => (nl.create_cbit_unnamed ids mode).2

/-- The netlist after a sequence of wire-creating calls. -/
def netlist.create_wires (ids : gate_ids) (nl : netlist) (calls : List wire_call) : netlist :=
  calls.foldl (netlist.create_wire ids) nl

/-- The pair `r` is what a `create_op` call returns for the netlist `nl` and the operation
`op`: the identifier is the size before the call, the node stored under it holds `op`, there
is one operation more, and the nodes stored before are unchanged. -/
def netlist.adds (nl : netlist) (r : Nat × netlist) (op : Operation) : Prop :=
  r.1 = nl.size ∧ (∃ node, r.2.node r.1 = .ok node ∧ node.op = op) ∧
  r.2.num_operations = nl.num_operations + 1 ∧
  ∀ j, j < nl.nodes.length → r.2.node j = nl.node j

/-- The router state at the entry of the driver loop for `circuit_h_cx` on `line3` from the
placement `[0, unplaced, 1]`. -/
def entered_h_cx : jit_router :=
  { front_layer := [0], extended_layer := [], involved_phy := [false, false, false],
    phy_decay := [1, 1, 1], unexectued := [[], [], []], wire_to_v := [0, 1, 2],
    v_to_phy := [some 0, none, some 1], phy_to_v := [some 0, some 2, none], values := [1, 1],
    mapped := [], published := [some 0, none, some 1] }

/-- The router state after the driver loop for `circuit_h_cx` on `line3` from the placement
`[0, unplaced, 1]`. -/
def looped_h_cx : jit_router :=
  { routed_h_cx with published := [some 0, none, some 1] }

/-- The operation with the complemented flag of its control reference cleared. -/
def op_type.uncomplemented (op : op_type) : op_type :=
  { op with control := { uid := op.control.uid, is_complemented := false } }

/-- The input circuit with an uncomplemented control on every gate. -/
def Network.uncomplemented (net : Network) : Network :=
  { net with nodes := net.nodes.map op_type.uncomplemented }

/-- The emitted operation with the complemented flag of its first operand cleared. -/
def mapped_op.uncomplemented : mapped_op → mapped_op
  | .one g phy => .one g phy
  | .two g phy0 phy1 => .two g { uid := phy0.uid, is_complemented := false } phy1

/-- The router state with the complemented flags cleared in the mapped DAG. -/
def jit_router.uncomplemented (s : jit_router) : jit_router :=
  { s with mapped := s.mapped.map mapped_op.uncomplemented }

/-- The polarity of an emitted two-qubit gate of the input is that of the control reference
of the input gate. -/
def polarity_ok (net : Network) : mapped_op → Prop
  | .two (.node n) phy0 _ =>
    ∃ op, net.nodes[n]? = some op ∧ phy0.is_complemented = op.control.is_complemented
  | _ => True

/-- The circuit `H(q1); CX(!q0, q1)` on three wires: the control of the `CX` is
complemented. -/
def circuit_h_ncx : Network :=
  { nodes := [⟨1, false, 1, ⟨1, false⟩, ⟨1, false⟩⟩, ⟨2, false, 2, ⟨0, true⟩, ⟨1, false⟩⟩],
    outputs := [1, 0], children := [[1], []], wire_v := [0, 1, 2] }

/-- The result of routing `H(q1); CX(!q0, q1)` on the line from `[0, unplaced, 1]`. -/
def routed_h_ncx : jit_router :=
  { routed_h_cx with
    mapped := [.one (.node 0) 2, .two .swap ⟨0, false⟩ 1, .two (.node 1) ⟨1, true⟩ 2] }

/-- Every operation of the mapped DAG under construction has the property `P`. -/
def mapped_all (P : mapped_op → Prop) (s : jit_router) : Prop :=
  ∀ op ∈ s.mapped, P op

/-- A property of the router state that the front-layer engine keeps: it is kept by
`add_op` and `try_add_op`, as the engine calls them, and it does not depend on the layers,
the involved set, the decay vector or the discharge counters. -/
structure front_invariant (dev : device) (net : Network) (I : jit_router → Prop) : Prop where
  add_op : ∀ (n : Nat) (op : op_type) (s : jit_router) (r : Bool × jit_router),
    net.nodes[n]? = some op → op.is_meta = false → op.is_one_qubit = true →
    add_op (.node n) op.target s = .ok r → I s → I r.2
  try_add_op : ∀ (n : Nat) (op : op_type) (s : jit_router) (r : Bool × jit_router),
    net.nodes[n]? = some op → op.is_meta = false → op.is_one_qubit = false →
    try_add_op dev (.node n) op.control op.target s = .ok r → I s → I r.2
  frame : ∀ (s : jit_router) (fl el : List Nat) (inv : List Bool) (dec : List ℚ)
    (vals : List Nat), I s →
    I { s with front_layer := fl, extended_layer := el, involved_phy := inv,
               phy_decay := dec, values := vals }

/-- Every node of the list holds a gate of the input. -/
def all_gates (net : Network) (l : List Nat) : Prop :=
  ∀ n ∈ l, is_gate net n

/-- The call that the front-layer engine makes for the gate `op` of node `n`: `add_op` for a
one-qubit gate, `try_add_op` otherwise. -/
def execute (dev : device) (n : Nat) (op : op_type) (s : jit_router) :
    Except Err (Bool × jit_router) :=
  if op.is_one_qubit then add_op (.node n) op.target s
  else try_add_op dev (.node n) op.control op.target s

/-- The number of SWAP searches that the driver loop of `route` performs: `route_loop` with a
count `c` of the passes through its SWAP branch, returned when the loop is left. -/
def route_loop_searches (dev : device) (cfg : jit_config) (net : Network) :
    Nat → Nat → Nat → jit_router → Except Err Nat
  | 0, _, c, s => if s.front_layer.isEmpty then .ok c else .error .out_of_fuel
  | fuel + 1, num_swap_searches, c, s =>
    if s.front_layer.isEmpty then .ok c
    else
      match try_add_front_layer dev net s with
      | .ok (true, s1) => route_loop_searches dev cfg net fuel num_swap_searches c s1
      | .ok (false, s1) =>
        match swap_round dev cfg net ((num_swap_searches + 1) % 2 ^ 32) s1 with
        | .ok s2 =>
          route_loop_searches dev cfg net fuel ((num_swap_searches + 1) % 2 ^ 32) (c + 1) s2
        | .error e => .error e
      | .error e => .error e

/-- The emitted operation is a gate of the input on the physical qubits that the placement
`v2p` gives to the virtual qubits of its wires: a one-qubit gate on that of its target, any
other gate on those of its control and its target, with the polarity of the control. -/
def located (net : Network) (v2p : List (Option Nat)) : mapped_op → Prop
  | .one (.node n) p =>
    ∃ opn v, net.nodes[n]? = some opn ∧ opn.is_meta = false ∧ opn.is_one_qubit = true ∧
      net.wire_v[opn.target.uid]? = some v ∧ v2p[v]? = some (some p)
  | .two (.node n) p0 p1 =>
    ∃ opn v0 v1, net.nodes[n]? = some opn ∧ opn.is_meta = false ∧
      opn.is_one_qubit = false ∧ net.wire_v[opn.control.uid]? = some v0 ∧ net.wire_v[opn.target.uid]? = some v1 ∧
      v2p[v0]? = some (some p0.uid) ∧ v2p[v1]? = some (some p1) ∧
      p0.is_complemented = opn.control.is_complemented
  | _ => False

/-- The mapped DAG under construction holds only gates of the input, each on the physical
qubits that the current placement gives to its virtual qubits, and every buffer holds
one-qubit gates of the input on its own virtual qubit, which is unplaced. -/
def settled (net : Network) (s : jit_router) : Prop :=
  s.wire_to_v = net.wire_v ∧ (∀ op ∈ s.mapped, located net s.v_to_phy op) ∧
  ∀ (v : Nat) (g : gate_ref), g ∈ s.unexectued.getD v [] →
    s.v_to_phy[v]? = some none ∧
    ∃ n opn, g = .node n ∧ net.nodes[n]? = some opn ∧ opn.is_meta = false ∧
      opn.is_one_qubit = true ∧ net.wire_v[opn.target.uid]? = some v

/-- The complete device on three qubits. -/
def complete3 : device :=
  { num_qubits := 3, edges := [(0, 1), (0, 2), (1, 2)],
    are_connected := fun a b => decide (a ≠ b),
    distance := fun a b => if a = b then 0 else 1 }

/-- The result of routing `H(q1); CX(q0, q1)` on the complete device from
`[0, unplaced, 1]`. -/
def routed_h_cx_complete : jit_router :=
  { front_layer := [], extended_layer := [], involved_phy := [false, false, false],
    phy_decay := [1, 1, 1], unexectued := [[], [], []], wire_to_v := [0, 1, 2],
    v_to_phy := [some 0, some 2, some 1], phy_to_v := [some 0, some 2, some 1],
    values := [1, 2], mapped := [.one (.node 0) 2, .two (.node 1) ⟨0, false⟩ 2],
    published := [some 0, some 2, some 1] }

/-- The circuit `H(q0); X(q1)` on three wires. -/
def circuit_h_x : Network :=
  { nodes := [⟨1, false, 1, ⟨0, false⟩, ⟨0, false⟩⟩, ⟨3, false, 1, ⟨1, false⟩, ⟨1, false⟩⟩],
    outputs := [0, 1], children := [[], []], wire_v := [0, 1, 2] }

/-- The result of routing `H(q0); X(q1)` on the line from `[1, unplaced, unplaced]`. -/
def routed_h_x : jit_router :=
  { front_layer := [], extended_layer := [], involved_phy := [false, false, false],
    phy_decay := [1, 1, 1], unexectued := [[], [], []], wire_to_v := [0, 1, 2],
    v_to_phy := [some 1, some 2, some 0], phy_to_v := [none, some 0, none],
    values := [1, 1], mapped := [.one (.node 0) 1, .one (.node 1) 2],
    published := [some 1, some 2, some 0] }

/-- The state `s1` differs from `s` at most in the placement maps, the buffers and the
operations of the mapped DAG. -/
def same_control (s s1 : jit_router) : Prop :=
  s1.front_layer = s.front_layer ∧ s1.extended_layer = s.extended_layer ∧
  s1.involved_phy = s.involved_phy ∧ s1.phy_decay = s.phy_decay ∧
  s1.wire_to_v = s.wire_to_v ∧ s1.values = s.values ∧ s1.published = s.published

/-- One SWAP search of the driver loop, as the decay vector sees it: the value of
`num_swap_searches` after its increment, the selected SWAP, and `phy_decay_` when
`find_swap` is called and after the update that follows it. -/
structure decay_step where
  num_swap_searches : Nat
  swap : Nat × Nat
  before : List ℚ
  after : List ℚ

/-- The driver loop of `route`, instrumented: instead of the final state it returns the
SWAP searches of the loop in order. -/
def route_loop_decay (dev : device) (cfg : jit_config) (net : Network) :
    Nat → Nat → jit_router → Except Err (List decay_step)
  | 0, _, s => if s.front_layer.isEmpty then .ok [] else .error .out_of_fuel
  | fuel + 1, num_swap_searches, s =>
    if s.front_layer.isEmpty then .ok []
    else
      match try_add_front_layer dev net s with
      | .ok (true, s1) => route_loop_decay dev cfg net fuel num_swap_searches s1
      | .ok (false, s1) =>
        match find_swap dev cfg net s1 with
        | .ok (c, _) =>
          match swap_round dev cfg net ((num_swap_searches + 1) % 2 ^ 32) s1 with
          | .ok s2 =>
            match route_loop_decay dev cfg net fuel ((num_swap_searches + 1) % 2 ^ 32) s2 with
            | .ok t =>
              .ok (⟨(num_swap_searches + 1) % 2 ^ 32, c, s1.phy_decay, s2.phy_decay⟩ :: t)
            | .error e => .error e
          | .error e => .error e
        | .error e => .error e
      | .error e => .error e

/-- The pairs `(free_phy[i], free_phy[j])` with `i < j`, in the order in which the scan of
`place_two_v` visits them: `i` ascending, and `j` ascending for every `i`. -/
def scan_pairs : List Nat → List (Nat × Nat)
  | [] => []
  | i_phy :: rest => rest.map (fun j_phy => (i_phy, j_phy)) ++ scan_pairs rest

/-- The body of the scan of `place_two_v` for one pair: the pair replaces the current one
unless it is strictly farther apart. -/
def scan_update (dev : device) (acc : Nat × Option Nat × Option Nat) (p : Nat × Nat) :
    Nat × Option Nat × Option Nat :=
  if acc.1 < dev.distance p.1 p.2 then acc else (dev.distance p.1 p.2, some p.1, some p.2)

/-- The router state at the entry of the driver loop for `circuit_cx02` on `line3` from the
placement that leaves every virtual qubit unplaced. -/
def entered_unplaced_cx02 : jit_router :=
  { front_layer := [0], extended_layer := [], involved_phy := [false, false, false],
    phy_decay := [1, 1, 1], unexectued := [[], [], []], wire_to_v := [0, 1, 2],
    v_to_phy := [none, none, none], phy_to_v := [none, none, none], values := [2],
    mapped := [], published := [none, none, none] }

/-- The placement after exchanging the physical qubits `p0` and `p1`: a virtual qubit on
one of them sits on the other one. -/
def swapped_placement (v_to_phy : List (Option Nat)) (p0 p1 : Nat) : List (Option Nat) :=
  v_to_phy.map (Option.map (swap_phy p0 p1))

/-- The physical qubits of the two operands of the gate in node `n` under the placement
`v_to_phy`, when both operands are placed. -/
def gate_phys (net : Network) (wire_to_v : List Nat) (v_to_phy : List (Option Nat))
    (n : Nat) : Option (Nat × Nat) :=
  match net.nodes[n]? with
  | some op =>
    match wire_to_v[op.control.uid]?, wire_to_v[op.target.uid]? with
    | some vc, some vt =>
      match v_to_phy[vc]?, v_to_phy[vt]? with
      | some (some phy0), some (some phy1) => some (phy0, phy1)
      | _, _ => none
    | _, _ => none
  | none => none

/-- The raw cost of a layer under a placement, as a rational number: the sum over its
gates of the device distance of the gate's two physical qubits minus one, the gates with
an unplaced operand being skipped. -/
def layer_cost (dev : device) (net : Network) (wire_to_v : List Nat)
    (v_to_phy : List (Option Nat)) (layer : List Nat) : ℚ :=
  ((layer.filterMap (gate_phys net wire_to_v v_to_phy)).map
    (fun p => (dev.distance p.1 p.2 : ℚ) - 1)).sum

/-- The score of the candidate `(p0, p1)` as the specification words it. -/
def spec_score (dev : device) (cfg : jit_config) (net : Network) (s : jit_router)
    (p0 p1 : Nat) : ℚ :=
  max (s.phy_decay.getD p0 0) (s.phy_decay.getD p1 0) *
    (if s.extended_layer = [] then
      layer_cost dev net s.wire_to_v (swapped_placement s.v_to_phy p0 p1) s.front_layer
     else
      layer_cost dev net s.wire_to_v (swapped_placement s.v_to_phy p0 p1) s.front_layer
          / (s.front_layer.length : ℚ)
        + cfg.e_weight *
          layer_cost dev net s.wire_to_v (swapped_placement s.v_to_phy p0 p1) s.extended_layer
          / (s.extended_layer.length : ℚ))

/-- The circuit `CX(q0, q1); H(q0); H(q1)` on three wires: node 0 is the `CX`, nodes 1 and 2
are the two `H`, both children of the `CX`. -/
def circuit_cx_h_h : Network :=
  { nodes := [⟨2, false, 2, ⟨0, false⟩, ⟨1, false⟩⟩, ⟨1, false, 1, ⟨0, false⟩, ⟨0, false⟩⟩,
              ⟨1, false, 1, ⟨1, false⟩, ⟨1, false⟩⟩],
    outputs := [0, 0], children := [[1, 2], [], []], wire_v := [0, 1, 2] }

/-- The router state at the entry of the driver loop for `circuit_cx_h_h` on `line3` from
the placement `[0, 1, 2]`. -/
def entered_cx_h_h : jit_router :=
  { front_layer := [0], extended_layer := [], involved_phy := [false, false, false],
    phy_decay := [1, 1, 1], unexectued := [[], [], []], wire_to_v := [0, 1, 2],
    v_to_phy := [some 0, some 1, some 2], phy_to_v := [some 0, some 1, some 2],
    values := [2, 0, 0], mapped := [], published := [some 0, some 1, some 2] }

/-- The router state after the first iteration of the driver loop for `circuit_cx_h_h`: the
`CX` is emitted and both `H` are in the front layer. -/
def advanced_cx_h_h : jit_router :=
  { entered_cx_h_h with front_layer := [1, 2], values := [2, 1, 1],
                        mapped := [.two (.node 0) ⟨0, false⟩ 1] }

/-- The number of nodes whose counter is below the arity of the node: the nodes that can
still join the working frontier of `select_extended_layer`. -/
def room (net : Network) (values : List Nat) : Nat :=
  (List.range net.nodes.length).countP
    (fun i => match net.nodes[i]? with
      | some op => decide (values.getD i 0 < op.num_wires)
      | none => false)

/-- The accumulator of `select_extended_layer` within one round of its `while` loop that
started on the counters `v0`: the counters have not decreased, every node that has joined
the next frontier has crossed from below its arity to its arity, and the nodes recorded so
far exist. -/
structure ext_round (net : Network) (v0 : List Nat) (acc : ext_acc) : Prop where
  length : acc.values.length = net.nodes.length
  mono : ∀ i, v0.getD i 0 ≤ acc.values.getD i 0
  crossed : ∀ c ∈ acc.new_tmp_front_layer, ∃ op, net.nodes[c]? = some op ∧
    v0.getD c 0 < op.num_wires ∧ op.num_wires ≤ acc.values.getD c 0
  layer_gates : ∀ c ∈ acc.extended_layer, is_gate net c
  incremented_lt : ∀ c ∈ acc.incremented_nodes, c < net.nodes.length

/-- The router state after the first iteration of the driver loop for `circuit_h_cx` on
`line3` from the placement `[0, unplaced, 1]`: the `H` is buffered and the `CX` is in the
front layer. -/
def advanced_h_cx : jit_router :=
  { entered_h_cx with front_layer := [1], unexectued := [[], [.node 0], []],
                      values := [1, 2] }

/-- The router state in which the driver loop searches its SWAP for `circuit_h_cx` on
`line3` from the placement `[0, unplaced, 1]`: `q1` is placed on the free qubit 2 and the
`CX` is stuck on the pair `(0, 2)`. -/
def stuck_h_cx : jit_router :=
  { front_layer := [1], extended_layer := [], involved_phy := [true, false, true],
    phy_decay := [1, 1, 1], unexectued := [[], [], []], wire_to_v := [0, 1, 2],
    v_to_phy := [some 0, some 2, some 1], phy_to_v := [some 0, some 2, some 1],
    values := [1, 2], mapped := [.one (.node 0) 2], published := [some 0, none, some 1] }

/-- The part of the scoring of `find_swap` that follows the construction of
`tmp_v_to_phy`: the score of the candidate `(phy0, phy1)` computed on the placement `tmp`. -/
def placement_score (dev : device) (cfg : jit_config) (net : Network) (s : jit_router)
    (tmp : List (Option Nat)) (phy0 phy1 : Nat) : Except Err ℚ :=
  match compute_cost dev net s.wire_to_v tmp s.front_layer 0 with
  | .ok swap_cost =>
    match at_ s.phy_decay phy0, at_ s.phy_decay phy1 with
    | .ok d0, .ok d1 =>
      if s.extended_layer.isEmpty then .ok (max d0 d1 * swap_cost)
      else
        match compute_cost dev net s.wire_to_v tmp s.extended_layer 0 with
        | .ok e_cost =>
          .ok (max d0 d1 * (swap_cost / (s.front_layer.length : ℚ)
                + cfg.e_weight * (e_cost / (s.extended_layer.length : ℚ))))
        | .error e => .error e
    | .error e, _ => .error e
    | _, .error e => .error e
  | .error e => .error e

/-- What a pass of the front-layer engine that executes no gate keeps: the discharge
counters, the wire map, every assignment of a placed virtual qubit and every mark of
`involved_phy_`. -/
def pass_keeps (s s1 : jit_router) : Prop :=
  s1.values = s.values ∧ s1.wire_to_v = s.wire_to_v ∧
  (∀ v p : Nat, s.v_to_phy[v]? = some (some p) → s1.v_to_phy[v]? = some (some p)) ∧
  (∀ u : Nat, s.involved_phy[u]? = some true → s1.involved_phy[u]? = some true)

/-- The node `n` holds a gate that the front-layer engine could not execute in the state
`s`: a gate that is not a one-qubit gate, whose control and target are placed on two
different physical qubits that are not connected, both marked in `involved_phy_`. -/
def stuck_on (dev : device) (net : Network) (s : jit_router) (n : Nat) : Prop :=
  ∃ (op : op_type) (c t : Nat), net.nodes[n]? = some op ∧ op.is_meta = false ∧
    op.is_one_qubit = false ∧
    wire_to_phy s op.control = .ok (some c) ∧ wire_to_phy s op.target = .ok (some t) ∧
    c ≠ t ∧ dev.are_connected c t = false ∧
    s.involved_phy[c]? = some true ∧ s.involved_phy[t]? = some true

/-- The nodes whose children the `for` loop of `select_extended_layer` scans, in order; the
loop is left after the scan that brings the extended layer to `e_set_size`. -/
def extend_layer_scans (net : Network) (e_set_size : Nat) : List Nat → ext_acc → List Nat
  | [], _ => []
  | n_id :: ns, acc =>
    match at_ net.nodes n_id with
    | .ok _ =>
      match extend_children net (net.children.getD n_id []) acc with
      | .ok acc1 =>
        if acc1.extended_layer.length ≥ e_set_size then [n_id]
        else n_id :: extend_layer_scans net e_set_size ns acc1
      | .error _ => []
    | .error _ => []

/-- The child scans of one call of `select_extended_layer`, over all rounds of its `while`
loop, in order. -/
def extend_loop_scans (net : Network) (e_set_size : Nat) : Nat → List Nat → ext_acc → List Nat
  | 0, _, _ => []
  | fuel + 1, tmp, acc =>
    if tmp.isEmpty then []
    else
      extend_layer_scans net e_set_size tmp { acc with new_tmp_front_layer := [] } ++
        (match extend_layer net e_set_size tmp { acc with new_tmp_front_layer := [] } with
         | .ok (false, acc1) => extend_loop_scans net e_set_size fuel acc1.new_tmp_front_layer acc1
         | _ => [])

/-- The nodes that enter the working frontier (`new_tmp_front_layer`) during one call of
`select_extended_layer`, over all rounds of its `while` loop, in order. -/
def extend_loop_entries (net : Network) (e_set_size : Nat) :
    Nat → List Nat → ext_acc → List Nat
  | 0, _, _ => []
  | fuel + 1, tmp, acc =>
    if tmp.isEmpty then []
    else
      match extend_layer net e_set_size tmp { acc with new_tmp_front_layer := [] } with
      | .ok (true, acc1) => acc1.new_tmp_front_layer
      | .ok (false, acc1) =>
        acc1.new_tmp_front_layer ++
          extend_loop_entries net e_set_size fuel acc1.new_tmp_front_layer acc1
      | .error _ => []

/-- The counter of every node of `l` has reached the arity of the node. -/
def saturated (net : Network) (values : List Nat) (l : List Nat) : Prop :=
  ∀ c ∈ l, ∃ op, net.nodes[c]? = some op ∧ op.num_wires ≤ values.getD c 0

/-- The accumulator of `select_extended_layer` with respect to a list `seen` of nodes that
were in a working frontier before: every node has a counter, and the nodes of `seen` and
of the next frontier are distinct nodes whose counter has reached their arity. -/
structure ext_sat (net : Network) (seen : List Nat) (acc : ext_acc) : Prop where
  length : acc.values.length = net.nodes.length
  nodup : (seen ++ acc.new_tmp_front_layer).Nodup
  sat : saturated net acc.values (seen ++ acc.new_tmp_front_layer)

/-! ## The ProjectQ writer -/

/-- Modelled from the spec: `index()` of a control or target reference (the wire and qubit
identifier classes are not part of the sources): the small integer of the reference. -/
def wire_id.index (w : wire_id) : Nat := w.uid

/-- Modelled from the spec: the gate kinds of `gate_lib` (`gates/gate_lib.hpp` is not part of
the sources) that the `switch` of `write_projectq` names; `unknown` stands for every other
member, which reaches `default`. -/
inductive gate_lib where
  | hadamard
  | rotation_x
  | rotation_y
  | rotation_z
  | cx
  | cz
  | mcx
  | mcz
  | swap
  | unknown
  deriving DecidableEq, Repr

/-- Modelled from the spec: the `angle` class as `write_projectq` uses it (it is not part of
the sources): the constants `angles::pi`, `angles::pi_half`, `angles::pi_quarter`, unary minus,
`operator==`, and the text that `fmt::format` prints for `numeric_value()`. -/
structure angles (angle : Type) where
  pi : angle
  pi_half : angle
  pi_quarter : angle
  neg : angle → angle
  eq : angle → angle → Bool
  numeric_value : angle → String

/-- Modelled from the spec: the `gate` member of a node as `write_projectq` reads it (the gate
classes are not part of the sources): `operation()`, the references visited by
`foreach_control` and `foreach_target` in visiting order, and `rotation_angle()`. -/
structure gate_base (angle : Type) where
  operation : gate_lib
  controls : List wire_id
  targets : List wire_id
  rotation_angle : angle

/-- Modelled from the spec: `num_controls()`: the number of references that `foreach_control`
visits. -/
def gate_base.num_controls {angle : Type} (g : gate_base angle) : Nat := g.controls.length

/-- The statement pair `if (!s.empty()) s += ", "; s += fmt::format("qs[{}]", index)` that
every loop body of `write_projectq` runs on one of its strings. -/
def append_qs (s : String) (index : Nat) : String :=
  (if s = "" then s else s ++ ", ") ++ ("qs[" ++ toString index ++ "]")

/-- The `foreach_control` loop of `write_projectq`: the strings `controls` and
`negative_controls` after all controls have been visited. -/
def control_strings (controls : List wire_id) : String × String :=
  controls.foldl (fun (acc : String × String) (control : wire_id) =>
    let cs := append_qs acc.1 control.index
    if control.is_complemented then (cs, append_qs acc.2 control.index) else (cs, acc.2))
    ("", "")

/-- The `foreach_target` loop of `write_projectq`: the string `targets`. -/
def target_string (targets : List wire_id) : String :=
  targets.foldl (fun (s : String) (target : wire_id) => append_qs s target.index) ""

/-- The `switch (gate.operation())` of `write_projectq`: the text written to `os` for the gate
itself; `default` ends in `assert(false)`. -/
def gate_line {angle : Type} (A : angles angle) (g : gate_base angle)
    (controls targets : String) : Except Err String :=
  match g.operation with
  | .hadamard => .ok ("H | " ++ targets ++ "\n")
  | .rotation_x =>
    if A.eq g.rotation_angle A.pi then .ok ("X | " ++ targets ++ "\n")
    else .ok ("Rx(" ++ A.numeric_value g.rotation_angle ++ ") | " ++ targets ++ "\n")
  | .rotation_y =>
    if A.eq g.rotation_angle A.pi then .ok ("Y | " ++ targets ++ "\n")
    else .ok ("Ry(" ++ A.numeric_value g.rotation_angle ++ ") | " ++ targets ++ "\n")
  | .rotation_z =>
    if A.eq g.rotation_angle A.pi_quarter then .ok ("T | " ++ targets ++ "\n")
    else if A.eq g.rotation_angle (A.neg A.pi_quarter) then .ok ("Tdag | " ++ targets ++ "\n")
    else if A.eq g.rotation_angle A.pi_half then .ok ("S | " ++ targets ++ "\n")
    else if A.eq g.rotation_angle (A.neg A.pi_half) then .ok ("Sdag | " ++ targets ++ "\n")
    else if A.eq g.rotation_angle A.pi then .ok ("Z | " ++ targets ++ "\n")
    else .ok ("Rz(" ++ A.numeric_value g.rotation_angle ++ ") | " ++ targets ++ "\n")
  | .cx => .ok ("CNOT | (" ++ controls ++ ", " ++ targets ++ ")\n")
  | .cz => .ok ("CZ | (" ++ controls ++ ", " ++ targets ++ ")\n")
  | .mcx => .ok ("C(All(X), " ++ toString g.num_controls ++ ") | ([" ++ controls ++ "], ["
      ++ targets ++ "])\n")
  | .mcz => .ok ("C(All(Z), " ++ toString g.num_controls ++ ") | ([" ++ controls ++ "], ["
      ++ targets ++ "])\n")
  | .swap => .ok ("Swap | (" ++ targets ++ ")\n")
  | .unknown => .error .assertion

/-- The body of the `foreach_gate` callback of `write_projectq` for one gate: the characters
of `os` after the gate has been written. -/
def write_gate {angle : Type} (A : angles angle) (g : gate_base angle) (os : String) :
    Except Err String :=
  let controls := (control_strings g.controls).1
  let negative_controls := (control_strings g.controls).2
  let targets := target_string g.targets
  let os1 := if negative_controls = "" then os else os ++ ("X | " ++ negative_controls ++ "\n")
  match gate_line A g controls targets with
  | .error e => .error e
  | .ok line =>
    let os2 := os1 ++ line
    .ok (if negative_controls = "" then os2 else os2 ++ ("X | " ++ negative_controls ++ "\n"))

/-- The function `write_projectq(network, os)`; the network is given by the gates that
`foreach_gate` visits, in visiting order, and the stream by the characters written to it. -/
def write_projectq {angle : Type} (A : angles angle) (network : List (gate_base angle))
    (os : String) : Except Err String :=
  match network with
  | [] => .ok os
  | g :: rest =>
    match write_gate A g os with
    | .error e => .error e
    | .ok os1 => write_projectq A rest os1

/-- The property "one line": the text ends in a line feed and has no other line feed. -/
def one_line (s : String) : Prop :=
  s.data.getLast? = some '\n' ∧ '\n' ∉ s.data.dropLast

/-- The line `X | qs[i], qs[j], ...` over the complemented controls of a gate, in control
order. -/
def negative_controls_line {angle : Type} (g : gate_base angle) : String :=
  "X | " ++ ", ".intercalate ((g.controls.filter fun c => c.is_complemented).map
    fun c => "qs[" ++ toString c.index ++ "]") ++ "\n"

/-- Angles as multiples of a quarter of pi, for examples. -/
def quarter_angles : angles Int :=
  { pi := 4, pi_half := 2, pi_quarter := 1, neg := fun a => -a, eq := fun a b => decide (a = b),
    numeric_value := fun a => toString a ++ "*pi/4" }

/-- Example gate: a Hadamard on qubit 0. -/
def gate_h_0 : gate_base Int :=
  { operation := .hadamard, controls := [], targets := [⟨0, false⟩], rotation_angle := 0 }

/-- Example gate: a Toffoli-like gate on target 3 whose controls 0 and 2 are complemented and
whose control 1 is not. -/
def gate_mcx_012_3 : gate_base Int :=
  { operation := .mcx, controls := [⟨0, true⟩, ⟨1, false⟩, ⟨2, true⟩], targets := [⟨3, false⟩],
    rotation_angle := 0 }

/-- Example gate: a CNOT with control 2 and target 3. -/
def gate_cx_2_3 : gate_base Int :=
  { operation := .cx, controls := [⟨2, false⟩], targets := [⟨3, false⟩], rotation_angle := 0 }

/-! ## Vectors: basic facts -/

theorem at__ok {α : Type} {xs : List α} {i : Nat} {x : α} :
    at_ xs i = .ok x ↔ xs[i]? = some x := by
  unfold at_
  cases h : xs[i]? <;> simp

theorem at__of_lt {α : Type} {xs : List α} {i : Nat} (h : i < xs.length) :
    at_ xs i = .ok xs[i] := by
  rw [at__ok]; exact List.getElem?_eq_getElem h

theorem at__error {α : Type} {xs : List α} {i : Nat} {e : Err} :
    at_ xs i = .error e ↔ xs.length ≤ i ∧ e = .out_of_range := by
  unfold at_
  cases h : xs[i]? with
  | none => simp at h; simp [h, eq_comm]
  | some x =>
    have := List.getElem?_eq_some_iff.mp h
    obtain ⟨hlt, _⟩ := this
    simp; omega

theorem set_at_ok {α : Type} {xs ys : List α} {i : Nat} {x : α} :
    set_at xs i x = .ok ys ↔ i < xs.length ∧ ys = xs.set i x := by
  unfold set_at
  split <;> simp [*, eq_comm]

theorem set_at_error {α : Type} {xs : List α} {i : Nat} {x : α} {e : Err} :
    set_at xs i x = .error e ↔ xs.length ≤ i ∧ e = .out_of_range := by
  unfold set_at
  split
  · simp [*]
  · simp [*, eq_comm]; omega

theorem resize_length {α : Type} (xs : List α) (n : Nat) (x : α) :
    (resize xs n x).length = n := by
  unfold resize
  simp; omega

/-! ## The entry of `route` -/

theorem new_mapping_fill_length {vs : List (Option Nat)} {i : Nat} {p2v r : List (Option Nat)}
    (h : new_mapping_fill vs i p2v = .ok r) : r.length = p2v.length := by
  induction vs generalizing i p2v with
  | nil => simp [new_mapping_fill] at h; simp [h]
  | cons a vs ih =>
    cases a with
    | none => exact ih h
    | some p =>
      simp only [new_mapping_fill] at h
      split at h
      · rename_i p2v1 h1
        rw [set_at_ok] at h1
        rw [ih h, h1.2]; simp
      · simp at h

theorem new_mapping_fill_ok {vs : List (Option Nat)} (i : Nat) (p2v : List (Option Nat))
    (h : ∀ p, some p ∈ vs → p < p2v.length) : ∃ r, new_mapping_fill vs i p2v = .ok r := by
  induction vs generalizing i p2v with
  | nil => exact ⟨p2v, rfl⟩
  | cons a vs ih =>
    cases a with
    | none => exact ih (i + 1) p2v (fun p hp => h p (List.mem_cons_of_mem _ hp))
    | some p =>
      have hp : p < p2v.length := h p (List.mem_cons_self _ _)
      simp only [new_mapping_fill, set_at, hp, if_true]
      exact ih (i + 1) _ (fun p1 hp1 => by simpa using h p1 (List.mem_cons_of_mem _ hp1))

theorem new_mapping_fill_error {vs : List (Option Nat)} (i : Nat) (p2v : List (Option Nat))
    (h : ∃ p, some p ∈ vs ∧ p2v.length ≤ p) :
    new_mapping_fill vs i p2v = .error .out_of_range := by
  induction vs generalizing i p2v with
  | nil => simp at h
  | cons a vs ih =>
    obtain ⟨p, hp, hle⟩ := h
    cases a with
    | none =>
      simp at hp
      exact ih (i + 1) p2v ⟨p, hp, hle⟩
    | some p0 =>
      simp only [new_mapping_fill, set_at]
      by_cases h0 : p0 < p2v.length
      · simp only [h0, if_true]
        have hp1 : some p ∈ vs := by
          rcases List.mem_cons.mp hp with h1 | h1
          · simp at h1; omega
          · exact h1
        exact ih (i + 1) _ ⟨p, hp1, by simpa using hle⟩
      · simp [h0]

theorem seed_front_layer_ok (net : Network) {ids : List Nat} (acc : List Nat × List Nat)
    (h : ∀ id ∈ ids, id < net.nodes.length) : ∃ r, seed_front_layer net ids acc = .ok r := by
  induction ids generalizing acc with
  | nil => exact ⟨acc, rfl⟩
  | cons id ids ih =>
    have hid : id < net.nodes.length := h id (List.mem_cons_self _ _)
    have hrest : ∀ id ∈ ids, id < net.nodes.length := fun x hx => h x (List.mem_cons_of_mem _ hx)
    simp only [seed_front_layer, at__of_lt hid]
    split
    · exact ih _ hrest
    · split
      · exact ih _ hrest
      · exact ih _ hrest

/-- C8: `route` fails at entry (in `route_entry`, which appends nothing to the mapped DAG)
whenever the placement's length differs from the device qubit count or the placement holds
a physical index that is not below it; for a placement of the right length whose placed
entries are all below the qubit count the entry succeeds, with an empty mapped DAG. -/
theorem route_entry_fails_iff_bad_placement (dev : device) (cfg : jit_config) (net : Network)
    (placement : List (Option Nat)) (finalize : Bool) (fuel : Nat) (s : jit_router)
    (hout : ∀ id ∈ net.outputs, id < net.nodes.length) :
    ((placement.length ≠ dev.num_qubits ∨ ∃ p, some p ∈ placement ∧ dev.num_qubits ≤ p) →
      ∃ e, route_entry dev net placement s = .error e ∧
        route dev cfg net placement finalize fuel s = .error e) ∧
    ((placement.length = dev.num_qubits ∧ ∀ p, some p ∈ placement → p < dev.num_qubits) →
      ∃ s1, route_entry dev net placement s = .ok s1 ∧ s1.mapped = []) := by
  constructor
  · intro h
    have key : ∃ e, route_entry dev net placement s = .error e := by
      by_cases hlen : placement.length = dev.num_qubits
      · have hp : ∃ p, some p ∈ placement ∧ dev.num_qubits ≤ p := by
          rcases h with h | h
          · exact absurd hlen h
          · exact h
        refine ⟨.out_of_range, ?_⟩
        have hfill := new_mapping_fill_error 0 (resize (reset s).phy_to_v dev.num_qubits none)
          (by simpa [resize_length] using hp)
        simp [route_entry, hlen, new_mapping, hfill]
      · exact ⟨.assertion, by simp [route_entry, hlen]⟩
    obtain ⟨e, he⟩ := key
    exact ⟨e, he, by simp [route, he]⟩
  · rintro ⟨hlen, hp⟩
    obtain ⟨p2v, hfill⟩ := new_mapping_fill_ok 0 (resize (reset s).phy_to_v dev.num_qubits none)
      (by simpa [resize_length] using hp)
    have hseed := seed_front_layer_ok net (clear_values net, s.front_layer) hout
    obtain ⟨r, hr⟩ := hseed
    obtain ⟨values, fl⟩ := r
    simp only [route_entry, hlen, if_true, new_mapping]
    simp only [show (resize ({ reset s with mapped := [], published := [] } : jit_router).phy_to_v
      dev.num_qubits none) = resize (reset s).phy_to_v dev.num_qubits none from rfl, hfill]
    simp only [show (reset s).front_layer = s.front_layer from rfl, hr]
    exact ⟨_, rfl, rfl⟩

theorem route_entry_fails_iff_bad_placement_witness :
    ∃ s1, route_entry line3 circuit_h_cx [some 0, none, some 1] (jit_router.init line3) = .ok s1 ∧
      s1.mapped = [] :=
  (route_entry_fails_iff_bad_placement line3 {} circuit_h_cx [some 0, none, some 1] true 10
    (jit_router.init line3) (by decide)).2
    ⟨by decide, fun p hp => by
      simp only [List.mem_cons, Option.some.injEq, List.mem_singleton, List.not_mem_nil,
        or_false] at hp
      rcases hp with rfl | hp | rfl
      · decide
      · exact absurd hp (by simp)
      · decide⟩

/-! ## The decay-reset period -/

/-- C7 (counterexample): with `num_rounds_decay_reset = 0` the call returns a mapped DAG
when no SWAP is needed: `H(q1); CX(q0, q1)` on the line from `[0, 1, 2]`. -/
theorem zero_reset_returns_mapped_dag :
    (route line3 config_zero_reset circuit_h_cx [some 0, some 1, some 2] true 10
      (jit_router.init line3)).toOption.map (fun r => r.mapped)
    = some [.one (.node 0) 1, .two (.node 1) ⟨0, false⟩ 1] := by
  decide

/-- C7 (amended): with `num_rounds_decay_reset = 0` a SWAP round never completes: once the
SWAP search `find_swap` has returned, the round fails on the remainder by zero, and so does
the driver loop in the first iteration in which the front layer emits nothing. -/
theorem zero_reset_fails_after_swap_search (dev : device) (cfg : jit_config) (net : Network)
    (k : Nat) (s : jit_router) (h0 : cfg.num_rounds_decay_reset = 0) :
    (∀ r, swap_round dev cfg net k s ≠ .ok r) ∧
    (∀ c s1, find_swap dev cfg net s = .ok (c, s1) →
      swap_round dev cfg net k s = .error .div_by_zero) ∧
    (∀ fuel s1, s.front_layer ≠ [] → try_add_front_layer dev net s = .ok (false, s1) →
      ∀ r, route_loop dev cfg net fuel k s ≠ .ok r) := by
  have hround : ∀ (k : Nat) (s : jit_router) r, swap_round dev cfg net k s ≠ .ok r := by
    intro k s r h
    unfold swap_round at h
    split at h
    · simp [update_decay, h0] at h
    · simp at h
  refine ⟨hround k s, ?_, ?_⟩
  · intro c s1 h
    obtain ⟨phy0, phy1⟩ := c
    simp [swap_round, h, update_decay, h0]
  · intro fuel s1 hne htry r h
    cases fuel with
    | zero => simp [route_loop, hne] at h
    | succ fuel =>
      simp only [route_loop, List.isEmpty_iff, hne, if_false, htry] at h
      split at h
      · rename_i s2 h2
        exact hround _ _ _ h2
      · simp at h

theorem zero_reset_fails_after_swap_search_witness :
    swap_round line3 config_zero_reset circuit_cx02 1 stuck_cx02 = .error .div_by_zero :=
  (zero_reset_fails_after_swap_search line3 config_zero_reset circuit_cx02 1 stuck_cx02 rfl).2.1
    (0, 1) stuck_cx02 (by decide!)

/-! ## State kept between calls -/

/-- C9 (failing input): after a first call with `finalize = false` that buffers `H(q0)` for
the unplaced `q0`, a second call for the empty circuit emits that stale gate, while a freshly
constructed router returns an empty mapped DAG for the same arguments. -/
theorem route_keeps_unexecuted_between_calls :
    (route single_qubit {} circuit_h [none] false 5
        (jit_router.init single_qubit)).toOption.map (fun r => r.unexectued)
      = some [[.node 0]] ∧
    (Except.bind (route single_qubit {} circuit_h [none] false 5 (jit_router.init single_qubit))
        (route single_qubit {} circuit_empty [none] true 5)).toOption.map (fun r => r.mapped)
      = some [.one (.node 0) 0] ∧
    (route single_qubit {} circuit_empty [none] true 5
        (jit_router.init single_qubit)).toOption.map (fun r => r.mapped)
      = some [] := by
  decide

/-! ## Free physical qubits -/

theorem mem_find_free_phy_from {l : List (Option Nat)} {i x : Nat} :
    x ∈ find_free_phy_from l i ↔ ∃ j, x = i + j ∧ l[j]? = some none := by
  induction l generalizing i with
  | nil => simp [find_free_phy_from]
  | cons a l ih =>
    cases a with
    | none =>
      simp only [find_free_phy_from, List.mem_cons, ih]
      constructor
      · rintro (h | ⟨j, hj, hl⟩)
        · exact ⟨0, by simpa using h, by simp⟩
        · exact ⟨j + 1, by omega, by simpa using hl⟩
      · rintro ⟨j, hj, hl⟩
        cases j with
        | zero => left; simpa using hj
        | succ j => right; exact ⟨j, by omega, by simpa using hl⟩
    | some v =>
      simp only [find_free_phy_from, ih]
      constructor
      · rintro ⟨j, hj, hl⟩
        exact ⟨j + 1, by omega, by simpa using hl⟩
      · rintro ⟨j, hj, hl⟩
        cases j with
        | zero => simp at hl
        | succ j => exact ⟨j, by omega, by simpa using hl⟩

theorem mem_find_free_phy {s : jit_router} {p : Nat} :
    p ∈ find_free_phy s ↔ s.phy_to_v[p]? = some none := by
  unfold find_free_phy
  rw [mem_find_free_phy_from]
  constructor
  · rintro ⟨j, hj, hl⟩
    have : p = j := by omega
    subst this; exact hl
  · intro h
    exact ⟨p, by omega, h⟩

theorem find_free_phy_from_sorted (l : List (Option Nat)) (i : Nat) :
    (find_free_phy_from l i).Pairwise (· < ·) := by
  induction l generalizing i with
  | nil => simp [find_free_phy_from]
  | cons a l ih =>
    cases a with
    | none =>
      simp only [find_free_phy_from, List.pairwise_cons]
      refine ⟨?_, ih (i + 1)⟩
      intro x hx
      rw [mem_find_free_phy_from] at hx
      obtain ⟨j, hj, _⟩ := hx
      omega
    | some v => exact ih (i + 1)

theorem find_free_phy_sorted (s : jit_router) : (find_free_phy s).Pairwise (· < ·) :=
  find_free_phy_from_sorted _ _

/-! ## The scans of the JIT placer -/

theorem place_two_inner_cases (dev : device) (x : Nat) (js : List Nat)
    (acc : Nat × Option Nat × Option Nat) :
    place_two_inner dev x js acc = acc ∨
      ∃ y ∈ js, place_two_inner dev x js acc = (dev.distance x y, some x, some y) := by
  induction js generalizing acc with
  | nil => left; rfl
  | cons j js ih =>
    simp only [place_two_inner]
    split
    · rcases ih acc with h | ⟨y, hy, h⟩
      · left; exact h
      · right; exact ⟨y, List.mem_cons_of_mem _ hy, h⟩
    · rcases ih (dev.distance x j, some x, some j) with h | ⟨y, hy, h⟩
      · right; exact ⟨j, List.mem_cons_self _ _, h⟩
      · right; exact ⟨y, List.mem_cons_of_mem _ hy, h⟩

theorem place_two_scan_cases (dev : device) (l : List Nat)
    (acc : Nat × Option Nat × Option Nat) :
    place_two_scan dev l acc = acc ∨
      ∃ x y, [x, y].Sublist l ∧ place_two_scan dev l acc = (dev.distance x y, some x, some y) := by
  induction l generalizing acc with
  | nil => left; rfl
  | cons i rest ih =>
    simp only [place_two_scan]
    rcases ih (place_two_inner dev i rest acc) with h | ⟨x, y, hs, h⟩
    · rcases place_two_inner_cases dev i rest acc with h1 | ⟨y, hy, h1⟩
      · left; rw [h, h1]
      · right
        refine ⟨i, y, ?_, by rw [h, h1]⟩
        exact List.Sublist.cons₂ _ (List.singleton_sublist.mpr hy)
    · right
      exact ⟨x, y, List.Sublist.cons _ hs, h⟩

/-- The pair chosen by `place_two_v` is either the pair it started from or two free qubits,
the first listed before the second. -/
theorem place_two_choice_cases (dev : device) (l : List Nat) (phy0 phy1 : Option Nat) :
    place_two_choice dev l phy0 phy1 = (phy0, phy1) ∨
      ∃ x y, [x, y].Sublist l ∧ place_two_choice dev l phy0 phy1 = (some x, some y) := by
  unfold place_two_choice
  split
  · rename_i a b
    right; exact ⟨a, b, List.Sublist.refl _, rfl⟩
  · rcases place_two_scan_cases dev l (2 ^ 32 - 1, phy0, phy1) with h | ⟨x, y, hs, h⟩
    · left; rw [h]
    · right; exact ⟨x, y, hs, by rw [h]⟩

theorem place_one_scan_mem (dev : device) (p1 : Nat) (fs : List Nat) (acc : Nat × Nat) :
    (place_one_scan dev p1 fs acc).2 = acc.2 ∨ (place_one_scan dev p1 fs acc).2 ∈ fs := by
  induction fs generalizing acc with
  | nil => left; rfl
  | cons f fs ih =>
    simp only [place_one_scan]
    split
    · rcases ih (dev.distance p1 f, f) with h | h
      · right; rw [h]; exact List.mem_cons_self _ _
      · right; exact List.mem_cons_of_mem _ h
    · rcases ih acc with h | h
      · left; exact h
      · right; exact List.mem_cons_of_mem _ h

/-! ## Effects of the mutators -/

theorem set_at_id_ok {α : Type} {xs ys : List α} {i : Option Nat} {x : α} :
    set_at_id xs i x = .ok ys ↔ ∃ a, i = some a ∧ a < xs.length ∧ ys = xs.set a x := by
  unfold set_at_id
  cases i with
  | none => simp
  | some a => simp [set_at_ok]

theorem jit_add_loop_eq {v2p : List (Option Nat)} {v : Nat} {gs : List gate_ref}
    {mapped m : List mapped_op} (h : jit_add_loop v2p v gs mapped = .ok m) :
    ∃ phy, (gs ≠ [] → v2p[v]? = some (some phy)) ∧ m = mapped ++ flushed gs phy := by
  induction gs generalizing mapped with
  | nil =>
    simp only [jit_add_loop, Except.ok.injEq] at h
    exact ⟨0, by simp, by simp [flushed, h]⟩
  | cons g gs ih =>
    simp only [jit_add_loop] at h
    split at h
    · rename_i phy hphy
      rw [at__ok] at hphy
      obtain ⟨phy1, h1, h2⟩ := ih h
      refine ⟨phy, fun _ => hphy, ?_⟩
      by_cases hgs : gs = []
      · subst hgs
        simp [flushed, create_op1] at h2 ⊢
        exact h2
      · have := h1 hgs
        rw [hphy] at this
        simp only [Option.some.injEq] at this
        subst this
        simp [h2, flushed, create_op1]
    · simp at h
    · simp at h

theorem jit_add_eq {v : Nat} {s s1 : jit_router} (h : jit_add v s = .ok s1) :
    v < s.unexectued.length ∧
    ∃ phy, (s.unexectued.getD v [] ≠ [] → s.v_to_phy[v]? = some (some phy)) ∧
      s1 = { s with mapped := s.mapped ++ flushed (s.unexectued.getD v []) phy,
                    unexectued := s.unexectued.set v [] } := by
  unfold jit_add at h
  split at h
  · rename_i hv
    refine ⟨hv, ?_⟩
    split at h
    · rename_i m hm
      obtain ⟨phy, h1, h2⟩ := jit_add_loop_eq hm
      refine ⟨phy, h1, ?_⟩
      simp only [Except.ok.injEq] at h
      rw [← h, h2]
    · simp at h
  · simp at h

theorem wire_to_phy_ok {s : jit_router} {w : wire_id} {p : Option Nat} :
    wire_to_phy s w = .ok p ↔ ∃ v, s.wire_to_v[w.uid]? = some v ∧ s.v_to_phy[v]? = some p := by
  unfold wire_to_phy
  cases h : at_ s.wire_to_v w.uid with
  | ok v =>
    rw [at__ok] at h
    simp [h, at__ok]
  | error e =>
    constructor
    · intro h1; simp at h1
    · rintro ⟨v, hv, _⟩
      rw [← at__ok] at hv
      rw [hv] at h
      simp at h

theorem add_op_eq {g : gate_ref} {w : wire_id} {s : jit_router} {r : Bool × jit_router}
    (h : add_op g w s = .ok r) :
    r.1 = true ∧ ∃ v, s.wire_to_v[w.uid]? = some v ∧
      ((s.v_to_phy[v]? = some none ∧ v < s.unexectued.length ∧
          r.2 = { s with unexectued := s.unexectued.set v (s.unexectued.getD v [] ++ [g]) }) ∨
       (∃ phy, s.v_to_phy[v]? = some (some phy) ∧
          r.2 = { s with mapped := s.mapped ++ [mapped_op.one g phy] })) := by
  unfold add_op at h
  split at h
  · rename_i hw
    obtain ⟨v, hv, hp⟩ := wire_to_phy_ok.mp hw
    have hv1 := at__ok.mpr hv
    simp only [hv1] at h
    split at h
    · rename_i hlt
      simp only [Except.ok.injEq] at h
      subst h
      exact ⟨rfl, v, hv, Or.inl ⟨hp, hlt, rfl⟩⟩
    · simp at h
  · rename_i phy0 hw
    obtain ⟨v, hv, hp⟩ := wire_to_phy_ok.mp hw
    simp only [Except.ok.injEq] at h
    subst h
    exact ⟨rfl, v, hv, Or.inr ⟨phy0, hp, rfl⟩⟩
  · simp at h

theorem add_swap_eq {dev : device} {phy0 phy1 : Nat} {s s1 : jit_router}
    (h : add_swap dev phy0 phy1 s = .ok s1) :
    dev.are_connected phy0 phy1 = true ∧
    ∃ v0 v1, s.phy_to_v[phy0]? = some v0 ∧ s.phy_to_v[phy1]? = some v1 ∧
      (∀ a, v0 = some a → a < s.v_to_phy.length) ∧
      (∀ b, v1 = some b → b < s.v_to_phy.length) ∧
      s1 = { s with v_to_phy := set_valid (set_valid s.v_to_phy v0 (some phy1)) v1 (some phy0),
                    phy_to_v := (s.phy_to_v.set phy0 v1).set phy1 v0,
                    mapped := s.mapped ++ [mapped_op.two .swap ⟨phy0, false⟩ phy1] } := by
  unfold add_swap at h
  split at h
  · rename_i hc
    refine ⟨hc, ?_⟩
    split at h
    · rename_i v0 v1 h0 h1
      rw [at__ok] at h0 h1
      refine ⟨v0, v1, h0, h1, ?_⟩
      split at h
      · rename_i v2p1 hv1
        split at h
        · rename_i v2p2 hv2
          simp only [Except.ok.injEq] at h
          cases v0 with
          | none =>
            simp only [Except.ok.injEq] at hv1
            subst hv1
            cases v1 with
            | none =>
              simp only [Except.ok.injEq] at hv2
              subst hv2
              refine ⟨by simp, by simp, ?_⟩
              rw [← h]; simp [set_valid, create_op2, hc]
            | some b =>
              simp only [set_at_ok] at hv2
              refine ⟨by simp, by simpa using hv2.1, ?_⟩
              rw [← h, hv2.2]; simp [set_valid, create_op2, hc]
          | some a =>
            simp only [set_at_ok] at hv1
            cases v1 with
            | none =>
              simp only [Except.ok.injEq] at hv2
              subst hv2
              refine ⟨by simpa using hv1.1, by simp, ?_⟩
              rw [← h, hv1.2]; simp [set_valid, create_op2, hc]
            | some b =>
              simp only [set_at_ok] at hv2
              refine ⟨by simpa using hv1.1, ?_, ?_⟩
              · have := hv2.1
                rw [hv1.2] at this
                simpa using this
              · rw [← h, hv2.2, hv1.2]; simp [set_valid, create_op2, hc]
        · simp at h
      · simp at h
    · simp at h
    · simp at h
  · simp at h

theorem place_two_v_eq {dev : device} {v0 v1 : Nat} {s s2 : jit_router}
    (h : place_two_v dev v0 v1 s = .ok s2) :
    ∃ phy0 phy1 a b s1, s.v_to_phy[v0]? = some phy0 ∧ s.v_to_phy[v1]? = some phy1 ∧
      2 ≤ (find_free_phy s).length ∧
      place_two_choice dev (find_free_phy s) phy0 phy1 = (some a, some b) ∧
      a < s.phy_to_v.length ∧ b < s.phy_to_v.length ∧
      jit_add v0 { s with v_to_phy := (s.v_to_phy.set v0 (some a)).set v1 (some b),
                          phy_to_v := (s.phy_to_v.set a (some v0)).set b (some v1) } = .ok s1 ∧
      jit_add v1 s1 = .ok s2 := by
  unfold place_two_v at h
  split at h
  · rename_i phy0 phy1 h0 h1
    rw [at__ok] at h0 h1
    split at h
    · rename_i hlen
      simp only at h
      split at h
      · rename_i v2p1 hv1
        split at h
        · rename_i v2p2 hv2
          split at h
          · rename_i p2v1 hp1
            split at h
            · rename_i p2v2 hp2
              split at h
              · rename_i s1 hs1
                rw [set_at_ok] at hv1 hv2
                rw [set_at_id_ok] at hp1 hp2
                obtain ⟨a, ha, hal, hp1e⟩ := hp1
                obtain ⟨b, hb, hbl, hp2e⟩ := hp2
                refine ⟨phy0, phy1, a, b, s1, h0, h1, hlen, ?_, hal, ?_, ?_, h⟩
                · rw [Prod.ext_iff]; exact ⟨ha, hb⟩
                · rw [hp1e] at hbl; simpa using hbl
                · rw [← hs1]
                  congr 2
                  · rw [hv2.2, hv1.2, ha, hb]
                  · rw [hp2e, hp1e]
              · simp at h
            · simp at h
          · simp at h
        · simp at h
      · simp at h
    · simp at h
  · simp at h
  · simp at h

theorem place_one_v_eq {dev : device} {v0 v1 : Nat} {s s1 : jit_router}
    (h : place_one_v dev v0 v1 s = .ok s1) :
    ∃ phy0 phy1 f0 fs pp, s.v_to_phy[v0]? = some phy0 ∧ s.v_to_phy[v1]? = some phy1 ∧
      find_free_phy s = f0 :: fs ∧ (if phy1 = none then phy0 else phy1) = some pp ∧
      (if phy1 = none then v1 else v0) < s.v_to_phy.length ∧
      (place_one_scan dev pp fs (dev.distance pp f0, f0)).2 < s.phy_to_v.length ∧
      jit_add (if phy1 = none then v1 else v0)
        { s with v_to_phy := s.v_to_phy.set (if phy1 = none then v1 else v0)
                    (some (place_one_scan dev pp fs (dev.distance pp f0, f0)).2),
                 phy_to_v := s.phy_to_v.set (place_one_scan dev pp fs (dev.distance pp f0, f0)).2
                    (some (if phy1 = none then v1 else v0)) } = .ok s1 := by
  unfold place_one_v at h
  split at h
  · rename_i phy0 phy1 h0 h1
    rw [at__ok] at h0 h1
    split at h
    · simp at h
    · rename_i f0 fs hfree
      simp only at h
      split at h
      · simp at h
      · rename_i pp hpp
        split at h
        · rename_i v2p hv
          split at h
          · rename_i p2v hp
            rw [set_at_ok] at hv hp
            refine ⟨phy0, phy1, f0, fs, pp, h0, h1, hfree, hpp, hv.1, hp.1, ?_⟩
            rw [← h, hv.2, hp.2]
          · simp at h
        · simp at h
  · simp at h
  · simp at h

/-- A successful `jit_add v` after `v` has been given the physical qubit `c`. -/
theorem jit_add_placed {v c : Nat} {s s1 : jit_router} (hv : s.v_to_phy[v]? = some (some c))
    (h : jit_add v s = .ok s1) :
    s1 = { s with mapped := s.mapped ++ flushed (s.unexectued.getD v []) c,
                  unexectued := s.unexectued.set v [] } := by
  obtain ⟨_, phy, h1, h2⟩ := jit_add_eq h
  by_cases hb : s.unexectued.getD v [] = []
  · rw [h2, hb]; simp [flushed]
  · have := h1 hb
    rw [hv] at this
    simp only [Option.some.injEq] at this
    rw [h2, this]

theorem place_one_v_placed {dev : device} {v0 v1 : Nat} {s s1 : jit_router}
    (h : place_one_v dev v0 v1 s = .ok s1) :
    ∃ phy0 phy1 f0 fs pp, s.v_to_phy[v0]? = some phy0 ∧ s.v_to_phy[v1]? = some phy1 ∧
      find_free_phy s = f0 :: fs ∧ (if phy1 = none then phy0 else phy1) = some pp ∧
      (if phy1 = none then v1 else v0) < s.unexectued.length ∧
      s1 = placed (if phy1 = none then v1 else v0)
            (place_one_scan dev pp fs (dev.distance pp f0, f0)).2 s := by
  obtain ⟨phy0, phy1, f0, fs, pp, h0, h1, hf, hpp, hlt, hc, hj⟩ := place_one_v_eq h
  refine ⟨phy0, phy1, f0, fs, pp, h0, h1, hf, hpp, (jit_add_eq hj).1, ?_⟩
  have := jit_add_placed (c := (place_one_scan dev pp fs (dev.distance pp f0, f0)).2)
    (by simp [hlt]) hj
  rw [this]; rfl

theorem place_two_v_placed {dev : device} {v0 v1 : Nat} {s s2 : jit_router}
    (hne : v0 ≠ v1) (h : place_two_v dev v0 v1 s = .ok s2) :
    ∃ phy0 phy1 a b, s.v_to_phy[v0]? = some phy0 ∧ s.v_to_phy[v1]? = some phy1 ∧
      2 ≤ (find_free_phy s).length ∧
      place_two_choice dev (find_free_phy s) phy0 phy1 = (some a, some b) ∧
      a < s.phy_to_v.length ∧ b < s.phy_to_v.length ∧
      v0 < s.unexectued.length ∧ v1 < s.unexectued.length ∧
      s2 = placed v1 b (placed v0 a s) := by
  obtain ⟨phy0, phy1, a, b, s1, h0, h1, hlen, hch, ha, hb, hj0, hj1⟩ := place_two_v_eq h
  have hv0 : v0 < s.v_to_phy.length := by
    rcases Nat.lt_or_ge v0 s.v_to_phy.length with hh | hh
    · exact hh
    · rw [List.getElem?_eq_none hh] at h0; simp at h0
  have hv1 : v1 < s.v_to_phy.length := by
    rcases Nat.lt_or_ge v1 s.v_to_phy.length with hh | hh
    · exact hh
    · rw [List.getElem?_eq_none hh] at h1; simp at h1
  have e1 := jit_add_placed (c := a) (by
    simp only [List.getElem?_set_ne (Ne.symm hne)]
    simp [hv0]) hj0
  have hb0 := (jit_add_eq hj0).1
  have hb1 := (jit_add_eq hj1).1
  have e2 := jit_add_placed (c := b) (by
    rw [e1]; simp [hv1]) hj1
  refine ⟨phy0, phy1, a, b, h0, h1, hlen, hch, ha, hb, hb0, ?_, ?_⟩
  · rw [e1] at hb1; simpa using hb1
  · rw [e2, e1]
    simp only [placed, List.getD_eq_getElem?_getD, List.getElem?_set_ne hne,
      List.append_assoc]

/-! ## Invariants of the driver loop -/

theorem select_extended_layer_frame {net : Network} {cfg : jit_config} {s s1 : jit_router}
    (h : select_extended_layer net cfg s = .ok s1) :
    ∃ el vals, s1 = { s with extended_layer := el, values := vals } := by
  unfold select_extended_layer at h
  split at h
  · split at h
    · simp only [Except.ok.injEq] at h
      exact ⟨_, _, h.symm⟩
    · simp at h
  · simp at h

theorem find_swap_frame {dev : device} {cfg : jit_config} {net : Network} {s s1 : jit_router}
    {c : Nat × Nat} (h : find_swap dev cfg net s = .ok (c, s1)) :
    ∃ el vals, s1 = { s with extended_layer := el, values := vals } := by
  unfold find_swap at h
  split at h
  · split at h
    · rename_i s2 hs2
      split at h
      · split at h
        · simp only [Except.ok.injEq, Prod.mk.injEq] at h
          obtain ⟨_, rfl⟩ := h
          split at hs2
          · exact select_extended_layer_frame hs2
          · simp only [Except.ok.injEq] at hs2
            subst hs2
            exact ⟨s.extended_layer, s.values, rfl⟩
        · simp at h
      · simp at h
    · simp at h
  · simp at h

section
variable {dev : device} {net : Network} {I : jit_router → Prop}

theorem loop_invariant.step (hI : loop_invariant dev net I)
    {acc acc1 : Bool × List Nat × jit_router} {n_id : Nat}
    (h : try_add_front_layer_step dev net acc n_id = .ok acc1) (hs : I acc.2.2) :
    I acc1.2.2 := by
  unfold try_add_front_layer_step at h
  split at h
  · rename_i op hop
    rw [at__ok] at hop
    split at h
    · simp only [Except.ok.injEq] at h
      subst h; exact hs
    · rename_i hmeta
      have hmeta : op.is_meta = false := by simpa using hmeta
      split at h
      · rename_i s1 hexec
        have hs1 : I s1 := by
          split at hexec
          · rename_i h1q
            exact hI.add_op n_id op _ _ hop hmeta h1q hexec hs
          · rename_i h1q
            exact hI.try_add_op n_id op _ _ hop hmeta (by simpa using h1q) hexec hs
        split at h
        · simp only [Except.ok.injEq] at h
          subst h
          exact hI.frame s1 s1.front_layer s1.extended_layer s1.involved_phy s1.phy_decay _ hs1
        · simp at h
      · rename_i s1 hexec
        have hs1 : I s1 := by
          split at hexec
          · rename_i h1q
            exact hI.add_op n_id op _ _ hop hmeta h1q hexec hs
          · rename_i h1q
            exact hI.try_add_op n_id op _ _ hop hmeta (by simpa using h1q) hexec hs
        split at h
        · split at h
          · split at h
            · simp only [Except.ok.injEq] at h
              subst h
              exact hI.frame s1 s1.front_layer s1.extended_layer _ s1.phy_decay s1.values hs1
            · simp at h
          · simp at h
        · simp at h
        · simp at h
      · simp at h
  · simp at h

theorem loop_invariant.loop (hI : loop_invariant dev net I) {ns : List Nat}
    {acc acc1 : Bool × List Nat × jit_router}
    (h : try_add_front_layer_loop dev net ns acc = .ok acc1) (hs : I acc.2.2) :
    I acc1.2.2 := by
  induction ns generalizing acc with
  | nil =>
    simp only [try_add_front_layer_loop, Except.ok.injEq] at h
    subst h; exact hs
  | cons n ns ih =>
    simp only [try_add_front_layer_loop] at h
    split at h
    · rename_i acc2 h2
      exact ih h (hI.step h2 hs)
    · simp at h

theorem loop_invariant.try_add_front_layer (hI : loop_invariant dev net I)
    {s : jit_router} {r : Bool × jit_router}
    (h : try_add_front_layer dev net s = .ok r) (hs : I s) : I r.2 := by
  unfold tweedledum.try_add_front_layer at h
  split at h
  · rename_i executed nfl s1 hl
    simp only [Except.ok.injEq] at h
    subst h
    have := hI.loop hl hs
    exact hI.frame s1 nfl s1.extended_layer s1.involved_phy s1.phy_decay s1.values this
  · simp at h

theorem loop_invariant.swap_round (hI : loop_invariant dev net I) {cfg : jit_config}
    {k : Nat} {s s1 : jit_router} (h : swap_round dev cfg net k s = .ok s1) (hs : I s) :
    I s1 := by
  unfold tweedledum.swap_round at h
  split at h
  · rename_i phy0 phy1 s2 hf
    obtain ⟨el, vals, rfl⟩ := find_swap_frame hf
    split at h
    · rename_i decay hd
      split at h
      · rename_i s3 h3
        simp only [Except.ok.injEq] at h
        subst h
        have h4 := hI.add_swap _ _ _ _ h3
          (hI.frame s s.front_layer el s.involved_phy decay vals hs)
        exact hI.frame s3 s3.front_layer s3.extended_layer _ s3.phy_decay s3.values h4
      · simp at h
    · simp at h
  · simp at h

theorem loop_invariant.route_loop (hI : loop_invariant dev net I) {cfg : jit_config}
    {fuel k : Nat} {s s1 : jit_router} (h : route_loop dev cfg net fuel k s = .ok s1)
    (hs : I s) : I s1 := by
  induction fuel generalizing k s with
  | zero =>
    simp only [tweedledum.route_loop] at h
    split at h
    · simp only [Except.ok.injEq] at h
      subst h; exact hs
    · simp at h
  | succ fuel ih =>
    simp only [tweedledum.route_loop] at h
    split at h
    · simp only [Except.ok.injEq] at h
      subst h; exact hs
    · split at h
      · rename_i s2 h2
        exact ih h (hI.try_add_front_layer h2 hs)
      · rename_i s2 h2
        split at h
        · rename_i s3 h3
          exact ih h (hI.swap_round h3 (hI.try_add_front_layer h2 hs))
        · simp at h
      · simp at h

end

/-! ## Adjacency -/

theorem all_conn_flushed {dev : device} {s : jit_router} (gs : List gate_ref) (phy : Nat)
    (h : all_conn dev s) : ∀ op ∈ s.mapped ++ flushed gs phy, conn_ok dev op := by
  intro op hop
  rcases List.mem_append.mp hop with h1 | h1
  · exact h op h1
  · simp only [flushed, List.mem_map] at h1
    obtain ⟨g, _, rfl⟩ := h1
    trivial

theorem all_conn_jit_add {dev : device} {v : Nat} {s s1 : jit_router}
    (h : jit_add v s = .ok s1) (hs : all_conn dev s) : all_conn dev s1 := by
  obtain ⟨_, phy, _, rfl⟩ := jit_add_eq h
  exact all_conn_flushed _ _ hs

theorem all_conn_add_op {dev : device} {g : gate_ref} {w : wire_id} {s : jit_router}
    {r : Bool × jit_router} (h : add_op g w s = .ok r) (hs : all_conn dev s) :
    all_conn dev r.2 := by
  obtain ⟨_, v, _, h1 | ⟨phy, _, h1⟩⟩ := add_op_eq h
  · rw [h1.2.2]; exact hs
  · rw [h1]
    intro op hop
    rcases List.mem_append.mp hop with h2 | h2
    · exact hs op h2
    · simp only [List.mem_singleton] at h2
      subst h2; trivial

theorem all_conn_add_swap {dev : device} {phy0 phy1 : Nat} {s s1 : jit_router}
    (h : add_swap dev phy0 phy1 s = .ok s1) (hs : all_conn dev s) : all_conn dev s1 := by
  obtain ⟨hc, v0, v1, _, _, _, _, rfl⟩ := add_swap_eq h
  intro op hop
  rcases List.mem_append.mp hop with h2 | h2
  · exact hs op h2
  · simp only [List.mem_singleton] at h2
    subst h2; exact hc

theorem all_conn_place_two_v {dev : device} {v0 v1 : Nat} {s s1 : jit_router}
    (h : place_two_v dev v0 v1 s = .ok s1) (hs : all_conn dev s) : all_conn dev s1 := by
  obtain ⟨_, _, a, b, s2, _, _, _, _, _, _, hj0, hj1⟩ := place_two_v_eq h
  exact all_conn_jit_add hj1 (all_conn_jit_add hj0 hs)

theorem all_conn_place_one_v {dev : device} {v0 v1 : Nat} {s s1 : jit_router}
    (h : place_one_v dev v0 v1 s = .ok s1) (hs : all_conn dev s) : all_conn dev s1 := by
  obtain ⟨_, _, _, _, _, _, _, _, _, _, _, hj⟩ := place_one_v_eq h
  exact all_conn_jit_add hj hs

theorem all_conn_try_add_op_place {dev : device} {w0 w1 : wire_id} {s : jit_router}
    {r : jit_router × Option Nat × Option Nat}
    (h : try_add_op_place dev w0 w1 s = .ok r) (hs : all_conn dev s) : all_conn dev r.1 := by
  unfold try_add_op_place at h
  split at h
  · split at h
    · split at h
      · split at h
        · rename_i s1 hs1
          split at h
          · simp only [Except.ok.injEq] at h
            subst h
            split at hs1
            · exact all_conn_place_two_v hs1 hs
            · exact all_conn_place_one_v hs1 hs
          · simp at h
          · simp at h
        · simp at h
      · simp at h
      · simp at h
    · simp only [Except.ok.injEq] at h
      subst h; exact hs
  · simp at h
  · simp at h

theorem all_conn_try_add_op {dev : device} {g : gate_ref} {w0 w1 : wire_id} {s : jit_router}
    {r : Bool × jit_router} (h : try_add_op dev g w0 w1 s = .ok r) (hs : all_conn dev s) :
    all_conn dev r.2 := by
  unfold try_add_op at h
  split at h
  · rename_i s1 phy0 phy1 hp
    have h1 := all_conn_try_add_op_place hp hs
    split at h
    · rename_i hc
      simp only [Except.ok.injEq] at h
      subst h
      intro op hop
      simp only [create_op2, hc, if_true] at hop
      rcases List.mem_append.mp hop with h2 | h2
      · exact h1 op h2
      · simp only [List.mem_singleton] at h2
        subst h2; exact hc
    · simp only [Except.ok.injEq] at h
      subst h; exact h1
  · simp at h
  · simp at h

theorem all_conn_loop_invariant (dev : device) (net : Network) :
    loop_invariant dev net (all_conn dev) where
  add_op := fun _ _ _ _ _ _ _ h hs => all_conn_add_op h hs
  try_add_op := fun _ _ _ _ _ _ _ h hs => all_conn_try_add_op h hs
  add_swap := fun _ _ _ _ h hs => all_conn_add_swap h hs
  frame := fun _ _ _ _ _ _ hs => hs

theorem all_conn_finalize_loop {dev : device} {n i : Nat} {free_phy : List Nat}
    {s s1 : jit_router} (h : finalize_loop n i free_phy s = .ok s1) (hs : all_conn dev s) :
    all_conn dev s1 := by
  induction n generalizing i free_phy s with
  | zero =>
    simp only [finalize_loop, Except.ok.injEq] at h
    subst h; exact hs
  | succ n ih =>
    simp only [finalize_loop] at h
    split at h
    · split at h
      · simp at h
      · split at h
        · split at h
          · rename_i s2 h2
            exact ih h (all_conn_jit_add h2 hs)
          · simp at h
        · simp at h
    · exact ih h hs
    · simp at h

theorem route_entry_mapped {dev : device} {net : Network} {placement : List (Option Nat)}
    {s s1 : jit_router} (h : route_entry dev net placement s = .ok s1) : s1.mapped = [] := by
  unfold route_entry at h
  split at h
  · split at h
    · rename_i s2 h2
      split at h
      · simp only [Except.ok.injEq] at h
        subst h
        unfold new_mapping at h2
        split at h2
        · simp only [Except.ok.injEq] at h2
          subst h2; rfl
        · simp at h2
      · simp at h
    · simp at h
  · simp at h

/-- The three stages of a call of `route` that returns. -/
theorem route_ok {dev : device} {cfg : jit_config} {net : Network}
    {placement : List (Option Nat)} {finalize : Bool} {fuel : Nat} {s r : jit_router}
    (h : route dev cfg net placement finalize fuel s = .ok r) :
    ∃ s1 s2 s3, route_entry dev net placement s = .ok s1 ∧
      route_loop dev cfg net fuel 0 s1 = .ok s2 ∧
      (if finalize then finalize_loop s2.v_to_phy.length 0 (find_free_phy s2).reverse s2
       else .ok s2) = .ok s3 ∧
      r = { s3 with published := s3.v_to_phy } := by
  unfold route at h
  split at h
  · rename_i s1 h1
    split at h
    · rename_i s2 h2
      split at h
      · rename_i s3 h3
        simp only [Except.ok.injEq] at h
        exact ⟨s1, s2, s3, h1, h2, h3, h.symm⟩
      · simp at h
    · simp at h
  · simp at h

theorem route_all_conn {dev : device} {cfg : jit_config} {net : Network}
    {placement : List (Option Nat)} {finalize : Bool} {fuel : Nat} {s r : jit_router}
    (h : route dev cfg net placement finalize fuel s = .ok r) : all_conn dev r := by
  obtain ⟨s1, s2, s3, h1, h2, h3, rfl⟩ := route_ok h
  have a1 : all_conn dev s1 := by
    intro op hop
    rw [route_entry_mapped h1] at hop
    simp at hop
  have a2 := (all_conn_loop_invariant dev net).route_loop h2 a1
  have a3 : all_conn dev s3 := by
    split at h3
    · exact all_conn_finalize_loop h3 a2
    · simp only [Except.ok.injEq] at h3
      subst h3; exact a2
  exact a3

/-- C1: every two-qubit gate of the input that `route` emits into the mapped DAG, for
either value of `finalize`, acts on a pair of physical qubits that the device connects. -/
theorem route_emits_two_qubit_gates_on_connected_pairs (dev : device) (cfg : jit_config)
    (net : Network) (placement : List (Option Nat)) (finalize : Bool) (fuel : Nat)
    (s r : jit_router) (h : route dev cfg net placement finalize fuel s = .ok r) :
    ∀ n phy0 phy1, mapped_op.two (.node n) phy0 phy1 ∈ r.mapped →
      dev.are_connected phy0.uid phy1 = true :=
  fun _ _ _ hop => route_all_conn h _ hop

theorem route_h_cx :
    route line3 {} circuit_h_cx [some 0, none, some 1] true 10 (jit_router.init line3)
      = .ok routed_h_cx := by
  decide!

theorem route_emits_two_qubit_gates_on_connected_pairs_witness :
    route line3 {} circuit_h_cx [some 0, none, some 1] true 10 (jit_router.init line3)
      = .ok routed_h_cx ∧
    mapped_op.two (.node 1) ⟨1, false⟩ 2 ∈ routed_h_cx.mapped ∧
    line3.are_connected 1 2 = true :=
  ⟨route_h_cx, by decide,
    route_emits_two_qubit_gates_on_connected_pairs line3 {} circuit_h_cx
      [some 0, none, some 1] true 10 (jit_router.init line3) routed_h_cx route_h_cx
      1 ⟨1, false⟩ 2 (by decide)⟩

theorem incr_all_append (values : List Nat) (ids : List Nat) (c : Nat) :
    incr_all values (ids ++ [c]) = (incr_value (incr_all values ids) c).1 := by
  simp [incr_all, List.foldl_append]

theorem incr_all_length (values : List Nat) (ids : List Nat) :
    (incr_all values ids).length = values.length := by
  induction ids generalizing values with
  | nil => rfl
  | cons c ids ih =>
    simp only [incr_all, List.foldl_cons] at ih ⊢
    rw [ih]; simp [incr_value]

theorem incr_all_getD (values : List Nat) (ids : List Nat) (n : Nat) (hn : n < values.length) :
    (incr_all values ids).getD n 0 = values.getD n 0 + ids.count n := by
  induction ids generalizing values with
  | nil => simp [incr_all]
  | cons c ids ih =>
    simp only [incr_all, List.foldl_cons] at ih ⊢
    rw [ih _ (by simpa [incr_value] using hn)]
    simp only [incr_value, List.getD_eq_getElem?_getD, List.getElem?_set, List.count_cons]
    by_cases hc : c = n
    · subst hc; simp [hn]; omega
    · simp [hc]

theorem undo_increment_spec {net : Network} {ids : List Nat} {values v : List Nat}
    (h : undo_increment net ids values = .ok v) :
    v.length = values.length ∧ ∀ n, v.getD n 0 + ids.count n = values.getD n 0 := by
  induction ids generalizing values with
  | nil =>
    simp only [undo_increment, Except.ok.injEq] at h
    subst h; simp
  | cons c ids ih =>
    simp only [undo_increment] at h
    split at h
    · split at h
      · rename_i values1 h1
        unfold decr_value at h1
        split at h1
        · rename_i hpos
          simp only [Except.ok.injEq] at h1
          subst h1
          obtain ⟨hl, hg⟩ := ih h
          refine ⟨by simpa using hl, fun n => ?_⟩
          have := hg n
          simp only [List.getD_eq_getElem?_getD, List.getElem?_set, List.count_cons] at this ⊢
          by_cases hc : c = n
          · subst hc
            simp only [List.getD_eq_getElem?_getD] at hpos
            by_cases hlt : c < values.length
            · simp [hlt] at this ⊢
              simp [hlt] at hpos
              omega
            · simp [List.getElem?_eq_none (Nat.le_of_not_lt hlt)] at hpos
          · simp [hc] at this ⊢
            exact this
        · simp at h1
      · simp at h
    · simp at h

/-- Undoing the recorded increments gives back the counters the pass started from. -/
theorem undo_increment_incr_all {net : Network} {ids : List Nat} {v0 v : List Nat}
    (h : undo_increment net ids (incr_all v0 ids) = .ok v) : v = v0 := by
  obtain ⟨hl, hg⟩ := undo_increment_spec h
  rw [incr_all_length] at hl
  apply List.ext_getElem hl
  intro n h1 h2
  have := hg n
  rw [incr_all_getD _ _ _ h2] at this
  simp only [List.getD_eq_getElem?_getD, List.getElem?_eq_getElem h1,
    List.getElem?_eq_getElem h2, Option.getD_some] at this
  omega

theorem extend_children_spec {net : Network} {cs : List Nat} {acc acc1 : ext_acc}
    (h : extend_children net cs acc = .ok acc1) :
    acc1.extended_layer.length ≤ acc.extended_layer.length + cs.length ∧
    ∀ v0, ext_consistent v0 acc → ext_consistent v0 acc1 := by
  induction cs generalizing acc with
  | nil =>
    simp only [extend_children, Except.ok.injEq] at h
    subst h; exact ⟨by simp, fun _ hc => hc⟩
  | cons c cs ih =>
    simp only [extend_children] at h
    split at h
    · split at h
      · obtain ⟨h1, h2⟩ := ih h
        exact ⟨by simp at h1 ⊢; omega, h2⟩
      · have step : ∀ v0, ext_consistent v0 acc → (incr_value acc.values c).1 =
            incr_all v0 (acc.incremented_nodes ++ [c]) := by
          intro v0 hc
          rw [incr_all_append, ← hc]
        split at h
        · split at h
          · obtain ⟨h1, h2⟩ := ih h
            refine ⟨by simp at h1 ⊢; omega, fun v0 hc => h2 v0 ?_⟩
            exact step v0 hc
          · obtain ⟨h1, h2⟩ := ih h
            refine ⟨by simp at h1 ⊢; omega, fun v0 hc => h2 v0 ?_⟩
            exact step v0 hc
        · obtain ⟨h1, h2⟩ := ih h
          refine ⟨by simp at h1 ⊢; omega, fun v0 hc => h2 v0 ?_⟩
          exact step v0 hc
    · simp at h

theorem extend_layer_spec {net : Network} {e D : Nat} {ns : List Nat} {acc acc1 : ext_acc}
    {b : Bool} (hD : ∀ n, (net.children.getD n []).length ≤ D)
    (h : extend_layer net e ns acc = .ok (b, acc1))
    (hlen : acc.extended_layer.length ≤ e - 1) :
    acc1.extended_layer.length ≤ e - 1 + D ∧
    (b = false → acc1.extended_layer.length ≤ e - 1) ∧
    ∀ v0, ext_consistent v0 acc → ext_consistent v0 acc1 := by
  induction ns generalizing acc with
  | nil =>
    simp only [extend_layer, Except.ok.injEq, Prod.mk.injEq] at h
    obtain ⟨_, rfl⟩ := h
    exact ⟨by omega, fun _ => hlen, fun _ hc => hc⟩
  | cons n ns ih =>
    simp only [extend_layer] at h
    split at h
    · split at h
      · rename_i acc2 h2
        obtain ⟨hc1, hc2⟩ := extend_children_spec h2
        have := hD n
        split at h
        · simp only [Except.ok.injEq, Prod.mk.injEq] at h
          obtain ⟨rfl, rfl⟩ := h
          exact ⟨by omega, by simp, hc2⟩
        · rename_i hlt
          obtain ⟨i1, i2, i3⟩ := ih h (by omega)
          exact ⟨i1, i2, fun v0 hc => i3 v0 (hc2 v0 hc)⟩
      · simp at h
    · simp at h

theorem extend_loop_spec {net : Network} {e D fuel : Nat} {tmp : List Nat} {acc acc1 : ext_acc}
    (hD : ∀ n, (net.children.getD n []).length ≤ D)
    (h : extend_loop net e fuel tmp acc = .ok acc1)
    (hlen : acc.extended_layer.length ≤ e - 1) :
    acc1.extended_layer.length ≤ e - 1 + D ∧
    ∀ v0, ext_consistent v0 acc → ext_consistent v0 acc1 := by
  induction fuel generalizing tmp acc with
  | zero =>
    simp only [extend_loop] at h
    split at h
    · simp only [Except.ok.injEq] at h
      subst h; exact ⟨by omega, fun _ hc => hc⟩
    · simp at h
  | succ fuel ih =>
    simp only [extend_loop] at h
    split at h
    · simp only [Except.ok.injEq] at h
      subst h; exact ⟨by omega, fun _ hc => hc⟩
    · split at h
      · rename_i acc2 h2
        simp only [Except.ok.injEq] at h
        subst h
        obtain ⟨i1, _, i3⟩ := extend_layer_spec hD h2 (by simpa using hlen)
        exact ⟨i1, fun v0 hc => i3 v0 hc⟩
      · rename_i acc2 h2
        obtain ⟨_, i2, i3⟩ := extend_layer_spec hD h2 (by simpa using hlen)
        obtain ⟨j1, j2⟩ := ih h (i2 rfl)
        exact ⟨j1, fun v0 hc => j2 v0 (i3 v0 hc)⟩
      · simp at h

theorem children_length_le_max (net : Network) (n : Nat) :
    (net.children.getD n []).length ≤ (net.children.map List.length).foldr max 0 := by
  by_cases hn : n < net.children.length
  · have hmem : net.children[n].length ∈ net.children.map List.length :=
      List.mem_map.mpr ⟨_, List.getElem_mem hn, rfl⟩
    simp only [List.getD_eq_getElem?_getD, List.getElem?_eq_getElem hn, Option.getD_some]
    exact List.le_max_of_le hmem (le_refl _)
  · simp [List.getD_eq_getElem?_getD, List.getElem?_eq_none (Nat.le_of_not_lt hn)]

/-- The counters after `select_extended_layer` are the counters before it. -/
theorem select_extended_layer_values {net : Network} {cfg : jit_config} {s s1 : jit_router}
    (h : select_extended_layer net cfg s = .ok s1) : s1.values = s.values := by
  unfold select_extended_layer at h
  split at h
  · rename_i acc hacc
    split at h
    · rename_i values hu
      simp only [Except.ok.injEq] at h
      subst h
      have hc := (extend_loop_spec (children_length_le_max net) hacc (by simp)).2 s.values rfl
      unfold ext_consistent at hc
      rw [hc] at hu
      exact undo_increment_incr_all hu
    · simp at h
  · simp at h

/-- The size of the extended layer after `select_extended_layer`, when no node has more than
`D` children. -/
theorem select_extended_layer_length {net : Network} {cfg : jit_config} {s s1 : jit_router}
    {D : Nat} (hD : ∀ n, (net.children.getD n []).length ≤ D)
    (h : select_extended_layer net cfg s = .ok s1) :
    s1.extended_layer.length ≤ cfg.e_set_size - 1 + D := by
  unfold select_extended_layer at h
  split at h
  · rename_i acc hacc
    split at h
    · simp only [Except.ok.injEq] at h
      subst h
      exact (extend_loop_spec hD hacc (by simp)).1
    · simp at h
  · simp at h

theorem find_swap_values {dev : device} {cfg : jit_config} {net : Network} {s s1 : jit_router}
    {c : Nat × Nat} (h : find_swap dev cfg net s = .ok (c, s1)) : s1.values = s.values := by
  unfold find_swap at h
  split at h
  · split at h
    · rename_i s2 hs2
      split at h
      · split at h
        · simp only [Except.ok.injEq, Prod.mk.injEq] at h
          obtain ⟨_, rfl⟩ := h
          split at hs2
          · exact select_extended_layer_values hs2
          · simp only [Except.ok.injEq] at hs2
            subst hs2; rfl
        · simp at h
      · simp at h
    · simp at h
  · simp at h

/-- C6 (counterexample): after routing `H(q1); CX(q0, q1)` the discharge counters are
`[1, 2]`, not the zeros left by `clear_values`. -/
theorem route_leaves_counters_incremented :
    (route line3 {} circuit_h_cx [some 0, none, some 1] true 10
      (jit_router.init line3)).toOption.map (fun r => r.values) = some [1, 2] ∧
    clear_values circuit_h_cx = [0, 0] := by
  constructor
  · decide!
  · decide

/-- C6 (amended): a SWAP round of the driver loop, the only place where the look-ahead
runs, leaves every discharge counter of the input DAG as it found it. -/
theorem swap_round_keeps_counters (dev : device) (cfg : jit_config) (net : Network) (k : Nat)
    (s s1 : jit_router) (h : swap_round dev cfg net k s = .ok s1) : s1.values = s.values := by
  unfold swap_round at h
  split at h
  · rename_i phy0 phy1 s2 hf
    have hv := find_swap_values hf
    split at h
    · split at h
      · rename_i s3 h3
        simp only [Except.ok.injEq] at h
        subst h
        obtain ⟨_, _, _, _, _, _, _, rfl⟩ := add_swap_eq h3
        exact hv
      · simp at h
    · simp at h
  · simp at h

theorem swap_round_cx02 :
    swap_round line3 {} circuit_cx02 1 stuck_cx02 = .ok swapped_cx02 := by
  decide!

theorem swap_round_keeps_counters_witness : swapped_cx02.values = stuck_cx02.values :=
  swap_round_keeps_counters line3 {} circuit_cx02 1 stuck_cx02 swapped_cx02 swap_round_cx02

/-- C10 (counterexample): with `e_set_size = 1`, the look-ahead for the blocked front layer
of `circuit_square` on `ring4` returns an extended layer of two nodes. -/
theorem extended_layer_exceeds_e_set_size :
    (Except.bind (route_entry ring4 circuit_square [some 0, some 1, some 2, some 3]
        (jit_router.init ring4)) (fun s1 =>
      Except.bind (try_add_front_layer ring4 circuit_square s1) (fun r =>
        select_extended_layer circuit_square { e_set_size := 1 } r.2))).toOption.map
      (fun s => s.extended_layer) = some [2, 3] := by
  decide

/-- C10 (amended): when no node has more than `D` children, the extended layer after
`select_extended_layer` has at most `e_set_size - 1 + D` nodes: the size is compared with
`e_set_size` only after the whole child scan of a frontier node. -/
theorem extended_layer_length_le (net : Network) (cfg : jit_config) (s s1 : jit_router)
    (D : Nat) (hD : ∀ n, (net.children.getD n []).length ≤ D)
    (h : select_extended_layer net cfg s = .ok s1) :
    s1.extended_layer.length ≤ cfg.e_set_size - 1 + D :=
  select_extended_layer_length hD h

theorem select_extended_layer_square :
    select_extended_layer circuit_square { e_set_size := 1 } stuck_square
      = .ok { stuck_square with extended_layer := [2, 3] } := by
  decide

theorem extended_layer_length_le_witness :
    ({ stuck_square with extended_layer := [2, 3] } : jit_router).extended_layer.length
      ≤ 1 - 1 + 2 :=
  extended_layer_length_le circuit_square { e_set_size := 1 } stuck_square
    { stuck_square with extended_layer := [2, 3] } 2 (children_length_le_max circuit_square)
    select_extended_layer_square

theorem getElem?_lt_of_eq_some {α : Type} {xs : List α} {i : Nat} {x : α}
    (h : xs[i]? = some x) : i < xs.length := by
  rcases Nat.lt_or_ge i xs.length with hh | hh
  · exact hh
  · rw [List.getElem?_eq_none hh] at h; simp at h

theorem place_two_v_steps {dev : device} {v0 v1 : Nat} {s s2 : jit_router}
    (hne : v0 ≠ v1) (h0 : s.v_to_phy[v0]? = some none) (h1 : s.v_to_phy[v1]? = some none)
    (h : place_two_v dev v0 v1 s = .ok s2) : jit_placements s s2 := by
  obtain ⟨phy0, phy1, a, b, e0, e1, _, hch, ha, hb, hb0, hb1, rfl⟩ := place_two_v_placed hne h
  rw [h0] at e0; rw [h1] at e1
  simp only [Option.some.injEq] at e0 e1
  subst e0 e1
  rcases place_two_choice_cases dev (find_free_phy s) none none with hc | ⟨x, y, hs, hc⟩
  · rw [hc] at hch; simp at hch
  · rw [hc] at hch
    simp only [Prod.mk.injEq, Option.some.injEq] at hch
    obtain ⟨rfl, rfl⟩ := hch
    have hx : x ∈ find_free_phy s := hs.subset (by simp)
    have hy : y ∈ find_free_phy s := hs.subset (by simp)
    have hlt : x < y := by
      have := (find_free_phy_sorted s).sublist hs
      simpa using this
    rw [mem_find_free_phy] at hx hy
    refine .step _ _ v0 x h0 hx hb0 (.step _ _ v1 y ?_ ?_ ?_ (.refl _))
    · simp only [placed, List.getElem?_set_ne hne]; exact h1
    · simp only [placed, List.getElem?_set_ne (Nat.ne_of_lt hlt)]; exact hy
    · simpa [placed] using hb1

theorem place_one_scan_mem_cons (dev : device) (p1 f0 : Nat) (fs : List Nat) :
    (place_one_scan dev p1 fs (dev.distance p1 f0, f0)).2 ∈ f0 :: fs := by
  rcases place_one_scan_mem dev p1 fs (dev.distance p1 f0, f0) with h | h
  · rw [h]; exact List.mem_cons_self _ _
  · exact List.mem_cons_of_mem _ h

theorem place_one_v_steps {dev : device} {v0 v1 : Nat} {s s1 : jit_router} {phy0 phy1 : Option Nat}
    (h0 : s.v_to_phy[v0]? = some phy0) (h1 : s.v_to_phy[v1]? = some phy1)
    (hnone : phy0 = none ∨ phy1 = none)
    (h : place_one_v dev v0 v1 s = .ok s1) : jit_placements s s1 := by
  obtain ⟨q0, q1, f0, fs, pp, e0, e1, hf, hpp, hb, rfl⟩ := place_one_v_placed h
  rw [h0] at e0; rw [h1] at e1
  simp only [Option.some.injEq] at e0 e1
  subst e0 e1
  have hmem : (place_one_scan dev pp fs (dev.distance pp f0, f0)).2 ∈ find_free_phy s := by
    rw [hf]; exact place_one_scan_mem_cons dev pp f0 fs
  rw [mem_find_free_phy] at hmem
  refine .step _ _ _ _ ?_ hmem hb (.refl _)
  by_cases hp1 : phy1 = none
  · simp only [hp1, if_true]; rw [h1, hp1]
  · simp only [hp1, if_false]
    rcases hnone with hh | hh
    · rw [h0, hh]
    · exact absurd hh hp1

theorem jit_placements_wire_to_v {s s1 : jit_router} (h : jit_placements s s1) :
    s1.wire_to_v = s.wire_to_v := by
  induction h with
  | refl => rfl
  | step s s1 v c _ _ _ _ ih => rw [ih]; rfl

/-- The placement step of `try_add_op`, for operands that are different virtual qubits. -/
theorem try_add_op_place_steps {dev : device} {w0 w1 : wire_id} {s s1 : jit_router}
    {q0 q1 : Option Nat}
    (hne : ∀ v0 v1, s.wire_to_v[w0.uid]? = some v0 → s.wire_to_v[w1.uid]? = some v1 → v0 ≠ v1)
    (h : try_add_op_place dev w0 w1 s = .ok (s1, q0, q1)) :
    jit_placements s s1 ∧
    ∃ v0 v1, s.wire_to_v[w0.uid]? = some v0 ∧ s.wire_to_v[w1.uid]? = some v1 ∧
      s1.v_to_phy[v0]? = some q0 ∧ s1.v_to_phy[v1]? = some q1 := by
  unfold try_add_op_place at h
  split at h
  · rename_i phy0 phy1 hw0 hw1
    obtain ⟨v0, hv0, hp0⟩ := wire_to_phy_ok.mp hw0
    obtain ⟨v1, hv1, hp1⟩ := wire_to_phy_ok.mp hw1
    have hvne := hne v0 v1 hv0 hv1
    split at h
    · rename_i hnone
      simp only [at__ok.mpr hv0, at__ok.mpr hv1] at h
      split at h
      · rename_i s2 hpl
        have hsteps : jit_placements s s2 := by
          split at hpl
          · rename_i hboth
            rw [hboth.1] at hp0; rw [hboth.2] at hp1
            exact place_two_v_steps hvne hp0 hp1 hpl
          · exact place_one_v_steps hp0 hp1 hnone hpl
        split at h
        · rename_i r0 r1 hr0 hr1
          simp only [Except.ok.injEq, Prod.mk.injEq] at h
          obtain ⟨rfl, rfl, rfl⟩ := h
          obtain ⟨u0, hu0, hq0⟩ := wire_to_phy_ok.mp hr0
          obtain ⟨u1, hu1, hq1⟩ := wire_to_phy_ok.mp hr1
          rw [jit_placements_wire_to_v hsteps] at hu0 hu1
          rw [hv0] at hu0; rw [hv1] at hu1
          simp only [Option.some.injEq] at hu0 hu1
          subst hu0 hu1
          exact ⟨hsteps, v0, v1, hv0, hv1, hq0, hq1⟩
        · simp at h
        · simp at h
      · simp at h
    · simp only [Except.ok.injEq, Prod.mk.injEq] at h
      obtain ⟨rfl, rfl, rfl⟩ := h
      exact ⟨.refl _, v0, v1, hv0, hv1, hp0, hp1⟩
  · simp at h
  · simp at h

/-- The effect of `try_add_op` for operands that are different virtual qubits: JIT
placements, after which both operands sit on physical qubits, and the emission of the gate
exactly when the two are connected. -/
theorem try_add_op_steps {dev : device} {g : gate_ref} {w0 w1 : wire_id} {s : jit_router}
    {r : Bool × jit_router}
    (hne : ∀ v0 v1, s.wire_to_v[w0.uid]? = some v0 → s.wire_to_v[w1.uid]? = some v1 → v0 ≠ v1)
    (h : try_add_op dev g w0 w1 s = .ok r) :
    ∃ s1 v0 v1 phy0 phy1, jit_placements s s1 ∧
      s.wire_to_v[w0.uid]? = some v0 ∧ s.wire_to_v[w1.uid]? = some v1 ∧
      s1.v_to_phy[v0]? = some (some phy0) ∧ s1.v_to_phy[v1]? = some (some phy1) ∧
      ((r.1 = true ∧ dev.are_connected phy0 phy1 = true ∧
          r.2 = { s1 with mapped := s1.mapped ++
                    [mapped_op.two g ⟨phy0, w0.is_complemented⟩ phy1] }) ∨
       (r.1 = false ∧ dev.are_connected phy0 phy1 = false ∧ r.2 = s1)) := by
  unfold try_add_op at h
  split at h
  · rename_i s1 phy0 phy1 hp
    obtain ⟨hsteps, v0, v1, hv0, hv1, hq0, hq1⟩ := try_add_op_place_steps hne hp
    refine ⟨s1, v0, v1, phy0, phy1, hsteps, hv0, hv1, hq0, hq1, ?_⟩
    split at h
    · rename_i hc
      simp only [Except.ok.injEq] at h
      subst h
      left
      simp [create_op2, hc]
    · rename_i hc
      simp only [Except.ok.injEq] at h
      subst h
      right
      simpa using hc
  · simp at h
  · simp at h

theorem swap_phy_involutive (p0 p1 p : Nat) : swap_phy p0 p1 (swap_phy p0 p1 p) = p := by
  unfold swap_phy
  split_ifs <;> simp_all

theorem apply_swaps_phy_append (a b : List mapped_op) (p : Nat) :
    apply_swaps_phy (a ++ b) p = apply_swaps_phy b (apply_swaps_phy a p) := by
  induction a generalizing p with
  | nil => rfl
  | cons op a ih =>
    cases op with
    | one g phy => simp [apply_swaps_phy, ih]
    | two g phy0 phy1 =>
      cases g with
      | node n => simp [apply_swaps_phy, ih]
      | swap => simp [apply_swaps_phy, ih]

theorem apply_swaps_phy_flushed (gs : List gate_ref) (c p : Nat) :
    apply_swaps_phy (flushed gs c) p = p := by
  induction gs with
  | nil => rfl
  | cons g gs ih => simpa [flushed, apply_swaps_phy] using ih

theorem coherent_placed {N v c : Nat} {s : jit_router} (h : coherent N s)
    (hv : s.v_to_phy[v]? = some none) (hc : s.phy_to_v[c]? = some none) :
    coherent N (placed v c s) := by
  obtain ⟨h1, h2, h3⟩ := h
  have hvl := getElem?_lt_of_eq_some hv
  have hcl := getElem?_lt_of_eq_some hc
  refine ⟨by simp [placed, h1], by simp [placed, h2], fun v1 p1 => ?_⟩
  simp only [placed, List.getElem?_set]
  by_cases e1 : v = v1
  · subst e1
    by_cases e2 : c = p1
    · subst e2; simp [hvl, hcl]
    · simp only [if_true, hvl, e2, if_false]
      constructor
      · intro hh; simp at hh; exact absurd hh e2
      · intro hh
        have := (h3 v p1).mpr hh
        rw [hv] at this; simp at this
  · by_cases e2 : c = p1
    · subst e2
      simp only [e1, if_false, if_true, hcl]
      constructor
      · intro hh
        have := (h3 v1 c).mp hh
        rw [hc] at this; simp at this
      · intro hh; simp at hh; exact absurd hh e1
    · simp only [e1, e2, if_false]
      exact h3 v1 p1

theorem tracks_placed {placement : List (Option Nat)} {v c : Nat} {s : jit_router}
    (h : tracks placement s) (hv : s.v_to_phy[v]? = some none) :
    tracks placement (placed v c s) := by
  intro v1 p hp
  have := h v1 p hp
  have hne : v ≠ v1 := by
    rintro rfl
    rw [hv] at this; simp at this
  simp only [placed, List.getElem?_set_ne hne, apply_swaps_phy_append, apply_swaps_phy_flushed]
  exact this

theorem add_swap_v_to_phy {N phy0 phy1 : Nat} {s : jit_router} {v0 v1 : Option Nat}
    (hcoh : coherent N s) (h0 : s.phy_to_v[phy0]? = some v0) (h1 : s.phy_to_v[phy1]? = some v1)
    (v : Nat) :
    (set_valid (set_valid s.v_to_phy v0 (some phy1)) v1 (some phy0))[v]?
      = (s.v_to_phy[v]?).map (Option.map (swap_phy phy0 phy1)) := by
  obtain ⟨_, _, h3⟩ := hcoh
  have key : ∀ q, s.v_to_phy[v]? = some (some q) → (q = phy0 ↔ v0 = some v) ∧ (q = phy1 ↔ v1 = some v) := by
    intro q hq
    have hq1 := (h3 v q).mp hq
    constructor
    · constructor
      · rintro rfl; rw [h0] at hq1; simpa using hq1
      · intro e; subst e
        have := (h3 v phy0).mpr h0
        rw [hq] at this; simpa using this
    · constructor
      · rintro rfl; rw [h1] at hq1; simpa using hq1
      · intro e; subst e
        have := (h3 v phy1).mpr h1
        rw [hq] at this; simpa using this
  have hlt0 : ∀ a, v0 = some a → s.v_to_phy[a]? = some (some phy0) := by
    intro a e; subst e; exact (h3 a phy0).mpr h0
  have hlt1 : ∀ b, v1 = some b → s.v_to_phy[b]? = some (some phy1) := by
    intro b e; subst e; exact (h3 b phy1).mpr h1
  cases hv : s.v_to_phy[v]? with
  | none =>
    have hge : s.v_to_phy.length ≤ v := by
      rcases Nat.lt_or_ge v s.v_to_phy.length with hh | hh
      · rw [List.getElem?_eq_getElem hh] at hv; simp at hv
      · exact hh
    cases v0 <;> cases v1 <;>
      simp [set_valid, List.getElem?_set, hv, List.getElem?_eq_none, hge]
  | some o =>
    cases o with
    | none =>
      have n0 : v0 ≠ some v := by
        intro e; have := hlt0 v e; rw [hv] at this; simp at this
      have n1 : v1 ≠ some v := by
        intro e; have := hlt1 v e; rw [hv] at this; simp at this
      cases v0 <;> cases v1 <;> simp_all [set_valid, List.getElem?_set]
    | some q =>
      obtain ⟨k0, k1⟩ := key q hv
      have hvl := getElem?_lt_of_eq_some hv
      cases v0 with
      | none =>
        cases v1 with
        | none =>
          have e0 : q ≠ phy0 := fun e => by simpa using k0.mp e
          have e1 : q ≠ phy1 := fun e => by simpa using k1.mp e
          simp [set_valid, hv, swap_phy, e0, e1]
        | some b =>
          have e0 : q ≠ phy0 := fun e => by simpa using k0.mp e
          by_cases eb : b = v
          · subst eb
            have e1 : q = phy1 := k1.mpr rfl
            simp [set_valid, List.getElem?_set, hvl, swap_phy, e0, e1]
            split_ifs with hh
            · exact hh.symm
            · rfl
          · have e1 : q ≠ phy1 := fun e => eb (by simpa using k1.mp e)
            simp [set_valid, List.getElem?_set, eb, hv, swap_phy, e0, e1]
      | some a =>
        cases v1 with
        | none =>
          have e1 : q ≠ phy1 := fun e => by simpa using k1.mp e
          by_cases ea : a = v
          · subst ea
            have e0 : q = phy0 := k0.mpr rfl
            simp [set_valid, List.getElem?_set, hvl, swap_phy, e0]
          · have e0 : q ≠ phy0 := fun e => ea (by simpa using k0.mp e)
            simp [set_valid, List.getElem?_set, ea, hv, swap_phy, e0, e1]
        | some b =>
          by_cases ea : a = v
          · subst ea
            have e0 : q = phy0 := k0.mpr rfl
            by_cases eb : b = a
            · subst eb
              have e1 : q = phy1 := k1.mpr rfl
              simp [set_valid, List.getElem?_set, hvl, swap_phy, e0, ← e1]
            · simp [set_valid, List.getElem?_set, hvl, eb, swap_phy, e0]
          · have e0 : q ≠ phy0 := fun e => ea (by simpa using k0.mp e)
            by_cases eb : b = v
            · subst eb
              have e1 : q = phy1 := k1.mpr rfl
              simp [set_valid, List.getElem?_set, hvl, swap_phy, e0, e1]
              split_ifs with hh
              · exact hh.symm
              · rfl
            · have e1 : q ≠ phy1 := fun e => eb (by simpa using k1.mp e)
              simp [set_valid, List.getElem?_set, ea, eb, hv, swap_phy, e0, e1]

theorem add_swap_phy_to_v {phy0 phy1 : Nat} {l : List (Option Nat)} {v0 v1 : Option Nat}
    (h0 : l[phy0]? = some v0) (h1 : l[phy1]? = some v1) (p : Nat) :
    ((l.set phy0 v1).set phy1 v0)[p]? = l[swap_phy phy0 phy1 p]? := by
  have l0 := getElem?_lt_of_eq_some h0
  have l1 := getElem?_lt_of_eq_some h1
  simp only [List.getElem?_set, List.length_set, swap_phy]
  by_cases e1 : phy1 = p
  · subst e1
    by_cases e0 : phy0 = phy1
    · subst e0; simp [l0, h0]
    · have : phy1 ≠ phy0 := fun e => e0 e.symm
      simp [l1, this, h0]
  · by_cases e0 : phy0 = p
    · subst e0; simp [l0, e1, h1]
    · have n0 : p ≠ phy0 := fun e => e0 e.symm
      have n1 : p ≠ phy1 := fun e => e1 e.symm
      simp [e0, e1, n0, n1]

theorem coherent_add_swap {dev : device} {N phy0 phy1 : Nat} {s s1 : jit_router}
    (h : add_swap dev phy0 phy1 s = .ok s1) (hcoh : coherent N s) : coherent N s1 := by
  obtain ⟨_, v0, v1, h0, h1, hv0, hv1, rfl⟩ := add_swap_eq h
  have hv := add_swap_v_to_phy hcoh h0 h1
  have hp := add_swap_phy_to_v h0 h1
  obtain ⟨c1, c2, c3⟩ := hcoh
  refine ⟨?_, by simp [c2], fun v p => ?_⟩
  · cases v0 <;> cases v1 <;> simp [set_valid, c1]
  · simp only [hv, hp]
    rw [← c3]
    cases hvv : s.v_to_phy[v]? with
    | none => simp
    | some o =>
      cases o with
      | none => simp
      | some q =>
        simp only [Option.map_some', Option.some.injEq]
        constructor
        · intro e; rw [← e, swap_phy_involutive]
        · intro e; rw [e, swap_phy_involutive]

theorem tracks_add_swap {dev : device} {N phy0 phy1 : Nat} {placement : List (Option Nat)}
    {s s1 : jit_router} (h : add_swap dev phy0 phy1 s = .ok s1) (hcoh : coherent N s)
    (ht : tracks placement s) : tracks placement s1 := by
  obtain ⟨_, v0, v1, h0, h1, hv0, hv1, rfl⟩ := add_swap_eq h
  intro v p hp
  simp only [add_swap_v_to_phy hcoh h0 h1, ht v p hp, apply_swaps_phy_append]
  simp [apply_swaps_phy]

theorem routing_state_placed {N : Nat} {net : Network} {placement : List (Option Nat)}
    {v c : Nat} {s : jit_router} (h : routing_state N net placement s)
    (hv : s.v_to_phy[v]? = some none) (hc : s.phy_to_v[c]? = some none) :
    routing_state N net placement (placed v c s) :=
  ⟨h.1, coherent_placed h.2.1 hv hc, by simpa [placed] using h.2.2.1, tracks_placed h.2.2.2 hv⟩

theorem routing_state_placements {N : Nat} {net : Network} {placement : List (Option Nat)}
    {s s1 : jit_router} (hp : jit_placements s s1) (h : routing_state N net placement s) :
    routing_state N net placement s1 := by
  induction hp with
  | refl => exact h
  | step s s1 v c hv hc _ _ ih => exact ih (routing_state_placed h hv hc)

theorem routing_state_loop_invariant (dev : device) (net : Network) (N : Nat)
    (placement : List (Option Nat)) (hd : distinct_operands net) :
    loop_invariant dev net (routing_state N net placement) where
  add_op := by
    intro n op s r _ _ _ h hs
    obtain ⟨_, v, _, h1 | ⟨phy, _, h1⟩⟩ := add_op_eq h
    · rw [h1.2.2]
      exact ⟨hs.1, hs.2.1, by simpa using hs.2.2.1, hs.2.2.2⟩
    · rw [h1]
      refine ⟨hs.1, hs.2.1, hs.2.2.1, ?_⟩
      intro v1 p hp
      simpa [apply_swaps_phy_append, apply_swaps_phy] using hs.2.2.2 v1 p hp
  try_add_op := by
    intro n op s r hn hmeta h1q h hs
    have hne : ∀ v0 v1, s.wire_to_v[op.control.uid]? = some v0 →
        s.wire_to_v[op.target.uid]? = some v1 → v0 ≠ v1 := by
      rw [hs.1]; exact hd n op hn hmeta h1q
    obtain ⟨s1, v0, v1, phy0, phy1, hp, _, _, _, _, hr⟩ := try_add_op_steps hne h
    have hs1 := routing_state_placements hp hs
    rcases hr with ⟨_, _, e⟩ | ⟨_, _, e⟩
    · rw [e]
      refine ⟨hs1.1, hs1.2.1, hs1.2.2.1, ?_⟩
      intro v2 p hp2
      simpa [apply_swaps_phy_append, apply_swaps_phy] using hs1.2.2.2 v2 p hp2
    · rw [e]; exact hs1
  add_swap := by
    intro phy0 phy1 s s1 h hs
    refine ⟨?_, coherent_add_swap h hs.2.1, ?_, tracks_add_swap h hs.2.1 hs.2.2.2⟩
    · obtain ⟨_, v0, v1, _, _, _, _, rfl⟩ := add_swap_eq h
      exact hs.1
    · obtain ⟨_, v0, v1, _, _, _, _, rfl⟩ := add_swap_eq h
      exact hs.2.2.1
  frame := fun _ _ _ _ _ _ hs => hs

theorem new_mapping_fill_spec {vs : List (Option Nat)} {i : Nat} {p2v r : List (Option Nat)}
    (hinj : placement_injective vs) (h : new_mapping_fill vs i p2v = .ok r) (p v : Nat) :
    r[p]? = some (some v) ↔
      (∃ j : Nat, v = i + j ∧ vs[j]? = some (some p)) ∨
      ((∀ j : Nat, vs[j]? ≠ some (some p)) ∧ p2v[p]? = some (some v)) := by
  induction vs generalizing i p2v with
  | nil =>
    simp only [new_mapping_fill, Except.ok.injEq] at h
    subst h; simp
  | cons a vs ih =>
    have hinj1 : placement_injective vs := by
      intro v v1 p h1 h2
      have := hinj (v + 1) (v1 + 1) p (by simpa using h1) (by simpa using h2)
      omega
    cases a with
    | none =>
      simp only [new_mapping_fill] at h
      rw [ih hinj1 h]
      constructor
      · rintro (⟨j, hj, hv⟩ | ⟨hn, hp⟩)
        · exact Or.inl ⟨j + 1, by omega, by simpa using hv⟩
        · refine Or.inr ⟨fun j => ?_, hp⟩
          cases j with
          | zero => simp
          | succ j => simpa using hn j
      · rintro (⟨j, hj, hv⟩ | ⟨hn, hp⟩)
        · cases j with
          | zero => simp at hv
          | succ j => exact Or.inl ⟨j, by omega, by simpa using hv⟩
        · exact Or.inr ⟨fun j => by simpa using hn (j + 1), hp⟩
    | some p0 =>
      simp only [new_mapping_fill] at h
      split at h
      · rename_i p2v1 hset
        rw [set_at_ok] at hset
        obtain ⟨hlt, rfl⟩ := hset
        rw [ih hinj1 h]
        have hno : ∀ j : Nat, vs[j]? ≠ some (some p0) := by
          intro j hj
          have := hinj 0 (j + 1) p0 (by simp) (by simpa using hj)
          omega
        by_cases hp : p = p0
        · subst hp
          constructor
          · rintro (⟨j, _, hv⟩ | ⟨_, hp⟩)
            · exact absurd hv (hno j)
            · simp only [List.getElem?_set, hlt, if_true, Option.some.injEq] at hp
              exact Or.inl ⟨0, by omega, by simp⟩
          · rintro (⟨j, hj, hv⟩ | ⟨hn, _⟩)
            · cases j with
              | zero =>
                refine Or.inr ⟨hno, ?_⟩
                simp only [List.getElem?_set, hlt, if_true, Option.some.injEq]
                omega
              | succ j => exact absurd (by simpa using hv) (hno j)
            · exact absurd (by simp) (hn 0)
        · have hp1 : p0 ≠ p := fun e => hp e.symm
          simp only [List.getElem?_set_ne hp1]
          constructor
          · rintro (⟨j, hj, hv⟩ | ⟨hn, hpv⟩)
            · exact Or.inl ⟨j + 1, by omega, by simpa using hv⟩
            · refine Or.inr ⟨fun j => ?_, hpv⟩
              cases j with
              | zero => simpa using hp1
              | succ j => simpa using hn j
          · rintro (⟨j, hj, hv⟩ | ⟨hn, hpv⟩)
            · cases j with
              | zero => simp at hv; exact absurd hv hp1
              | succ j => exact Or.inl ⟨j, by omega, by simpa using hv⟩
            · exact Or.inr ⟨fun j => by simpa using hn (j + 1), hpv⟩
      · simp at h

theorem resize_nil (n : Nat) : resize ([] : List (Option Nat)) n none = List.replicate n none := by
  simp [resize]

/-- The state in which `route_entry` leaves the router. -/
theorem route_entry_eq {dev : device} {net : Network} {placement : List (Option Nat)}
    {s s1 : jit_router} (h : route_entry dev net placement s = .ok s1) :
    placement.length = dev.num_qubits ∧
    ∃ p2v values fl,
      new_mapping_fill placement 0 (List.replicate dev.num_qubits none) = .ok p2v ∧
      seed_front_layer net net.outputs (clear_values net, s.front_layer) = .ok (values, fl) ∧
      s1 = { s with wire_to_v := net.wire_v, v_to_phy := placement, published := placement,
                    phy_to_v := p2v, phy_decay := s.phy_decay.map (fun _ => 1),
                    mapped := [], values := values, front_layer := fl } := by
  unfold route_entry at h
  split at h
  · rename_i hlen
    refine ⟨hlen, ?_⟩
    split at h
    · rename_i s2 h2
      unfold new_mapping at h2
      split at h2
      · rename_i p2v hp
        simp only [Except.ok.injEq] at h2
        subst h2
        split at h
        · rename_i values fl hseed
          simp only [Except.ok.injEq] at h
          subst h
          refine ⟨p2v, values, fl, ?_, hseed, rfl⟩
          rw [← resize_nil]; exact hp
        · simp at h
      · simp at h2
    · simp at h
  · simp at h

theorem route_entry_routing_state {dev : device} {net : Network}
    {placement : List (Option Nat)} {s s1 : jit_router}
    (hinj : placement_injective placement) (hbuf : s.unexectued.length = dev.num_qubits)
    (h : route_entry dev net placement s = .ok s1) :
    routing_state dev.num_qubits net placement s1 := by
  obtain ⟨hlen, p2v, values, fl, hfill, _, rfl⟩ := route_entry_eq h
  refine ⟨rfl, ⟨hlen, ?_, fun v p => ?_⟩, hbuf, fun v p hp => ?_⟩
  · simpa using new_mapping_fill_length hfill
  · show placement[v]? = some (some p) ↔ p2v[p]? = some (some v)
    rw [new_mapping_fill_spec hinj hfill p v]
    constructor
    · intro hh
      exact Or.inl ⟨v, by omega, hh⟩
    · rintro (⟨j, hj, hv⟩ | ⟨_, hh⟩)
      · have : v = j := by omega
        subst this; exact hv
      · rw [List.getElem?_replicate] at hh
        split at hh <;> simp at hh
  · simpa [apply_swaps_phy] using hp

theorem finalize_loop_steps {n i : Nat} {free_phy : List Nat} {s s1 : jit_router}
    (h : finalize_loop n i free_phy s = .ok s1) : finalisations s s1 := by
  induction n generalizing i free_phy s with
  | zero =>
    simp only [finalize_loop, Except.ok.injEq] at h
    subst h; exact .refl _
  | succ n ih =>
    simp only [finalize_loop] at h
    split at h
    · rename_i hv
      rw [at__ok] at hv
      split at h
      · simp at h
      · rename_i phy rest
        split at h
        · rename_i v2p hset
          rw [set_at_ok] at hset
          obtain ⟨hlt, rfl⟩ := hset
          split at h
          · rename_i s2 h2
            have e := jit_add_placed (c := phy) (by simp [hlt]) h2
            have hb := (jit_add_eq h2).1
            refine .step _ _ i phy hv hb ?_
            have : assigned i phy s = s2 := by rw [e]; rfl
            rw [this]
            exact ih h
          · simp at h
        · simp at h
    · exact ih h
    · simp at h

theorem set_length_append {α : Type} (pre : List α) (x y : α) (post : List α) :
    (pre ++ x :: post).set pre.length y = pre ++ y :: post := by
  induction pre with
  | nil => rfl
  | cons a pre ih => simp [ih]

theorem getElem?_length_append {α : Type} (pre : List α) (x : α) (post : List α) :
    (pre ++ x :: post)[pre.length]? = some x := by
  induction pre with
  | nil => simp
  | cons a pre ih => simpa using ih

theorem finalize_loop_append {n : Nat} {free_phy : List Nat} {s s1 : jit_router}
    {pre post : List (Option Nat)} (h : finalize_loop n pre.length free_phy s = .ok s1)
    (hs : s.v_to_phy = pre ++ post) (hn : post.length = n) :
    s1.v_to_phy = pre ++ assign_free post free_phy := by
  induction n generalizing free_phy s pre post with
  | zero =>
    simp only [finalize_loop, Except.ok.injEq] at h
    subst h
    have : post = [] := List.length_eq_zero.mp hn
    subst this
    simpa [assign_free] using hs
  | succ n ih =>
    cases post with
    | nil => simp at hn
    | cons x post =>
      simp only [List.length_cons, Nat.add_right_cancel_iff] at hn
      have hx : s.v_to_phy[pre.length]? = some x := by
        rw [hs]; exact getElem?_length_append pre x post
      simp only [finalize_loop, at__ok.mpr hx] at h
      cases x with
      | none =>
        simp only at h
        split at h
        · simp at h
        · rename_i phy rest
          split at h
          · rename_i v2p hset
            rw [set_at_ok] at hset
            obtain ⟨hlt, rfl⟩ := hset
            split at h
            · rename_i s2 h2
              have e := jit_add_placed (c := phy) (by simp [hlt]) h2
              have hs2 : s2.v_to_phy = (pre ++ [some phy]) ++ post := by
                rw [e]
                simp only [hs, set_length_append, List.append_assoc, List.singleton_append]
              have := @ih rest s2 (pre ++ [some phy]) post (by simpa using h) hs2 hn
              rw [this]
              simp [assign_free]
            · simp at h
          · simp at h
      | some p =>
        simp only at h
        have hs2 : s.v_to_phy = (pre ++ [some p]) ++ post := by
          rw [hs]; simp
        have := @ih free_phy s (pre ++ [some p]) post (by simpa using h) hs2 hn
        rw [this]
        simp [assign_free]

/-- The placement after the finalisation loop of `route`. -/
theorem finalize_loop_v_to_phy {free_phy : List Nat} {s s1 : jit_router}
    (h : finalize_loop s.v_to_phy.length 0 free_phy s = .ok s1) :
    s1.v_to_phy = assign_free s.v_to_phy free_phy := by
  have := @finalize_loop_append _ _ _ _ [] s.v_to_phy h rfl rfl
  simpa using this

theorem tracks_assigned {placement : List (Option Nat)} {v c : Nat} {s : jit_router}
    (h : tracks placement s) (hv : s.v_to_phy[v]? = some none) :
    tracks placement (assigned v c s) := by
  intro v1 p hp
  have := h v1 p hp
  have hne : v ≠ v1 := by
    rintro rfl
    rw [hv] at this; simp at this
  simp only [assigned, List.getElem?_set_ne hne, apply_swaps_phy_append,
    apply_swaps_phy_flushed]
  exact this

theorem tracks_finalisations {placement : List (Option Nat)} {s s1 : jit_router}
    (hf : finalisations s s1) (h : tracks placement s) : tracks placement s1 := by
  induction hf with
  | refl => exact h
  | step s s1 v c hv _ _ ih => exact ih (tracks_assigned h hv)

theorem finalisations_length {s s1 : jit_router} (hf : finalisations s s1) :
    s1.v_to_phy.length = s.v_to_phy.length := by
  induction hf with
  | refl => rfl
  | step s s1 v c _ _ _ ih => rw [ih]; simp [assigned]

theorem route_loop_front_layer {dev : device} {cfg : jit_config} {net : Network}
    {fuel k : Nat} {s s1 : jit_router} (h : route_loop dev cfg net fuel k s = .ok s1) :
    s1.front_layer = [] := by
  induction fuel generalizing k s with
  | zero =>
    simp only [route_loop] at h
    split at h
    · rename_i he
      simp only [Except.ok.injEq] at h
      subst h; simpa using he
    · simp at h
  | succ fuel ih =>
    simp only [route_loop] at h
    split at h
    · rename_i he
      simp only [Except.ok.injEq] at h
      subst h; simpa using he
    · split at h
      · exact ih h
      · split at h
        · exact ih h
        · simp at h
      · simp at h

/-- What a returning call of `route` leaves, for an injective placement and a circuit whose
two-qubit gates have distinct operands: the driver loop ends in a routing state, and the
finalisation, when asked for, is a sequence of finalisation steps. -/
theorem route_stages {dev : device} {cfg : jit_config} {net : Network}
    {placement : List (Option Nat)} {finalize : Bool} {fuel : Nat} {s r : jit_router}
    (hinj : placement_injective placement) (hd : distinct_operands net)
    (hbuf : s.unexectued.length = dev.num_qubits)
    (h : route dev cfg net placement finalize fuel s = .ok r) :
    ∃ s2 s3, routing_state dev.num_qubits net placement s2 ∧ s2.front_layer = [] ∧
      (if finalize then finalize_loop s2.v_to_phy.length 0 (find_free_phy s2).reverse s2
       else .ok s2) = .ok s3 ∧
      finalisations s2 s3 ∧ r = { s3 with published := s3.v_to_phy } := by
  obtain ⟨s1, s2, s3, h1, h2, h3, rfl⟩ := route_ok h
  have r1 := route_entry_routing_state hinj hbuf h1
  have r2 := (routing_state_loop_invariant dev net dev.num_qubits placement hd).route_loop h2 r1
  refine ⟨s2, s3, r2, route_loop_front_layer h2, h3, ?_, rfl⟩
  · split at h3
    · exact finalize_loop_steps h3
    · simp only [Except.ok.injEq] at h3
      subst h3; exact .refl _

theorem apply_swaps_getElem? (ops : List mapped_op) (placement : List (Option Nat)) (v : Nat) :
    (apply_swaps ops placement)[v]? = (placement[v]?).map (Option.map (apply_swaps_phy ops)) := by
  simp [apply_swaps]

/-- C4 (counterexample): for `H(q1); CX(q0, q1)` on the line from `[0, unplaced, 1]` the
published placement is `[1, 2, 0]`, while the emitted SWAP applied to the initial placement
gives `[1, unplaced, 0]`. -/
theorem swaps_do_not_give_jit_placed_entries :
    (route line3 {} circuit_h_cx [some 0, none, some 1] true 10
      (jit_router.init line3)).toOption.map
        (fun r => (r.published, apply_swaps r.mapped [some 0, none, some 1]))
    = some ([some 1, some 2, some 0], [some 1, none, some 0]) := by
  decide!

/-- C4 (amended): for every virtual qubit that the initial placement places, applying the
emitted SWAPs in emission order to its initial physical qubit yields its entry of the
published `v_to_phy`; hence for a placement without unplaced entries the SWAPs applied to
the placement give the published `v_to_phy`. -/
theorem route_published_follows_swaps (dev : device) (cfg : jit_config) (net : Network)
    (placement : List (Option Nat)) (finalize : Bool) (fuel : Nat) (s r : jit_router)
    (hinj : placement_injective placement) (hd : distinct_operands net)
    (hbuf : s.unexectued.length = dev.num_qubits)
    (h : route dev cfg net placement finalize fuel s = .ok r) :
    (∀ v p : Nat, placement[v]? = some (some p) →
      r.published[v]? = some (some (apply_swaps_phy r.mapped p))) ∧
    ((∀ x ∈ placement, x ≠ none) → r.published = apply_swaps r.mapped placement) := by
  obtain ⟨s2, s3, hr2, _, _, hfin, rfl⟩ := route_stages hinj hd hbuf h
  have ht := tracks_finalisations hfin hr2.2.2.2
  have hlen : s3.v_to_phy.length = placement.length := by
    rw [finalisations_length hfin, hr2.2.1.1]
    obtain ⟨s1, _, _, h1, _, _, _⟩ := route_ok h
    exact (route_entry_eq h1).1.symm
  refine ⟨ht, fun hall => ?_⟩
  apply List.ext_getElem?
  intro v
  rw [apply_swaps_getElem?]
  cases hv : placement[v]? with
  | none =>
    have : placement.length ≤ v := by
      rcases Nat.lt_or_ge v placement.length with hh | hh
      · rw [List.getElem?_eq_getElem hh] at hv; simp at hv
      · exact hh
    simp only [Option.map_none']
    exact List.getElem?_eq_none (by show s3.v_to_phy.length ≤ v; omega)
  | some o =>
    cases o with
    | none =>
      have := hall none (List.getElem?_mem hv)
      exact absurd rfl this
    | some p => simpa using ht v p hv

theorem line_placement_injective : placement_injective [some 0, none, some 1] := by
  intro v v1 p h1 h2
  rcases v with _ | _ | _ | v <;> rcases v1 with _ | _ | _ | v1 <;>
    simp at h1 h2 ⊢ <;> omega

theorem circuit_h_cx_distinct_operands : distinct_operands circuit_h_cx := by
  intro n op hn hmeta h1q v0 v1 h0 h1
  rcases n with _ | _ | n
  · simp [circuit_h_cx] at hn; subst hn; simp [op_type.is_one_qubit] at h1q
  · simp [circuit_h_cx] at hn; subst hn
    simp [circuit_h_cx] at h0 h1
    omega
  · simp [circuit_h_cx] at hn

theorem route_published_follows_swaps_witness :
    route line3 {} circuit_h_cx [some 0, none, some 1] true 10 (jit_router.init line3)
      = .ok routed_h_cx ∧
    routed_h_cx.published[2]? = some (some (apply_swaps_phy routed_h_cx.mapped 1)) :=
  ⟨route_h_cx,
    (route_published_follows_swaps line3 {} circuit_h_cx [some 0, none, some 1] true 10
      (jit_router.init line3) routed_h_cx line_placement_injective
      circuit_h_cx_distinct_operands rfl route_h_cx).1 2 1 rfl⟩

theorem reduceOption_nodup_of_injective {l : List (Option Nat)} (h : placement_injective l) :
    l.reduceOption.Nodup := by
  induction l with
  | nil => simp
  | cons x l ih =>
    have h1 : placement_injective l := by
      intro v v1 p e1 e2
      have := h (v + 1) (v1 + 1) p (by simpa using e1) (by simpa using e2)
      omega
    cases x with
    | none => simpa [List.reduceOption_cons_of_none] using ih h1
    | some p =>
      rw [List.reduceOption_cons_of_some, List.nodup_cons]
      refine ⟨fun hp => ?_, ih h1⟩
      rw [List.reduceOption_mem_iff] at hp
      obtain ⟨j, hj⟩ := List.getElem?_of_mem hp
      have := h 0 (j + 1) p (by simp) (by simpa using hj)
      omega

theorem coherent_injective {N : Nat} {s : jit_router} (h : coherent N s) :
    placement_injective s.v_to_phy := by
  intro v v1 p e1 e2
  have a := (h.2.2 v p).mp e1
  have b := (h.2.2 v1 p).mp e2
  rw [a] at b
  simpa using b

/-- Under placement coherence the occupied and the free physical qubits together are the
physical qubits of the device, each once. -/
theorem placed_free_perm {N : Nat} {s : jit_router} (h : coherent N s) :
    (s.v_to_phy.reduceOption ++ find_free_phy s).Perm (List.range N) := by
  have hsorted := find_free_phy_sorted s
  have hnd : (s.v_to_phy.reduceOption ++ find_free_phy s).Nodup := by
    rw [List.nodup_append]
    refine ⟨reduceOption_nodup_of_injective (coherent_injective h),
      hsorted.imp (fun hab => Nat.ne_of_lt hab), ?_⟩
    intro p hp hf
    rw [List.reduceOption_mem_iff] at hp
    obtain ⟨v, hv⟩ := List.getElem?_of_mem hp
    have := (h.2.2 v p).mp hv
    rw [mem_find_free_phy] at hf
    rw [hf] at this
    simp at this
  rw [List.perm_ext_iff_of_nodup hnd (List.nodup_range N)]
  intro p
  rw [List.mem_append, List.mem_range, List.reduceOption_mem_iff, mem_find_free_phy]
  constructor
  · rintro (hp | hp)
    · obtain ⟨v, hv⟩ := List.getElem?_of_mem hp
      have := getElem?_lt_of_eq_some ((h.2.2 v p).mp hv)
      rw [h.2.1] at this; exact this
    · have := getElem?_lt_of_eq_some hp
      rw [h.2.1] at this; exact this
  · intro hp
    have hlt : p < s.phy_to_v.length := by rw [h.2.1]; exact hp
    cases hx : s.phy_to_v[p] with
    | none => right; rw [List.getElem?_eq_getElem hlt, hx]
    | some v =>
      left
      have : s.phy_to_v[p]? = some (some v) := by rw [List.getElem?_eq_getElem hlt, hx]
      exact List.getElem?_mem ((h.2.2 v p).mpr this)

theorem length_eq_reduceOption_add_count (l : List (Option Nat)) :
    l.length = l.reduceOption.length + l.count none := by
  induction l with
  | nil => simp
  | cons x l ih =>
    cases x with
    | none => simp [List.reduceOption_cons_of_none, ih]; omega
    | some p => simp [List.reduceOption_cons_of_some, ih]; omega

/-- Under placement coherence there are as many free physical qubits as unplaced virtual
qubits. -/
theorem free_count_eq_unplaced_count {N : Nat} {s : jit_router} (h : coherent N s) :
    (find_free_phy s).length = s.v_to_phy.count none := by
  have h1 := (placed_free_perm h).length_eq
  have h2 := length_eq_reduceOption_add_count s.v_to_phy
  rw [List.length_append, List.length_range] at h1
  rw [h.1] at h2
  omega

theorem assign_free_perm {l : List (Option Nat)} {free_phy : List Nat}
    (h : l.count none = free_phy.length) :
    ∃ r : List Nat, assign_free l free_phy = r.map some ∧
      r.Perm (l.reduceOption ++ free_phy) := by
  induction l generalizing free_phy with
  | nil =>
    have : free_phy = [] := by
      simp at h; exact List.length_eq_zero.mp h.symm
    subst this
    exact ⟨[], rfl, by simp⟩
  | cons x l ih =>
    cases x with
    | some p =>
      obtain ⟨r, hr, hp⟩ := @ih free_phy (by simpa using h)
      refine ⟨p :: r, by simp [assign_free, hr], ?_⟩
      rw [List.reduceOption_cons_of_some]
      exact List.Perm.cons p hp
    | none =>
      cases free_phy with
      | nil => simp at h
      | cons f free_phy =>
        obtain ⟨r, hr, hp⟩ := @ih free_phy (by simpa using h)
        refine ⟨f :: r, by simp [assign_free, hr], ?_⟩
        rw [List.reduceOption_cons_of_none]
        exact (List.Perm.cons f hp).trans List.perm_middle.symm

theorem jit_add_loop_ok {v2p : List (Option Nat)} {v phy : Nat} (gs : List gate_ref)
    (mapped : List mapped_op) (hv : v2p[v]? = some (some phy)) :
    ∃ m, jit_add_loop v2p v gs mapped = .ok m := by
  induction gs generalizing mapped with
  | nil => exact ⟨mapped, rfl⟩
  | cons g gs ih =>
    simp only [jit_add_loop, at__ok.mpr hv]
    exact ih _

theorem jit_add_ok {v phy : Nat} {s : jit_router} (hb : v < s.unexectued.length)
    (hv : s.v_to_phy[v]? = some (some phy)) : ∃ s1, jit_add v s = .ok s1 := by
  obtain ⟨m, hm⟩ := jit_add_loop_ok (s.unexectued.getD v []) s.mapped hv
  simp only [jit_add, hb, if_true, hm]
  exact ⟨_, rfl⟩

theorem finalize_loop_ok {n : Nat} {free_phy : List Nat} {s : jit_router}
    {pre post : List (Option Nat)} (hs : s.v_to_phy = pre ++ post) (hn : post.length = n)
    (hb : s.v_to_phy.length ≤ s.unexectued.length) (hfree : post.count none ≤ free_phy.length) :
    ∃ s1, finalize_loop n pre.length free_phy s = .ok s1 := by
  induction n generalizing free_phy s pre post with
  | zero => exact ⟨s, rfl⟩
  | succ n ih =>
    cases post with
    | nil => simp at hn
    | cons x post =>
      simp only [List.length_cons, Nat.add_right_cancel_iff] at hn
      have hx : s.v_to_phy[pre.length]? = some x := by
        rw [hs]; exact getElem?_length_append pre x post
      have hlt := getElem?_lt_of_eq_some hx
      simp only [finalize_loop, at__ok.mpr hx]
      cases x with
      | none =>
        cases free_phy with
        | nil => simp at hfree
        | cons phy rest =>
          simp only [set_at, hlt, if_true]
          obtain ⟨s2, h2⟩ := @jit_add_ok pre.length phy
            { s with v_to_phy := s.v_to_phy.set pre.length (some phy) }
            (by show pre.length < s.unexectued.length; omega) (by simp [hlt])
          simp only [h2]
          have e := jit_add_placed (c := phy) (by simp [hlt]) h2
          have hs2 : s2.v_to_phy = (pre ++ [some phy]) ++ post := by
            rw [e]
            simp only [hs, set_length_append, List.append_assoc, List.singleton_append]
          have := @ih rest s2 (pre ++ [some phy]) post hs2 hn
            (by rw [e]; simpa using hb) (by simpa using hfree)
          simpa using this
      | some p =>
        have hs2 : s.v_to_phy = (pre ++ [some p]) ++ post := by
          rw [hs]; simp
        have := @ih free_phy s (pre ++ [some p]) post hs2 hn hb
          (by simpa using hfree)
        simpa using this

/-- C5: when `route` is called with `finalize = true` from an injective placement and the
driver loop has returned, the call returns, and the published `v_to_phy` is the placement
after the loop in which the `k`-th unplaced virtual qubit, in ascending index order, has
received the `k`-th largest free physical qubit; it has no unplaced entry and is a
permutation of the physical qubits `0 .. Nv-1`. -/
theorem finalize_completes_placement (dev : device) (cfg : jit_config) (net : Network)
    (placement : List (Option Nat)) (fuel : Nat) (s s1 s2 : jit_router)
    (hinj : placement_injective placement) (hd : distinct_operands net)
    (hbuf : s.unexectued.length = dev.num_qubits)
    (h1 : route_entry dev net placement s = .ok s1)
    (h2 : route_loop dev cfg net fuel 0 s1 = .ok s2) :
    ∃ r, route dev cfg net placement true fuel s = .ok r ∧
      r.published = assign_free s2.v_to_phy (find_free_phy s2).reverse ∧
      (find_free_phy s2).reverse.Pairwise (fun a b => b < a) ∧
      r.published.Perm ((List.range dev.num_qubits).map some) := by
  have r1 := route_entry_routing_state hinj hbuf h1
  have r2 := (routing_state_loop_invariant dev net dev.num_qubits placement hd).route_loop h2 r1
  obtain ⟨hw, hcoh, hb, _⟩ := r2
  have hcount := free_count_eq_unplaced_count hcoh
  obtain ⟨s3, h3⟩ := @finalize_loop_ok _ (find_free_phy s2).reverse s2 [] s2.v_to_phy
    (by simp) rfl (by rw [hcoh.1, hb])
    (by simp [hcount])
  simp only [List.length_nil] at h3
  have hv := finalize_loop_v_to_phy h3
  refine ⟨{ s3 with published := s3.v_to_phy }, ?_, hv, ?_, ?_⟩
  · simp only [route, h1, h2, if_true, h3]
  · rw [List.pairwise_reverse]
    exact find_free_phy_sorted s2
  · obtain ⟨r, hr, hp⟩ := @assign_free_perm s2.v_to_phy (find_free_phy s2).reverse
      (by simp [hcount])
    show s3.v_to_phy.Perm _
    rw [hv, hr]
    apply List.Perm.map
    refine hp.trans (List.Perm.trans ?_ (placed_free_perm hcoh))
    exact List.Perm.append_left _ (List.reverse_perm _)

theorem circuit_h1_distinct_operands : distinct_operands circuit_h1 := by
  intro n op hn hmeta h1q v0 v1 h0 h1
  rcases n with _ | n
  · simp [circuit_h1] at hn; subst hn; simp [op_type.is_one_qubit] at h1q
  · simp [circuit_h1] at hn

theorem partial_placement_injective : placement_injective [some 1, none, none] := by
  intro v v1 p h1 h2
  rcases v with _ | _ | _ | v <;> rcases v1 with _ | _ | _ | v1 <;>
    simp at h1 h2 ⊢

theorem finalize_completes_placement_witness :
    ∃ r, route line3 {} circuit_h1 [some 1, none, none] true 5 (jit_router.init line3) = .ok r ∧
      r.published = assign_free looped_h1.v_to_phy (find_free_phy looped_h1).reverse ∧
      (find_free_phy looped_h1).reverse.Pairwise (fun a b => b < a) ∧
      r.published.Perm ((List.range line3.num_qubits).map some) :=
  finalize_completes_placement line3 {} circuit_h1 [some 1, none, none] 5
    (jit_router.init line3) entered_h1 looped_h1 partial_placement_injective
    circuit_h1_distinct_operands rfl (by decide) (by decide)

theorem order_ok_mono {net : Network} {seen seen1 l : List Nat}
    (hsub : ∀ x, x ∈ seen → x ∈ seen1) (h : order_ok net seen l) : order_ok net seen1 l := by
  induction l generalizing seen seen1 with
  | nil => trivial
  | cons b l ih =>
    refine ⟨fun a ha hb => hsub a (h.1 a ha hb), ih ?_ h.2⟩
    intro x hx
    rcases List.mem_cons.mp hx with rfl | hx
    · exact List.mem_cons_self _ _
    · exact List.mem_cons_of_mem _ (hsub x hx)

theorem order_ok_append {net : Network} {seen l l1 : List Nat} :
    order_ok net seen (l ++ l1) ↔ order_ok net seen l ∧ order_ok net (l.reverse ++ seen) l1 := by
  induction l generalizing seen with
  | nil => simp [order_ok]
  | cons b l ih =>
    show ((∀ a, is_gate net a → b ∈ net.children.getD a [] → a ∈ seen) ∧
      order_ok net (b :: seen) (l ++ l1)) ↔ _
    rw [ih]
    simp [order_ok, and_assoc]

/-- The decomposition form of `order_ok`: in an ordered emission list every gate that has
the node `b` as a child occurs before `b`. -/
theorem order_ok_before {net : Network} {l l1 l2 : List Nat} {a b : Nat}
    (h : order_ok net [] l) (hl : l = l1 ++ b :: l2) (ha : is_gate net a)
    (hb : b ∈ net.children.getD a []) : a ∈ l1 := by
  subst hl
  rw [order_ok_append] at h
  have := h.2.1 a ha hb
  simpa using this

theorem perm_flatten_set {α : Type} (l : List (List α)) (v : Nat) (x : List α)
    (hv : v < l.length) : ((l.set v x).flatten ++ l[v]).Perm (l.flatten ++ x) := by
  induction l generalizing v with
  | nil => simp at hv
  | cons a l ih =>
    cases v with
    | zero =>
      simp only [List.set_cons_zero, List.flatten_cons, List.getElem_cons_zero]
      refine List.perm_append_comm.trans ?_
      rw [List.append_assoc]
      exact List.Perm.append_left _ List.perm_append_comm
    | succ v =>
      simp only [List.set_cons_succ, List.flatten_cons, List.getElem_cons_succ,
        List.append_assoc]
      exact List.Perm.append_left _ (ih v (by simpa using hv))

theorem mem_gates {net : Network} {n : Nat} : n ∈ gates net ↔ is_gate net n := by
  unfold gates is_gate
  rw [List.mem_filter, List.mem_range]
  constructor
  · rintro ⟨hlt, h⟩
    rw [List.getElem?_eq_getElem hlt] at h ⊢
    exact ⟨_, rfl, by simpa using h⟩
  · rintro ⟨op, hop, hm⟩
    refine ⟨getElem?_lt_of_eq_some hop, ?_⟩
    rw [hop]; simp [hm]

theorem gates_nodup (net : Network) : (gates net).Nodup :=
  (List.nodup_range _).filter _

theorem discharges_cons (net : Network) (p : Nat) (ps : List Nat) (n : Nat) :
    discharges net (p :: ps) n = edge_count net p n + discharges net ps n := by
  simp [discharges]

theorem discharges_append (net : Network) (ps qs : List Nat) (n : Nat) :
    discharges net (ps ++ qs) n = discharges net ps n + discharges net qs n := by
  simp [discharges]

theorem discharges_perm {net : Network} {ps qs : List Nat} (h : ps.Perm qs) (n : Nat) :
    discharges net ps n = discharges net qs n :=
  (h.map _).sum_eq

theorem discharges_le_of_subset (net : Network) {ps qs : List Nat} (hnd : ps.Nodup)
    (hsub : ∀ x ∈ ps, x ∈ qs) (n : Nat) : discharges net ps n ≤ discharges net qs n := by
  obtain ⟨l, hl, hs⟩ := hnd.subperm hsub
  rw [← discharges_perm hl n]
  exact (hs.map _).sum_le_sum (fun _ _ => Nat.zero_le _)

theorem mem_buffered {s : jit_router} {a : Nat} :
    a ∈ buffered s ↔ ∃ v, a ∈ buffer_nodes s v := by
  simp only [buffered, buffer_nodes, List.mem_filterMap, List.mem_flatten]
  constructor
  · rintro ⟨g, ⟨b, hb, hg⟩, ha⟩
    obtain ⟨v, hv⟩ := List.getElem?_of_mem hb
    refine ⟨v, g, ?_, ha⟩
    simp only [List.getD_eq_getElem?_getD, hv, Option.getD_some]
    exact hg
  · rintro ⟨v, g, hg, ha⟩
    refine ⟨g, ⟨s.unexectued.getD v [], ?_, hg⟩, ha⟩
    simp only [List.getD_eq_getElem?_getD] at hg ⊢
    cases hv : s.unexectued[v]? with
    | none => rw [hv] at hg; simp at hg
    | some b => simpa using List.getElem?_mem hv

/-- Every gate that has an entered node as a child has been executed. -/
theorem trav.parents_executed {net : Network} {s : jit_router} {pending : List Nat}
    (hw : well_formed net) (h : trav net s pending []) {n a : Nat}
    (hn : n ∈ executed s ++ pending) (ha : is_gate net a)
    (hc : n ∈ net.children.getD a []) : a ∈ executed s := by
  by_contra hna
  obtain ⟨op, hop, hm⟩ := h.gate n hn
  have h1 := (h.entered n op hop hm).mp hn
  have h2 := h.counted n ⟨op, hop, hm⟩
  have h3 := hw.arity_eq n op hop hm
  have hnd : (a :: executed s).Nodup :=
    List.nodup_cons.mpr ⟨hna, (List.nodup_append.mp h.nodup).1⟩
  have hsub : ∀ x ∈ a :: executed s, x ∈ gates net := by
    intro x hx
    rw [mem_gates]
    rcases List.mem_cons.mp hx with rfl | hx
    · exact ha
    · exact h.gate x (List.mem_append_left _ hx)
  have h4 := discharges_le_of_subset net hnd hsub n
  rw [discharges_cons] at h4
  have h5 : 0 < edge_count net a n := List.count_pos_iff.mpr hc
  simp only [List.count_nil, Nat.add_zero] at h2
  omega

theorem filterMap_node_of_flushed (gs : List gate_ref) (c : Nat) :
    (flushed gs c).filterMap node_of = gs.filterMap ref_node := by
  induction gs with
  | nil => rfl
  | cons g gs ih =>
    cases g with
    | node n => simp only [flushed, List.map_cons] at ih ⊢; simp [node_of, ref_node, ih]
    | swap => simp only [flushed, List.map_cons] at ih ⊢; simp [node_of, ref_node, ih]

theorem emitted_assigned (v c : Nat) (s : jit_router) :
    emitted (assigned v c s) = emitted s ++ buffer_nodes s v := by
  simp [emitted, assigned, buffer_nodes, filterMap_node_of_flushed]

theorem getD_set_nil {α : Type} (l : List (List α)) (v v1 : Nat) :
    (l.set v []).getD v1 [] = if v1 = v then [] else l.getD v1 [] := by
  simp only [List.getD_eq_getElem?_getD, List.getElem?_set]
  by_cases h : v = v1
  · subst h
    by_cases hlt : v < l.length <;> simp [hlt]
  · have : ¬ v1 = v := fun e => h e.symm
    simp [h, this]

theorem buffer_nodes_assigned (v c : Nat) (s : jit_router) (v1 : Nat) :
    buffer_nodes (assigned v c s) v1 = if v1 = v then [] else buffer_nodes s v1 := by
  simp only [buffer_nodes, assigned, getD_set_nil]
  split <;> simp

theorem buffered_assigned (v c : Nat) (s : jit_router) :
    (buffered (assigned v c s) ++ buffer_nodes s v).Perm (buffered s) := by
  by_cases hv : v < s.unexectued.length
  · have := perm_flatten_set s.unexectued v [] hv
    have h2 := this.filterMap ref_node
    simp only [List.filterMap_append, List.append_nil] at h2
    simpa [buffered, buffer_nodes, assigned, List.getD_eq_getElem?_getD,
      List.getElem?_eq_getElem hv] using h2
  · have hge : s.unexectued.length ≤ v := Nat.le_of_not_lt hv
    simp [buffered, buffer_nodes, assigned, List.getD_eq_getElem?_getD,
      List.getElem?_eq_none hge, List.set_eq_of_length_le hge]

theorem executed_assigned (v c : Nat) (s : jit_router) :
    (executed (assigned v c s)).Perm (executed s) := by
  unfold executed
  rw [emitted_assigned, List.append_assoc]
  exact List.Perm.append_left _ (List.perm_append_comm.trans (buffered_assigned v c s))

theorem getD_ne_nil_lt {α : Type} {l : List (List α)} {v : Nat} (h : l.getD v [] ≠ []) :
    v < l.length := by
  by_contra hlt
  simp [List.getD_eq_getElem?_getD, List.getElem?_eq_none (Nat.le_of_not_lt hlt)] at h

/-- A finalisation step keeps the traversal state. -/
theorem trav.assigned {net : Network} {s : jit_router} {pending todo : List Nat}
    (h : trav net s pending todo) (v c : Nat) : trav net (assigned v c s) pending todo where
  wire := h.wire
  values_length := h.values_length
  nodup := (List.Perm.append_right pending (executed_assigned v c s)).nodup_iff.mpr h.nodup
  gate := fun n hn => h.gate n
    ((List.Perm.append_right pending (executed_assigned v c s)).mem_iff.mp hn)
  counted := fun n hn => by
    rw [discharges_perm (executed_assigned v c s) n]
    exact h.counted n hn
  entered := fun n op hop hm => by
    rw [(List.Perm.append_right pending (executed_assigned v c s)).mem_iff]
    exact h.entered n op hop hm
  emitted_order := by
    rw [emitted_assigned, order_ok_append]
    exact ⟨h.emitted_order, order_ok_mono (fun x hx => by simpa using hx) (h.buffer_order v)⟩
  buffer_order := fun v1 => by
    rw [buffer_nodes_assigned, emitted_assigned]
    split
    · trivial
    · exact order_ok_mono (fun x hx => List.mem_append_left _ hx) (h.buffer_order v1)
  buffer_home := fun v1 g hg => by
    simp only [tweedledum.assigned, getD_set_nil] at hg
    split at hg
    · simp at hg
    · exact h.buffer_home v1 g hg
  buffer_unplaced := fun v1 hne => by
    simp only [tweedledum.assigned, getD_set_nil] at hne
    split at hne
    · exact absurd rfl hne
    · rename_i hv
      have := h.buffer_unplaced v1 hne
      simp only [tweedledum.assigned, List.getElem?_set_ne (fun e => hv e.symm)]
      exact this

/-- The traversal state does not depend on the layers, the involved set, the decay vector,
`phy_to_v` or the published placement. -/
theorem trav.frame {net : Network} {s : jit_router} {pending todo : List Nat}
    (h : trav net s pending todo) (fl el : List Nat) (inv : List Bool) (dec : List ℚ)
    (p2v pub : List (Option Nat)) :
    trav net { s with front_layer := fl, extended_layer := el, involved_phy := inv,
                      phy_decay := dec, phy_to_v := p2v, published := pub } pending todo :=
  ⟨h.wire, h.values_length, h.nodup, h.gate, h.counted, h.entered, h.emitted_order,
    h.buffer_order, h.buffer_home, h.buffer_unplaced⟩

theorem trav.placed {net : Network} {s : jit_router} {pending todo : List Nat}
    (h : trav net s pending todo) (v c : Nat) : trav net (placed v c s) pending todo :=
  (h.assigned v c).frame _ _ _ _ _ _

theorem trav.placements {net : Network} {s s1 : jit_router} {pending todo : List Nat}
    (hp : jit_placements s s1) (h : trav net s pending todo) : trav net s1 pending todo := by
  induction hp with
  | refl => exact h
  | step s s1 v c _ _ _ _ ih => exact ih (h.placed v c)

theorem trav.finalisations {net : Network} {s s1 : jit_router} {pending todo : List Nat}
    (hp : finalisations s s1) (h : trav net s pending todo) : trav net s1 pending todo := by
  induction hp with
  | refl => exact h
  | step s s1 v c _ _ _ ih => exact ih (h.assigned v c)

theorem trav.perm_pending {net : Network} {s : jit_router} {pending pending1 todo : List Nat}
    (h : trav net s pending todo) (hp : pending.Perm pending1) : trav net s pending1 todo where
  wire := h.wire
  values_length := h.values_length
  nodup := (List.Perm.append_left (executed s) hp).nodup_iff.mp h.nodup
  gate := fun n hn => h.gate n ((List.Perm.append_left (executed s) hp).mem_iff.mpr hn)
  counted := h.counted
  entered := fun n op hop hm => by
    rw [← (List.Perm.append_left (executed s) hp).mem_iff]
    exact h.entered n op hop hm
  emitted_order := h.emitted_order
  buffer_order := h.buffer_order
  buffer_home := h.buffer_home
  buffer_unplaced := h.buffer_unplaced

theorem executed_emit (s : jit_router) (op : mapped_op) (n : Nat) (hop : node_of op = some n) :
    (executed { s with mapped := s.mapped ++ [op] }).Perm (n :: executed s) := by
  simp only [executed, emitted, buffered, List.filterMap_append, List.filterMap_cons, hop,
    List.filterMap_nil]
  rw [List.append_assoc]
  exact List.perm_middle

/-- The front-layer engine emits the gate of the pending node `n`, all of whose parents are
already emitted; the children of `n` are then due for a discharge. -/
theorem trav.emit {net : Network} {s : jit_router} {pending : List Nat} {n : Nat}
    (h : trav net s (n :: pending) []) (op : mapped_op) (hop : node_of op = some n)
    (hpar : ∀ a, is_gate net a → n ∈ net.children.getD a [] → a ∈ emitted s) :
    trav net { s with mapped := s.mapped ++ [op] } pending (net.children.getD n []) := by
  have hperm := executed_emit s op n hop
  have hperm2 : (executed { s with mapped := s.mapped ++ [op] } ++ pending).Perm
      (executed s ++ n :: pending) :=
    (List.Perm.append_right pending hperm).trans List.perm_middle.symm
  have hem : emitted { s with mapped := s.mapped ++ [op] } = emitted s ++ [n] := by
    simp [emitted, hop]
  refine ⟨h.wire, h.values_length, hperm2.nodup_iff.mpr h.nodup,
    fun m hm => h.gate m (hperm2.mem_iff.mp hm), fun m hm => ?_, fun m opm hopm hmm => ?_,
    ?_, fun v => ?_, h.buffer_home, h.buffer_unplaced⟩
  · rw [discharges_perm hperm m, discharges_cons]
    have := h.counted m hm
    simp only [List.count_nil, Nat.add_zero] at this
    show s.values.getD m 0 + edge_count net n m = _
    omega
  · rw [hperm2.mem_iff]
    exact h.entered m opm hopm hmm
  · rw [hem, order_ok_append]
    exact ⟨h.emitted_order, ⟨fun a ha hc => by simpa using hpar a ha hc, trivial⟩⟩
  · rw [hem]
    exact order_ok_mono (fun x hx => List.mem_append_left _ hx) (h.buffer_order v)

theorem getD_set_append {α : Type} (l : List (List α)) (v v1 : Nat) (x : List α)
    (hv : v < l.length) :
    (l.set v x).getD v1 [] = if v1 = v then x else l.getD v1 [] := by
  simp only [List.getD_eq_getElem?_getD, List.getElem?_set]
  by_cases h : v = v1
  · subst h; simp [hv]
  · have : ¬ v1 = v := fun e => h e.symm
    simp [h, this]

theorem buffered_buffer (s : jit_router) (v n : Nat) (hv : v < s.unexectued.length) :
    (buffered { s with unexectued := s.unexectued.set v (s.unexectued.getD v [] ++ [.node n]) }).Perm
      (n :: buffered s) := by
  have := (perm_flatten_set s.unexectued v (s.unexectued.getD v [] ++ [.node n]) hv).filterMap
    ref_node
  simp only [List.filterMap_append, List.getD_eq_getElem?_getD, List.getElem?_eq_getElem hv,
    Option.getD_some, List.filterMap_cons, ref_node, List.filterMap_nil] at this
  simp only [buffered, List.getD_eq_getElem?_getD, List.getElem?_eq_getElem hv,
    Option.getD_some]
  rw [List.perm_iff_count]
  intro a
  have hc := List.perm_iff_count.mp this a
  simp only [List.count_append, List.count_cons, List.count_nil] at hc ⊢
  omega

/-- The front-layer engine buffers the one-qubit gate of the pending node `n` for the
unplaced virtual qubit `v`; every parent of `n` is emitted or waits in the same buffer. -/
theorem trav.buffer {net : Network} {s : jit_router} {pending : List Nat} {n v : Nat}
    {op : op_type} (h : trav net s (n :: pending) []) (hv : v < s.unexectued.length)
    (hun : s.v_to_phy[v]? = some none) (hop : net.nodes[n]? = some op)
    (h1q : op.is_one_qubit = true) (hwv : net.wire_v[op.target.uid]? = some v)
    (hpar : ∀ a, is_gate net a → n ∈ net.children.getD a [] →
      a ∈ emitted s ∨ a ∈ buffer_nodes s v) :
    trav net (queued v (.node n) s) pending (net.children.getD n []) := by
  have hb : (buffered (queued v (.node n) s)).Perm (n :: buffered s) := buffered_buffer s v n hv
  have hperm : (executed (queued v (.node n) s)).Perm (n :: executed s) := by
    unfold executed
    exact (List.Perm.append_left _ hb).trans List.perm_middle
  have hperm2 : (executed (queued v (.node n) s) ++ pending).Perm
      (executed s ++ n :: pending) :=
    (List.Perm.append_right pending hperm).trans List.perm_middle.symm
  have hbn : ∀ v1, buffer_nodes (queued v (.node n) s) v1 =
      if v1 = v then buffer_nodes s v ++ [n] else buffer_nodes s v1 := by
    intro v1
    simp only [buffer_nodes, queued, getD_set_append _ _ _ _ hv]
    split
    · simp [ref_node]
    · rfl
  refine ⟨h.wire, h.values_length, hperm2.nodup_iff.mpr h.nodup,
    fun m hm => h.gate m (hperm2.mem_iff.mp hm), fun m hm => ?_, fun m opm hopm hmm => ?_,
    h.emitted_order, fun v1 => ?_, fun v1 g hg => ?_, fun v1 hne => ?_⟩
  · rw [discharges_perm hperm m, discharges_cons]
    have := h.counted m hm
    simp only [List.count_nil, Nat.add_zero] at this
    show s.values.getD m 0 + edge_count net n m = _
    omega
  · rw [hperm2.mem_iff]
    exact h.entered m opm hopm hmm
  · rw [hbn]
    split
    · rw [order_ok_append]
      refine ⟨h.buffer_order v, ?_, trivial⟩
      intro a ha hc
      rcases hpar a ha hc with h1 | h1
      · exact List.mem_append_right _ h1
      · exact List.mem_append_left _ (List.mem_reverse.mpr h1)
    · exact h.buffer_order v1
  · simp only [queued, getD_set_append _ _ _ _ hv] at hg
    split at hg
    · rename_i e
      subst e
      rcases List.mem_append.mp hg with h1 | h1
      · exact h.buffer_home v1 g h1
      · simp only [List.mem_singleton] at h1
        exact ⟨n, op, h1, hop, h1q, hwv⟩
    · exact h.buffer_home v1 g hg
  · simp only [queued, getD_set_append _ _ _ _ hv] at hne
    split at hne
    · rename_i e
      subst e; exact hun
    · exact h.buffer_unplaced v1 hne

/-- A SWAP keeps the traversal state, given placement coherence. -/
theorem trav.add_swap {dev : device} {net : Network} {N phy0 phy1 : Nat} {s s1 : jit_router}
    {pending todo : List Nat} (h : trav net s pending todo) (hcoh : coherent N s)
    (hs : add_swap dev phy0 phy1 s = .ok s1) : trav net s1 pending todo := by
  obtain ⟨_, v0, v1, h0, h1, _, _, rfl⟩ := add_swap_eq hs
  have hv := add_swap_v_to_phy hcoh h0 h1
  have hem : ∀ (v2p p2v : List (Option Nat)),
      emitted { s with v_to_phy := v2p, phy_to_v := p2v,
                       mapped := s.mapped ++ [mapped_op.two .swap ⟨phy0, false⟩ phy1] }
        = emitted s := by
    intro v2p p2v
    simp [emitted, node_of]
  have hex : ∀ (v2p p2v : List (Option Nat)),
      executed { s with v_to_phy := v2p, phy_to_v := p2v,
                        mapped := s.mapped ++ [mapped_op.two .swap ⟨phy0, false⟩ phy1] }
        = executed s := by
    intro v2p p2v
    simp only [executed, hem]
    rfl
  refine ⟨h.wire, h.values_length, ?_, ?_, ?_, ?_, ?_, ?_, h.buffer_home, ?_⟩
  · rw [hex]; exact h.nodup
  · rw [hex]; exact h.gate
  · intro n hn; rw [hex]; exact h.counted n hn
  · intro n op hop hm; rw [hex]; exact h.entered n op hop hm
  · rw [hem]; exact h.emitted_order
  · intro v; rw [hem]; exact h.buffer_order v
  · intro v hne
    have := h.buffer_unplaced v hne
    show (set_valid (set_valid s.v_to_phy v0 (some phy1)) v1 (some phy0))[v]? = some none
    rw [hv, this]; rfl

theorem seed_front_layer_eq_advance_children (net : Network) (ids : List Nat)
    (acc : List Nat × List Nat) :
    seed_front_layer net ids acc = advance_children net ids acc := by
  induction ids generalizing acc with
  | nil => rfl
  | cons id ids ih =>
    simp only [seed_front_layer, advance_children]
    split
    · split
      · exact ih _
      · split
        · exact ih _
        · exact ih _
    · rfl

/-- The discharge of the children of an executed node (or of the outputs, when the front
layer is seeded). -/
theorem advance_children_trav {net : Network} {s : jit_router} {rest cs : List Nat}
    {acc acc1 : List Nat × List Nat}
    (hadv : advance_children net cs acc = .ok acc1)
    (h : trav net { s with values := acc.1 } (rest ++ acc.2) cs) :
    trav net { s with values := acc1.1 } (rest ++ acc1.2) [] := by
  induction cs generalizing acc with
  | nil =>
    simp only [advance_children, Except.ok.injEq] at hadv
    subst hadv; exact h
  | cons c cs ih =>
    simp only [advance_children] at hadv
    split at hadv
    · rename_i child hchild
      rw [at__ok] at hchild
      have hclt : c < acc.1.length := by
        have := getElem?_lt_of_eq_some hchild
        have hl := h.values_length
        simp only at hl
        omega
      split at hadv
      · rename_i hmeta
        refine ih hadv ⟨h.wire, h.values_length, h.nodup, h.gate, fun m hm => ?_, h.entered,
          h.emitted_order, h.buffer_order, h.buffer_home, h.buffer_unplaced⟩
        have hcm : acc.1.getD m 0 + (c :: cs).count m =
            net.outputs.count m + discharges net (executed s) m := h.counted m hm
        have hne : c ≠ m := by
          rintro rfl
          obtain ⟨op, hop, hm2⟩ := hm
          rw [hchild] at hop
          simp only [Option.some.injEq] at hop
          subst hop
          rw [hmeta] at hm2; simp at hm2
        simpa [List.count_cons, hne] using hcm
      · rename_i hmeta
        have hmeta : child.is_meta = false := by simpa using hmeta
        have hgc : is_gate net c := ⟨child, hchild, hmeta⟩
        have hent : c ∈ executed s ++ (rest ++ acc.2) ↔ child.num_wires ≤ acc.1.getD c 0 :=
          h.entered c child hchild hmeta
        have hval : ∀ m, (incr_value acc.1 c).1.getD m 0 =
            if m = c then acc.1.getD c 0 + 1 else acc.1.getD m 0 := by
          intro m
          simp only [incr_value, List.getD_eq_getElem?_getD, List.getElem?_set]
          by_cases e : c = m
          · subst e; simp [hclt]
          · have : ¬ m = c := fun e1 => e e1.symm
            simp [e, this]
        have hcount : ∀ m, is_gate net m →
            (incr_value acc.1 c).1.getD m 0 + cs.count m =
              net.outputs.count m + discharges net (executed s) m := by
          intro m hm
          have hcm : acc.1.getD m 0 + (c :: cs).count m =
              net.outputs.count m + discharges net (executed s) m := h.counted m hm
          simp only [List.count_cons] at hcm
          rw [hval]
          by_cases e : m = c
          · subst e
            simp only [if_true, beq_self_eq_true] at hcm ⊢
            omega
          · have e1 : ¬ c = m := fun e1 => e e1.symm
            simp only [e, if_false] at hcm ⊢
            simpa [e1] using hcm
        split at hadv
        · rename_i heq
          simp only [incr_value] at heq
          refine ih hadv ⟨h.wire, by simpa [incr_value] using h.values_length, ?_, ?_, hcount,
            ?_, h.emitted_order, h.buffer_order, h.buffer_home, h.buffer_unplaced⟩
          · have hnot : c ∉ executed s ++ (rest ++ acc.2) := by
              intro hc
              have := hent.mp hc
              omega
            have hp : (executed s ++ (rest ++ (acc.2 ++ [c]))).Perm
                (c :: (executed s ++ (rest ++ acc.2))) := by
              rw [← List.append_assoc rest, ← List.append_assoc (executed s)]
              exact List.perm_append_singleton _ _
            exact hp.nodup_iff.mpr (List.nodup_cons.mpr ⟨hnot, h.nodup⟩)
          · intro m hm
            simp only [List.mem_append, List.mem_singleton] at hm
            rcases hm with hm | hm | hm | hm
            · exact h.gate m (List.mem_append_left _ hm)
            · exact h.gate m (List.mem_append_right _ (List.mem_append_left _ hm))
            · exact h.gate m (List.mem_append_right _ (List.mem_append_right _ hm))
            · subst hm; exact hgc
          · intro m opm hopm hmm
            show m ∈ executed s ++ (rest ++ (acc.2 ++ [c])) ↔ _
            rw [hval]
            by_cases e : m = c
            · subst e
              rw [hchild] at hopm
              simp only [Option.some.injEq] at hopm
              subst hopm
              simp only [if_true]
              constructor
              · intro _; omega
              · intro _; simp
            · have hm1 : m ∈ executed s ++ (rest ++ acc.2) ↔ opm.num_wires ≤ acc.1.getD m 0 :=
                h.entered m opm hopm hmm
              simp only [e, if_false]
              rw [← hm1]
              simp only [List.mem_append, List.mem_singleton, e, or_false]
        · rename_i hneq
          simp only [incr_value] at hneq
          refine ih hadv ⟨h.wire, by simpa [incr_value] using h.values_length, h.nodup, h.gate,
            hcount, ?_, h.emitted_order, h.buffer_order, h.buffer_home, h.buffer_unplaced⟩
          intro m opm hopm hmm
          show m ∈ executed s ++ (rest ++ acc.2) ↔ _
          rw [hval]
          by_cases e : m = c
          · subst e
            rw [hchild] at hopm
            simp only [Option.some.injEq] at hopm
            subst hopm
            simp only [if_true]
            rw [hent]
            constructor
            · intro _; omega
            · intro _; omega
          · simp only [e, if_false]
            exact h.entered m opm hopm hmm
    · simp at hadv

/-- A buffered node is a one-qubit gate waiting in the buffer of its own, unplaced,
virtual qubit. -/
theorem trav.buffered_home {net : Network} {s : jit_router} {pending todo : List Nat}
    (h : trav net s pending todo) {a : Nat} (ha : a ∈ buffered s) :
    ∃ (v : Nat) (opa : op_type), a ∈ buffer_nodes s v ∧ net.nodes[a]? = some opa ∧
      opa.is_one_qubit = true ∧ net.wire_v[opa.target.uid]? = some v ∧
      s.v_to_phy[v]? = some none := by
  obtain ⟨v, hv⟩ := mem_buffered.mp ha
  have hv1 := hv
  simp only [buffer_nodes, List.mem_filterMap] at hv1
  obtain ⟨g, hg, hr⟩ := hv1
  obtain ⟨n, op, rfl, hop, h1q, hwv⟩ := h.buffer_home v g hg
  simp only [ref_node, Option.some.injEq] at hr
  subst hr
  exact ⟨v, op, hv, hop, h1q, hwv, h.buffer_unplaced v (List.ne_nil_of_mem hg)⟩

/-- The parents of a pending one-qubit gate on the virtual qubit `v` are emitted, or wait
in the buffer of `v`. -/
theorem trav.parents_one_qubit {net : Network} {s : jit_router} {pending : List Nat}
    (hw : well_formed net) (h : trav net s pending []) {n v : Nat} {op : op_type}
    (hn : n ∈ pending) (hop : net.nodes[n]? = some op) (hm : op.is_meta = false)
    (h1q : op.is_one_qubit = true) (hwv : net.wire_v[op.target.uid]? = some v)
    (a : Nat) (ha : is_gate net a) (hc : n ∈ net.children.getD a []) :
    a ∈ emitted s ∨ (a ∈ buffer_nodes s v ∧ s.v_to_phy[v]? = some none) := by
  have hex := h.parents_executed hw (List.mem_append_right _ hn) ha hc
  rcases List.mem_append.mp hex with he | hb
  · exact Or.inl he
  · obtain ⟨v1, opa, hbn, hopa, ha1q, hav, hun⟩ := h.buffered_home hb
    obtain ⟨opa1, hopa1, hma⟩ := ha
    rw [hopa] at hopa1
    simp only [Option.some.injEq] at hopa1
    subst hopa1
    have := (hw.same_wire a n opa op hopa hma ha1q hc hop hm).1 h1q
    rw [hwv, hav] at this
    simp only [Option.some.injEq] at this
    subst this
    exact Or.inr ⟨hbn, hun⟩

/-- The parents of a pending gate whose two operands sit on physical qubits are emitted. -/
theorem trav.parents_two_qubit {net : Network} {s : jit_router} {pending : List Nat}
    (hw : well_formed net) (h : trav net s pending []) {n v0 v1 phy0 phy1 : Nat} {op : op_type}
    (hn : n ∈ pending) (hop : net.nodes[n]? = some op) (hm : op.is_meta = false)
    (h1q : op.is_one_qubit = false) (hv0 : net.wire_v[op.control.uid]? = some v0)
    (hv1 : net.wire_v[op.target.uid]? = some v1)
    (hp0 : s.v_to_phy[v0]? = some (some phy0)) (hp1 : s.v_to_phy[v1]? = some (some phy1))
    (a : Nat) (ha : is_gate net a) (hc : n ∈ net.children.getD a []) : a ∈ emitted s := by
  have hex := h.parents_executed hw (List.mem_append_right _ hn) ha hc
  rcases List.mem_append.mp hex with he | hb
  · exact he
  · obtain ⟨v, opa, _, hopa, ha1q, hav, hun⟩ := h.buffered_home hb
    obtain ⟨opa1, hopa1, hma⟩ := ha
    rw [hopa] at hopa1
    simp only [Option.some.injEq] at hopa1
    subst hopa1
    rcases (hw.same_wire a n opa op hopa hma ha1q hc hop hm).2 h1q with e | e
    · rw [hv0, hav] at e
      simp only [Option.some.injEq] at e
      subst e
      rw [hp0] at hun; simp at hun
    · rw [hv1, hav] at e
      simp only [Option.some.injEq] at e
      subst e
      rw [hp1] at hun; simp at hun

/-- One iteration of the loop of `try_add_front_layer` keeps the traversal state: the
processed node leaves the pending nodes when it is executed, and its children that become
ready join them. -/
theorem trav_step {dev : device} {net : Network} (hw : well_formed net)
    (hd : distinct_operands net) {acc acc1 : Bool × List Nat × jit_router} {n : Nat}
    {rest : List Nat} (h : try_add_front_layer_step dev net acc n = .ok acc1)
    (ht : trav net acc.2.2 (n :: rest ++ acc.2.1) []) :
    trav net acc1.2.2 (rest ++ acc1.2.1) [] := by
  have hnp : n ∈ n :: rest ++ acc.2.1 := by simp
  obtain ⟨op0, hop0, hm0⟩ := ht.gate n (List.mem_append_right _ hnp)
  unfold try_add_front_layer_step at h
  simp only [at__ok.mpr hop0, hm0, Bool.false_eq_true, if_false] at h
  have ht1 : trav net acc.2.2 (n :: (rest ++ acc.2.1)) [] := by simpa using ht
  split at h
  · -- executed
    rename_i s1 hexec
    have hs1 : trav net s1 (rest ++ acc.2.1) (net.children.getD n []) := by
      split at hexec
      · rename_i h1q
        obtain ⟨_, v, hv, hcase | ⟨phy, hphy, hr⟩⟩ := add_op_eq hexec
        · obtain ⟨hun, hlt, hr⟩ := hcase
          simp only at hr
          rw [hr]
          rw [ht.wire] at hv
          exact ht1.buffer hlt hun hop0 h1q hv (fun a ha hc => by
            rcases ht.parents_one_qubit hw hnp hop0 hm0 h1q hv a ha hc with e | e
            · exact Or.inl e
            · exact Or.inr e.1)
        · simp only at hr
          rw [hr]
          rw [ht.wire] at hv
          exact ht1.emit _ rfl (fun a ha hc => by
            rcases ht.parents_one_qubit hw hnp hop0 hm0 h1q hv a ha hc with e | e
            · exact e
            · rw [hphy] at e; simp at e)
      · rename_i h1q
        have h1q : op0.is_one_qubit = false := by simpa using h1q
        have hne : ∀ v0 v1, acc.2.2.wire_to_v[op0.control.uid]? = some v0 →
            acc.2.2.wire_to_v[op0.target.uid]? = some v1 → v0 ≠ v1 := by
          rw [ht.wire]; exact hd n op0 hop0 hm0 h1q
        obtain ⟨sm, v0, v1, phy0, phy1, hpl, hv0, hv1, hp0, hp1, hr⟩ := try_add_op_steps hne hexec
        rcases hr with ⟨_, _, hr⟩ | ⟨hf, _, _⟩
        · simp only at hr
          rw [hr]
          have htm := ht.placements hpl
          have htm1 : trav net sm (n :: (rest ++ acc.2.1)) [] := by simpa using htm
          rw [ht.wire] at hv0 hv1
          exact htm1.emit _ rfl
            (htm.parents_two_qubit hw hnp hop0 hm0 h1q hv0 hv1 hp0 hp1)
        · simp at hf
    split at h
    · rename_i values nfl hadv
      simp only [Except.ok.injEq] at h
      subst h
      exact @advance_children_trav net s1 rest _ (s1.values, acc.2.1) (values, nfl) hadv hs1
    · simp at h
  · -- blocked
    rename_i s1 hexec
    have hs1 : trav net s1 (n :: (rest ++ acc.2.1)) [] := by
      split at hexec
      · have := (add_op_eq hexec).1
        simp at this
      · rename_i h1q
        have h1q : op0.is_one_qubit = false := by simpa using h1q
        have hne : ∀ v0 v1, acc.2.2.wire_to_v[op0.control.uid]? = some v0 →
            acc.2.2.wire_to_v[op0.target.uid]? = some v1 → v0 ≠ v1 := by
          rw [ht.wire]; exact hd n op0 hop0 hm0 h1q
        obtain ⟨sm, v0, v1, phy0, phy1, hpl, _, _, _, _, hr⟩ := try_add_op_steps hne hexec
        rcases hr with ⟨ht2, _, _⟩ | ⟨_, _, hr⟩
        · simp at ht2
        · simp only at hr
          rw [hr]
          exact ht1.placements hpl
    split at h
    · split at h
      · split at h
        · simp only [Except.ok.injEq] at h
          subst h
          refine (hs1.frame s1.front_layer s1.extended_layer _ s1.phy_decay s1.phy_to_v
            s1.published).perm_pending ?_
          simp only [← List.append_assoc]
          exact (List.perm_append_singleton n (rest ++ acc.2.1)).symm
        · simp at h
      · simp at h
    · simp at h
    · simp at h
  · simp at h

theorem trav_loop {dev : device} {net : Network} (hw : well_formed net)
    (hd : distinct_operands net) {ns : List Nat} {acc acc1 : Bool × List Nat × jit_router}
    (h : try_add_front_layer_loop dev net ns acc = .ok acc1)
    (ht : trav net acc.2.2 (ns ++ acc.2.1) []) : trav net acc1.2.2 acc1.2.1 [] := by
  induction ns generalizing acc with
  | nil =>
    simp only [try_add_front_layer_loop, Except.ok.injEq] at h
    subst h; simpa using ht
  | cons n ns ih =>
    simp only [try_add_front_layer_loop] at h
    split at h
    · rename_i acc2 h2
      exact ih h (trav_step hw hd h2 ht)
    · simp at h

theorem trav_try_add_front_layer {dev : device} {net : Network} (hw : well_formed net)
    (hd : distinct_operands net) {s : jit_router} {r : Bool × jit_router}
    (h : try_add_front_layer dev net s = .ok r) (ht : trav net s s.front_layer []) :
    trav net r.2 r.2.front_layer [] := by
  unfold try_add_front_layer at h
  split at h
  · rename_i executed nfl s1 hl
    simp only [Except.ok.injEq] at h
    subst h
    have := trav_loop hw hd hl (by simpa using ht)
    exact this.frame nfl s1.extended_layer s1.involved_phy s1.phy_decay s1.phy_to_v s1.published
  · simp at h

theorem swap_round_front_layer {dev : device} {cfg : jit_config} {net : Network} {k : Nat}
    {s s1 : jit_router} (h : swap_round dev cfg net k s = .ok s1) :
    s1.front_layer = s.front_layer := by
  unfold swap_round at h
  split at h
  · rename_i phy0 phy1 s2 hf
    obtain ⟨el, vals, rfl⟩ := find_swap_frame hf
    split at h
    · split at h
      · rename_i s3 h3
        simp only [Except.ok.injEq] at h
        subst h
        obtain ⟨_, _, _, _, _, _, _, rfl⟩ := add_swap_eq h3
        rfl
      · simp at h
    · simp at h
  · simp at h

theorem trav_swap_round {dev : device} {cfg : jit_config} {net : Network} {N k : Nat}
    {s s1 : jit_router} {pending : List Nat} (h : swap_round dev cfg net k s = .ok s1)
    (hcoh : coherent N s) (ht : trav net s pending []) : trav net s1 pending [] := by
  unfold swap_round at h
  split at h
  · rename_i phy0 phy1 s2 hf
    have hv := find_swap_values hf
    obtain ⟨el, vals, rfl⟩ := find_swap_frame hf
    simp only at hv
    subst hv
    split at h
    · rename_i decay hdec
      split at h
      · rename_i s3 h3
        simp only [Except.ok.injEq] at h
        subst h
        have t1 : trav net { s with extended_layer := el, phy_decay := decay } pending [] :=
          ht.frame s.front_layer el s.involved_phy decay s.phy_to_v s.published
        have c1 : coherent N { s with extended_layer := el, phy_decay := decay } := hcoh
        have t3 := t1.add_swap c1 h3
        exact t3.frame s3.front_layer s3.extended_layer _ s3.phy_decay s3.phy_to_v s3.published
      · simp at h
    · simp at h
  · simp at h

/-- The driver loop keeps the routing state and the traversal state. -/
theorem trav_route_loop {dev : device} {cfg : jit_config} {net : Network} {N : Nat}
    {placement : List (Option Nat)} (hw : well_formed net) (hd : distinct_operands net)
    {fuel k : Nat} {s s1 : jit_router} (h : route_loop dev cfg net fuel k s = .ok s1)
    (hr : routing_state N net placement s) (ht : trav net s s.front_layer []) :
    routing_state N net placement s1 ∧ trav net s1 s1.front_layer [] := by
  have hI := routing_state_loop_invariant dev net N placement hd
  induction fuel generalizing k s with
  | zero =>
    simp only [route_loop] at h
    split at h
    · simp only [Except.ok.injEq] at h
      subst h; exact ⟨hr, ht⟩
    · simp at h
  | succ fuel ih =>
    simp only [route_loop] at h
    split at h
    · simp only [Except.ok.injEq] at h
      subst h; exact ⟨hr, ht⟩
    · split at h
      · rename_i s2 h2
        exact ih h (hI.try_add_front_layer h2 hr) (trav_try_add_front_layer hw hd h2 ht)
      · rename_i s2 h2
        have r2 := hI.try_add_front_layer h2 hr
        have t2 := trav_try_add_front_layer hw hd h2 ht
        split at h
        · rename_i s3 h3
          have t3 := trav_swap_round h3 r2.2.1 t2
          rw [← swap_round_front_layer h3] at t3
          exact ih h (hI.swap_round h3 r2) t3
        · simp at h
      · simp at h

theorem flatten_replicate_nil {α : Type} (n : Nat) :
    (List.replicate n ([] : List α)).flatten = [] := by
  induction n with
  | zero => rfl
  | succ n ih => simp [List.replicate_succ, ih]

theorem getD_replicate_nil {α : Type} (n v : Nat) :
    (List.replicate n ([] : List α)).getD v [] = [] := by
  simp only [List.getD_eq_getElem?_getD, List.getElem?_replicate]
  split <;> rfl

theorem ready_init (dev : device) : ready dev (jit_router.init dev) := ⟨rfl, rfl⟩

theorem clear_values_getD (net : Network) (n : Nat) : (clear_values net).getD n 0 = 0 := by
  simp only [clear_values, List.getD_eq_getElem?_getD, List.getElem?_map]
  cases net.nodes[n]? <;> rfl

/-- The entry of `route` starts the traversal: nothing is executed and the front layer
holds the gates all of whose discharges come from `foreach_output`. -/
theorem route_entry_trav {dev : device} {net : Network} {placement : List (Option Nat)}
    {s s1 : jit_router} (hw : well_formed net) (hready : ready dev s)
    (h : route_entry dev net placement s = .ok s1) : trav net s1 s1.front_layer [] := by
  obtain ⟨_, p2v, values, fl, _, hseed, rfl⟩ := route_entry_eq h
  rw [hready.1, seed_front_layer_eq_advance_children] at hseed
  have hex : ∀ vals : List Nat, executed
      { s with wire_to_v := net.wire_v, v_to_phy := placement, published := placement,
               phy_to_v := p2v, phy_decay := s.phy_decay.map (fun _ => 1), mapped := [],
               values := vals } = [] := by
    intro vals
    simp [executed, emitted, buffered, hready.2, flatten_replicate_nil]
  have hbuf : ∀ v, s.unexectued.getD v [] = [] := by
    intro v; rw [hready.2]; exact getD_replicate_nil _ _
  have t0 : trav net
      { s with wire_to_v := net.wire_v, v_to_phy := placement, published := placement,
               phy_to_v := p2v, phy_decay := s.phy_decay.map (fun _ => 1), mapped := [],
               values := clear_values net } ([] ++ []) net.outputs := by
    refine ⟨rfl, by simp [clear_values], ?_, ?_, ?_, ?_, trivial, ?_, ?_, ?_⟩
    · rw [hex]; simp
    · rw [hex]; simp
    · intro n _
      rw [hex]
      show (clear_values net).getD n 0 + _ = _
      rw [clear_values_getD]
      simp [discharges]
    · intro n op hop hm
      rw [hex]
      show n ∈ [] ++ ([] ++ []) ↔ op.num_wires ≤ (clear_values net).getD n 0
      rw [clear_values_getD]
      have := hw.arity_pos n op hop hm
      simp; omega
    · intro v
      show order_ok net _ (List.filterMap ref_node (s.unexectued.getD v []))
      rw [hbuf]; trivial
    · intro v g hg
      have hg1 : g ∈ s.unexectued.getD v [] := hg
      rw [hbuf] at hg1; simp at hg1
    · intro v hne
      exact absurd (hbuf v) hne
  have t1 := @advance_children_trav net
    { s with wire_to_v := net.wire_v, v_to_phy := placement, published := placement,
             phy_to_v := p2v, phy_decay := s.phy_decay.map (fun _ => 1), mapped := [] }
    [] net.outputs (clear_values net, []) (values, fl) hseed t0
  have t2 := t1.frame fl s.extended_layer s.involved_phy (s.phy_decay.map (fun _ => 1)) p2v
    placement
  simpa using t2

/-- With the front layer exhausted, every gate of a well-formed acyclic input has been
executed. -/
theorem trav.complete {net : Network} {s : jit_router} (hw : well_formed net)
    (hac : acyclic net) (h : trav net s [] []) (n : Nat) (hn : is_gate net n) :
    n ∈ executed s := by
  obtain ⟨rank, hrank⟩ := hac
  have key : ∀ k n, rank n = k → is_gate net n → n ∈ executed s := by
    intro k
    induction k using Nat.strong_induction_on with
    | _ k ih =>
      intro n hk hn
      obtain ⟨op, hop, hm⟩ := hn
      have hent := h.entered n op hop hm
      simp only [List.append_nil] at hent
      rw [hent]
      have hc := h.counted n ⟨op, hop, hm⟩
      simp only [List.count_nil, Nat.add_zero] at hc
      have ha := hw.arity_eq n op hop hm
      have hsplit := @discharges_perm net _ _
        (List.filter_append_perm (fun p => decide (p ∈ executed s)) (gates net)) n
      rw [discharges_append] at hsplit
      have hin : discharges net ((gates net).filter (fun p => decide (p ∈ executed s))) n
          ≤ discharges net (executed s) n := by
        apply discharges_le_of_subset net ((gates_nodup net).filter _)
        intro x hx
        simpa using (List.mem_filter.mp hx).2
      have hout : discharges net
          ((gates net).filter (fun p => !decide (p ∈ executed s))) n = 0 := by
        apply List.sum_eq_zero
        intro x hx
        rw [List.mem_map] at hx
        obtain ⟨p, hp, rfl⟩ := hx
        rw [List.mem_filter] at hp
        obtain ⟨hpg, hpe⟩ := hp
        have hpe : p ∉ executed s := by simpa using hpe
        rw [mem_gates] at hpg
        by_contra hne
        have hmem : n ∈ net.children.getD p [] :=
          List.count_pos_iff.mp (Nat.pos_of_ne_zero hne)
        have hlt := hrank p n hpg hmem
        exact hpe (ih (rank p) (by omega) p rfl hpg)
      omega
  exact key (rank n) n rfl hn

theorem tidy_assigned {s : jit_router} (h : tidy s) (v c : Nat) : tidy (assigned v c s) := by
  refine ⟨fun op hop => ?_, fun v1 g hg => ?_⟩
  · simp only [assigned, List.mem_append, flushed, List.mem_map] at hop
    rcases hop with hop | ⟨g, hg, rfl⟩
    · exact h.1 op hop
    · left
      have := h.2 v g hg
      cases g with
      | node n => rfl
      | swap => exact absurd rfl this
  · simp only [assigned, getD_set_nil] at hg
    split at hg
    · simp at hg
    · exact h.2 v1 g hg

theorem tidy_placed {s : jit_router} (h : tidy s) (v c : Nat) : tidy (placed v c s) :=
  tidy_assigned h v c

theorem tidy_placements {s s1 : jit_router} (hp : jit_placements s s1) (h : tidy s) :
    tidy s1 := by
  induction hp with
  | refl => exact h
  | step s s1 v c _ _ _ _ ih => exact ih (tidy_placed h v c)

theorem tidy_finalisations {s s1 : jit_router} (hp : finalisations s s1) (h : tidy s) :
    tidy s1 := by
  induction hp with
  | refl => exact h
  | step s s1 v c _ _ _ ih => exact ih (tidy_assigned h v c)

theorem tidy_emitting {s : jit_router} (h : tidy s) (op : mapped_op)
    (hop : (node_of op).isSome = true ∨ ∃ p0 p1, op = mapped_op.two .swap p0 p1) :
    tidy (emitting op s) := by
  refine ⟨fun op1 hop1 => ?_, h.2⟩
  simp only [emitting, List.mem_append, List.mem_singleton] at hop1
  rcases hop1 with h1 | rfl
  · exact h.1 op1 h1
  · exact hop

theorem tidy_state_loop_invariant (dev : device) (net : Network)
    (hd : distinct_operands net) : loop_invariant dev net (tidy_state net) where
  add_op := by
    intro n op s r _ _ _ h hs
    obtain ⟨_, v, _, h1 | ⟨phy, _, h1⟩⟩ := add_op_eq h
    · rw [h1.2.2]
      refine ⟨hs.1, hs.2.1, fun v1 g hg => ?_⟩
      simp only [getD_set_append _ _ _ _ h1.2.1] at hg
      split at hg
      · rename_i e
        subst e
        rcases List.mem_append.mp hg with h2 | h2
        · exact hs.2.2 v1 g h2
        · simp only [List.mem_singleton] at h2
          subst h2; simp
      · exact hs.2.2 v1 g hg
    · rw [h1]
      exact ⟨hs.1, tidy_emitting hs.2 _ (Or.inl rfl)⟩
  try_add_op := by
    intro n op s r hn hmeta h1q h hs
    have hne : ∀ v0 v1, s.wire_to_v[op.control.uid]? = some v0 →
        s.wire_to_v[op.target.uid]? = some v1 → v0 ≠ v1 := by
      rw [hs.1]; exact hd n op hn hmeta h1q
    obtain ⟨s1, v0, v1, phy0, phy1, hp, _, _, _, _, hr⟩ := try_add_op_steps hne h
    have hw1 : s1.wire_to_v = net.wire_v := by rw [jit_placements_wire_to_v hp]; exact hs.1
    have ht1 := tidy_placements hp hs.2
    rcases hr with ⟨_, _, e⟩ | ⟨_, _, e⟩
    · rw [e]
      exact ⟨hw1, tidy_emitting ht1 _ (Or.inl rfl)⟩
    · rw [e]; exact ⟨hw1, ht1⟩
  add_swap := by
    intro phy0 phy1 s s1 h hs
    obtain ⟨_, v0, v1, _, _, _, _, rfl⟩ := add_swap_eq h
    refine ⟨hs.1, fun op hop => ?_, hs.2.2⟩
    simp only [List.mem_append, List.mem_singleton] at hop
    rcases hop with h1 | rfl
    · exact hs.2.1 op h1
    · exact Or.inr ⟨_, _, rfl⟩
  frame := fun _ _ _ _ _ _ hs => hs

theorem length_eq_nodes_add_swaps (l : List mapped_op)
    (h : ∀ op ∈ l, (node_of op).isSome = true ∨ ∃ p0 p1, op = mapped_op.two .swap p0 p1) :
    l.length = (l.filterMap node_of).length +
      (l.filter (fun op => match op with
        | .two .swap _ _ => true
        | _ => false)).length := by
  induction l with
  | nil => rfl
  | cons op l ih =>
    have ih1 := ih (fun x hx => h x (List.mem_cons_of_mem _ hx))
    rcases h op (List.mem_cons_self _ _) with h1 | ⟨p0, p1, rfl⟩
    · cases op with
      | one g phy =>
        cases g with
        | node n => simp [node_of, ih1]; omega
        | swap => simp [node_of] at h1
      | two g phy0 phy1 =>
        cases g with
        | node n => simp [node_of, ih1]; omega
        | swap => simp [node_of] at h1
    · simp [node_of, ih1]; omega

theorem tidy_length {s : jit_router} (h : tidy s) :
    s.mapped.length = (emitted s).length + (inserted_swaps s).length :=
  length_eq_nodes_add_swaps s.mapped h.1

theorem ready_length {dev : device} {s : jit_router} (h : ready dev s) :
    s.unexectued.length = dev.num_qubits := by
  rw [h.2]; simp

/-- What a returning call of `route` leaves of the traversal, for a well-formed input, an
injective placement and a router that was ready: the traversal state with no pending node,
a tidy mapped DAG and, after finalisation, no unplaced virtual qubit. -/
theorem route_trav {dev : device} {cfg : jit_config} {net : Network}
    {placement : List (Option Nat)} {finalize : Bool} {fuel : Nat} {s r : jit_router}
    (hw : well_formed net) (hd : distinct_operands net)
    (hinj : placement_injective placement) (hready : ready dev s)
    (h : route dev cfg net placement finalize fuel s = .ok r) :
    trav net r [] [] ∧ tidy r ∧ (finalize = true → ∀ v : Nat, r.v_to_phy[v]? ≠ some none) := by
  obtain ⟨s1, s2, s3, h1, h2, h3, rfl⟩ := route_ok h
  have r1 := route_entry_routing_state hinj (ready_length hready) h1
  have t1 := route_entry_trav hw hready h1
  obtain ⟨r2, t2⟩ := trav_route_loop hw hd h2 r1 t1
  rw [route_loop_front_layer h2] at t2
  have ty1 : tidy_state net s1 := by
    refine ⟨r1.1, fun op hop => ?_, fun v g hg => ?_⟩
    · rw [route_entry_mapped h1] at hop; simp at hop
    · obtain ⟨_, p2v, values, fl, _, _, rfl⟩ := route_entry_eq h1
      have hg1 : g ∈ s.unexectued.getD v [] := hg
      rw [hready.2, getD_replicate_nil] at hg1
      simp at hg1
  have ty2 := (tidy_state_loop_invariant dev net hd).route_loop h2 ty1
  have hfin : finalisations s2 s3 := by
    split at h3
    · exact finalize_loop_steps h3
    · simp only [Except.ok.injEq] at h3
      subst h3; exact .refl _
  have t3 := t2.finalisations hfin
  have ty3 := tidy_finalisations hfin ty2.2
  refine ⟨t3.frame s3.front_layer s3.extended_layer s3.involved_phy s3.phy_decay s3.phy_to_v
    s3.v_to_phy, ty3, fun hf v hv => ?_⟩
  subst hf
  simp only [if_true] at h3
  have hvp := finalize_loop_v_to_phy h3
  obtain ⟨l, hl, _⟩ := @assign_free_perm s2.v_to_phy (find_free_phy s2).reverse
    (by simp [free_count_eq_unplaced_count r2.2.1])
  have hv1 : s3.v_to_phy[v]? = some none := hv
  rw [hvp, hl, List.getElem?_map] at hv1
  cases hlv : l[v]? with
  | none => rw [hlv] at hv1; simp at hv1
  | some x => rw [hlv] at hv1; simp at hv1

/-- C2 (counterexample): with `finalize = false` and the single virtual qubit unplaced, the
gate `H(q0)` of the input has no emitted gate: the mapped DAG is empty. -/
theorem unfinalized_route_leaves_gate_unemitted :
    (route single_qubit {} circuit_h [none] false 5
      (jit_router.init single_qubit)).toOption.map (fun r => r.mapped) = some [] ∧
    gates circuit_h = [0] := by
  decide

/-- C2 (amended): for a well-formed acyclic input DAG, an injective placement and a router
that is ready, every gate of the input is executed exactly once by a returning call of
`route`: it is emitted once, or waits once in a buffer; with `finalize = true` no gate
waits, every gate has exactly one emitted gate, and the number of operations of the mapped
DAG is the number of gates plus the number of inserted SWAPs. -/
theorem route_executes_each_gate_once (dev : device) (cfg : jit_config) (net : Network)
    (placement : List (Option Nat)) (finalize : Bool) (fuel : Nat) (s r : jit_router)
    (hw : well_formed net) (hac : acyclic net) (hd : distinct_operands net)
    (hinj : placement_injective placement) (hready : ready dev s)
    (h : route dev cfg net placement finalize fuel s = .ok r) :
    (∀ n, is_gate net n → (emitted r).count n + (buffered r).count n = 1) ∧
    (∀ n ∈ emitted r ++ buffered r, is_gate net n) ∧
    (finalize = true → buffered r = [] ∧ (∀ n, is_gate net n → (emitted r).count n = 1) ∧
      r.mapped.length = (gates net).length + (inserted_swaps r).length) := by
  obtain ⟨t, ty, hpl⟩ := route_trav hw hd hinj hready h
  have hnd : (executed r).Nodup := by simpa using t.nodup
  have hall : ∀ n, is_gate net n → (executed r).count n = 1 := fun n hn =>
    List.count_eq_one_of_mem hnd (t.complete hw hac n hn)
  have hgate : ∀ n ∈ emitted r ++ buffered r, is_gate net n := fun n hn =>
    t.gate n (by simpa [executed] using hn)
  refine ⟨fun n hn => by simpa [executed, List.count_append] using hall n hn, hgate,
    fun hf => ?_⟩
  have hb : buffered r = [] := by
    rw [List.eq_nil_iff_forall_not_mem]
    intro a ha
    obtain ⟨v, _, _, _, _, _, hun⟩ := t.buffered_home ha
    exact hpl hf v hun
  have hex : executed r = emitted r := by simp [executed, hb]
  refine ⟨hb, fun n hn => by rw [← hex]; exact hall n hn, ?_⟩
  rw [tidy_length ty]
  have hperm : (emitted r).Perm (gates net) := by
    rw [List.perm_ext_iff_of_nodup (hex ▸ hnd) (gates_nodup net)]
    intro n
    rw [mem_gates]
    constructor
    · intro hn
      exact hgate n (List.mem_append_left _ hn)
    · intro hn
      rw [← hex]; exact t.complete hw hac n hn
  rw [hperm.length_eq]

/-- C3: for a well-formed input DAG, an injective placement and a router that is ready,
the gates that a returning call of `route` emits appear in an order compatible with the
input DAG: whenever the node `b` is a child of the gate `a`, every occurrence of `b` in the
emission sequence is preceded by `a` (one-qubit gates that were buffered included). -/
theorem route_emission_order (dev : device) (cfg : jit_config) (net : Network)
    (placement : List (Option Nat)) (finalize : Bool) (fuel : Nat) (s r : jit_router)
    (hw : well_formed net) (hd : distinct_operands net)
    (hinj : placement_injective placement) (hready : ready dev s)
    (h : route dev cfg net placement finalize fuel s = .ok r) :
    ∀ (l1 l2 : List Nat) (a b : Nat), emitted r = l1 ++ b :: l2 → is_gate net a →
      b ∈ net.children.getD a [] → a ∈ l1 := by
  obtain ⟨t, _, _⟩ := route_trav hw hd hinj hready h
  intro l1 l2 a b hl ha hb
  exact order_ok_before t.emitted_order hl ha hb

theorem circuit_h_cx_well_formed : well_formed circuit_h_cx where
  arity_pos := by
    intro n op hn _
    rcases n with _ | _ | n
    · simp [circuit_h_cx] at hn; subst hn; decide
    · simp [circuit_h_cx] at hn; subst hn; decide
    · simp [circuit_h_cx] at hn
  arity_eq := by
    intro n op hn _
    rcases n with _ | _ | n
    · simp [circuit_h_cx] at hn; subst hn; decide
    · simp [circuit_h_cx] at hn; subst hn; decide
    · simp [circuit_h_cx] at hn
  same_wire := by
    intro a b opa opb ha _ h1q hb hopb _
    rcases a with _ | _ | a
    · simp [circuit_h_cx] at hb
      subst hb
      simp [circuit_h_cx] at ha hopb
      subst ha hopb
      simp [op_type.is_one_qubit, circuit_h_cx]
    · simp [circuit_h_cx] at hb
    · simp [circuit_h_cx] at hb

theorem circuit_h_cx_acyclic : acyclic circuit_h_cx := by
  refine ⟨id, fun a b _ hb => ?_⟩
  rcases a with _ | _ | a
  · simp [circuit_h_cx] at hb
    subst hb; decide
  · simp [circuit_h_cx] at hb
  · simp [circuit_h_cx] at hb

theorem route_executes_each_gate_once_witness :
    route line3 {} circuit_h_cx [some 0, none, some 1] true 10 (jit_router.init line3)
      = .ok routed_h_cx ∧
    (emitted routed_h_cx).count 1 = 1 ∧
    routed_h_cx.mapped.length
      = (gates circuit_h_cx).length + (inserted_swaps routed_h_cx).length :=
  have hthm := (route_executes_each_gate_once line3 {} circuit_h_cx [some 0, none, some 1]
    true 10 (jit_router.init line3) routed_h_cx circuit_h_cx_well_formed circuit_h_cx_acyclic
    circuit_h_cx_distinct_operands line_placement_injective (ready_init line3)
    route_h_cx).2.2 rfl
  ⟨route_h_cx, hthm.2.1 1 ⟨_, rfl, rfl⟩, hthm.2.2⟩

theorem route_emission_order_witness :
    route line3 {} circuit_h_cx [some 0, none, some 1] true 10 (jit_router.init line3)
      = .ok routed_h_cx ∧
    emitted routed_h_cx = [0] ++ 1 :: [] ∧ 0 ∈ [0] :=
  ⟨route_h_cx, rfl,
    route_emission_order line3 {} circuit_h_cx [some 0, none, some 1] true 10
      (jit_router.init line3) routed_h_cx circuit_h_cx_well_formed
      circuit_h_cx_distinct_operands line_placement_injective (ready_init line3) route_h_cx
      [0] [] 0 1 rfl ⟨_, rfl, rfl⟩ (by decide)⟩

theorem route_loop_fuel_succ {dev : device} {cfg : jit_config} {net : Network} {fuel k : Nat}
    {s r : jit_router} (h : route_loop dev cfg net fuel k s = .ok r) :
    route_loop dev cfg net (fuel + 1) k s = .ok r := by
  induction fuel generalizing k s with
  | zero =>
    simp only [route_loop] at h
    split at h
    · rename_i he
      simp only [route_loop, he, if_true]
      exact h
    · simp at h
  | succ fuel ih =>
    rw [route_loop] at h
    rw [route_loop]
    generalize (k + 1) % 2 ^ 32 = k1 at h ⊢
    by_cases he : s.front_layer.isEmpty = true
    · simpa [he] using h
    · simp only [he, Bool.false_eq_true, if_false] at h ⊢
      cases h1 : try_add_front_layer dev net s with
      | error e => simp [h1] at h
      | ok r1 =>
        obtain ⟨b, s1⟩ := r1
        cases b with
        | true =>
          simp only [h1] at h ⊢
          exact ih h
        | false =>
          simp only [h1] at h ⊢
          cases h2 : swap_round dev cfg net k1 s1 with
          | error e => simp [h2] at h
          | ok s2 =>
            simp only [h2] at h ⊢
            exact ih h

theorem route_loop_fuel_add {dev : device} {cfg : jit_config} {net : Network} {fuel k : Nat}
    {s r : jit_router} (h : route_loop dev cfg net fuel k s = .ok r) (extra : Nat) :
    route_loop dev cfg net (fuel + extra) k s = .ok r := by
  induction extra with
  | zero => exact h
  | succ extra ih => exact route_loop_fuel_succ ih

theorem route_fuel_add {dev : device} {cfg : jit_config} {net : Network}
    {placement : List (Option Nat)} {finalize : Bool} {fuel : Nat} {s r : jit_router}
    (h : route dev cfg net placement finalize fuel s = .ok r) (extra : Nat) :
    route dev cfg net placement finalize (fuel + extra) s = .ok r := by
  obtain ⟨s1, s2, s3, h1, h2, h3, rfl⟩ := route_ok h
  simp only [route, h1, route_loop_fuel_add h2 extra, h3]

/-- C17: on the line device 0 - 1 - 2, with the placement `[0, 1, 2]` and the default
configuration, `route` returns for the circuit `CX(q0, q2)` (for either value of `finalize`
and any fuel from two on) a mapped DAG that holds one SWAP, on the physical qubits 0 and 1,
followed by the CX on the connected pair (1, 2); the published `v_to_phy` is the initial
placement with the emitted SWAPs applied. -/
theorem route_cx02_inserts_swap (finalize : Bool) (fuel : Nat) :
    ∃ r, route line3 {} circuit_cx02 [some 0, some 1, some 2] finalize (2 + fuel)
        (jit_router.init line3) = .ok r ∧
      r.mapped = [.two .swap ⟨0, false⟩ 1, .two (.node 0) ⟨1, false⟩ 2] ∧
      inserted_swaps r = [.two .swap ⟨0, false⟩ 1] ∧
      line3.are_connected 1 2 = true ∧
      r.published = [some 1, some 0, some 2] ∧
      r.published = apply_swaps r.mapped [some 0, some 1, some 2] := by
  have h : ∀ finalize : Bool, ∃ r, route line3 {} circuit_cx02 [some 0, some 1, some 2]
      finalize 2 (jit_router.init line3) = .ok r ∧
      r.mapped = [.two .swap ⟨0, false⟩ 1, .two (.node 0) ⟨1, false⟩ 2] ∧
      inserted_swaps r = [.two .swap ⟨0, false⟩ 1] ∧
      line3.are_connected 1 2 = true ∧
      r.published = [some 1, some 0, some 2] ∧
      r.published = apply_swaps r.mapped [some 0, some 1, some 2] := by
    intro finalize
    cases finalize
    · exact ⟨{ swapped_cx02 with front_layer := [], mapped := [.two .swap ⟨0, false⟩ 1,
        .two (.node 0) ⟨1, false⟩ 2], published := [some 1, some 0, some 2] },
        by decide!, rfl, rfl, rfl, rfl, rfl⟩
    · exact ⟨{ swapped_cx02 with front_layer := [], mapped := [.two .swap ⟨0, false⟩ 1,
        .two (.node 0) ⟨1, false⟩ 2], published := [some 1, some 0, some 2] },
        by decide!, rfl, rfl, rfl, rfl, rfl⟩
  obtain ⟨r, hr, rest⟩ := h finalize
  exact ⟨r, route_fuel_add hr fuel, rest⟩

theorem seed_front_layer_meta {net : Network} {ids : List Nat} (acc : List Nat × List Nat)
    (hnet : ∀ (n : Nat) (op : op_type), net.nodes[n]? = some op → op.is_meta = true)
    (hout : ∀ id ∈ ids, id < net.nodes.length) : seed_front_layer net ids acc = .ok acc := by
  induction ids with
  | nil => rfl
  | cons id ids ih =>
    have hid : id < net.nodes.length := hout id (List.mem_cons_self _ _)
    have hm := hnet id net.nodes[id] (List.getElem?_eq_getElem hid)
    simp only [seed_front_layer, at__of_lt hid, hm, if_true]
    exact ih (fun x hx => hout x (List.mem_cons_of_mem _ hx))

theorem count_none_set_le (l : List (Option Nat)) (p i : Nat) :
    l.count none ≤ (l.set p (some i)).count none + 1 := by
  induction l generalizing p with
  | nil => simp
  | cons a l ih =>
    cases p with
    | zero =>
      simp only [List.set_cons_zero, List.count_cons]
      split <;> simp
    | succ p =>
      simp only [List.set_cons_succ, List.count_cons]
      have := ih p
      omega

theorem new_mapping_fill_count {vs : List (Option Nat)} {i : Nat} {p2v r : List (Option Nat)}
    (h : new_mapping_fill vs i p2v = .ok r) :
    p2v.count none + vs.count none ≤ r.count none + vs.length := by
  induction vs generalizing i p2v with
  | nil =>
    simp only [new_mapping_fill, Except.ok.injEq] at h
    subst h; simp
  | cons a vs ih =>
    cases a with
    | none =>
      have := @ih (i + 1) p2v h
      simp only [List.count_cons_self, List.length_cons]
      omega
    | some p =>
      simp only [new_mapping_fill] at h
      split at h
      · rename_i p2v1 h1
        rw [set_at_ok] at h1
        have := ih h
        have hc := count_none_set_le p2v p i
        rw [← h1.2] at hc
        simp only [List.length_cons]
        rw [List.count_cons_of_ne (by simp)]
        omega
      · simp at h

theorem find_free_phy_from_length (l : List (Option Nat)) (i : Nat) :
    (find_free_phy_from l i).length = l.count none := by
  induction l generalizing i with
  | nil => rfl
  | cons a l ih =>
    cases a with
    | none => simp [find_free_phy_from, ih]
    | some v => simp [find_free_phy_from, ih]

theorem assign_free_placed (l : List (Option Nat)) (free_phy : List Nat) (v p : Nat)
    (h : l[v]? = some (some p)) : (assign_free l free_phy)[v]? = some (some p) := by
  induction l generalizing free_phy v with
  | nil => simp at h
  | cons a l ih =>
    cases a with
    | some q =>
      cases v with
      | zero => simpa [assign_free] using h
      | succ v => simpa [assign_free] using ih free_phy v (by simpa using h)
    | none =>
      cases free_phy with
      | nil =>
        cases v with
        | zero => simp at h
        | succ v => simpa [assign_free] using ih [] v (by simpa using h)
      | cons f fs =>
        cases v with
        | zero => simp at h
        | succ v => simpa [assign_free] using ih fs v (by simpa using h)

theorem assign_free_full (l : List (Option Nat)) (free_phy : List Nat)
    (h : ∀ x ∈ l, x ≠ none) : assign_free l free_phy = l := by
  induction l with
  | nil => rfl
  | cons a l ih =>
    cases a with
    | some q =>
      simp only [assign_free]
      rw [ih (fun x hx => h x (List.mem_cons_of_mem _ hx))]
    | none => exact absurd rfl (h none (List.mem_cons_self _ _))

theorem assign_free_no_none (l : List (Option Nat)) (free_phy : List Nat)
    (h : l.count none ≤ free_phy.length) : ∀ x ∈ assign_free l free_phy, x ≠ none := by
  induction l generalizing free_phy with
  | nil => simp [assign_free]
  | cons a l ih =>
    cases a with
    | some q =>
      simp only [assign_free, List.mem_cons]
      rintro x (rfl | hx)
      · simp
      · exact ih free_phy (by simpa using h) x hx
    | none =>
      cases free_phy with
      | nil => simp at h
      | cons f fs =>
        simp only [assign_free, List.mem_cons]
        rintro x (rfl | hx)
        · simp
        · exact ih fs (by simpa using h) x hx

theorem idle_assigned {s : jit_router} (h : idle s) (v c : Nat) : idle (assigned v c s) := by
  refine ⟨?_, fun v1 => ?_⟩
  · show s.mapped ++ flushed (s.unexectued.getD v []) c = []
    rw [h.1, h.2 v]; rfl
  · show (s.unexectued.set v []).getD v1 [] = []
    rw [getD_set_nil]
    split
    · rfl
    · exact h.2 v1

theorem idle_finalisations {s s1 : jit_router} (hf : finalisations s s1) (h : idle s) :
    idle s1 := by
  induction hf with
  | refl s => exact h
  | step s s1 v c hv hb rest ih => exact ih (idle_assigned h v c)

/-- C15 (counterexample): for the circuit without gates on three wires and the initial
placement `[0, unplaced, 1]` on the line device, the call (with the default
`finalize = true`) publishes `[0, 2, 1]`, not the initial placement. -/
theorem empty_circuit_publishes_finalised_placement :
    (route line3 {} circuit_wires3 [some 0, none, some 1] true 5
      (jit_router.init line3)).toOption.map (fun r => (r.mapped, r.published))
    = some ([], [some 0, some 2, some 1]) := by
  decide!

/-- C15 (amended): for a circuit without gates, a placement of the right length whose placed
entries are below the qubit count and a router that is ready, `route` returns (for any
fuel) a mapped DAG without operations; every virtual qubit that the initial placement places
keeps its physical qubit in the published `v_to_phy`, which is the initial placement itself
when `finalize = false` or when no entry is unplaced; with `finalize = true` the unplaced
virtual qubits receive, in index order, the free physical qubits from the highest down, and
no entry of the published `v_to_phy` is unplaced. -/
theorem route_empty_circuit (dev : device) (cfg : jit_config) (net : Network)
    (placement : List (Option Nat)) (finalize : Bool) (fuel : Nat) (s : jit_router)
    (hnet : ∀ (n : Nat) (op : op_type), net.nodes[n]? = some op → op.is_meta = true)
    (hout : ∀ id ∈ net.outputs, id < net.nodes.length)
    (hlen : placement.length = dev.num_qubits)
    (hp : ∀ p, some p ∈ placement → p < dev.num_qubits)
    (hready : ready dev s) :
    ∃ r, route dev cfg net placement finalize fuel s = .ok r ∧ r.mapped = [] ∧
      (∀ v p : Nat, placement[v]? = some (some p) → r.published[v]? = some (some p)) ∧
      (finalize = false → r.published = placement) ∧
      ((∀ x ∈ placement, x ≠ none) → r.published = placement) ∧
      (finalize = true → (∀ x ∈ r.published, x ≠ none) ∧
        ∃ p2v, new_mapping_fill placement 0 (List.replicate dev.num_qubits none) = .ok p2v ∧
          r.published = assign_free placement (find_free_phy_from p2v 0).reverse) := by
  obtain ⟨p2v, hfill⟩ := @new_mapping_fill_ok placement 0
    (List.replicate dev.num_qubits none) (by simpa using hp)
  have hseed := seed_front_layer_meta (clear_values net, ([] : List Nat)) hnet hout
  have hentry : route_entry dev net placement s = .ok
      { s with wire_to_v := net.wire_v, v_to_phy := placement, published := placement,
               phy_to_v := p2v, phy_decay := s.phy_decay.map (fun _ => 1), mapped := [],
               values := clear_values net, front_layer := [] } := by
    simp only [route_entry, hlen, if_true, new_mapping]
    simp only [show (resize ({ reset s with mapped := [], published := [] } : jit_router).phy_to_v
      dev.num_qubits none) = List.replicate dev.num_qubits none from resize_nil _, hfill]
    simp only [show (reset s).front_layer = [] from hready.1, hseed]
    simp [reset, hready.1]
  obtain ⟨s1, hentry, hfl, hv2p, hp2v, hbuf, hmapped⟩ : ∃ s1,
      route_entry dev net placement s = .ok s1 ∧ s1.front_layer = [] ∧
      s1.v_to_phy = placement ∧ s1.phy_to_v = p2v ∧
      s1.unexectued = List.replicate dev.num_qubits [] ∧ s1.mapped = [] :=
    ⟨_, hentry, rfl, rfl, rfl, hready.2, rfl⟩
  have hidle : idle s1 := by
    refine ⟨hmapped, fun v => ?_⟩
    rw [hbuf, getD_replicate_nil]
  have hloop : route_loop dev cfg net fuel 0 s1 = .ok s1 := by
    cases fuel <;> simp [route_loop, hfl]
  cases finalize with
  | false =>
    refine ⟨{ s1 with published := s1.v_to_phy }, ?_, hidle.1, ?_, fun _ => hv2p,
      fun _ => hv2p, fun h => by simp at h⟩
    · simp [route, hentry, hloop]
    · intro v p h
      show s1.v_to_phy[v]? = _
      rw [hv2p]; exact h
  | true =>
    have hcount : placement.count none ≤ (find_free_phy s1).reverse.length := by
      have h1 := new_mapping_fill_count hfill
      have h2 := find_free_phy_from_length p2v 0
      simp only [List.length_reverse, find_free_phy, hp2v, h2]
      simp only [List.count_replicate_self] at h1
      omega
    obtain ⟨s3, h3⟩ := @finalize_loop_ok s1.v_to_phy.length (find_free_phy s1).reverse s1 []
      s1.v_to_phy rfl rfl (by rw [hv2p, hbuf, hlen]; simp) (by rw [hv2p]; exact hcount)
    have h3v := finalize_loop_v_to_phy h3
    have hpub : s3.v_to_phy = assign_free placement (find_free_phy_from p2v 0).reverse := by
      rw [h3v, hv2p]; simp [find_free_phy, hp2v]
    refine ⟨{ s3 with published := s3.v_to_phy }, ?_,
      (idle_finalisations (finalize_loop_steps h3) hidle).1, ?_, fun h => by simp at h, ?_, ?_⟩
    · simp only [route, hentry, hloop, if_true]
      simp only [List.length_nil] at h3
      simp only [h3]
    · intro v p h
      show s3.v_to_phy[v]? = _
      rw [hpub]; exact assign_free_placed _ _ v p h
    · intro h
      show s3.v_to_phy = _
      rw [hpub]; exact assign_free_full _ _ h
    · intro _
      refine ⟨?_, p2v, hfill, hpub⟩
      show ∀ x ∈ s3.v_to_phy, x ≠ none
      rw [hpub]
      refine assign_free_no_none _ _ ?_
      simpa [find_free_phy, hp2v] using hcount

theorem circuit_wires3_no_gates (n : Nat) (op : op_type)
    (h : circuit_wires3.nodes[n]? = some op) : op.is_meta = true := by
  rcases n with _ | _ | _ | n
  · simp [circuit_wires3] at h; subst h; rfl
  · simp [circuit_wires3] at h; subst h; rfl
  · simp [circuit_wires3] at h; subst h; rfl
  · simp [circuit_wires3] at h

theorem route_empty_circuit_witness :
    ∃ r, route line3 {} circuit_wires3 [some 0, none, some 1] false 0 (jit_router.init line3)
        = .ok r ∧ r.mapped = [] ∧ r.published = [some 0, none, some 1] :=
  have h := route_empty_circuit line3 {} circuit_wires3 [some 0, none, some 1] false 0
    (jit_router.init line3) circuit_wires3_no_gates (by decide) rfl
    (fun p hp => by
      simp only [List.mem_cons, Option.some.injEq, List.mem_singleton, List.not_mem_nil,
        or_false] at hp
      rcases hp with rfl | hp | rfl
      · decide
      · exact absurd hp (by simp)
      · decide)
    (ready_init line3)
  h.imp (fun _ hr => ⟨hr.1, hr.2.1, hr.2.2.2.1 rfl⟩)

theorem swap_score_empty_layer (dev : device) (cfg cfg1 : jit_config) (net : Network)
    (s : jit_router) (phy0 phy1 : Nat) (h : s.extended_layer = []) :
    swap_score dev cfg net s phy0 phy1 = swap_score dev cfg1 net s phy0 phy1 := by
  simp only [swap_score, h, List.isEmpty_nil, if_true]

theorem swap_costs_empty_layer (dev : device) (cfg cfg1 : jit_config) (net : Network)
    (s : jit_router) (cands : List (Nat × Nat)) (h : s.extended_layer = []) :
    swap_costs dev cfg net s cands = swap_costs dev cfg1 net s cands := by
  induction cands with
  | nil => rfl
  | cons c cs ih =>
    obtain ⟨phy0, phy1⟩ := c
    simp only [swap_costs, swap_score_empty_layer dev cfg cfg1 net s phy0 phy1 h, ih]

/-- C11 (counterexample): at the first SWAP search for `circuit_two_pairs` on `line6`, with
`e_set_size = 0` and `use_look_ahead = true` the extended layer holds node 2 and `find_swap`
selects the SWAP (0, 1), while with `use_look_ahead = false` it selects (3, 4). -/
theorem zero_e_set_size_keeps_look_ahead :
    Except.bind (route_entry line6 circuit_two_pairs
        [some 0, some 1, some 2, some 3, some 4, some 5] (jit_router.init line6))
      (try_add_front_layer line6 circuit_two_pairs) = .ok (false, stuck_two_pairs) ∧
    (find_swap line6 { e_set_size := 0 } circuit_two_pairs stuck_two_pairs).toOption.map
      (fun r => (r.1, r.2.extended_layer)) = some ((0, 1), [2]) ∧
    (find_swap line6 { use_look_ahead := false } circuit_two_pairs stuck_two_pairs).toOption.map
      (fun r => (r.1, r.2.extended_layer)) = some ((3, 4), []) := by
  decide!

/-- C11 (amended): with `e_set_size = 0` the look-ahead scans the children of the first node
of the front layer and stops: the extended layer it leaves is the one that this single child
scan produces (it is empty for an empty front layer, and it has at most as many nodes as the
first node has children). When that extended layer is empty, and the router held an empty
extended layer before, `find_swap` returns the same SWAP and the same state as with
`use_look_ahead = false`. -/
theorem zero_e_set_size_scans_first_node (dev : device) (cfg : jit_config) (net : Network)
    (s s1 : jit_router) (h0 : cfg.e_set_size = 0)
    (h : select_extended_layer net cfg s = .ok s1) :
    (s.front_layer = [] → s1.extended_layer = []) ∧
    (∀ n ns, s.front_layer = n :: ns →
      s1.extended_layer.length ≤ (net.children.getD n []).length ∧
      ∃ acc, extend_children net (net.children.getD n [])
          { values := s.values, incremented_nodes := [], new_tmp_front_layer := [],
            extended_layer := [] } = .ok acc ∧
        s1.extended_layer = acc.extended_layer) ∧
    (s1.extended_layer = [] → s.extended_layer = [] → cfg.use_look_ahead = true →
      ∀ cfg1 : jit_config, cfg1.use_look_ahead = false →
        find_swap dev cfg net s = find_swap dev cfg1 net s) := by
  refine ⟨fun hfl => ?_, fun n ns hfl => ?_, fun he hse hla cfg1 hla1 => ?_⟩
  · simp only [select_extended_layer, hfl, extend_loop, List.isEmpty_nil, if_true] at h
    split at h
    · simp only [Except.ok.injEq] at h
      subst h; rfl
    · simp at h
  · simp only [select_extended_layer, hfl, extend_loop, List.isEmpty_cons, Bool.false_eq_true,
      if_false, extend_layer, h0] at h
    cases hn : at_ net.nodes n with
    | error e => simp [hn] at h
    | ok opn =>
      simp only [hn] at h
      cases hc : extend_children net (net.children.getD n [])
          { values := s.values, incremented_nodes := [], new_tmp_front_layer := [],
            extended_layer := [] } with
      | error e =>
        rw [hc] at h
        simp at h
      | ok acc =>
        rw [hc] at h
        simp only [ge_iff_le, Nat.zero_le, if_true] at h
        split at h
        · simp only [Except.ok.injEq] at h
          subst h
          refine ⟨?_, acc, rfl, rfl⟩
          have := (extend_children_spec hc).1
          simpa using this
        · simp at h
  · obtain ⟨el, vals, hs1⟩ := select_extended_layer_frame h
    have hv := select_extended_layer_values h
    have heq : s1 = s := by
      subst hs1
      simp only at he hv
      subst he hv
      cases s
      simp only at hse
      subst hse
      rfl
    simp only [find_swap, hla, hla1, if_true, Bool.false_eq_true, if_false, h, heq]
    cases hcands : swap_candidates s.involved_phy dev.edges with
    | error e => rfl
    | ok cands =>
      simp only [swap_costs_empty_layer dev cfg cfg1 net s cands hse]

theorem zero_e_set_size_scans_first_node_witness :
    select_extended_layer circuit_two_pairs { e_set_size := 0 } stuck_two_pairs
      = .ok { stuck_two_pairs with extended_layer := [2] } ∧
    ({ stuck_two_pairs with extended_layer := [2] } : jit_router).extended_layer.length
      ≤ (circuit_two_pairs.children.getD 0 []).length :=
  have hs : select_extended_layer circuit_two_pairs { e_set_size := 0 } stuck_two_pairs
      = .ok { stuck_two_pairs with extended_layer := [2] } := by decide!
  ⟨hs, ((zero_e_set_size_scans_first_node line6 { e_set_size := 0 } circuit_two_pairs
    stuck_two_pairs { stuck_two_pairs with extended_layer := [2] } rfl hs).2.1 0 [1] rfl).1⟩

theorem connect_wire_length (ids : gate_ids) (nl : netlist) (w : wire_id) :
    (netlist.connect_wire ids nl w).nodes.length = nl.nodes.length + 1 ∧
    (netlist.connect_wire ids nl w).inputs.length = nl.inputs.length + 1 := by
  simp [netlist.connect_wire]

theorem create_wire_length (ids : gate_ids) (nl : netlist) (c : wire_call) :
    (nl.create_wire ids c).nodes.length = nl.nodes.length + 1 ∧
    (nl.create_wire ids c).inputs.length = nl.inputs.length + 1 := by
  rcases c with ⟨_ | name, mode⟩ | ⟨_ | name, mode⟩ <;>
    simp [netlist.create_wire, netlist.create_qubit, netlist.create_qubit_unnamed,
      netlist.create_cbit, netlist.create_cbit_unnamed, netlist.connect_wire]

theorem create_wires_length (ids : gate_ids) (nl : netlist) (calls : List wire_call) :
    (nl.create_wires ids calls).nodes.length = nl.nodes.length + calls.length ∧
    (nl.create_wires ids calls).inputs.length = nl.inputs.length + calls.length := by
  induction calls generalizing nl with
  | nil => simp [netlist.create_wires]
  | cons c cs ih =>
    have h1 := create_wire_length ids nl c
    have h2 := ih (nl.create_wire ids c)
    simp only [netlist.create_wires, List.foldl_cons, List.length_cons] at h2 ⊢
    omega

theorem size_num_operations_succ (nl nl1 : netlist)
    (h1 : nl1.nodes.length = nl.nodes.length + 1) (h2 : nl1.inputs.length = nl.inputs.length + 1)
    (hn : nl.nodes.length + 1 < 2 ^ 32) :
    nl1.size = nl.size + 1 ∧ nl1.num_operations = nl.num_operations := by
  unfold netlist.size netlist.num_operations
  rw [h1, h2]
  constructor
  · rw [Nat.mod_eq_of_lt hn, Nat.mod_eq_of_lt (by omega)]
  · have : nl.nodes.length + 1 + 2 ^ 64 - (nl.inputs.length + 1)
        = nl.nodes.length + 2 ^ 64 - nl.inputs.length := by omega
    rw [this]

/-- C18: for a netlist with room for one more node under a 32-bit identifier, each call of
`create_qubit` or `create_cbit`, named or unnamed, increases `size()` by exactly 1 and leaves
`num_operations()` unchanged; the empty netlist has `size() = 0` and `num_operations() = 0`,
and a netlist built from it only by creating `n` wires has `size() = n` and
`num_operations() = 0`. -/
theorem create_wire_increases_size (ids : gate_ids) (nl : netlist) (name : String)
    (mode : wire_modes) (hn : nl.nodes.length + 1 < 2 ^ 32) :
    ((nl.create_qubit ids name mode).2.size = nl.size + 1 ∧
      (nl.create_qubit ids name mode).2.num_operations = nl.num_operations) ∧
    ((nl.create_qubit_unnamed ids mode).2.size = nl.size + 1 ∧
      (nl.create_qubit_unnamed ids mode).2.num_operations = nl.num_operations) ∧
    ((nl.create_cbit ids name mode).2.size = nl.size + 1 ∧
      (nl.create_cbit ids name mode).2.num_operations = nl.num_operations) ∧
    ((nl.create_cbit_unnamed ids mode).2.size = nl.size + 1 ∧
      (nl.create_cbit_unnamed ids mode).2.num_operations = nl.num_operations) ∧
    (netlist.init.size = 0 ∧ netlist.init.num_operations = 0) ∧
    (∀ calls : List wire_call, calls.length < 2 ^ 32 →
      (netlist.init.create_wires ids calls).size = calls.length ∧
      (netlist.init.create_wires ids calls).num_operations = 0) := by
  have key : ∀ c : wire_call, (nl.create_wire ids c).size = nl.size + 1 ∧
      (nl.create_wire ids c).num_operations = nl.num_operations := fun c =>
    size_num_operations_succ nl _ (create_wire_length ids nl c).1
      (create_wire_length ids nl c).2 hn
  refine ⟨key (.qubit (some name) mode), key (.qubit none mode), key (.cbit (some name) mode),
    key (.cbit none mode), ⟨rfl, rfl⟩, fun calls hc => ?_⟩
  obtain ⟨h1, h2⟩ := create_wires_length ids netlist.init calls
  have e1 : netlist.init.nodes.length = 0 := rfl
  have e2 : netlist.init.inputs.length = 0 := rfl
  unfold netlist.size netlist.num_operations
  rw [h1, h2, e1, e2]
  constructor
  · rw [Nat.zero_add, Nat.mod_eq_of_lt hc]
  · have : 0 + calls.length + 2 ^ 64 - (0 + calls.length) = 2 ^ 64 := by omega
    rw [this]; norm_num

theorem create_wire_increases_size_witness :
    (netlist.init.create_qubit ⟨0, 1⟩ "qubit" .inout).2.size = netlist.init.size + 1 ∧
    (netlist.init.create_qubit ⟨0, 1⟩ "qubit" .inout).2.num_operations
      = netlist.init.num_operations :=
  (create_wire_increases_size ⟨0, 1⟩ netlist.init "qubit" .inout (by decide)).1

theorem emplace_op_adds (nl : netlist) (op : Operation)
    (hn : nl.nodes.length + 1 < 2 ^ 32) (hinv : nl.inputs.length ≤ nl.nodes.length) :
    nl.adds (nl.emplace_op op) op := by
  refine ⟨rfl, ⟨{ op := op, data := nl.default_value }, ?_, rfl⟩, ?_, fun j hj => ?_⟩
  · simp only [netlist.emplace_op, netlist.node]
    rw [Nat.mod_eq_of_lt (by omega), at__ok]
    simp
  · simp only [netlist.emplace_op, netlist.num_operations, List.length_append,
      List.length_singleton]
    have e1 : nl.nodes.length + 1 + 2 ^ 64 - nl.inputs.length
        = (nl.nodes.length + 1 - nl.inputs.length) + 2 ^ 64 := by omega
    have e2 : nl.nodes.length + 2 ^ 64 - nl.inputs.length
        = (nl.nodes.length - nl.inputs.length) + 2 ^ 64 := by omega
    rw [e1, e2, Nat.add_mod_right, Nat.add_mod_right]
    rw [Nat.mod_eq_of_lt (a := nl.nodes.length + 1 - nl.inputs.length) (by omega),
      Nat.mod_eq_of_lt (a := nl.nodes.length - nl.inputs.length) (by omega),
      Nat.mod_eq_of_lt (by omega), Nat.mod_eq_of_lt (by omega)]
    omega
  · simp only [netlist.emplace_op, netlist.node, at_]
    rw [List.getElem?_append_left hj]

/-- C19: for a netlist whose inputs are among its nodes and that has room for one more node
under a 32-bit identifier, `create_op(g, wires...)` returns the node identifier equal to
`size()` before the call; the node stored under it holds an operation with the gate
identifier `g.id()` and the given wires as its controls and targets (for `swap`, as
`target(0)` and `target(1)`); `num_operations()` increases by exactly 1; and every node
stored before is unchanged. -/
theorem create_op_appends_node (ids : gate_ids) (nl : netlist) (g : gate)
    (hn : nl.nodes.length + 1 < 2 ^ 32) (hinv : nl.inputs.length ≤ nl.nodes.length) :
    (∀ t, nl.adds (nl.create_op1 g t) (Operation.mk1 g t) ∧
      (Operation.mk1 g t).id = g.id ∧ (Operation.mk1 g t).target 0 = some t) ∧
    (∀ w0 w1, nl.adds (nl.create_op2 ids g w0 w1) (Operation.mk2 ids g w0 w1) ∧
      (Operation.mk2 ids g w0 w1).id = g.id ∧
      (g.id = ids.swap → (Operation.mk2 ids g w0 w1).target 0 = some w0 ∧
        (Operation.mk2 ids g w0 w1).target 1 = some w1) ∧
      (g.id ≠ ids.swap → (Operation.mk2 ids g w0 w1).control 0 = some w0 ∧
        (Operation.mk2 ids g w0 w1).target 0 = some w1)) ∧
    (∀ c0 c1 t, nl.adds (nl.create_op3 g c0 c1 t) (Operation.mk3 g c0 c1 t) ∧
      (Operation.mk3 g c0 c1 t).id = g.id ∧ (Operation.mk3 g c0 c1 t).control 0 = some c0 ∧
      (Operation.mk3 g c0 c1 t).control 1 = some c1 ∧
      (Operation.mk3 g c0 c1 t).target 0 = some t) ∧
    (∀ cs ts, nl.adds (nl.create_opn g cs ts) (Operation.mkn g cs ts) ∧
      (Operation.mkn g cs ts).id = g.id ∧ (Operation.mkn g cs ts).controls = cs ∧
      (Operation.mkn g cs ts).targets = ts) := by
  refine ⟨fun t => ⟨emplace_op_adds nl _ hn hinv, rfl, rfl⟩,
    fun w0 w1 => ⟨emplace_op_adds nl _ hn hinv, ?_, ?_, ?_⟩,
    fun c0 c1 t => ⟨emplace_op_adds nl _ hn hinv, rfl, rfl, rfl, rfl⟩,
    fun cs ts => ⟨emplace_op_adds nl _ hn hinv, rfl, rfl, rfl⟩⟩
  · unfold Operation.mk2; split <;> rfl
  · intro h; simp [Operation.mk2, h, Operation.target]
  · intro h; simp [Operation.mk2, h, Operation.target, Operation.control]

theorem create_op_appends_node_witness :
    (netlist.init.create_qubit ⟨0, 1⟩ "q0" .inout).2.adds
      ((netlist.init.create_qubit ⟨0, 1⟩ "q0" .inout).2.create_op1 ⟨2⟩ ⟨0, false⟩)
      (Operation.mk1 ⟨2⟩ ⟨0, false⟩) :=
  ((create_op_appends_node ⟨0, 1⟩ (netlist.init.create_qubit ⟨0, 1⟩ "q0" .inout).2 ⟨2⟩
    (by decide) (by decide)).1 ⟨0, false⟩).1

theorem coherent_placements {N : Nat} {s s1 : jit_router} (hp : jit_placements s s1)
    (h : coherent N s) : coherent N s1 := by
  induction hp with
  | refl s => exact h
  | step s s1 v c hv hc hb rest ih => exact ih (coherent_placed h hv hc)

/-- C20: placement coherence (`phy_to_v[v_to_phy[v]] = v` for every placed V and
`v_to_phy[phy_to_v[p]] = p` for every occupied P) holds for the maps that the entry of
`route` builds from an injective initial placement; it is kept by every `add_swap`, by every
`place_one_v` with an unplaced operand and by every `place_two_v` of two different unplaced
virtual qubits; and it holds in the state in which the driver loop is left. -/
theorem placement_coherence_invariant (dev : device) (cfg : jit_config) (net : Network)
    (placement : List (Option Nat)) (s s1 : jit_router)
    (hinj : placement_injective placement) (hd : distinct_operands net)
    (hbuf : s.unexectued.length = dev.num_qubits)
    (h1 : route_entry dev net placement s = .ok s1) :
    ((∀ v p : Nat, s1.v_to_phy[v]? = some (some p) → s1.phy_to_v[p]? = some (some v)) ∧
      (∀ p v : Nat, s1.phy_to_v[p]? = some (some v) → s1.v_to_phy[v]? = some (some p))) ∧
    coherent dev.num_qubits s1 ∧
    (∀ (t t1 : jit_router) (phy0 phy1 : Nat), coherent dev.num_qubits t →
      add_swap dev phy0 phy1 t = .ok t1 → coherent dev.num_qubits t1) ∧
    (∀ (t t1 : jit_router) (v0 v1 : Nat) (phy0 phy1 : Option Nat), coherent dev.num_qubits t →
      t.v_to_phy[v0]? = some phy0 → t.v_to_phy[v1]? = some phy1 → (phy0 = none ∨ phy1 = none) →
      place_one_v dev v0 v1 t = .ok t1 → coherent dev.num_qubits t1) ∧
    (∀ (t t1 : jit_router) (v0 v1 : Nat), coherent dev.num_qubits t → v0 ≠ v1 →
      t.v_to_phy[v0]? = some none → t.v_to_phy[v1]? = some none →
      place_two_v dev v0 v1 t = .ok t1 → coherent dev.num_qubits t1) ∧
    (∀ (fuel k : Nat) (s2 : jit_router), route_loop dev cfg net fuel k s1 = .ok s2 →
      coherent dev.num_qubits s2 ∧
      (∀ v p : Nat, s2.v_to_phy[v]? = some (some p) → s2.phy_to_v[p]? = some (some v)) ∧
      (∀ p v : Nat, s2.phy_to_v[p]? = some (some v) → s2.v_to_phy[v]? = some (some p))) := by
  have hr1 := route_entry_routing_state hinj hbuf h1
  refine ⟨⟨fun v p h => (hr1.2.1.2.2 v p).mp h, fun p v h => (hr1.2.1.2.2 v p).mpr h⟩, hr1.2.1,
    fun t t1 phy0 phy1 ht h => coherent_add_swap h ht,
    fun t t1 v0 v1 phy0 phy1 ht h0 h1 hn h =>
      coherent_placements (place_one_v_steps h0 h1 hn h) ht,
    fun t t1 v0 v1 ht hne h0 h1 h => coherent_placements (place_two_v_steps hne h0 h1 h) ht,
    fun fuel k s2 h2 => ?_⟩
  have hr2 := (routing_state_loop_invariant dev net dev.num_qubits placement hd).route_loop h2 hr1
  exact ⟨hr2.2.1, fun v p h => (hr2.2.1.2.2 v p).mp h, fun p v h => (hr2.2.1.2.2 v p).mpr h⟩

theorem route_entry_h_cx :
    route_entry line3 circuit_h_cx [some 0, none, some 1] (jit_router.init line3)
      = .ok entered_h_cx := by
  decide!

theorem route_loop_h_cx : route_loop line3 {} circuit_h_cx 10 0 entered_h_cx = .ok looped_h_cx := by
  decide!

theorem placement_coherence_invariant_witness :
    route_entry line3 circuit_h_cx [some 0, none, some 1] (jit_router.init line3)
      = .ok entered_h_cx ∧
    coherent 3 entered_h_cx ∧ coherent 3 looped_h_cx :=
  have h := placement_coherence_invariant line3 {} circuit_h_cx [some 0, none, some 1]
    (jit_router.init line3) entered_h_cx line_placement_injective
    circuit_h_cx_distinct_operands rfl route_entry_h_cx
  ⟨route_entry_h_cx, h.2.1, (h.2.2.2.2.2 10 0 _ route_loop_h_cx).1⟩

theorem queued_buffer (v : Nat) (gs : List gate_ref) (s : jit_router)
    (hv : v < s.unexectued.length) :
    v < (gs.foldl (fun t g => queued v g t) s).unexectued.length ∧
    (gs.foldl (fun t g => queued v g t) s).unexectued.getD v [] = s.unexectued.getD v [] ++ gs ∧
    (gs.foldl (fun t g => queued v g t) s).mapped = s.mapped := by
  induction gs generalizing s with
  | nil => simp [hv]
  | cons g gs ih =>
    have hq : v < (queued v g s).unexectued.length := by simp [queued, hv]
    obtain ⟨h1, h2, h3⟩ := ih (queued v g s) hq
    refine ⟨h1, ?_, ?_⟩
    · rw [List.foldl_cons, h2]
      show (s.unexectued.set v (s.unexectued.getD v [] ++ [g])).getD v [] ++ gs = _
      rw [getD_set_append _ _ _ _ hv]
      simp
    · rw [List.foldl_cons, h3]; rfl

/-- C16: a one-qubit gate that reaches `add_op` while its virtual qubit `v` is unplaced is
appended to the buffer `unexecuted[v]` and nothing is emitted; a placement of `v` on the
physical qubit `c` (the effect of `place_one_v`, of each half of `place_two_v` and of a
finalisation step) emits the buffered gates on `c` in the order in which they were buffered
and leaves the buffer empty; and the two-qubit gate that `try_add_op` emits comes after the
gates flushed by the placements it triggered. -/
theorem buffered_gates_flush_in_order (dev : device) (s : jit_router) :
    (∀ (g : gate_ref) (w0 : wire_id) (v : Nat) (r : Bool × jit_router),
      s.wire_to_v[w0.uid]? = some v → s.v_to_phy[v]? = some none →
      add_op g w0 s = .ok r → r = (true, queued v g s)) ∧
    (∀ (v c : Nat) (gs : List gate_ref), v < s.unexectued.length →
      (placed v c (gs.foldl (fun t g => queued v g t) s)).mapped
        = s.mapped ++ (s.unexectued.getD v [] ++ gs).map (fun g => mapped_op.one g c) ∧
      (placed v c (gs.foldl (fun t g => queued v g t) s)).unexectued.getD v [] = [] ∧
      (assigned v c (gs.foldl (fun t g => queued v g t) s)).mapped
        = s.mapped ++ (s.unexectued.getD v [] ++ gs).map (fun g => mapped_op.one g c) ∧
      (assigned v c (gs.foldl (fun t g => queued v g t) s)).unexectued.getD v [] = []) ∧
    (∀ (v0 v1 : Nat) (s1 : jit_router), place_one_v dev v0 v1 s = .ok s1 →
      ∃ v c, (v = v0 ∨ v = v1) ∧ s1 = placed v c s) ∧
    (∀ (v0 v1 : Nat) (s2 : jit_router), v0 ≠ v1 → place_two_v dev v0 v1 s = .ok s2 →
      ∃ a b, s2 = placed v1 b (placed v0 a s)) ∧
    (∀ (n i : Nat) (free_phy : List Nat) (s1 : jit_router),
      finalize_loop n i free_phy s = .ok s1 → finalisations s s1) ∧
    (∀ (g : gate_ref) (w0 w1 : wire_id) (r : Bool × jit_router),
      (∀ v0 v1, s.wire_to_v[w0.uid]? = some v0 → s.wire_to_v[w1.uid]? = some v1 → v0 ≠ v1) →
      try_add_op dev g w0 w1 s = .ok r →
      ∃ s1 phy0 phy1, jit_placements s s1 ∧
        (r.2 = s1 ∨ r.2 = emitting (.two g ⟨phy0, w0.is_complemented⟩ phy1) s1)) := by
  refine ⟨fun g w0 v r hw hv h => ?_, fun v c gs hv => ?_, fun v0 v1 s1 h => ?_,
    fun v0 v1 s2 hne h => ?_, fun n i free_phy s1 h => finalize_loop_steps h,
    fun g w0 w1 r hne h => ?_⟩
  · obtain ⟨h1, v1, hw1, hcase⟩ := add_op_eq h
    rw [hw] at hw1
    simp only [Option.some.injEq] at hw1
    subst hw1
    rcases hcase with ⟨_, _, h2⟩ | ⟨phy, hp, _⟩
    · exact Prod.ext h1 h2
    · rw [hv] at hp; simp at hp
  · obtain ⟨h1, h2, h3⟩ := queued_buffer v gs s hv
    refine ⟨?_, ?_, ?_, ?_⟩
    · show (gs.foldl (fun t g => queued v g t) s).mapped ++ flushed _ c = _
      rw [h3, h2]; rfl
    · show ((gs.foldl (fun t g => queued v g t) s).unexectued.set v []).getD v [] = []
      rw [getD_set_nil]; simp
    · show (gs.foldl (fun t g => queued v g t) s).mapped ++ flushed _ c = _
      rw [h3, h2]; rfl
    · show ((gs.foldl (fun t g => queued v g t) s).unexectued.set v []).getD v [] = []
      rw [getD_set_nil]; simp
  · obtain ⟨phy0, phy1, f0, fs, pp, _, _, _, _, _, hs1⟩ := place_one_v_placed h
    refine ⟨_, _, ?_, hs1⟩
    split
    · right; rfl
    · left; rfl
  · obtain ⟨phy0, phy1, a, b, _, _, _, _, _, _, _, _, hs2⟩ := place_two_v_placed hne h
    exact ⟨a, b, hs2⟩
  · obtain ⟨s1, v0, v1, phy0, phy1, hp, _, _, _, _, hcase⟩ := try_add_op_steps hne h
    refine ⟨s1, phy0, phy1, hp, ?_⟩
    rcases hcase with ⟨_, _, h2⟩ | ⟨_, _, h2⟩
    · right; exact h2
    · left; exact h2

theorem buffered_gates_flush_in_order_witness :
    route line3 {} circuit_h_cx [some 0, none, some 1] true 10 (jit_router.init line3)
      = .ok routed_h_cx ∧
    routed_h_cx.mapped
      = [.one (.node 0) 2, .two .swap ⟨0, false⟩ 1, .two (.node 1) ⟨1, false⟩ 2] ∧
    (placed 1 2 ([gate_ref.node 0].foldl (fun t g => queued 1 g t) entered_h_cx)).mapped
      = entered_h_cx.mapped
        ++ (entered_h_cx.unexectued.getD 1 [] ++ [gate_ref.node 0]).map
            (fun g => mapped_op.one g 2) :=
  ⟨route_h_cx, rfl,
    ((buffered_gates_flush_in_order line3 entered_h_cx).2.1 1 2 [.node 0] (by decide)).1⟩

theorem except_map_ok {α β : Type} (f : α → β) (a : α) :
    Except.map f (Except.ok a : Except Err α) = .ok (f a) := rfl

theorem except_map_error {α β : Type} (f : α → β) (e : Err) :
    Except.map f (Except.error e : Except Err α) = .error e := rfl

theorem at__uncomplemented (net : Network) (n : Nat) :
    at_ net.uncomplemented.nodes n = (at_ net.nodes n).map op_type.uncomplemented := by
  simp only [at_, Network.uncomplemented, List.getElem?_map]
  cases net.nodes[n]? <;> rfl

theorem advance_children_uncomplemented (net : Network) (cs : List Nat)
    (acc : List Nat × List Nat) :
    advance_children net.uncomplemented cs acc = advance_children net cs acc := by
  induction cs generalizing acc with
  | nil => rfl
  | cons c cs ih =>
    simp only [advance_children, at__uncomplemented]
    cases at_ net.nodes c with
    | error e => rfl
    | ok child =>
      simp only [except_map_ok, op_type.uncomplemented, ih]

theorem seed_front_layer_uncomplemented (net : Network) (ids : List Nat)
    (acc : List Nat × List Nat) :
    seed_front_layer net.uncomplemented ids acc = seed_front_layer net ids acc := by
  rw [seed_front_layer_eq_advance_children, seed_front_layer_eq_advance_children,
    advance_children_uncomplemented]

theorem extend_children_uncomplemented (net : Network) (cs : List Nat) (acc : ext_acc) :
    extend_children net.uncomplemented cs acc = extend_children net cs acc := by
  induction cs generalizing acc with
  | nil => rfl
  | cons c cs ih =>
    simp only [extend_children, at__uncomplemented]
    cases at_ net.nodes c with
    | error e => rfl
    | ok child =>
      simp only [except_map_ok, op_type.uncomplemented, op_type.is_two_qubit, ih]

theorem extend_layer_uncomplemented (net : Network) (e : Nat) (ns : List Nat) (acc : ext_acc) :
    extend_layer net.uncomplemented e ns acc = extend_layer net e ns acc := by
  induction ns generalizing acc with
  | nil => rfl
  | cons n ns ih =>
    simp only [extend_layer, at__uncomplemented, extend_children_uncomplemented]
    cases at_ net.nodes n with
    | error e => rfl
    | ok op =>
      simp only [except_map_ok, ih]
      rfl

theorem extend_loop_uncomplemented (net : Network) (e fuel : Nat) (tmp : List Nat)
    (acc : ext_acc) :
    extend_loop net.uncomplemented e fuel tmp acc = extend_loop net e fuel tmp acc := by
  induction fuel generalizing tmp acc with
  | zero => rfl
  | succ fuel ih =>
    simp only [extend_loop, extend_layer_uncomplemented, ih]

theorem undo_increment_uncomplemented (net : Network) (ns values : List Nat) :
    undo_increment net.uncomplemented ns values = undo_increment net ns values := by
  induction ns generalizing values with
  | nil => rfl
  | cons n ns ih =>
    simp only [undo_increment, at__uncomplemented]
    cases at_ net.nodes n with
    | error e => rfl
    | ok op => simp only [except_map_ok, ih]

theorem compute_cost_uncomplemented (dev : device) (net : Network) (w2v : List Nat)
    (tmp : List (Option Nat)) (ns : List Nat) (cost : ℚ) :
    compute_cost dev net.uncomplemented w2v tmp ns cost = compute_cost dev net w2v tmp ns cost := by
  induction ns generalizing cost with
  | nil => rfl
  | cons n ns ih =>
    simp only [compute_cost, at__uncomplemented]
    cases at_ net.nodes n with
    | error e => rfl
    | ok op => simp only [except_map_ok, op_type.uncomplemented, ih]

theorem jit_add_loop_uncomplemented (v2p : List (Option Nat)) (v : Nat) (gs : List gate_ref)
    (m : List mapped_op) :
    jit_add_loop v2p v gs (m.map mapped_op.uncomplemented)
      = (jit_add_loop v2p v gs m).map (List.map mapped_op.uncomplemented) := by
  induction gs generalizing m with
  | nil => rfl
  | cons g gs ih =>
    simp only [jit_add_loop]
    cases at_ v2p v with
    | error e => rfl
    | ok p =>
      cases p with
      | none => rfl
      | some phy =>
        simp only []
        rw [← ih]
        simp [create_op1, mapped_op.uncomplemented]

theorem jit_add_uncomplemented (v : Nat) (s : jit_router) :
    jit_add v s.uncomplemented = (jit_add v s).map jit_router.uncomplemented := by
  simp only [jit_add, jit_router.uncomplemented, jit_add_loop_uncomplemented]
  split
  · cases jit_add_loop s.v_to_phy v (s.unexectued.getD v []) s.mapped <;> rfl
  · rfl

theorem add_op_uncomplemented (g : gate_ref) (w0 : wire_id) (s : jit_router) :
    add_op g w0 s.uncomplemented
      = (add_op g w0 s).map (fun r => (r.1, r.2.uncomplemented)) := by
  simp only [add_op, show wire_to_phy s.uncomplemented w0 = wire_to_phy s w0 from rfl,
    show s.uncomplemented.wire_to_v = s.wire_to_v from rfl,
    show s.uncomplemented.unexectued = s.unexectued from rfl]
  cases wire_to_phy s w0 with
  | error e => rfl
  | ok p =>
    cases p with
    | none =>
      simp only []
      cases at_ s.wire_to_v w0.uid with
      | error e => rfl
      | ok v =>
        simp only []
        split <;> rfl
    | some phy =>
      simp [except_map_ok, jit_router.uncomplemented, create_op1, mapped_op.uncomplemented]

theorem add_swap_uncomplemented (dev : device) (phy0 phy1 : Nat) (s : jit_router) :
    add_swap dev phy0 phy1 s.uncomplemented
      = (add_swap dev phy0 phy1 s).map jit_router.uncomplemented := by
  simp only [add_swap, show s.uncomplemented.phy_to_v = s.phy_to_v from rfl,
    show s.uncomplemented.v_to_phy = s.v_to_phy from rfl]
  split
  · rename_i hc
    split
    · split
      · split
        · simp [except_map_ok, jit_router.uncomplemented, create_op2, hc,
            mapped_op.uncomplemented]
        · rfl
      · rfl
    · rfl
    · rfl
  · rfl

theorem unc_front_layer (s : jit_router) : s.uncomplemented.front_layer = s.front_layer := rfl

theorem unc_extended_layer (s : jit_router) :
    s.uncomplemented.extended_layer = s.extended_layer := rfl

theorem unc_involved_phy (s : jit_router) : s.uncomplemented.involved_phy = s.involved_phy := rfl

theorem unc_phy_decay (s : jit_router) : s.uncomplemented.phy_decay = s.phy_decay := rfl

theorem unc_unexectued (s : jit_router) : s.uncomplemented.unexectued = s.unexectued := rfl

theorem unc_wire_to_v (s : jit_router) : s.uncomplemented.wire_to_v = s.wire_to_v := rfl

theorem unc_v_to_phy (s : jit_router) : s.uncomplemented.v_to_phy = s.v_to_phy := rfl

theorem unc_phy_to_v (s : jit_router) : s.uncomplemented.phy_to_v = s.phy_to_v := rfl

theorem unc_values (s : jit_router) : s.uncomplemented.values = s.values := rfl

theorem unc_published (s : jit_router) : s.uncomplemented.published = s.published := rfl

theorem unc_find_free_phy (s : jit_router) : find_free_phy s.uncomplemented = find_free_phy s :=
  rfl

theorem unc_wire_to_phy (s : jit_router) (w : wire_id) :
    wire_to_phy s.uncomplemented w = wire_to_phy s w := rfl

theorem unc_with_maps (s : jit_router) (a b : List (Option Nat)) :
    ({ s with v_to_phy := a, phy_to_v := b, mapped := s.uncomplemented.mapped } : jit_router)
      = ({ s with v_to_phy := a, phy_to_v := b } : jit_router).uncomplemented := rfl

theorem place_two_v_uncomplemented (dev : device) (v0 v1 : Nat) (s : jit_router) :
    place_two_v dev v0 v1 s.uncomplemented
      = (place_two_v dev v0 v1 s).map jit_router.uncomplemented := by
  simp only [place_two_v, unc_front_layer, unc_extended_layer, unc_involved_phy, unc_phy_decay,
    unc_unexectued, unc_wire_to_v, unc_v_to_phy, unc_phy_to_v, unc_values, unc_published,
    unc_find_free_phy, unc_with_maps, jit_add_uncomplemented]
  split
  · split
    · split
      · split
        · split
          · split
            · generalize jit_add v0 _ = r
              cases r with
              | error e => rfl
              | ok s1 => exact jit_add_uncomplemented v1 s1
            · rfl
          · rfl
        · rfl
      · rfl
    · rfl
  · rfl
  · rfl

theorem place_one_v_uncomplemented (dev : device) (v0 v1 : Nat) (s : jit_router) :
    place_one_v dev v0 v1 s.uncomplemented
      = (place_one_v dev v0 v1 s).map jit_router.uncomplemented := by
  simp only [place_one_v, unc_front_layer, unc_extended_layer, unc_involved_phy, unc_phy_decay,
    unc_unexectued, unc_wire_to_v, unc_v_to_phy, unc_phy_to_v, unc_values, unc_published,
    unc_find_free_phy, unc_with_maps, jit_add_uncomplemented]
  split
  · split
    · rfl
    · split
      · rfl
      · split
        · split
          · rfl
          · rfl
        · rfl
  · rfl
  · rfl

theorem try_add_op_place_uncomplemented (dev : device) (w0 w1 : wire_id) (s : jit_router) :
    try_add_op_place dev { uid := w0.uid, is_complemented := false } w1 s.uncomplemented
      = (try_add_op_place dev w0 w1 s).map (fun r => (r.1.uncomplemented, r.2.1, r.2.2)) := by
  simp only [try_add_op_place, unc_wire_to_v, unc_wire_to_phy,
    show wire_to_phy s { uid := w0.uid, is_complemented := false } = wire_to_phy s w0 from rfl,
    place_two_v_uncomplemented, place_one_v_uncomplemented]
  split
  · split
    · split
      · rename_i _ _ phy0 phy1 _ _ _ _ _ v0 v1 _ _
        have key : ∀ r : Except Err jit_router,
            (match Except.map jit_router.uncomplemented r with
              | Except.ok s1 =>
                match wire_to_phy s1 { uid := w0.uid, is_complemented := false },
                    wire_to_phy s1 w1 with
                | Except.ok q0, Except.ok q1 => Except.ok (s1, q0, q1)
                | Except.error e, _ => Except.error e
                | _, Except.error e => Except.error e
              | Except.error e => Except.error e) =
            Except.map (fun r => (r.1.uncomplemented, r.2.1, r.2.2))
              (match r with
              | Except.ok s1 =>
                match wire_to_phy s1 w0, wire_to_phy s1 w1 with
                | Except.ok q0, Except.ok q1 => Except.ok (s1, q0, q1)
                | Except.error e, _ => Except.error e
                | _, Except.error e => Except.error e
              | Except.error e => Except.error e) := by
          intro r
          cases r with
          | error e => rfl
          | ok s1 =>
            simp only [except_map_ok, unc_wire_to_phy,
              show wire_to_phy s1 { uid := w0.uid, is_complemented := false }
                = wire_to_phy s1 w0 from rfl]
            split <;> rfl
        by_cases hc : phy0 = none ∧ phy1 = none
        · simp only [hc, and_self, if_true]
          exact key _
        · simp only [hc, if_false]
          exact key _
      · rfl
      · rfl
    · rfl
  · rfl
  · rfl

theorem try_add_op_uncomplemented (dev : device) (g : gate_ref) (w0 w1 : wire_id)
    (s : jit_router) :
    try_add_op dev g { uid := w0.uid, is_complemented := false } w1 s.uncomplemented
      = (try_add_op dev g w0 w1 s).map (fun r => (r.1, r.2.uncomplemented)) := by
  simp only [try_add_op, try_add_op_place_uncomplemented]
  generalize try_add_op_place dev w0 w1 s = r
  cases r with
  | error e => rfl
  | ok r =>
    obtain ⟨s1, q0, q1⟩ := r
    cases q0 with
    | none => rfl
    | some phy0 =>
      cases q1 with
      | none => rfl
      | some phy1 =>
        simp only [except_map_ok]
        by_cases hc : dev.are_connected phy0 phy1 = true
        · simp [hc, create_op2, jit_router.uncomplemented, mapped_op.uncomplemented,
            except_map_ok]
        · simp [hc, except_map_ok]

theorem try_add_front_layer_step_uncomplemented (dev : device) (net : Network)
    (acc : Bool × List Nat × jit_router) (n : Nat) :
    try_add_front_layer_step dev net.uncomplemented (acc.1, acc.2.1, acc.2.2.uncomplemented) n
      = (try_add_front_layer_step dev net acc n).map
          (fun r => (r.1, r.2.1, r.2.2.uncomplemented)) := by
  obtain ⟨b, nfl, s⟩ := acc
  simp only [try_add_front_layer_step, at__uncomplemented, advance_children_uncomplemented]
  cases at_ net.nodes n with
  | error e => rfl
  | ok op =>
    simp only [except_map_ok, show op.uncomplemented.is_meta = op.is_meta from rfl,
      show op.uncomplemented.is_one_qubit = op.is_one_qubit from rfl,
      show op.uncomplemented.target = op.target from rfl,
      show op.uncomplemented.control = { uid := op.control.uid, is_complemented := false }
        from rfl,
      show net.uncomplemented.children = net.children from rfl,
      add_op_uncomplemented, try_add_op_uncomplemented]
    by_cases hm : op.is_meta = true
    · simp only [hm, if_true]; rfl
    · simp only [hm, if_false]
      have key : ∀ r : Except Err (Bool × jit_router),
          (match Except.map (fun r => (r.1, r.2.uncomplemented)) r with
            | Except.ok (true, s1) =>
              match advance_children net (net.children.getD n []) (s1.values, nfl) with
              | Except.ok (values, nfl) => Except.ok (true, nfl, { s1 with values := values })
              | Except.error e => Except.error e
            | Except.ok (false, s1) =>
              match wire_to_phy s1 { uid := op.control.uid, is_complemented := false },
                  wire_to_phy s1 op.target with
              | Except.ok c, Except.ok t =>
                match set_at_id s1.involved_phy c true with
                | Except.ok inv1 =>
                  match set_at_id inv1 t true with
                  | Except.ok inv2 =>
                    Except.ok (b, nfl ++ [n], { s1 with involved_phy := inv2 })
                  | Except.error e => Except.error e
                | Except.error e => Except.error e
              | Except.error e, _ => Except.error e
              | _, Except.error e => Except.error e
            | Except.error e => Except.error e) =
          Except.map (fun r => (r.1, r.2.1, r.2.2.uncomplemented))
            (match r with
            | Except.ok (true, s1) =>
              match advance_children net (net.children.getD n []) (s1.values, nfl) with
              | Except.ok (values, nfl) => Except.ok (true, nfl, { s1 with values := values })
              | Except.error e => Except.error e
            | Except.ok (false, s1) =>
              match wire_to_phy s1 op.control, wire_to_phy s1 op.target with
              | Except.ok c, Except.ok t =>
                match set_at_id s1.involved_phy c true with
                | Except.ok inv1 =>
                  match set_at_id inv1 t true with
                  | Except.ok inv2 =>
                    Except.ok (b, nfl ++ [n], { s1 with involved_phy := inv2 })
                  | Except.error e => Except.error e
                | Except.error e => Except.error e
              | Except.error e, _ => Except.error e
              | _, Except.error e => Except.error e
            | Except.error e => Except.error e) := by
        intro r
        cases r with
        | error e => rfl
        | ok r =>
          obtain ⟨b1, s1⟩ := r
          cases b1 with
          | true =>
            simp only [except_map_ok, unc_values]
            split <;> rfl
          | false =>
            simp only [except_map_ok, unc_wire_to_phy, unc_involved_phy,
              show wire_to_phy s1 { uid := op.control.uid, is_complemented := false }
                = wire_to_phy s1 op.control from rfl]
            split
            · split
              · split <;> rfl
              · rfl
            · rfl
            · rfl
      by_cases h1 : op.is_one_qubit = true
      · simp only [h1, if_true]
        exact key _
      · simp only [h1, if_false]
        exact key _

theorem try_add_front_layer_loop_uncomplemented (dev : device) (net : Network) (ns : List Nat)
    (acc : Bool × List Nat × jit_router) :
    try_add_front_layer_loop dev net.uncomplemented ns (acc.1, acc.2.1, acc.2.2.uncomplemented)
      = (try_add_front_layer_loop dev net ns acc).map
          (fun r => (r.1, r.2.1, r.2.2.uncomplemented)) := by
  induction ns generalizing acc with
  | nil => rfl
  | cons n ns ih =>
    simp only [try_add_front_layer_loop, try_add_front_layer_step_uncomplemented]
    cases try_add_front_layer_step dev net acc n with
    | error e => rfl
    | ok acc1 => exact ih acc1

theorem try_add_front_layer_uncomplemented (dev : device) (net : Network) (s : jit_router) :
    try_add_front_layer dev net.uncomplemented s.uncomplemented
      = (try_add_front_layer dev net s).map (fun r => (r.1, r.2.uncomplemented)) := by
  simp only [try_add_front_layer, unc_front_layer]
  rw [show (false, ([] : List Nat), s.uncomplemented)
      = (((false, [], s) : Bool × List Nat × jit_router).1,
          ((false, [], s) : Bool × List Nat × jit_router).2.1,
          ((false, [], s) : Bool × List Nat × jit_router).2.2.uncomplemented) from rfl,
    try_add_front_layer_loop_uncomplemented]
  cases try_add_front_layer_loop dev net s.front_layer (false, [], s) with
  | error e => rfl
  | ok r => rfl

theorem select_extended_layer_uncomplemented (net : Network) (cfg : jit_config)
    (s : jit_router) :
    select_extended_layer net.uncomplemented cfg s.uncomplemented
      = (select_extended_layer net cfg s).map jit_router.uncomplemented := by
  simp only [select_extended_layer, extend_loop_uncomplemented, undo_increment_uncomplemented,
    unc_front_layer, unc_values,
    show net.uncomplemented.nodes.length = net.nodes.length from by
      simp [Network.uncomplemented]]
  split
  · split <;> rfl
  · rfl

theorem swap_score_uncomplemented (dev : device) (cfg : jit_config) (net : Network)
    (s : jit_router) (phy0 phy1 : Nat) :
    swap_score dev cfg net.uncomplemented s.uncomplemented phy0 phy1
      = swap_score dev cfg net s phy0 phy1 := by
  simp only [swap_score, compute_cost_uncomplemented, unc_front_layer, unc_extended_layer,
    unc_phy_decay, unc_wire_to_v,
    show tmp_v_to_phy s.uncomplemented phy0 phy1 = tmp_v_to_phy s phy0 phy1 from rfl]

theorem swap_costs_uncomplemented (dev : device) (cfg : jit_config) (net : Network)
    (s : jit_router) (cands : List (Nat × Nat)) :
    swap_costs dev cfg net.uncomplemented s.uncomplemented cands
      = swap_costs dev cfg net s cands := by
  induction cands with
  | nil => rfl
  | cons c cs ih =>
    obtain ⟨phy0, phy1⟩ := c
    simp only [swap_costs, swap_score_uncomplemented, ih]

theorem find_swap_uncomplemented (dev : device) (cfg : jit_config) (net : Network)
    (s : jit_router) :
    find_swap dev cfg net.uncomplemented s.uncomplemented
      = (find_swap dev cfg net s).map (fun r => (r.1, r.2.uncomplemented)) := by
  simp only [find_swap, unc_involved_phy, select_extended_layer_uncomplemented]
  cases swap_candidates s.involved_phy dev.edges with
  | error e => rfl
  | ok cands =>
    simp only []
    have key : ∀ r : Except Err jit_router,
        (match Except.map jit_router.uncomplemented r with
          | Except.ok s1 =>
            match swap_costs dev cfg net.uncomplemented s1 cands with
            | Except.ok cost =>
              match at_ cands (find_min cost cost.tail 1 0) with
              | Except.ok c => Except.ok (c, s1)
              | Except.error e => Except.error e
            | Except.error e => Except.error e
          | Except.error e => Except.error e) =
        Except.map (fun r => (r.1, r.2.uncomplemented))
          (match r with
          | Except.ok s1 =>
            match swap_costs dev cfg net s1 cands with
            | Except.ok cost =>
              match at_ cands (find_min cost cost.tail 1 0) with
              | Except.ok c => Except.ok (c, s1)
              | Except.error e => Except.error e
            | Except.error e => Except.error e
          | Except.error e => Except.error e) := by
      intro r
      cases r with
      | error e => rfl
      | ok s1 =>
        simp only [except_map_ok, swap_costs_uncomplemented]
        split
        · split <;> rfl
        · rfl
    by_cases hl : cfg.use_look_ahead = true
    · simp only [hl, if_true]
      exact key _
    · simp only [hl, if_false]
      exact key (.ok s)

theorem unc_with_phy_decay (s : jit_router) (d : List ℚ) :
    ({ s.uncomplemented with phy_decay := d } : jit_router)
      = ({ s with phy_decay := d } : jit_router).uncomplemented := rfl

theorem swap_round_uncomplemented (dev : device) (cfg : jit_config) (net : Network) (k : Nat)
    (s : jit_router) :
    swap_round dev cfg net.uncomplemented k s.uncomplemented
      = (swap_round dev cfg net k s).map jit_router.uncomplemented := by
  simp only [swap_round, find_swap_uncomplemented]
  cases find_swap dev cfg net s with
  | error e => rfl
  | ok r =>
    obtain ⟨⟨phy0, phy1⟩, s1⟩ := r
    simp only [except_map_ok, unc_phy_decay]
    cases update_decay cfg k phy0 phy1 s1.phy_decay with
    | error e => rfl
    | ok decay =>
      simp only [unc_with_phy_decay, add_swap_uncomplemented]
      cases add_swap dev phy0 phy1 { s1 with phy_decay := decay } with
      | error e => rfl
      | ok s2 => rfl

theorem route_loop_uncomplemented (dev : device) (cfg : jit_config) (net : Network)
    (fuel k : Nat) (s : jit_router) :
    route_loop dev cfg net.uncomplemented fuel k s.uncomplemented
      = (route_loop dev cfg net fuel k s).map jit_router.uncomplemented := by
  induction fuel generalizing k s with
  | zero =>
    simp only [route_loop, unc_front_layer]
    split <;> rfl
  | succ fuel ih =>
    rw [route_loop, route_loop]
    simp only [unc_front_layer, try_add_front_layer_uncomplemented]
    generalize (k + 1) % 2 ^ 32 = k1
    split
    · rfl
    · cases try_add_front_layer dev net s with
      | error e => rfl
      | ok r =>
        obtain ⟨b, s1⟩ := r
        cases b with
        | true => exact ih k s1
        | false =>
          simp only [except_map_ok, swap_round_uncomplemented]
          cases swap_round dev cfg net k1 s1 with
          | error e => rfl
          | ok s2 => exact ih k1 s2

theorem unc_with_v_to_phy (s : jit_router) (a : List (Option Nat)) :
    ({ s.uncomplemented with v_to_phy := a } : jit_router)
      = ({ s with v_to_phy := a } : jit_router).uncomplemented := rfl

theorem finalize_loop_uncomplemented (n i : Nat) (free_phy : List Nat) (s : jit_router) :
    finalize_loop n i free_phy s.uncomplemented
      = (finalize_loop n i free_phy s).map jit_router.uncomplemented := by
  induction n generalizing i free_phy s with
  | zero => rfl
  | succ n ih =>
    simp only [finalize_loop, unc_v_to_phy]
    cases at_ s.v_to_phy i with
    | error e => rfl
    | ok p =>
      cases p with
      | some q => exact ih (i + 1) free_phy s
      | none =>
        cases free_phy with
        | nil => rfl
        | cons phy rest =>
          simp only []
          cases set_at s.v_to_phy i (some phy) with
          | error e => rfl
          | ok v2p =>
            simp only [unc_with_v_to_phy, jit_add_uncomplemented]
            cases jit_add i { s with v_to_phy := v2p } with
            | error e => rfl
            | ok s1 => exact ih (i + 1) rest s1

theorem route_entry_uncomplemented (dev : device) (net : Network)
    (placement : List (Option Nat)) (s : jit_router) :
    route_entry dev net.uncomplemented placement s = route_entry dev net placement s := by
  simp only [route_entry, new_mapping, seed_front_layer_uncomplemented,
    show clear_values net.uncomplemented = clear_values net from by
      simp only [clear_values, Network.uncomplemented, List.map_map]
      rfl,
    show net.uncomplemented.wire_v = net.wire_v from rfl,
    show net.uncomplemented.outputs = net.outputs from rfl]

theorem route_uncomplemented (dev : device) (cfg : jit_config) (net : Network)
    (placement : List (Option Nat)) (finalize : Bool) (fuel : Nat) (s : jit_router) :
    route dev cfg net.uncomplemented placement finalize fuel s
      = (route dev cfg net placement finalize fuel s).map jit_router.uncomplemented := by
  simp only [route, route_entry_uncomplemented]
  cases h1 : route_entry dev net placement s with
  | error e => rfl
  | ok s1 =>
    have hm : s1.uncomplemented = s1 := by
      have := route_entry_mapped h1
      cases s1
      simp only at this
      subst this
      rfl
    have hl : route_loop dev cfg net.uncomplemented fuel 0 s1
        = (route_loop dev cfg net fuel 0 s1).map jit_router.uncomplemented := by
      have := route_loop_uncomplemented dev cfg net fuel 0 s1
      rwa [hm] at this
    simp only [hl]
    cases route_loop dev cfg net fuel 0 s1 with
    | error e => rfl
    | ok s2 =>
      simp only [except_map_ok, unc_v_to_phy, unc_find_free_phy]
      cases finalize with
      | false => rfl
      | true =>
        simp only [if_true, finalize_loop_uncomplemented]
        cases finalize_loop s2.v_to_phy.length 0 (find_free_phy s2).reverse s2 with
        | error e => rfl
        | ok s3 => rfl

theorem mapped_all_jit_add {P : mapped_op → Prop} (hone : ∀ g p, P (.one g p)) {v : Nat}
    {s s1 : jit_router} (h : jit_add v s = .ok s1) (hs : mapped_all P s) : mapped_all P s1 := by
  obtain ⟨_, phy, _, rfl⟩ := jit_add_eq h
  intro op hop
  rcases List.mem_append.mp hop with h1 | h1
  · exact hs op h1
  · simp only [flushed, List.mem_map] at h1
    obtain ⟨g, _, rfl⟩ := h1
    exact hone g phy

theorem mapped_all_add_op {P : mapped_op → Prop} (hone : ∀ g p, P (.one g p)) {g : gate_ref}
    {w : wire_id} {s : jit_router} {r : Bool × jit_router} (h : add_op g w s = .ok r)
    (hs : mapped_all P s) : mapped_all P r.2 := by
  obtain ⟨_, v, _, h1 | ⟨phy, _, h1⟩⟩ := add_op_eq h
  · rw [h1.2.2]; exact hs
  · rw [h1]
    intro op hop
    rcases List.mem_append.mp hop with h2 | h2
    · exact hs op h2
    · simp only [List.mem_singleton] at h2
      subst h2; exact hone g phy

theorem mapped_all_try_add_op_place {P : mapped_op → Prop} (hone : ∀ g p, P (.one g p))
    {dev : device} {w0 w1 : wire_id} {s : jit_router}
    {r : jit_router × Option Nat × Option Nat}
    (h : try_add_op_place dev w0 w1 s = .ok r) (hs : mapped_all P s) : mapped_all P r.1 := by
  unfold try_add_op_place at h
  split at h
  · split at h
    · split at h
      · split at h
        · rename_i s1 hs1
          split at h
          · simp only [Except.ok.injEq] at h
            subst h
            split at hs1
            · obtain ⟨_, _, a, b, s2, _, _, _, _, _, _, hj0, hj1⟩ := place_two_v_eq hs1
              exact mapped_all_jit_add hone hj1 (mapped_all_jit_add hone hj0 hs)
            · obtain ⟨_, _, _, _, _, _, _, _, _, _, _, hj⟩ := place_one_v_eq hs1
              exact mapped_all_jit_add hone hj hs
          · simp at h
          · simp at h
        · simp at h
      · simp at h
      · simp at h
    · simp only [Except.ok.injEq] at h
      subst h; exact hs
  · simp at h
  · simp at h

theorem mapped_all_try_add_op {P : mapped_op → Prop} (hone : ∀ g p, P (.one g p))
    {dev : device} {g : gate_ref} {w0 w1 : wire_id} {s : jit_router} {r : Bool × jit_router}
    (htwo : ∀ phy0 phy1, P (.two g ⟨phy0, w0.is_complemented⟩ phy1))
    (h : try_add_op dev g w0 w1 s = .ok r) (hs : mapped_all P s) : mapped_all P r.2 := by
  unfold try_add_op at h
  split at h
  · rename_i s1 phy0 phy1 hp
    have h1 := mapped_all_try_add_op_place hone hp hs
    split at h
    · rename_i hc
      simp only [Except.ok.injEq] at h
      subst h
      intro op hop
      simp only [create_op2, hc, if_true] at hop
      rcases List.mem_append.mp hop with h2 | h2
      · exact h1 op h2
      · simp only [List.mem_singleton] at h2
        subst h2; exact htwo phy0 phy1
    · simp only [Except.ok.injEq] at h
      subst h; exact h1
  · simp at h
  · simp at h

theorem mapped_all_finalize_loop {P : mapped_op → Prop} (hone : ∀ g p, P (.one g p))
    {n i : Nat} {free_phy : List Nat} {s s1 : jit_router}
    (h : finalize_loop n i free_phy s = .ok s1) (hs : mapped_all P s) : mapped_all P s1 := by
  have hf := finalize_loop_steps h
  clear h
  induction hf with
  | refl s => exact hs
  | step s s1 v c hv hb rest ih =>
    refine ih ?_
    intro op hop
    rcases List.mem_append.mp hop with h1 | h1
    · exact hs op h1
    · simp only [flushed, List.mem_map] at h1
      obtain ⟨g, _, rfl⟩ := h1
      exact hone g c

theorem polarity_loop_invariant (dev : device) (net : Network) :
    loop_invariant dev net (mapped_all (polarity_ok net)) where
  add_op := fun _ _ _ _ _ _ _ h hs => mapped_all_add_op (fun _ _ => trivial) h hs
  try_add_op := fun n op _ _ hop _ _ h hs =>
    mapped_all_try_add_op (fun _ _ => trivial)
      (fun phy0 phy1 => (show polarity_ok net
        (.two (.node n) ⟨phy0, op.control.is_complemented⟩ phy1) from ⟨op, hop, rfl⟩)) h hs
  add_swap := fun _ _ _ _ h hs => by
    obtain ⟨_, v0, v1, _, _, _, _, rfl⟩ := add_swap_eq h
    intro op hop
    rcases List.mem_append.mp hop with h2 | h2
    · exact hs op h2
    · simp only [List.mem_singleton] at h2
      subst h2; trivial
  frame := fun _ _ _ _ _ _ hs => hs

theorem route_polarity {dev : device} {cfg : jit_config} {net : Network}
    {placement : List (Option Nat)} {finalize : Bool} {fuel : Nat} {s r : jit_router}
    (h : route dev cfg net placement finalize fuel s = .ok r) :
    mapped_all (polarity_ok net) r := by
  obtain ⟨s1, s2, s3, h1, h2, h3, rfl⟩ := route_ok h
  have a1 : mapped_all (polarity_ok net) s1 := by
    intro op hop
    rw [route_entry_mapped h1] at hop
    simp at hop
  have a2 := (polarity_loop_invariant dev net).route_loop h2 a1
  have a3 : mapped_all (polarity_ok net) s3 := by
    split at h3
    · exact mapped_all_finalize_loop (fun _ _ => trivial) h3 a2
    · simp only [Except.ok.injEq] at h3
      subst h3; exact a2
  exact a3

/-- C12: in every mapped DAG that `route` returns, the control reference of an emitted
two-qubit gate of the input is complemented if and only if the control wire reference of
the input gate is; and the call on the same circuit with every control uncomplemented
returns the same router state and the same mapped DAG, gate for gate on the same physical
qubits, with the flags of the emitted control references cleared: the flag takes no part in
placement, adjacency test or distance. -/
theorem route_propagates_control_polarity (dev : device) (cfg : jit_config) (net : Network)
    (placement : List (Option Nat)) (finalize : Bool) (fuel : Nat) (s r : jit_router)
    (h : route dev cfg net placement finalize fuel s = .ok r) :
    (∀ n phy0 phy1, mapped_op.two (.node n) phy0 phy1 ∈ r.mapped →
      ∃ op, net.nodes[n]? = some op ∧
        (phy0.is_complemented = true ↔ op.control.is_complemented = true)) ∧
    route dev cfg net.uncomplemented placement finalize fuel s = .ok r.uncomplemented ∧
    r.uncomplemented.mapped = r.mapped.map mapped_op.uncomplemented ∧
    r.uncomplemented.published = r.published := by
  refine ⟨fun n phy0 phy1 hop => ?_, ?_, rfl, rfl⟩
  · obtain ⟨op, hn, hp⟩ := route_polarity h _ hop
    exact ⟨op, hn, by rw [hp]⟩
  · rw [route_uncomplemented, h]; rfl

theorem route_h_ncx :
    route line3 {} circuit_h_ncx [some 0, none, some 1] true 10 (jit_router.init line3)
      = .ok routed_h_ncx := by
  decide!

theorem route_propagates_control_polarity_witness :
    route line3 {} circuit_h_ncx [some 0, none, some 1] true 10 (jit_router.init line3)
      = .ok routed_h_ncx ∧
    mapped_op.two (.node 1) ⟨1, true⟩ 2 ∈ routed_h_ncx.mapped ∧
    route line3 {} circuit_h_ncx.uncomplemented [some 0, none, some 1] true 10
      (jit_router.init line3) = .ok routed_h_ncx.uncomplemented ∧
    routed_h_ncx.uncomplemented.mapped
      = [.one (.node 0) 2, .two .swap ⟨0, false⟩ 1, .two (.node 1) ⟨1, false⟩ 2] :=
  ⟨route_h_ncx, by decide,
    (route_propagates_control_polarity line3 {} circuit_h_ncx [some 0, none, some 1] true 10
      (jit_router.init line3) routed_h_ncx route_h_ncx).2.1, rfl⟩

theorem loop_invariant.front {dev : device} {net : Network} {I : jit_router → Prop}
    (hI : loop_invariant dev net I) : front_invariant dev net I :=
  ⟨hI.add_op, hI.try_add_op, hI.frame⟩

theorem front_invariant.and {dev : device} {net : Network} {I J : jit_router → Prop}
    (hI : front_invariant dev net I) (hJ : front_invariant dev net J) :
    front_invariant dev net (fun s => I s ∧ J s) where
  add_op := fun n op s r h1 h2 h3 h4 hs =>
    ⟨hI.add_op n op s r h1 h2 h3 h4 hs.1, hJ.add_op n op s r h1 h2 h3 h4 hs.2⟩
  try_add_op := fun n op s r h1 h2 h3 h4 hs =>
    ⟨hI.try_add_op n op s r h1 h2 h3 h4 hs.1, hJ.try_add_op n op s r h1 h2 h3 h4 hs.2⟩
  frame := fun s fl el inv dec vals hs =>
    ⟨hI.frame s fl el inv dec vals hs.1, hJ.frame s fl el inv dec vals hs.2⟩

theorem advance_children_gates {net : Network} {cs : List Nat} {acc acc1 : List Nat × List Nat}
    (h : advance_children net cs acc = .ok acc1) (hg : all_gates net acc.2) :
    all_gates net acc1.2 := by
  induction cs generalizing acc with
  | nil =>
    simp only [advance_children, Except.ok.injEq] at h
    subst h; exact hg
  | cons c cs ih =>
    simp only [advance_children] at h
    split at h
    · rename_i child hc
      rw [at__ok] at hc
      split at h
      · exact ih h hg
      · rename_i hm
        split at h
        · refine ih h ?_
          intro n hn
          rcases List.mem_append.mp hn with h1 | h1
          · exact hg n h1
          · simp only [List.mem_singleton] at h1
            subst h1
            exact ⟨child, hc, by simpa using hm⟩
        · exact ih h hg
    · simp at h

/-- One step of the front-layer engine on a gate node: the property is kept; the new front
layer holds gates only; and when the call for the gate reports success, so does the step. -/
theorem front_invariant.gate_step {dev : device} {net : Network} {I : jit_router → Prop}
    (hI : front_invariant dev net I)
    {acc acc1 : Bool × List Nat × jit_router} {n : Nat}
    (h : try_add_front_layer_step dev net acc n = .ok acc1) (hs : I acc.2.2)
    (hn : is_gate net n) (hnfl : all_gates net acc.2.1) :
    I acc1.2.2 ∧ all_gates net acc1.2.1 ∧ (acc.1 = true → acc1.1 = true) ∧
    ((∀ op r, net.nodes[n]? = some op → op.is_meta = false →
        execute dev n op acc.2.2 = .ok r → r.1 = true) →
      acc1.1 = true) := by
  obtain ⟨opn, hopn, hmn⟩ := hn
  unfold try_add_front_layer_step at h
  rw [at__ok.mpr hopn] at h
  simp only [hmn, Bool.false_eq_true, if_false] at h
  cases hexec : (if opn.is_one_qubit = true then
      tweedledum.add_op (.node n) opn.target acc.2.2
      else tweedledum.try_add_op dev (.node n) opn.control opn.target acc.2.2) with
  | error e => rw [hexec] at h; simp at h
  | ok r =>
    obtain ⟨b, s1⟩ := r
    rw [hexec] at h
    have hs1 : I s1 := by
      by_cases h1q : opn.is_one_qubit = true
      · simp only [h1q, if_true] at hexec
        exact hI.add_op n opn _ _ hopn hmn h1q hexec hs
      · simp only [h1q, if_false] at hexec
        exact hI.try_add_op n opn _ _ hopn hmn (by simpa using h1q) hexec hs
    cases b with
    | true =>
      simp only at h
      split at h
      · rename_i values nfl hadv
        simp only [Except.ok.injEq] at h
        subst h
        exact ⟨hI.frame s1 s1.front_layer s1.extended_layer s1.involved_phy s1.phy_decay _ hs1,
          advance_children_gates hadv hnfl, fun _ => rfl, fun _ => rfl⟩
      · simp at h
    | false =>
      simp only at h
      split at h
      · split at h
        · split at h
          · simp only [Except.ok.injEq] at h
            subst h
            refine ⟨hI.frame s1 s1.front_layer s1.extended_layer _ s1.phy_decay s1.values hs1,
              ?_, fun hb => hb, fun hall => ?_⟩
            · intro m hm
              rcases List.mem_append.mp hm with h1 | h1
              · exact hnfl m h1
              · simp only [List.mem_singleton] at h1
                subst h1
                exact ⟨opn, hopn, hmn⟩
            · have := hall opn (false, s1) hopn hmn hexec
              simp at this
          · simp at h
        · simp at h
      · simp at h
      · simp at h

theorem front_invariant.gate_loop {dev : device} {net : Network} {I : jit_router → Prop}
    (hI : front_invariant dev net I) {ns : List Nat}
    {acc acc1 : Bool × List Nat × jit_router}
    (h : try_add_front_layer_loop dev net ns acc = .ok acc1) (hs : I acc.2.2)
    (hns : all_gates net ns) (hnfl : all_gates net acc.2.1) :
    I acc1.2.2 ∧ all_gates net acc1.2.1 ∧ (acc.1 = true → acc1.1 = true) ∧
    ((∀ s n op r, I s → net.nodes[n]? = some op → op.is_meta = false →
        execute dev n op s = .ok r → r.1 = true) →
      ns ≠ [] → acc1.1 = true) := by
  induction ns generalizing acc with
  | nil =>
    simp only [try_add_front_layer_loop, Except.ok.injEq] at h
    subst h
    exact ⟨hs, hnfl, fun hb => hb, fun _ hne => absurd rfl hne⟩
  | cons n ns ih =>
    simp only [try_add_front_layer_loop] at h
    split at h
    · rename_i acc2 h2
      obtain ⟨a1, a2, a3, a4⟩ := hI.gate_step h2 hs (hns n (List.mem_cons_self _ _)) hnfl
      obtain ⟨b1, b2, b3, _⟩ := ih h a1 (fun m hm => hns m (List.mem_cons_of_mem _ hm)) a2
      exact ⟨b1, b2, fun hb => b3 (a3 hb),
        fun hall _ => b3 (a4 (fun op r hop hm hr => hall _ n op r hs hop hm hr))⟩
    · simp at h

theorem front_invariant.front_pass {dev : device} {net : Network}
    {I : jit_router → Prop} (hI : front_invariant dev net I)
    {s : jit_router} {r : Bool × jit_router}
    (h : try_add_front_layer dev net s = .ok r) (hs : I s)
    (hfl : all_gates net s.front_layer) :
    I r.2 ∧ all_gates net r.2.front_layer ∧
    ((∀ s n op r, I s → net.nodes[n]? = some op → op.is_meta = false →
        execute dev n op s = .ok r → r.1 = true) →
      s.front_layer ≠ [] → r.1 = true) := by
  unfold tweedledum.try_add_front_layer at h
  split at h
  · rename_i executed nfl s1 hl
    simp only [Except.ok.injEq] at h
    subst h
    obtain ⟨a1, a2, _, a4⟩ := hI.gate_loop hl hs hfl (by intro n hn; simp at hn)
    exact ⟨hI.frame s1 nfl s1.extended_layer s1.involved_phy s1.phy_decay s1.values a1, a2, a4⟩
  · simp at h

/-- When every gate that the front-layer engine tries is executed, the driver loop never
takes its SWAP branch: the property is kept to the end and no SWAP search is counted. -/
theorem front_invariant.no_swap_search {dev : device} {net : Network} {I : jit_router → Prop}
    (hI : front_invariant dev net I) {cfg : jit_config}
    (hall : ∀ s n op r, I s → net.nodes[n]? = some op → op.is_meta = false →
      execute dev n op s = .ok r → r.1 = true)
    {fuel k : Nat} (c : Nat) {s s1 : jit_router}
    (h : route_loop dev cfg net fuel k s = .ok s1) (hs : I s)
    (hfl : all_gates net s.front_layer) :
    I s1 ∧ route_loop_searches dev cfg net fuel k c s = .ok c := by
  induction fuel generalizing k s with
  | zero =>
    simp only [tweedledum.route_loop] at h
    split at h
    · rename_i he
      simp only [Except.ok.injEq] at h
      subst h
      exact ⟨hs, by simp [route_loop_searches, he]⟩
    · simp at h
  | succ fuel ih =>
    rw [tweedledum.route_loop] at h
    rw [route_loop_searches]
    by_cases he : s.front_layer.isEmpty = true
    · simp only [he, if_true, Except.ok.injEq] at h ⊢
      subst h
      exact ⟨hs, trivial⟩
    · simp only [he, Bool.false_eq_true, if_false] at h ⊢
      cases h1 : tweedledum.try_add_front_layer dev net s with
      | error e => simp [h1] at h
      | ok r1 =>
        obtain ⟨a1, a2, a3⟩ := hI.front_pass h1 hs hfl
        have hb := a3 hall (by simpa using he)
        obtain ⟨b, s2⟩ := r1
        simp only at hb
        subst hb
        simp only [h1] at h ⊢
        exact ih h a1 a2

theorem located_mono {net : Network} {v2p v2p1 : List (Option Nat)} {op : mapped_op}
    (hsub : ∀ v p : Nat, v2p[v]? = some (some p) → v2p1[v]? = some (some p))
    (h : located net v2p op) : located net v2p1 op := by
  cases op with
  | one g p =>
    cases g with
    | node n =>
      obtain ⟨opn, v, h1, h0, h2, h3, h4⟩ := h
      exact ⟨opn, v, h1, h0, h2, h3, hsub v p h4⟩
    | swap => exact h
  | two g p0 p1 =>
    cases g with
    | node n =>
      obtain ⟨opn, v0, v1, h1, h0, h2, h3, h4, h5, h6, h7⟩ := h
      exact ⟨opn, v0, v1, h1, h0, h2, h3, h4, hsub v0 _ h5, hsub v1 _ h6, h7⟩
    | swap => exact h

theorem set_unplaced_keeps {v2p : List (Option Nat)} {v c : Nat} (hv : v2p[v]? = some none)
    (v1 p : Nat) (h : v2p[v1]? = some (some p)) : (v2p.set v (some c))[v1]? = some (some p) := by
  by_cases hvv : v = v1
  · subst hvv
    rw [hv] at h; simp at h
  · rw [List.getElem?_set_ne hvv]; exact h

theorem settled_flush {net : Network} {s : jit_router} {v c : Nat} (h : settled net s)
    (hv : s.v_to_phy[v]? = some none) :
    ∀ op ∈ s.mapped ++ flushed (s.unexectued.getD v []) c,
      located net (s.v_to_phy.set v (some c)) op := by
  intro op hop
  rcases List.mem_append.mp hop with h1 | h1
  · exact located_mono (set_unplaced_keeps hv) (h.2.1 op h1)
  · simp only [flushed, List.mem_map] at h1
    obtain ⟨g, hg, rfl⟩ := h1
    obtain ⟨_, n, opn, rfl, hn, hm, h1q, hw⟩ := h.2.2 v g hg
    refine ⟨opn, v, hn, hm, h1q, hw, ?_⟩
    rw [List.getElem?_set_self (getElem?_lt_of_eq_some hv)]

theorem settled_buffers_set_nil {net : Network} {s : jit_router} (v c : Nat)
    (h : settled net s) (v1 : Nat) (g : gate_ref) (hg : g ∈ (s.unexectued.set v []).getD v1 []) :
    (s.v_to_phy.set v (some c))[v1]? = some none ∧
    ∃ n opn, g = .node n ∧ net.nodes[n]? = some opn ∧ opn.is_meta = false ∧
      opn.is_one_qubit = true ∧ net.wire_v[opn.target.uid]? = some v1 := by
  rw [getD_set_nil] at hg
  split at hg
  · simp at hg
  · rename_i hvv
    obtain ⟨h1, h2⟩ := h.2.2 v1 g hg
    refine ⟨?_, h2⟩
    rw [List.getElem?_set_ne (fun e => hvv e.symm)]
    exact h1

theorem settled_placed {net : Network} {s : jit_router} {v c : Nat} (h : settled net s)
    (hv : s.v_to_phy[v]? = some none) : settled net (placed v c s) :=
  ⟨h.1, settled_flush h hv, settled_buffers_set_nil v c h⟩

theorem settled_assigned {net : Network} {s : jit_router} {v c : Nat} (h : settled net s)
    (hv : s.v_to_phy[v]? = some none) : settled net (assigned v c s) :=
  ⟨h.1, settled_flush h hv, settled_buffers_set_nil v c h⟩

theorem settled_placements {net : Network} {s s1 : jit_router} (hp : jit_placements s s1)
    (h : settled net s) : settled net s1 := by
  induction hp with
  | refl s => exact h
  | step s s1 v c hv hc hb rest ih => exact ih (settled_placed h hv)

theorem settled_finalisations {net : Network} {s s1 : jit_router} (hp : finalisations s s1)
    (h : settled net s) : settled net s1 := by
  induction hp with
  | refl s => exact h
  | step s s1 v c hv hb rest ih => exact ih (settled_assigned h hv)

theorem settled_front_invariant (dev : device) (net : Network) (hd : distinct_operands net) :
    front_invariant dev net (settled net) where
  add_op := by
    intro n op s r hop hm h1q h hs
    obtain ⟨_, v, hw, ⟨hv, hb, h1⟩ | ⟨phy, hv, h1⟩⟩ := add_op_eq h
    · rw [h1]
      refine ⟨hs.1, hs.2.1, fun v1 g hg => ?_⟩
      have hg1 : g ∈ (s.unexectued.set v (s.unexectued.getD v [] ++ [.node n])).getD v1 [] := hg
      rw [getD_set_append _ _ _ _ hb] at hg1
      split at hg1
      · rename_i hvv
        subst hvv
        rcases List.mem_append.mp hg1 with h2 | h2
        · exact hs.2.2 v1 g h2
        · simp only [List.mem_singleton] at h2
          subst h2
          exact ⟨hv, n, op, rfl, hop, hm, h1q, by rw [← hs.1]; exact hw⟩
      · exact hs.2.2 v1 g hg1
    · rw [h1]
      refine ⟨hs.1, fun o ho => ?_, hs.2.2⟩
      rcases List.mem_append.mp ho with h2 | h2
      · exact hs.2.1 o h2
      · simp only [List.mem_singleton] at h2
        subst h2
        exact ⟨op, v, hop, hm, h1q, by rw [← hs.1]; exact hw, hv⟩
  try_add_op := by
    intro n op s r hop hm h1q h hs
    have hne : ∀ v0 v1, s.wire_to_v[op.control.uid]? = some v0 →
        s.wire_to_v[op.target.uid]? = some v1 → v0 ≠ v1 := by
      intro v0 v1 h0 h1
      rw [hs.1] at h0 h1
      exact hd n op hop hm h1q v0 v1 h0 h1
    obtain ⟨s1, v0, v1, phy0, phy1, hp, hw0, hw1, hp0, hp1, hcase⟩ := try_add_op_steps hne h
    have hs1 := settled_placements hp hs
    rcases hcase with ⟨_, _, h2⟩ | ⟨_, _, h2⟩
    · rw [h2]
      refine ⟨hs1.1, fun o ho => ?_, hs1.2.2⟩
      rcases List.mem_append.mp ho with h3 | h3
      · exact hs1.2.1 o h3
      · simp only [List.mem_singleton] at h3
        subst h3
        rw [hs.1] at hw0 hw1
        exact ⟨op, v0, v1, hop, hm, h1q, hw0, hw1, hp0, hp1, rfl⟩
    · rw [h2]; exact hs1
  frame := fun s fl el inv dec vals hs => hs

theorem located_not_swap {net : Network} {v2p : List (Option Nat)} {l : List mapped_op}
    (h : ∀ op ∈ l, located net v2p op) :
    l.filter (fun op => match op with
      | .two .swap _ _ => true
      | _ => false) = [] := by
  rw [List.filter_eq_nil_iff]
  intro op hop
  have := h op hop
  cases op with
  | one g p => simp
  | two g p0 p1 =>
    cases g with
    | node n => simp
    | swap => exact absurd this (by simp [located])

theorem apply_swaps_phy_located {net : Network} {v2p : List (Option Nat)} {l : List mapped_op}
    (h : ∀ op ∈ l, located net v2p op) (p : Nat) : apply_swaps_phy l p = p := by
  induction l with
  | nil => rfl
  | cons op l ih =>
    have hop := h op (List.mem_cons_self _ _)
    have hl := ih (fun o ho => h o (List.mem_cons_of_mem _ ho))
    cases op with
    | one g q => simpa [apply_swaps_phy] using hl
    | two g p0 p1 =>
      cases g with
      | node n => simpa [apply_swaps_phy] using hl
      | swap => exact absurd hop (by simp [located])

theorem finalisations_mapped {s s1 : jit_router} (hp : finalisations s s1) :
    ∃ l, s1.mapped = s.mapped ++ l := by
  induction hp with
  | refl s => exact ⟨[], by simp⟩
  | step s s1 v c hv hb rest ih =>
    obtain ⟨l, hl⟩ := ih
    exact ⟨flushed (s.unexectued.getD v []) c ++ l, by rw [hl]; simp [assigned]⟩

theorem located_emitted {net : Network} {s : jit_router} {n : Nat}
    (h : ∀ op ∈ s.mapped, located net s.v_to_phy op) (hn : n ∈ emitted s) :
    ∃ opn v p, net.nodes[n]? = some opn ∧ net.wire_v[opn.target.uid]? = some v ∧
      s.v_to_phy[v]? = some (some p) := by
  simp only [emitted, List.mem_filterMap] at hn
  obtain ⟨op, hop, hnode⟩ := hn
  have hl := h op hop
  cases op with
  | one g p =>
    cases g with
    | node m =>
      simp only [node_of, Option.some.injEq] at hnode
      subst hnode
      obtain ⟨opn, v, h1, _, _, h3, h4⟩ := hl
      exact ⟨opn, v, p, h1, h3, h4⟩
    | swap => simp [node_of] at hnode
  | two g p0 p1 =>
    cases g with
    | node m =>
      simp only [node_of, Option.some.injEq] at hnode
      subst hnode
      obtain ⟨opn, v0, v1, h1, _, _, _, h4, _, h6, _⟩ := hl
      exact ⟨opn, v1, p1, h1, h4, h6⟩
    | swap => simp [node_of] at hnode

theorem route_entry_settled {dev : device} {net : Network} {placement : List (Option Nat)}
    {s s1 : jit_router} (hready : ready dev s)
    (h : route_entry dev net placement s = .ok s1) :
    settled net s1 ∧ all_gates net s1.front_layer ∧ s1.v_to_phy = placement := by
  obtain ⟨_, p2v, values, fl, _, hseed, rfl⟩ := route_entry_eq h
  refine ⟨⟨rfl, ?_, ?_⟩, ?_, rfl⟩
  · intro op hop
    simp at hop
  · intro v g hg
    have hg1 : g ∈ s.unexectued.getD v [] := hg
    rw [hready.2, getD_replicate_nil] at hg1
    simp at hg1
  · rw [seed_front_layer_eq_advance_children] at hseed
    have := advance_children_gates hseed (by
      intro n hn
      have hn1 : n ∈ s.front_layer := hn
      rw [hready.1] at hn1
      simp at hn1)
    exact this

theorem finalize_loop_count {n : Nat} {free_phy : List Nat} {s s1 : jit_router}
    {pre post : List (Option Nat)} (h : finalize_loop n pre.length free_phy s = .ok s1)
    (hs : s.v_to_phy = pre ++ post) (hn : post.length = n) :
    post.count none ≤ free_phy.length := by
  induction n generalizing free_phy s pre post with
  | zero =>
    have : post = [] := List.length_eq_zero.mp hn
    subst this
    simp
  | succ n ih =>
    cases post with
    | nil => simp at hn
    | cons x post =>
      simp only [List.length_cons, Nat.add_right_cancel_iff] at hn
      have hx : s.v_to_phy[pre.length]? = some x := by
        rw [hs]; exact getElem?_length_append pre x post
      simp only [finalize_loop, at__ok.mpr hx] at h
      cases x with
      | none =>
        simp only at h
        split at h
        · simp at h
        · rename_i phy rest
          split at h
          · rename_i v2p hset
            rw [set_at_ok] at hset
            obtain ⟨hlt, rfl⟩ := hset
            split at h
            · rename_i s2 h2
              have e := jit_add_placed (c := phy) (by simp [hlt]) h2
              have hs2 : s2.v_to_phy = (pre ++ [some phy]) ++ post := by
                rw [e]
                simp only [hs, set_length_append, List.append_assoc, List.singleton_append]
              have := @ih rest s2 (pre ++ [some phy]) post (by simpa using h) hs2 hn
              simp only [List.count_cons_self, List.length_cons]
              omega
            · simp at h
          · simp at h
      | some p =>
        simp only at h
        have hs2 : s.v_to_phy = (pre ++ [some p]) ++ post := by
          rw [hs]; simp
        have := @ih free_phy s (pre ++ [some p]) post (by simpa using h) hs2 hn
        rw [List.count_cons_of_ne (by simp)]
        exact this

theorem finalize_loop_all_placed {free_phy : List Nat} {s s1 : jit_router}
    (h : finalize_loop s.v_to_phy.length 0 free_phy s = .ok s1) :
    ∀ x ∈ s1.v_to_phy, x ≠ none := by
  rw [finalize_loop_v_to_phy h]
  exact assign_free_no_none _ _ (@finalize_loop_count _ _ _ _ [] s.v_to_phy h rfl rfl)

theorem settled_buffered_nil {net : Network} {s : jit_router} (h : settled net s)
    (hall : ∀ x ∈ s.v_to_phy, x ≠ none) : buffered s = [] := by
  rw [List.eq_nil_iff_forall_not_mem]
  intro a ha
  rw [mem_buffered] at ha
  obtain ⟨v, hv⟩ := ha
  simp only [buffer_nodes, List.mem_filterMap] at hv
  obtain ⟨g, hg, _⟩ := hv
  have hnone := (h.2.2 v g hg).1
  exact hall none (List.getElem?_mem hnone) rfl

theorem route_finalisations {dev : device} {cfg : jit_config} {net : Network}
    {placement : List (Option Nat)} {finalize : Bool} {fuel : Nat} {s r : jit_router}
    (h : route dev cfg net placement finalize fuel s = .ok r) :
    ∃ s1 s2 s3, route_entry dev net placement s = .ok s1 ∧
      route_loop dev cfg net fuel 0 s1 = .ok s2 ∧ finalisations s2 s3 ∧
      (finalize = false → s3 = s2) ∧ (finalize = true → ∀ x ∈ s3.v_to_phy, x ≠ none) ∧
      r = { s3 with published := s3.v_to_phy } := by
  obtain ⟨s1, s2, s3, h1, h2, h3, rfl⟩ := route_ok h
  refine ⟨s1, s2, s3, h1, h2, ?_, ?_, ?_, rfl⟩
  · split at h3
    · exact finalize_loop_steps h3
    · simp only [Except.ok.injEq] at h3
      subst h3; exact .refl _
  · intro hf
    subst hf
    simp only [Bool.false_eq_true, if_false, Except.ok.injEq] at h3
    exact h3.symm
  · intro hf
    subst hf
    simp only [if_true] at h3
    exact finalize_loop_all_placed h3

theorem route_emitted_perm {dev : device} {cfg : jit_config} {net : Network}
    {placement : List (Option Nat)} {fuel : Nat} {s r : jit_router}
    (hw : well_formed net) (hac : acyclic net) (hd : distinct_operands net)
    (hinj : placement_injective placement) (hready : ready dev s)
    (h : route dev cfg net placement true fuel s = .ok r) :
    buffered r = [] ∧ (emitted r).Perm (gates net) ∧ tidy r := by
  obtain ⟨t, ty, hpl⟩ := route_trav hw hd hinj hready h
  have hnd : (executed r).Nodup := by simpa using t.nodup
  have hb : buffered r = [] := by
    rw [List.eq_nil_iff_forall_not_mem]
    intro a ha
    obtain ⟨v, _, _, _, _, _, hun⟩ := t.buffered_home ha
    exact hpl rfl v hun
  have hex : executed r = emitted r := by simp [executed, hb]
  refine ⟨hb, ?_, ty⟩
  rw [List.perm_ext_iff_of_nodup (hex ▸ hnd) (gates_nodup net)]
  intro n
  rw [mem_gates]
  constructor
  · intro hn
    exact t.gate n (by simp [executed, hn])
  · intro hn
    rw [← hex]; exact t.complete hw hac n hn

theorem fixed_placement_front_invariant (dev : device) (net : Network)
    (placement : List (Option Nat))
    (h1q : ∀ (n : Nat) (op : op_type), net.nodes[n]? = some op → op.is_meta = false →
      op.is_one_qubit = true) :
    front_invariant dev net (fun s => s.v_to_phy = placement) where
  add_op := by
    intro n op s r hop hm _ h hs
    obtain ⟨_, v, hw, ⟨_, _, h1⟩ | ⟨phy, _, h1⟩⟩ := add_op_eq h
    · rw [h1]; exact hs
    · rw [h1]; exact hs
  try_add_op := by
    intro n op s r hop hm h2q _ _
    rw [h1q n op hop hm] at h2q
    simp at h2q
  frame := fun s fl el inv dec vals hs => hs

/-- C13: for a circuit whose gates are all one-qubit gates, any placement and a router that
is ready, a returning call of `route` performs no SWAP search and inserts no SWAP; every
emitted operation is a one-qubit gate of the input on the physical qubit that the published
placement gives to its virtual qubit; and a gate whose virtual qubit is unplaced in the
initial placement is not in the mapped DAG when the driver loop is left, so that only the
finalisation step emits it and it is not emitted at all when `finalize = false`; with
`finalize = true` no gate is left in a buffer. -/
theorem one_qubit_circuit_needs_no_swap (dev : device) (cfg : jit_config) (net : Network)
    (placement : List (Option Nat)) (finalize : Bool) (fuel : Nat) (s r : jit_router)
    (h1q : ∀ (n : Nat) (op : op_type), net.nodes[n]? = some op → op.is_meta = false →
      op.is_one_qubit = true)
    (hready : ready dev s)
    (h : route dev cfg net placement finalize fuel s = .ok r) :
    inserted_swaps r = [] ∧
    (∀ op ∈ r.mapped, located net r.published op ∧ ∃ n p, op = mapped_op.one (.node n) p) ∧
    (∃ s1 s2, route_entry dev net placement s = .ok s1 ∧
      route_loop_searches dev cfg net fuel 0 0 s1 = .ok 0 ∧
      route_loop dev cfg net fuel 0 s1 = .ok s2 ∧ s2.v_to_phy = placement ∧
      (∃ tail, r.mapped = s2.mapped ++ tail) ∧
      ∀ (n v : Nat) (opn : op_type), net.nodes[n]? = some opn →
        net.wire_v[opn.target.uid]? = some v → placement[v]? = some none → n ∉ emitted s2) ∧
    (finalize = false → ∀ (n v : Nat) (opn : op_type), net.nodes[n]? = some opn →
      net.wire_v[opn.target.uid]? = some v → placement[v]? = some none → n ∉ emitted r) ∧
    (finalize = true → buffered r = []) := by
  have hd : distinct_operands net := by
    intro n op hop hm h2q
    rw [h1q n op hop hm] at h2q
    simp at h2q
  obtain ⟨s1, s2, s3, h1, h2, hfin, hfalse, htrue, rfl⟩ := route_finalisations h
  obtain ⟨hs1, hfl1, hv1⟩ := route_entry_settled hready h1
  have FI := (settled_front_invariant dev net hd).and
    (fixed_placement_front_invariant dev net placement h1q)
  have hall : ∀ (s : jit_router) (n : Nat) (op : op_type) (r : Bool × jit_router),
      (settled net s ∧ s.v_to_phy = placement) → net.nodes[n]? = some op → op.is_meta = false →
      execute dev n op s = .ok r → r.1 = true := by
    intro s n op r _ hop hm hexec
    simp only [execute, h1q n op hop hm, if_true] at hexec
    exact (add_op_eq hexec).1
  obtain ⟨⟨hs2, hv2⟩, hsearch⟩ := FI.no_swap_search hall 0 h2 ⟨hs1, hv1⟩ hfl1
  have hs3 := settled_finalisations hfin hs2
  have hnot : ∀ (n v : Nat) (opn : op_type), net.nodes[n]? = some opn →
      net.wire_v[opn.target.uid]? = some v → placement[v]? = some none → n ∉ emitted s2 := by
    intro n v opn hn hw hp hmem
    obtain ⟨opn1, v1, p, hn1, hw1, hp1⟩ := located_emitted hs2.2.1 hmem
    rw [hn] at hn1
    simp only [Option.some.injEq] at hn1
    subst hn1
    rw [hw] at hw1
    simp only [Option.some.injEq] at hw1
    subst hw1
    rw [hv2, hp] at hp1
    simp at hp1
  refine ⟨located_not_swap hs3.2.1, fun op hop => ⟨hs3.2.1 op hop, ?_⟩,
    ⟨s1, s2, h1, hsearch, h2, hv2,
      (finalisations_mapped hfin : ∃ tail, s3.mapped = s2.mapped ++ tail), hnot⟩, fun hf => ?_,
    fun hf => settled_buffered_nil hs3 (htrue hf)⟩
  · have hl := hs3.2.1 op hop
    cases op with
    | one g p =>
      cases g with
      | node n => exact ⟨n, p, rfl⟩
      | swap => exact absurd hl (by simp [located])
    | two g p0 p1 =>
      cases g with
      | node n =>
        obtain ⟨opn, v0, v1, hn, hm, h2q, _⟩ := hl
        rw [h1q n opn hn hm] at h2q
        simp at h2q
      | swap => exact absurd hl (by simp [located])
  · rw [hfalse hf]
    exact hnot

theorem circuit_h_x_one_qubit (n : Nat) (op : op_type) (h : circuit_h_x.nodes[n]? = some op)
    (_ : op.is_meta = false) : op.is_one_qubit = true := by
  rcases n with _ | _ | n
  · simp [circuit_h_x] at h; subst h; rfl
  · simp [circuit_h_x] at h; subst h; rfl
  · simp [circuit_h_x] at h

theorem route_h_x :
    route line3 {} circuit_h_x [some 1, none, none] true 5 (jit_router.init line3)
      = .ok routed_h_x := by
  decide!

theorem one_qubit_circuit_needs_no_swap_witness :
    route line3 {} circuit_h_x [some 1, none, none] true 5 (jit_router.init line3)
      = .ok routed_h_x ∧
    inserted_swaps routed_h_x = [] ∧
    routed_h_x.mapped = [.one (.node 0) 1, .one (.node 1) 2] :=
  ⟨route_h_x,
    (one_qubit_circuit_needs_no_swap line3 {} circuit_h_x [some 1, none, none] true 5
      (jit_router.init line3) routed_h_x circuit_h_x_one_qubit (ready_init line3) route_h_x).1,
    rfl⟩

/-- C14 (counterexample): on the complete device, with `finalize = false` and the virtual
qubit of `H(q1)` unplaced, the gate of the input is not emitted: the mapped DAG is empty. -/
theorem complete_device_leaves_gate_unemitted :
    (route complete3 {} circuit_h1 [some 1, none, none] false 5
      (jit_router.init complete3)).toOption.map (fun r => (r.mapped, r.unexectued))
      = some ([], [[], [.node 0], []]) ∧
    gates circuit_h1 = [0] := by
  decide!

/-- C14 (amended): on a device that connects every two distinct physical qubits, for a
well-formed acyclic circuit whose gates that are not one-qubit gates act on two different
virtual qubits, an injective placement and a router that is ready, a returning call of
`route` performs no SWAP search and emits no SWAP; every emitted operation is a gate of the
input with each wire replaced by the physical qubit that the published placement gives to
its virtual qubit; the initially placed virtual qubits keep their physical qubits; and with
`finalize = true` the emitted gates are exactly the gates of the input, each once. -/
theorem complete_device_needs_no_swap (dev : device) (cfg : jit_config) (net : Network)
    (placement : List (Option Nat)) (finalize : Bool) (fuel : Nat) (s r : jit_router)
    (hcomplete : ∀ p q : Nat, p < dev.num_qubits → q < dev.num_qubits → p ≠ q →
      dev.are_connected p q = true)
    (hw : well_formed net) (hac : acyclic net) (hd : distinct_operands net)
    (hinj : placement_injective placement) (hready : ready dev s)
    (h : route dev cfg net placement finalize fuel s = .ok r) :
    inserted_swaps r = [] ∧
    (∃ s1, route_entry dev net placement s = .ok s1 ∧
      route_loop_searches dev cfg net fuel 0 0 s1 = .ok 0) ∧
    (∀ op ∈ r.mapped, located net r.published op) ∧
    (∀ v p : Nat, placement[v]? = some (some p) → r.published[v]? = some (some p)) ∧
    (finalize = true → (emitted r).Perm (gates net) ∧ r.mapped.length = (gates net).length) := by
  have hperm : inserted_swaps r = [] → finalize = true →
      (emitted r).Perm (gates net) ∧ r.mapped.length = (gates net).length := by
    intro hsw hf
    subst hf
    obtain ⟨_, hp, ty⟩ := route_emitted_perm hw hac hd hinj hready h
    refine ⟨hp, ?_⟩
    rw [tidy_length ty, hp.length_eq, hsw]
    rfl
  obtain ⟨s1, s2, s3, h1, h2, hfin, _, _, rfl⟩ := route_finalisations h
  obtain ⟨hs1, hfl1, _⟩ := route_entry_settled hready h1
  have hr1 := route_entry_routing_state hinj (ready_length hready) h1
  have FI := (routing_state_loop_invariant dev net dev.num_qubits placement hd).front.and
    (settled_front_invariant dev net hd)
  have hall : ∀ (s : jit_router) (n : Nat) (op : op_type) (r : Bool × jit_router),
      (routing_state dev.num_qubits net placement s ∧ settled net s) →
      net.nodes[n]? = some op → op.is_meta = false →
      execute dev n op s = .ok r → r.1 = true := by
    intro s n op r hP hop hm hexec
    by_cases h1q : op.is_one_qubit = true
    · simp only [execute, h1q, if_true] at hexec
      exact (add_op_eq hexec).1
    · simp only [execute, h1q, if_false] at hexec
      have hne : ∀ v0 v1, s.wire_to_v[op.control.uid]? = some v0 →
          s.wire_to_v[op.target.uid]? = some v1 → v0 ≠ v1 := by
        intro v0 v1 h0 h1
        rw [hP.1.1] at h0 h1
        exact hd n op hop hm (by simpa using h1q) v0 v1 h0 h1
      obtain ⟨t, v0, v1, phy0, phy1, hp, hw0, hw1, hp0, hp1, hcase⟩ := try_add_op_steps hne hexec
      have hrt := routing_state_placements hp hP.1
      obtain ⟨_, hlen, hiff⟩ := hrt.2.1
      have hq0 := (hiff v0 phy0).mp hp0
      have hq1 := (hiff v1 phy1).mp hp1
      have hlt0 := getElem?_lt_of_eq_some hq0
      have hlt1 := getElem?_lt_of_eq_some hq1
      have hne01 : phy0 ≠ phy1 := by
        intro heq
        rw [heq, hq1] at hq0
        simp only [Option.some.injEq] at hq0
        exact hne v0 v1 hw0 hw1 hq0.symm
      have hc := hcomplete phy0 phy1 (by omega) (by omega) hne01
      rcases hcase with ⟨hb, _, _⟩ | ⟨_, hn, _⟩
      · exact hb
      · rw [hc] at hn; simp at hn
  obtain ⟨⟨hr2, hs2⟩, hsearch⟩ := FI.no_swap_search hall 0 h2 ⟨hr1, hs1⟩ hfl1
  have hs3 := settled_finalisations hfin hs2
  have ht3 := tracks_finalisations hfin hr2.2.2.2
  refine ⟨located_not_swap hs3.2.1, ⟨s1, h1, hsearch⟩, hs3.2.1, fun v p hv => ?_,
    hperm (located_not_swap hs3.2.1)⟩
  have := ht3 v p hv
  rw [apply_swaps_phy_located hs3.2.1] at this
  exact this

theorem route_h_cx_complete :
    route complete3 {} circuit_h_cx [some 0, none, some 1] true 10 (jit_router.init complete3)
      = .ok routed_h_cx_complete := by
  decide!

theorem complete_device_needs_no_swap_witness :
    route complete3 {} circuit_h_cx [some 0, none, some 1] true 10 (jit_router.init complete3)
      = .ok routed_h_cx_complete ∧
    inserted_swaps routed_h_cx_complete = [] ∧
    routed_h_cx_complete.mapped = [.one (.node 0) 2, .two (.node 1) ⟨0, false⟩ 2] ∧
    routed_h_cx_complete.published = [some 0, some 2, some 1] :=
  ⟨route_h_cx_complete,
    (complete_device_needs_no_swap complete3 {} circuit_h_cx [some 0, none, some 1] true 10
      (jit_router.init complete3) routed_h_cx_complete
      (fun p q _ _ hpq => by simp [complete3, hpq])
      circuit_h_cx_well_formed circuit_h_cx_acyclic circuit_h_cx_distinct_operands
      line_placement_injective (ready_init complete3) route_h_cx_complete).1,
    rfl, rfl⟩

/-- C22: `select_extended_layer` leaves every discharge counter as it was before the call,
whether the expansion ran to exhaustion or stopped at the `e_set_size` bound: the counters
at the `undo_increment` label are the counters of the call with one `incr_value` per entry
of `incremented_nodes`, the undo loop performs one `decr_value` per entry of the same
list, and it ends on the counters of the call; only `extended_layer_` differs between the
state after the call and the state before it. -/
theorem select_extended_layer_restores_counters (net : Network) (cfg : jit_config)
    (s s1 : jit_router) (h : select_extended_layer net cfg s = .ok s1) :
    s1.values = s.values ∧
    (∀ n : Nat, s1.values.getD n 0 = s.values.getD n 0) ∧
    s1 = { s with extended_layer := s1.extended_layer } ∧
    ∃ acc : ext_acc,
      extend_loop net cfg.e_set_size (net.nodes.length + 1) s.front_layer
        { values := s.values, incremented_nodes := [], new_tmp_front_layer := [],
          extended_layer := [] } = .ok acc ∧
      acc.values = incr_all s.values acc.incremented_nodes ∧
      undo_increment net acc.incremented_nodes acc.values = .ok s.values ∧
      s1.extended_layer = acc.extended_layer := by
  have hv := select_extended_layer_values h
  unfold select_extended_layer at h
  split at h
  · rename_i acc hacc
    split at h
    · rename_i values hu
      simp only [Except.ok.injEq] at h
      subst h
      have hc := (extend_loop_spec (children_length_le_max net) hacc (by simp)).2 s.values rfl
      unfold ext_consistent at hc
      simp only at hv
      subst hv
      exact ⟨rfl, fun _ => rfl, rfl, acc, hacc, hc, hu, rfl⟩
    · simp at h
  · simp at h

theorem select_extended_layer_restores_counters_witness :
    ({ stuck_square with extended_layer := [2, 3] } : jit_router).values
      = stuck_square.values ∧
    (∀ n : Nat, ({ stuck_square with extended_layer := [2, 3] } : jit_router).values.getD n 0
      = stuck_square.values.getD n 0) ∧
    ({ stuck_square with extended_layer := [2, 3] } : jit_router)
      = { stuck_square with
          extended_layer :=
            ({ stuck_square with extended_layer := [2, 3] } : jit_router).extended_layer } ∧
    ∃ acc : ext_acc,
      extend_loop circuit_square ({ e_set_size := 1 } : jit_config).e_set_size
        (circuit_square.nodes.length + 1) stuck_square.front_layer
        { values := stuck_square.values, incremented_nodes := [], new_tmp_front_layer := [],
          extended_layer := [] } = .ok acc ∧
      acc.values = incr_all stuck_square.values acc.incremented_nodes ∧
      undo_increment circuit_square acc.incremented_nodes acc.values
        = .ok stuck_square.values ∧
      ({ stuck_square with extended_layer := [2, 3] } : jit_router).extended_layer
        = acc.extended_layer :=
  select_extended_layer_restores_counters circuit_square { e_set_size := 1 } stuck_square
    { stuck_square with extended_layer := [2, 3] } select_extended_layer_square

theorem find_min_spec (cost : List ℚ) : ∀ (cs : List ℚ) (i min : Nat),
    cost.drop i = cs → min < i → i ≤ cost.length →
    (∀ j, j < i → cost.getD min 0 ≤ cost.getD j 0) →
    (∀ j, j < min → cost.getD min 0 < cost.getD j 0) →
    find_min cost cs i min < cost.length ∧
    (∀ j, j < cost.length → cost.getD (find_min cost cs i min) 0 ≤ cost.getD j 0) ∧
    (∀ j, j < find_min cost cs i min → cost.getD (find_min cost cs i min) 0 < cost.getD j 0) := by
  intro cs
  induction cs with
  | nil =>
    intro i min hd hm hi hle hlt
    have hlen : cost.length ≤ i := by
      have := congrArg List.length hd
      simp at this
      omega
    simp only [find_min]
    exact ⟨by omega, fun j hj => hle j (by omega), hlt⟩
  | cons c cs ih =>
    intro i min hd hm hi hle hlt
    have hil : i < cost.length := by
      have := congrArg List.length hd
      simp at this
      omega
    have hc : cost.getD i 0 = c := by
      have h1 : (cost.drop i)[0]? = some c := by rw [hd]; simp
      rw [List.getElem?_drop] at h1
      simp only [Nat.add_zero] at h1
      simp [List.getD_eq_getElem?_getD, h1]
    have hd1 : cost.drop (i + 1) = cs := by
      have := congrArg List.tail hd
      simpa [List.tail_drop] using this
    simp only [find_min]
    split
    · rename_i hlt1
      apply ih (i + 1) i hd1 (by omega) (by omega)
      · intro j hj
        rcases Nat.lt_succ_iff_lt_or_eq.mp hj with hj1 | hj1
        · rw [hc]; exact le_of_lt (lt_of_lt_of_le hlt1 (hle j hj1))
        · subst hj1; exact le_refl _
      · intro j hj
        rw [hc]; exact lt_of_lt_of_le hlt1 (hle j hj)
    · rename_i hnlt
      apply ih (i + 1) min hd1 (by omega) (by omega)
      · intro j hj
        rcases Nat.lt_succ_iff_lt_or_eq.mp hj with hj1 | hj1
        · exact hle j hj1
        · subst hj1; rw [hc]; exact not_lt.mp hnlt
      · exact hlt

theorem find_min_first (cost : List ℚ) (hne : cost ≠ []) :
    find_min cost cost.tail 1 0 < cost.length ∧
    (∀ j, j < cost.length →
      cost.getD (find_min cost cost.tail 1 0) 0 ≤ cost.getD j 0) ∧
    (∀ j, j < find_min cost cost.tail 1 0 →
      cost.getD (find_min cost cost.tail 1 0) 0 < cost.getD j 0) := by
  have hl : 1 ≤ cost.length := by
    cases cost with
    | nil => exact absurd rfl hne
    | cons a l => simp
  apply find_min_spec cost cost.tail 1 0 (by simp) (by omega) hl
  · intro j hj
    have : j = 0 := by omega
    subst this; exact le_refl _
  · intro j hj; omega

theorem swap_candidates_sublist {inv : List Bool} : ∀ {es cands : List (Nat × Nat)},
    swap_candidates inv es = .ok cands → cands.Sublist es := by
  intro es
  induction es with
  | nil => intro cands h; simp [swap_candidates] at h; subst h; exact List.Sublist.refl _
  | cons e es ih =>
    intro cands h
    obtain ⟨u, v⟩ := e
    simp only [swap_candidates] at h
    split at h
    · split at h
      · split at h
        · rename_i rest hr
          simp only [Except.ok.injEq] at h
          subst h
          split
          · exact (ih hr).cons₂ _
          · exact (ih hr).cons _
        · simp at h
      · simp at h
    · simp at h

theorem swap_candidates_involved {inv : List Bool} : ∀ {es cands : List (Nat × Nat)},
    swap_candidates inv es = .ok cands →
    ∀ e, e ∈ cands ↔ e ∈ es ∧ (inv[e.1]? = some true ∨ inv[e.2]? = some true) := by
  intro es
  induction es with
  | nil => intro cands h; simp [swap_candidates] at h; subst h; simp
  | cons e es ih =>
    intro cands h
    obtain ⟨u, v⟩ := e
    simp only [swap_candidates] at h
    split at h
    · rename_i iu hiu
      split at h
      · rename_i b hb
        split at h
        · rename_i rest hr
          simp only [Except.ok.injEq] at h
          subst h
          have hu : inv[u]? = some iu := by
            unfold at_ at hiu
            split at hiu
            · simp only [Except.ok.injEq] at hiu; subst hiu; assumption
            · simp at hiu
          have hbb : b = true ↔ (inv[u]? = some true ∨ inv[v]? = some true) := by
            cases iu with
            | true =>
              simp only [if_true, Except.ok.injEq] at hb
              subst hb
              simp [hu]
            | false =>
              simp only [Bool.false_eq_true, if_false] at hb
              unfold at_ at hb
              split at hb
              · rename_i x hx
                simp only [Except.ok.injEq] at hb; subst hb
                simp [hu, hx]
              · simp at hb
          intro e
          have ihe := ih hr e
          by_cases hbt : b = true
          · simp only [hbt, if_true, List.mem_cons]
            constructor
            · rintro (rfl | h1)
              · exact ⟨Or.inl rfl, hbb.mp hbt⟩
              · exact ⟨Or.inr (ihe.mp h1).1, (ihe.mp h1).2⟩
            · rintro ⟨rfl | h1, h2⟩
              · exact Or.inl rfl
              · exact Or.inr (ihe.mpr ⟨h1, h2⟩)
          · simp only [hbt, if_false, List.mem_cons]
            constructor
            · intro h1
              exact ⟨Or.inr (ihe.mp h1).1, (ihe.mp h1).2⟩
            · rintro ⟨rfl | h1, h2⟩
              · exact absurd (hbb.mpr h2) hbt
              · exact ihe.mpr ⟨h1, h2⟩
        · simp at h
      · simp at h
    · simp at h

theorem swap_costs_spec {dev : device} {cfg : jit_config} {net : Network} {s : jit_router} :
    ∀ {cands : List (Nat × Nat)} {cost : List ℚ}, swap_costs dev cfg net s cands = .ok cost →
    cost.length = cands.length ∧
    ∀ j e, cands[j]? = some e → swap_score dev cfg net s e.1 e.2 = .ok (cost.getD j 0) := by
  intro cands
  induction cands with
  | nil => intro cost h; simp [swap_costs] at h; subst h; simp
  | cons e cs ih =>
    intro cost h
    obtain ⟨p0, p1⟩ := e
    simp only [swap_costs] at h
    split at h
    · rename_i c hc
      split at h
      · rename_i rest hr
        simp only [Except.ok.injEq] at h
        subst h
        obtain ⟨hl, hs⟩ := ih hr
        refine ⟨by simp [hl], ?_⟩
        intro j e he
        cases j with
        | zero =>
          simp only [List.getElem?_cons_zero, Option.some.injEq] at he
          subst he
          simpa using hc
        | succ j =>
          simp only [List.getElem?_cons_succ] at he
          simpa using hs j e he
      · simp at h
    · simp at h

/-- C24: for a non-empty candidate list `find_swap` returns the candidate of the smallest
score, the earliest one in device edge enumeration order among those of that score: the
candidates are a sublist of the device edge list, no candidate has a strictly smaller score
than the returned one, and every candidate before it has a strictly larger score. -/
theorem find_swap_returns_first_minimum (dev : device) (cfg : jit_config) (net : Network)
    (s s1 : jit_router) (cands : List (Nat × Nat)) (cost : List ℚ)
    (hc : swap_candidates s.involved_phy dev.edges = .ok cands) (hne : cands ≠ [])
    (hl : (if cfg.use_look_ahead then select_extended_layer net cfg s else .ok s) = .ok s1)
    (hcost : swap_costs dev cfg net s1 cands = .ok cost) :
    cands.Sublist dev.edges ∧
    ∃ (m : Nat) (c : Nat × Nat) (x : ℚ),
      find_swap dev cfg net s = .ok (c, s1) ∧ cands[m]? = some c ∧
      swap_score dev cfg net s1 c.1 c.2 = .ok x ∧
      ∀ (j : Nat) (e : Nat × Nat) (y : ℚ), cands[j]? = some e →
        swap_score dev cfg net s1 e.1 e.2 = .ok y → x ≤ y ∧ (j < m → x < y) := by
  obtain ⟨hlen, hsc⟩ := swap_costs_spec hcost
  have hcne : cost ≠ [] := by
    intro h0
    rw [h0] at hlen
    exact hne (List.length_eq_zero.mp hlen.symm)
  obtain ⟨hm, hle, hlt⟩ := find_min_first cost hcne
  rw [hlen] at hm
  have hcm : cands[find_min cost cost.tail 1 0]? = some (cands.get ⟨_, hm⟩) :=
    List.getElem?_eq_getElem hm
  refine ⟨swap_candidates_sublist hc, find_min cost cost.tail 1 0, cands.get ⟨_, hm⟩,
    cost.getD (find_min cost cost.tail 1 0) 0, ?_, hcm, hsc _ _ hcm, ?_⟩
  · unfold find_swap
    rw [hc]
    simp only [hl, hcost, at_, hcm]
  · intro j e y he hy
    have hj : j < cands.length := by
      rcases Nat.lt_or_ge j cands.length with h1 | h1
      · exact h1
      · rw [List.getElem?_eq_none h1] at he
        cases he
    have hy1 := hsc j e he
    rw [hy] at hy1
    simp only [Except.ok.injEq] at hy1
    subst hy1
    exact ⟨hle j (by rw [hlen]; exact hj), fun h => hlt j h⟩

theorem find_swap_returns_first_minimum_witness :
    ([(3, 4), (4, 5), (0, 1), (1, 2), (2, 3)] : List (Nat × Nat)).Sublist line6.edges ∧
    ∃ (m : Nat) (c : Nat × Nat) (x : ℚ),
      find_swap line6 {} circuit_two_pairs stuck_two_pairs
        = .ok (c, { stuck_two_pairs with extended_layer := [2] }) ∧
      ([(3, 4), (4, 5), (0, 1), (1, 2), (2, 3)] : List (Nat × Nat))[m]? = some c ∧
      swap_score line6 {} circuit_two_pairs { stuck_two_pairs with extended_layer := [2] }
        c.1 c.2 = .ok x ∧
      ∀ (j : Nat) (e : Nat × Nat) (y : ℚ),
        ([(3, 4), (4, 5), (0, 1), (1, 2), (2, 3)] : List (Nat × Nat))[j]? = some e →
        swap_score line6 {} circuit_two_pairs { stuck_two_pairs with extended_layer := [2] }
          e.1 e.2 = .ok y → x ≤ y ∧ (j < m → x < y) :=
  find_swap_returns_first_minimum line6 {} circuit_two_pairs stuck_two_pairs
    { stuck_two_pairs with extended_layer := [2] } [(3, 4), (4, 5), (0, 1), (1, 2), (2, 3)]
    [1, 1, 1 / 2, 1 / 2, 3] (by decide) (by decide) (by decide!) (by decide!)

theorem same_control.rfl_ (s : jit_router) : same_control s s :=
  ⟨rfl, rfl, rfl, rfl, rfl, rfl, rfl⟩

theorem same_control.trans_ {s s1 s2 : jit_router} (h1 : same_control s s1)
    (h2 : same_control s1 s2) : same_control s s2 := by
  obtain ⟨a1, a2, a3, a4, a5, a6, a7⟩ := h1
  obtain ⟨b1, b2, b3, b4, b5, b6, b7⟩ := h2
  exact ⟨b1.trans a1, b2.trans a2, b3.trans a3, b4.trans a4, b5.trans a5, b6.trans a6,
    b7.trans a7⟩

theorem jit_add_same_control {v : Nat} {s s1 : jit_router} (h : jit_add v s = .ok s1) :
    same_control s s1 := by
  obtain ⟨_, phy, _, rfl⟩ := jit_add_eq h
  exact ⟨rfl, rfl, rfl, rfl, rfl, rfl, rfl⟩

theorem place_one_v_same_control {dev : device} {v0 v1 : Nat} {s s1 : jit_router}
    (h : place_one_v dev v0 v1 s = .ok s1) : same_control s s1 := by
  obtain ⟨phy0, phy1, f0, fs, pp, _, _, _, _, _, _, hj⟩ := place_one_v_eq h
  have h1 := jit_add_same_control hj
  exact h1

theorem place_two_v_same_control {dev : device} {v0 v1 : Nat} {s s2 : jit_router}
    (h : place_two_v dev v0 v1 s = .ok s2) : same_control s s2 := by
  obtain ⟨phy0, phy1, a, b, s1, _, _, _, _, _, _, hj0, hj1⟩ := place_two_v_eq h
  have h1 := jit_add_same_control hj0
  have h2 := jit_add_same_control hj1
  have h3 := same_control.trans_ h1 h2
  exact h3

theorem try_add_op_place_same_control {dev : device} {w0 w1 : wire_id} {s s1 : jit_router}
    {q0 q1 : Option Nat} (h : try_add_op_place dev w0 w1 s = .ok (s1, q0, q1)) :
    same_control s s1 := by
  unfold try_add_op_place at h
  split at h
  · split at h
    · split at h
      · split at h
        · rename_i t ht
          split at h
          · simp only [Except.ok.injEq, Prod.mk.injEq] at h
            obtain ⟨rfl, _, _⟩ := h
            split at ht
            · exact place_two_v_same_control ht
            · exact place_one_v_same_control ht
          · simp at h
          · simp at h
        · simp at h
      · simp at h
      · simp at h
    · simp only [Except.ok.injEq, Prod.mk.injEq] at h
      obtain ⟨rfl, _, _⟩ := h
      exact same_control.rfl_ _
  · simp at h
  · simp at h

theorem try_add_op_same_control {dev : device} {g : gate_ref} {w0 w1 : wire_id}
    {s : jit_router} {r : Bool × jit_router} (h : try_add_op dev g w0 w1 s = .ok r) :
    same_control s r.2 := by
  unfold try_add_op at h
  split at h
  · rename_i s1 phy0 phy1 hp
    have hsc := try_add_op_place_same_control hp
    split at h
    · simp only [Except.ok.injEq] at h
      subst h
      exact hsc
    · simp only [Except.ok.injEq] at h
      subst h
      exact hsc
  · simp at h
  · simp at h

theorem add_op_same_control {g : gate_ref} {w : wire_id} {s : jit_router}
    {r : Bool × jit_router} (h : add_op g w s = .ok r) : same_control s r.2 := by
  obtain ⟨_, v, _, hcase⟩ := add_op_eq h
  rcases hcase with ⟨_, _, hr⟩ | ⟨phy, _, hr⟩
  · rw [hr]; exact ⟨rfl, rfl, rfl, rfl, rfl, rfl, rfl⟩
  · rw [hr]; exact ⟨rfl, rfl, rfl, rfl, rfl, rfl, rfl⟩

/-- The three ways in which one iteration of the loop of `try_add_front_layer` returns: the
node is a meta-operation and nothing happens; the gate was executed and its children are
discharged; the gate is stuck, goes to the new front layer, and its two physical qubits are
marked as involved. -/
theorem try_add_front_layer_step_cases {dev : device} {net : Network}
    {acc acc1 : Bool × List Nat × jit_router} {n : Nat}
    (h : try_add_front_layer_step dev net acc n = .ok acc1) :
    ∃ op, net.nodes[n]? = some op ∧
      ((op.is_meta = true ∧ acc1 = acc) ∨
       (op.is_meta = false ∧ ∃ b s1,
          (if op.is_one_qubit then add_op (.node n) op.target acc.2.2
           else try_add_op dev (.node n) op.control op.target acc.2.2) = .ok (b, s1) ∧
          ((b = true ∧ ∃ values nfl,
              advance_children net (net.children.getD n []) (s1.values, acc.2.1)
                = .ok (values, nfl) ∧
              acc1 = (true, nfl, { s1 with values := values })) ∨
           (b = false ∧ ∃ c t, wire_to_phy s1 op.control = .ok (some c) ∧
              wire_to_phy s1 op.target = .ok (some t) ∧
              c < s1.involved_phy.length ∧ t < s1.involved_phy.length ∧
              acc1 = (acc.1, acc.2.1 ++ [n],
                { s1 with involved_phy := (s1.involved_phy.set c true).set t true }))))) := by
  unfold try_add_front_layer_step at h
  split at h
  · rename_i op hop
    rw [at__ok] at hop
    refine ⟨op, hop, ?_⟩
    split at h
    · rename_i hm
      simp only [Except.ok.injEq] at h
      exact Or.inl ⟨hm, h.symm⟩
    · rename_i hmeta
      have hmeta : op.is_meta = false := by simpa using hmeta
      refine Or.inr ⟨hmeta, ?_⟩
      split at h
      · rename_i s1 hexec
        refine ⟨true, s1, hexec, Or.inl ⟨rfl, ?_⟩⟩
        split at h
        · rename_i values nfl hadv
          simp only [Except.ok.injEq] at h
          exact ⟨values, nfl, hadv, h.symm⟩
        · simp at h
      · rename_i s1 hexec
        refine ⟨false, s1, hexec, Or.inr ⟨rfl, ?_⟩⟩
        split at h
        · rename_i c t hc ht
          split at h
          · rename_i inv1 hi1
            split at h
            · rename_i inv2 hi2
              simp only [Except.ok.injEq] at h
              rw [set_at_id_ok] at hi1 hi2
              obtain ⟨a, rfl, ha, rfl⟩ := hi1
              obtain ⟨b, rfl, hb, rfl⟩ := hi2
              rw [List.length_set] at hb
              exact ⟨a, b, hc, ht, ha, hb, h.symm⟩
            · simp at h
          · simp at h
        · simp at h
        · simp at h
      · simp at h
  · simp at h

theorem try_add_front_layer_step_phy_decay {dev : device} {net : Network}
    {acc acc1 : Bool × List Nat × jit_router} {n : Nat}
    (h : try_add_front_layer_step dev net acc n = .ok acc1) :
    acc1.2.2.phy_decay = acc.2.2.phy_decay := by
  obtain ⟨op, _, hcase⟩ := try_add_front_layer_step_cases h
  rcases hcase with ⟨_, rfl⟩ | ⟨_, b, s1, hexec, hb⟩
  · rfl
  · have hsc : same_control acc.2.2 s1 := by
      split at hexec
      · exact add_op_same_control hexec
      · exact try_add_op_same_control hexec
    rcases hb with ⟨_, values, nfl, _, rfl⟩ | ⟨_, c, t, _, _, _, _, rfl⟩
    · exact hsc.2.2.2.1
    · exact hsc.2.2.2.1

theorem try_add_front_layer_loop_phy_decay {dev : device} {net : Network} {ns : List Nat}
    {acc acc1 : Bool × List Nat × jit_router}
    (h : try_add_front_layer_loop dev net ns acc = .ok acc1) :
    acc1.2.2.phy_decay = acc.2.2.phy_decay := by
  induction ns generalizing acc with
  | nil =>
    simp only [try_add_front_layer_loop, Except.ok.injEq] at h
    subst h; rfl
  | cons n ns ih =>
    simp only [try_add_front_layer_loop] at h
    split at h
    · rename_i acc2 h2
      exact (ih h).trans (try_add_front_layer_step_phy_decay h2)
    · simp at h

theorem try_add_front_layer_phy_decay {dev : device} {net : Network} {s : jit_router}
    {r : Bool × jit_router} (h : try_add_front_layer dev net s = .ok r) :
    r.2.phy_decay = s.phy_decay := by
  unfold try_add_front_layer at h
  split at h
  · rename_i b nfl s1 hl
    simp only [Except.ok.injEq] at h
    subst h
    exact try_add_front_layer_loop_phy_decay hl
  · simp at h

theorem update_decay_spec {cfg : jit_config} {k p0 p1 : Nat} {d d1 : List ℚ}
    (h : update_decay cfg k p0 p1 d = .ok d1) :
    cfg.num_rounds_decay_reset ≠ 0 ∧ d1.length = d.length ∧
    (k % cfg.num_rounds_decay_reset = 0 → d1 = d.map (fun _ => 1)) ∧
    (k % cfg.num_rounds_decay_reset ≠ 0 →
      p0 < d.length ∧ p1 < d.length ∧
      (∀ q, q ≠ p0 → q ≠ p1 → d1[q]? = d[q]?) ∧
      (p0 ≠ p1 → d1[p0]? = (d[p0]?).map (· + cfg.decay_delta) ∧
        d1[p1]? = (d[p1]?).map (· + cfg.decay_delta)) ∧
      (p0 = p1 → d1[p0]? = (d[p0]?).map (· + cfg.decay_delta + cfg.decay_delta))) := by
  unfold update_decay at h
  split at h
  · simp at h
  · rename_i hR
    refine ⟨hR, ?_⟩
    split at h
    · rename_i hk
      simp only [Except.ok.injEq] at h
      subst h
      exact ⟨by simp, fun _ => rfl, fun hn => absurd hk hn⟩
    · rename_i hk
      split at h
      · rename_i d0 hd0
        split at h
        · rename_i x hx
          simp only [Except.ok.injEq] at h
          subst h
          rw [at__ok] at hd0 hx
          have hp0 : p0 < d.length := by
            rcases Nat.lt_or_ge p0 d.length with h1 | h1
            · exact h1
            · rw [List.getElem?_eq_none h1] at hd0; cases hd0
          have hp1 : p1 < d.length := by
            rcases Nat.lt_or_ge p1 (d.set p0 (d0 + cfg.decay_delta)).length with h1 | h1
            · simpa using h1
            · rw [List.getElem?_eq_none h1] at hx; cases hx
          refine ⟨by simp, fun h0 => absurd h0 hk, fun _ => ⟨hp0, hp1, ?_, ?_, ?_⟩⟩
          · intro q hq0 hq1
            rw [List.getElem?_set_ne (Ne.symm hq1), List.getElem?_set_ne (Ne.symm hq0)]
          · intro hne
            rw [List.getElem?_set_ne hne] at hx
            constructor
            · rw [List.getElem?_set_ne (Ne.symm hne), List.getElem?_set_self hp0, hd0]; rfl
            · rw [List.getElem?_set_self (by simpa using hp1), hx]; rfl
          · intro he
            subst he
            rw [List.getElem?_set_self hp0] at hx
            simp only [Option.some.injEq] at hx
            subst hx
            rw [List.getElem?_set_self (by simpa using hp0), hd0]; rfl
        · simp at h
      · simp at h

theorem swap_round_decay {dev : device} {cfg : jit_config} {net : Network} {k : Nat}
    {s s2 : jit_router} (h : swap_round dev cfg net k s = .ok s2) :
    ∃ c s1, find_swap dev cfg net s = .ok (c, s1) ∧
      update_decay cfg k c.1 c.2 s.phy_decay = .ok s2.phy_decay := by
  unfold swap_round at h
  split at h
  · rename_i phy0 phy1 s1 hf
    obtain ⟨el, vals, hs1⟩ := find_swap_frame hf
    split at h
    · rename_i decay hu
      split at h
      · rename_i s3 ha
        simp only [Except.ok.injEq] at h
        subst h
        obtain ⟨_, v0, v1, _, _, _, _, hs3⟩ := add_swap_eq ha
        refine ⟨(phy0, phy1), s1, hf, ?_⟩
        rw [hs3]
        rw [hs1] at hu
        exact hu
      · simp at h
    · simp at h
  · simp at h

theorem route_loop_decay_spec {dev : device} {cfg : jit_config} {net : Network} :
    ∀ (fuel k : Nat) (s : jit_router) (tr : List decay_step),
    route_loop_decay dev cfg net fuel k s = .ok tr →
    ∀ (i : Nat) (r : decay_step), tr[i]? = some r →
      r.num_swap_searches = (k + i + 1) % 2 ^ 32 ∧
      r.before = (match i with
        | 0 => s.phy_decay
        | j + 1 => ((tr[j]?).map decay_step.after).getD []) ∧
      update_decay cfg r.num_swap_searches r.swap.1 r.swap.2 r.before = .ok r.after := by
  intro fuel
  induction fuel with
  | zero =>
    intro k s tr h i r hr
    simp only [route_loop_decay] at h
    split at h
    · simp only [Except.ok.injEq] at h
      subst h
      simp at hr
    · simp at h
  | succ fuel ih =>
    intro k s tr h i r hr
    simp only [route_loop_decay] at h
    split at h
    · simp only [Except.ok.injEq] at h
      subst h
      simp at hr
    · split at h
      · rename_i s1 ht
        have hd := try_add_front_layer_phy_decay ht
        simp only at hd
        obtain ⟨h1, h2, h3⟩ := ih k s1 tr h i r hr
        refine ⟨h1, ?_, h3⟩
        cases i with
        | zero => simpa [hd] using h2
        | succ j => exact h2
      · rename_i s1 ht
        have hd := try_add_front_layer_phy_decay ht
        simp only at hd
        split at h
        · rename_i c sf hf
          split at h
          · rename_i s2 hsr
            split at h
            · rename_i t hrec
              simp only [Except.ok.injEq] at h
              subst h
              obtain ⟨c1, sf1, hf1, hu⟩ := swap_round_decay hsr
              rw [hf] at hf1
              simp only [Except.ok.injEq, Prod.mk.injEq] at hf1
              obtain ⟨rfl, _⟩ := hf1
              cases i with
              | zero =>
                simp only [List.getElem?_cons_zero, Option.some.injEq] at hr
                subst hr
                exact ⟨by simp, hd, hu⟩
              | succ j =>
                simp only [List.getElem?_cons_succ] at hr
                obtain ⟨h1, h2, h3⟩ := ih _ s2 t hrec j r hr
                refine ⟨?_, ?_, h3⟩
                · rw [h1]
                  simp only [Nat.add_mod, Nat.mod_mod]
                  congr 1
                  omega
                · rw [h2]
                  cases j with
                  | zero => simp
                  | succ j1 => simp
            · simp at h
          · simp at h
        · simp at h
      · simp at h

theorem route_loop_decay_ok {dev : device} {cfg : jit_config} {net : Network} :
    ∀ (fuel k : Nat) (s s2 : jit_router), route_loop dev cfg net fuel k s = .ok s2 →
    ∃ tr, route_loop_decay dev cfg net fuel k s = .ok tr ∧
      s2.phy_decay = ((tr.getLast?).map decay_step.after).getD s.phy_decay := by
  intro fuel
  induction fuel with
  | zero =>
    intro k s s2 h
    simp only [route_loop] at h
    simp only [route_loop_decay]
    split at h
    · rename_i he
      simp only [Except.ok.injEq] at h
      subst h
      exact ⟨[], by simp [he], by simp⟩
    · simp at h
  | succ fuel ih =>
    intro k s s2 h
    simp only [route_loop] at h
    simp only [route_loop_decay]
    split at h
    · rename_i he
      simp only [Except.ok.injEq] at h
      subst h
      exact ⟨[], by simp [he], by simp⟩
    · rename_i he
      rw [if_neg he]
      split at h
      · rename_i s1 ht
        have hd := try_add_front_layer_phy_decay ht
        simp only at hd
        obtain ⟨tr, h1, h2⟩ := ih k s1 s2 h
        refine ⟨tr, ?_, by rw [h2, hd]⟩
        exact h1
      · rename_i s1 ht
        split at h
        · rename_i s3 hsr
          obtain ⟨c, sf, hf, _⟩ := swap_round_decay hsr
          obtain ⟨tr, h1, h2⟩ := ih _ s3 s2 h
          refine ⟨⟨(k + 1) % 2 ^ 32, c, s1.phy_decay, s3.phy_decay⟩ :: tr, ?_, ?_⟩
          · simp only [ht, hf, hsr, h1]
          · rw [h2]
            cases tr with
            | nil => simp
            | cons a l =>
              rw [List.getLast?_cons_cons, List.getLast?_eq_getLast _ (List.cons_ne_nil a l)]
              simp
        · simp at h
      · simp at h

/-- C26: the decay update rule of the driver. `phy_decay_` is all `1` when the driver loop
starts. The SWAP searches of the loop, in order, are the entries of `route_loop_decay`; the
search of index `i` runs with `num_swap_searches = (i + 1) mod 2^32` (the counter is 32
bits wide), that is `i + 1` below `2^32`, on the vector the previous search left (the one
of the loop entry for the first search), `num_rounds_decay_reset` is not zero, and the
vector after it is all `1` if the counter is a multiple of `num_rounds_decay_reset`;
otherwise the entries of the two ends of the selected SWAP are each increased by
`decay_delta` and every other entry is unchanged. The loop ends on the vector that the
last search left. -/
theorem decay_update_rule (dev : device) (cfg : jit_config) (net : Network)
    (placement : List (Option Nat)) (fuel : Nat) (s s1 s2 : jit_router)
    (h1 : route_entry dev net placement s = .ok s1)
    (h2 : route_loop dev cfg net fuel 0 s1 = .ok s2) :
    (∀ d ∈ s1.phy_decay, d = 1) ∧
    ∃ tr : List decay_step, route_loop_decay dev cfg net fuel 0 s1 = .ok tr ∧
      s2.phy_decay = ((tr.getLast?).map decay_step.after).getD s1.phy_decay ∧
      ∀ (i : Nat) (r : decay_step), tr[i]? = some r →
        r.num_swap_searches = (i + 1) % 2 ^ 32 ∧
        (i + 1 < 2 ^ 32 → r.num_swap_searches = i + 1) ∧
        r.before = (match i with
          | 0 => s1.phy_decay
          | j + 1 => ((tr[j]?).map decay_step.after).getD []) ∧
        cfg.num_rounds_decay_reset ≠ 0 ∧ r.after.length = r.before.length ∧
        (r.num_swap_searches % cfg.num_rounds_decay_reset = 0 → ∀ d ∈ r.after, d = 1) ∧
        (r.num_swap_searches % cfg.num_rounds_decay_reset ≠ 0 →
          (∀ q, q ≠ r.swap.1 → q ≠ r.swap.2 → r.after[q]? = r.before[q]?) ∧
          (r.swap.1 ≠ r.swap.2 →
            r.after[r.swap.1]? = (r.before[r.swap.1]?).map (· + cfg.decay_delta) ∧
            r.after[r.swap.2]? = (r.before[r.swap.2]?).map (· + cfg.decay_delta))) := by
  constructor
  · obtain ⟨_, p2v, values, fl, _, _, hs1⟩ := route_entry_eq h1
    rw [hs1]
    intro d hd
    simp only [List.mem_map] at hd
    obtain ⟨_, _, rfl⟩ := hd
    rfl
  · obtain ⟨tr, ht, hlast⟩ := route_loop_decay_ok fuel 0 s1 s2 h2
    refine ⟨tr, ht, hlast, ?_⟩
    intro i r hr
    obtain ⟨hk, hb, hu⟩ := route_loop_decay_spec fuel 0 s1 tr ht i r hr
    obtain ⟨hR, hlen, hreset, hstep⟩ := update_decay_spec hu
    have hk1 : r.num_swap_searches = (i + 1) % 2 ^ 32 := by rw [hk]; congr 1; omega
    refine ⟨hk1, fun hi => by rw [hk1]; exact Nat.mod_eq_of_lt hi, hb, hR, hlen, ?_, ?_⟩
    · intro h0 d hd
      rw [hreset h0] at hd
      simp only [List.mem_map] at hd
      obtain ⟨_, _, rfl⟩ := hd
      rfl
    · intro hn
      obtain ⟨_, _, hq, hne, _⟩ := hstep hn
      exact ⟨hq, hne⟩

theorem decay_update_rule_witness :
    route_entry line3 circuit_h_cx [some 0, none, some 1] (jit_router.init line3)
      = .ok entered_h_cx ∧
    route_loop line3 {} circuit_h_cx 10 0 entered_h_cx = .ok looped_h_cx ∧
    (∀ d ∈ entered_h_cx.phy_decay, d = 1) ∧
    ∃ tr : List decay_step, route_loop_decay line3 {} circuit_h_cx 10 0 entered_h_cx = .ok tr ∧
      looped_h_cx.phy_decay = ((tr.getLast?).map decay_step.after).getD entered_h_cx.phy_decay :=
  have h := decay_update_rule line3 {} circuit_h_cx [some 0, none, some 1] 10
    (jit_router.init line3) entered_h_cx looped_h_cx route_entry_h_cx route_loop_h_cx
  ⟨route_entry_h_cx, route_loop_h_cx, h.1, h.2.imp (fun _ ht => ⟨ht.1, ht.2.1⟩)⟩

theorem place_one_scan_spec (dev : device) (p1 : Nat) :
    ∀ (fs pre post0 : List Nat) (acc : Nat × Nat),
    acc.1 = dev.distance p1 acc.2 →
    (∀ f ∈ pre, acc.1 < dev.distance p1 f) → (∀ f ∈ post0, acc.1 ≤ dev.distance p1 f) →
    ∃ before after, pre ++ acc.2 :: post0 ++ fs
        = before ++ (place_one_scan dev p1 fs acc).2 :: after ∧
      (∀ f ∈ before, dev.distance p1 (place_one_scan dev p1 fs acc).2 < dev.distance p1 f) ∧
      (∀ f ∈ after, dev.distance p1 (place_one_scan dev p1 fs acc).2 ≤ dev.distance p1 f) := by
  intro fs
  induction fs with
  | nil =>
    intro pre post0 acc hacc hpre hpost
    simp only [place_one_scan, List.append_nil]
    exact ⟨pre, post0, rfl, fun f hf => hacc ▸ hpre f hf, fun f hf => hacc ▸ hpost f hf⟩
  | cons f fs ih =>
    intro pre post0 acc hacc hpre hpost
    simp only [place_one_scan]
    split
    · rename_i hgt
      have := ih (pre ++ acc.2 :: post0) [] (dev.distance p1 f, f) rfl
        (by
          intro g hg
          simp only [List.mem_append, List.mem_cons] at hg
          rcases hg with hg | rfl | hg
          · exact lt_trans hgt (hpre g hg)
          · rw [← hacc]; exact hgt
          · exact lt_of_lt_of_le hgt (hpost g hg))
        (by simp)
      simpa using this
    · rename_i hngt
      have := ih pre (post0 ++ [f]) acc hacc hpre
        (by
          intro g hg
          simp only [List.mem_append, List.mem_singleton] at hg
          rcases hg with hg | rfl
          · exact hpost g hg
          · exact not_lt.mp hngt)
      simpa using this

/-- The free qubit that the scan of `place_one_v` ends on is nearest to `p1` in the free
list `f0 :: fs`, and it is the first of the nearest ones in that list. -/
theorem place_one_scan_first_nearest (dev : device) (p1 f0 : Nat) (fs : List Nat) :
    ∃ before after,
      f0 :: fs = before ++ (place_one_scan dev p1 fs (dev.distance p1 f0, f0)).2 :: after ∧
      (∀ f ∈ before, dev.distance p1 (place_one_scan dev p1 fs (dev.distance p1 f0, f0)).2
        < dev.distance p1 f) ∧
      (∀ f ∈ after, dev.distance p1 (place_one_scan dev p1 fs (dev.distance p1 f0, f0)).2
        ≤ dev.distance p1 f) := by
  have := place_one_scan_spec dev p1 fs [] [] (dev.distance p1 f0, f0) rfl (by simp) (by simp)
  simpa using this

theorem place_one_v_ok {dev : device} {v0 v1 : Nat} {s : jit_router} {phy0 phy1 : Option Nat}
    {pp : Nat} (h0 : s.v_to_phy[v0]? = some phy0) (h1 : s.v_to_phy[v1]? = some phy1)
    (hp : (if phy1 = none then phy0 else phy1) = some pp) (hfree : find_free_phy s ≠ [])
    (hb : (if phy1 = none then v1 else v0) < s.unexectued.length) :
    ∃ s1, place_one_v dev v0 v1 s = .ok s1 := by
  unfold place_one_v
  rw [at__ok.mpr h0, at__ok.mpr h1]
  simp only
  cases hf : find_free_phy s with
  | nil => exact absurd hf hfree
  | cons f0 fs =>
    simp only [hp]
    have hc := place_one_scan_mem_cons dev pp f0 fs
    rw [← hf, mem_find_free_phy] at hc
    have hcl : (place_one_scan dev pp fs (dev.distance pp f0, f0)).2 < s.phy_to_v.length := by
      rcases Nat.lt_or_ge (place_one_scan dev pp fs (dev.distance pp f0, f0)).2
        s.phy_to_v.length with h | h
      · exact h
      · rw [List.getElem?_eq_none h] at hc; cases hc
    have hvl : (if phy1 = none then v1 else v0) < s.v_to_phy.length := by
      split
      · rcases Nat.lt_or_ge v1 s.v_to_phy.length with h | h
        · exact h
        · rw [List.getElem?_eq_none h] at h1; cases h1
      · rcases Nat.lt_or_ge v0 s.v_to_phy.length with h | h
        · exact h
        · rw [List.getElem?_eq_none h] at h0; cases h0
    rw [set_at_ok.mpr ⟨hvl, rfl⟩]
    simp only
    rw [set_at_ok.mpr ⟨hcl, rfl⟩]
    simp only
    exact jit_add_ok hb
      (show _ = some (some (place_one_scan dev pp fs (dev.distance pp f0, f0)).2) by
        simp [List.getElem?_set_self hvl])

/-- C27: in a state in which exactly one of `v0`, `v1` is placed (whichever of the two) and
a physical qubit is free, `place_one_v` returns; it assigns the unplaced one, `v`, to a
free physical qubit `c` whose distance from the physical qubit `p` of the placed partner
`w` is minimal among the free physical qubits, the lowest-indexed one of those at that
distance; the result is the state `placed v c s`: `v_to_phy[v] = c`, `phy_to_v[c] = v`, no
other entry of the two maps changes (the partner stays on `p`), and the buffer of `v` is
flushed. -/
theorem place_one_v_nearest_free (dev : device) (v0 v1 : Nat) (s : jit_router)
    (phy0 phy1 : Option Nat)
    (h0 : s.v_to_phy[v0]? = some phy0) (h1 : s.v_to_phy[v1]? = some phy1)
    (hone : (phy0 = none ∧ phy1 ≠ none) ∨ (phy0 ≠ none ∧ phy1 = none))
    (hfree : 1 ≤ (find_free_phy s).length)
    (hbuf : s.v_to_phy.length ≤ s.unexectued.length) :
    ∃ v w p c : Nat, ((v = v0 ∧ w = v1) ∨ (v = v1 ∧ w = v0)) ∧
      s.v_to_phy[v]? = some none ∧ s.v_to_phy[w]? = some (some p) ∧
      s.phy_to_v[c]? = some none ∧
      (∀ f, s.phy_to_v[f]? = some none → dev.distance p c ≤ dev.distance p f) ∧
      (∀ f, s.phy_to_v[f]? = some none → dev.distance p f = dev.distance p c → c ≤ f) ∧
      place_one_v dev v0 v1 s = .ok (placed v c s) ∧
      (placed v c s).v_to_phy[v]? = some (some c) ∧
      (placed v c s).phy_to_v[c]? = some (some v) ∧
      (placed v c s).v_to_phy[w]? = some (some p) ∧
      (∀ u, u ≠ v → (placed v c s).v_to_phy[u]? = s.v_to_phy[u]?) ∧
      (∀ q, q ≠ c → (placed v c s).phy_to_v[q]? = s.phy_to_v[q]?) := by
  have hne : find_free_phy s ≠ [] := by
    intro h; rw [h] at hfree; simp at hfree
  have hv0 : v0 < s.v_to_phy.length := by
    rcases Nat.lt_or_ge v0 s.v_to_phy.length with h | h
    · exact h
    · rw [List.getElem?_eq_none h] at h0; cases h0
  have hv1 : v1 < s.v_to_phy.length := by
    rcases Nat.lt_or_ge v1 s.v_to_phy.length with h | h
    · exact h
    · rw [List.getElem?_eq_none h] at h1; cases h1
  -- the unplaced one `v`, its partner `w` on `p`
  obtain ⟨v, w, p, hvw, hv, hw, hvn, hpp⟩ : ∃ v w p : Nat,
      ((v = v0 ∧ w = v1) ∨ (v = v1 ∧ w = v0)) ∧ s.v_to_phy[v]? = some none ∧
      s.v_to_phy[w]? = some (some p) ∧ (if phy1 = none then v1 else v0) = v ∧
      (if phy1 = none then phy0 else phy1) = some p := by
    rcases hone with ⟨ha, hb⟩ | ⟨ha, hb⟩
    · obtain ⟨p, rfl⟩ := Option.ne_none_iff_exists'.mp hb
      subst ha
      exact ⟨v0, v1, p, Or.inl ⟨rfl, rfl⟩, h0, h1, by simp, by simp⟩
    · obtain ⟨p, rfl⟩ := Option.ne_none_iff_exists'.mp ha
      subst hb
      exact ⟨v1, v0, p, Or.inr ⟨rfl, rfl⟩, h1, h0, by simp, by simp⟩
  have hvl : v < s.v_to_phy.length := by
    rcases hvw with ⟨rfl, _⟩ | ⟨rfl, _⟩
    · exact hv0
    · exact hv1
  obtain ⟨s1, hs1⟩ := @place_one_v_ok dev v0 v1 s phy0 phy1 p h0 h1 hpp hne (by rw [hvn]; omega)
  obtain ⟨q0, q1, f0, fs, pp, hq0, hq1, hf, hq, _, hpl⟩ := place_one_v_placed hs1
  rw [h0] at hq0
  rw [h1] at hq1
  simp only [Option.some.injEq] at hq0 hq1
  subst hq0 hq1
  rw [hpp] at hq
  simp only [Option.some.injEq] at hq
  subst hq
  rw [hvn] at hpl
  obtain ⟨before, after, hsplit, hbefore, hafter⟩ := place_one_scan_first_nearest dev p f0 fs
  have hsorted := find_free_phy_sorted s
  rw [hf, hsplit] at hsorted
  generalize (place_one_scan dev p fs (dev.distance p f0, f0)).2 = c at hpl hsplit hbefore hafter hsorted
  have hmem : ∀ f, s.phy_to_v[f]? = some none ↔ f ∈ before ∨ f = c ∨ f ∈ after := by
    intro f
    rw [← mem_find_free_phy, hf, hsplit]
    simp
  have hc : s.phy_to_v[c]? = some none := (hmem c).mpr (Or.inr (Or.inl rfl))
  have hcl : c < s.phy_to_v.length := by
    rcases Nat.lt_or_ge c s.phy_to_v.length with h | h
    · exact h
    · rw [List.getElem?_eq_none h] at hc; cases hc
  have hwv : w ≠ v := by
    intro h
    rw [h, hv] at hw
    cases hw
  refine ⟨v, w, p, c, hvw, hv, hw, hc, ?_, ?_, by rw [hs1, hpl], ?_, ?_, ?_, ?_, ?_⟩
  · intro f hfree1
    rcases (hmem f).mp hfree1 with h | rfl | h
    · exact le_of_lt (hbefore f h)
    · exact le_refl _
    · exact hafter f h
  · intro f hfree1 heq
    rcases (hmem f).mp hfree1 with h | rfl | h
    · exact absurd heq (ne_of_gt (hbefore f h))
    · exact le_refl _
    · have := (List.pairwise_append.mp hsorted).2.1
      exact le_of_lt ((List.pairwise_cons.mp this).1 f h)
  · simp [placed, List.getElem?_set_self hvl]
  · simp [placed, List.getElem?_set_self hcl]
  · simp only [placed]
    rw [List.getElem?_set_ne (Ne.symm hwv)]
    exact hw
  · intro u hu
    simp only [placed]
    rw [List.getElem?_set_ne (Ne.symm hu)]
  · intro q hq
    simp only [placed]
    rw [List.getElem?_set_ne (Ne.symm hq)]

theorem place_one_v_nearest_free_witness :
    ∃ v w p c : Nat, ((v = 0 ∧ w = 1) ∨ (v = 1 ∧ w = 0)) ∧
      entered_h1.v_to_phy[v]? = some none ∧ entered_h1.v_to_phy[w]? = some (some p) ∧
      entered_h1.phy_to_v[c]? = some none ∧
      (∀ f, entered_h1.phy_to_v[f]? = some none → line3.distance p c ≤ line3.distance p f) ∧
      (∀ f, entered_h1.phy_to_v[f]? = some none →
        line3.distance p f = line3.distance p c → c ≤ f) ∧
      place_one_v line3 0 1 entered_h1 = .ok (placed v c entered_h1) ∧
      (placed v c entered_h1).v_to_phy[v]? = some (some c) ∧
      (placed v c entered_h1).phy_to_v[c]? = some (some v) ∧
      (placed v c entered_h1).v_to_phy[w]? = some (some p) ∧
      (∀ u, u ≠ v → (placed v c entered_h1).v_to_phy[u]? = entered_h1.v_to_phy[u]?) ∧
      (∀ q, q ≠ c → (placed v c entered_h1).phy_to_v[q]? = entered_h1.phy_to_v[q]?) :=
  place_one_v_nearest_free line3 0 1 entered_h1 (some 1) none rfl rfl
    (Or.inr ⟨by decide, rfl⟩) (by decide) (by decide)

theorem place_two_inner_eq_foldl (dev : device) (i_phy : Nat) :
    ∀ (js : List Nat) (acc : Nat × Option Nat × Option Nat),
    place_two_inner dev i_phy js acc
      = (js.map (fun j_phy => (i_phy, j_phy))).foldl (scan_update dev) acc := by
  intro js
  induction js with
  | nil => intro acc; rfl
  | cons j js ih =>
    intro acc
    simp only [place_two_inner, List.map_cons, List.foldl_cons, scan_update]
    split
    · exact ih acc
    · exact ih _

theorem place_two_scan_eq_foldl (dev : device) :
    ∀ (l : List Nat) (acc : Nat × Option Nat × Option Nat),
    place_two_scan dev l acc = (scan_pairs l).foldl (scan_update dev) acc := by
  intro l
  induction l with
  | nil => intro acc; rfl
  | cons i rest ih =>
    intro acc
    simp only [place_two_scan, scan_pairs, List.foldl_append]
    rw [ih, place_two_inner_eq_foldl]

theorem scan_update_foldl_spec (dev : device) (ps : List (Nat × Nat))
    (acc : Nat × Option Nat × Option Nat) :
    (ps.foldl (scan_update dev) acc = acc ∧ ∀ q ∈ ps, acc.1 < dev.distance q.1 q.2) ∨
    ∃ pre p post, ps = pre ++ p :: post ∧
      ps.foldl (scan_update dev) acc = (dev.distance p.1 p.2, some p.1, some p.2) ∧
      dev.distance p.1 p.2 ≤ acc.1 ∧
      (∀ q ∈ pre, dev.distance p.1 p.2 ≤ dev.distance q.1 q.2) ∧
      (∀ q ∈ post, dev.distance p.1 p.2 < dev.distance q.1 q.2) := by
  induction ps using List.reverseRecOn with
  | nil => exact Or.inl ⟨rfl, by simp⟩
  | append_singleton init last ih =>
    rw [List.foldl_append]
    simp only [List.foldl_cons, List.foldl_nil]
    rcases ih with ⟨hr, hall⟩ | ⟨pre, p, post, hsplit, hr, hle, hpre, hpost⟩
    · rw [hr]
      unfold scan_update
      split
      · rename_i hlt
        left
        refine ⟨rfl, ?_⟩
        intro q hq
        simp only [List.mem_append, List.mem_singleton] at hq
        rcases hq with hq | rfl
        · exact hall q hq
        · exact hlt
      · rename_i hnlt
        right
        refine ⟨init, last, [], rfl, rfl, not_lt.mp hnlt, ?_, by simp⟩
        intro q hq
        exact le_of_lt (lt_of_le_of_lt (not_lt.mp hnlt) (hall q hq))
    · rw [hr]
      unfold scan_update
      split
      · rename_i hlt
        right
        refine ⟨pre, p, post ++ [last], by rw [hsplit]; simp, rfl, hle, hpre, ?_⟩
        intro q hq
        simp only [List.mem_append, List.mem_singleton] at hq
        rcases hq with hq | rfl
        · exact hpost q hq
        · exact hlt
      · rename_i hnlt
        have hnlt : dev.distance last.1 last.2 ≤ dev.distance p.1 p.2 := not_lt.mp hnlt
        right
        refine ⟨init, last, [], rfl, rfl, le_trans hnlt hle, ?_, by simp⟩
        intro q hq
        rw [hsplit] at hq
        simp only [List.mem_append, List.mem_cons] at hq
        rcases hq with hq | rfl | hq
        · exact le_trans hnlt (hpre q hq)
        · exact hnlt
        · exact le_trans hnlt (le_of_lt (hpost q hq))

theorem mem_scan_pairs {x y : Nat} : ∀ {l : List Nat},
    (x, y) ∈ scan_pairs l ↔ [x, y].Sublist l := by
  intro l
  induction l with
  | nil => simp [scan_pairs]
  | cons a rest ih =>
    simp only [scan_pairs, List.mem_append, List.mem_map, Prod.mk.injEq]
    rw [ih]
    constructor
    · rintro (⟨j, hj, rfl, rfl⟩ | h)
      · exact List.Sublist.cons₂ _ (List.singleton_sublist.mpr hj)
      · exact List.Sublist.cons _ h
    · intro h
      cases h with
      | cons _ h1 => exact Or.inr h1
      | cons₂ _ h1 => exact Or.inl ⟨y, List.singleton_sublist.mp h1, rfl, rfl⟩

theorem scan_pairs_ne_nil {l : List Nat} (h : 2 ≤ l.length) : scan_pairs l ≠ [] := by
  match l, h with
  | a :: b :: rest, _ => simp [scan_pairs]

theorem pair_sublist_sorted {x y : Nat} {l : List Nat} (hs : l.Pairwise (· < ·)) :
    [x, y].Sublist l ↔ x ∈ l ∧ y ∈ l ∧ x < y := by
  constructor
  · intro h
    have hx : x ∈ l := h.subset (by simp)
    have hy : y ∈ l := h.subset (by simp)
    have := hs.sublist h
    simp only [List.pairwise_cons, List.mem_singleton, forall_eq, List.not_mem_nil,
      false_implies, implies_true, List.Pairwise.nil, and_self, and_true] at this
    exact ⟨hx, hy, this⟩
  · rintro ⟨hx, hy, hlt⟩
    induction l with
    | nil => simp at hx
    | cons a rest ih =>
      rw [List.pairwise_cons] at hs
      simp only [List.mem_cons] at hx hy
      rcases hx with rfl | hx
      · rcases hy with rfl | hy
        · omega
        · exact List.Sublist.cons₂ _ (List.singleton_sublist.mpr hy)
      · rcases hy with rfl | hy
        · have := hs.1 x hx
          omega
        · exact List.Sublist.cons _ (ih hs.2 hx hy)

/-- The choice of `place_two_v`: the two free qubits in order when there are exactly two,
and otherwise the last pair of the scan that is at the least distance. -/
theorem place_two_choice_spec (dev : device) (l : List Nat) (phy0 phy1 : Option Nat)
    (h2 : 2 ≤ l.length) (hdist : ∀ p q, dev.distance p q < 2 ^ 32) :
    ∃ a b, place_two_choice dev l phy0 phy1 = (some a, some b) ∧ [a, b].Sublist l ∧
      (l.length = 2 → l = [a, b]) ∧
      (2 < l.length → ∃ pre post, scan_pairs l = pre ++ (a, b) :: post ∧
        (∀ q ∈ pre, dev.distance a b ≤ dev.distance q.1 q.2) ∧
        (∀ q ∈ post, dev.distance a b < dev.distance q.1 q.2)) := by
  unfold place_two_choice
  split
  · rename_i a b
    exact ⟨a, b, rfl, List.Sublist.refl _, fun _ => rfl, fun h => by simp at h⟩
  · rename_i hne
    have h3 : 2 < l.length := by
      match l, h2, hne with
      | [a, b], _, hne => exact absurd rfl (hne a b)
      | a :: b :: c :: rest, _, _ => simp
    rw [place_two_scan_eq_foldl]
    rcases scan_update_foldl_spec dev (scan_pairs l) (2 ^ 32 - 1, phy0, phy1) with
      ⟨_, hall⟩ | ⟨pre, p, post, hsplit, hr, _, hpre, hpost⟩
    · exfalso
      cases hp : scan_pairs l with
      | nil => exact scan_pairs_ne_nil h2 hp
      | cons q qs =>
        have := hall q (by rw [hp]; simp)
        have := hdist q.1 q.2
        simp only at *
        omega
    · obtain ⟨a, b⟩ := p
      refine ⟨a, b, by rw [hr], ?_, fun h => by omega, fun _ => ⟨pre, post, hsplit, hpre, hpost⟩⟩
      rw [← mem_scan_pairs, hsplit]
      simp

theorem place_two_v_ok {dev : device} {v0 v1 : Nat} {s : jit_router}
    (h0 : s.v_to_phy[v0]? = some none) (h1 : s.v_to_phy[v1]? = some none)
    (hfree : 2 ≤ (find_free_phy s).length) (hdist : ∀ p q, dev.distance p q < 2 ^ 32)
    (hb0 : v0 < s.unexectued.length) (hb1 : v1 < s.unexectued.length) :
    ∃ s2, place_two_v dev v0 v1 s = .ok s2 := by
  obtain ⟨a, b, hc, hsub, _, _⟩ := place_two_choice_spec dev (find_free_phy s) none none hfree hdist
  have ha : a < s.phy_to_v.length := by
    have : a ∈ find_free_phy s := hsub.subset (by simp)
    rw [mem_find_free_phy] at this
    rcases Nat.lt_or_ge a s.phy_to_v.length with h | h
    · exact h
    · rw [List.getElem?_eq_none h] at this; cases this
  have hbl : b < s.phy_to_v.length := by
    have : b ∈ find_free_phy s := hsub.subset (by simp)
    rw [mem_find_free_phy] at this
    rcases Nat.lt_or_ge b s.phy_to_v.length with h | h
    · exact h
    · rw [List.getElem?_eq_none h] at this; cases this
  have hv0 : v0 < s.v_to_phy.length := by
    rcases Nat.lt_or_ge v0 s.v_to_phy.length with h | h
    · exact h
    · rw [List.getElem?_eq_none h] at h0; cases h0
  have hv1 : v1 < s.v_to_phy.length := by
    rcases Nat.lt_or_ge v1 s.v_to_phy.length with h | h
    · exact h
    · rw [List.getElem?_eq_none h] at h1; cases h1
  unfold place_two_v
  rw [at__ok.mpr h0, at__ok.mpr h1]
  simp only [hfree, if_true, hc]
  rw [set_at_ok.mpr ⟨hv0, rfl⟩]
  simp only
  rw [set_at_ok.mpr ⟨by simpa using hv1, rfl⟩]
  simp only [set_at_id]
  rw [set_at_ok.mpr ⟨ha, rfl⟩]
  simp only
  rw [set_at_ok.mpr ⟨by simpa using hbl, rfl⟩]
  simp only
  have hv1b : ((s.v_to_phy.set v0 (some a)).set v1 (some b))[v1]? = some (some b) := by
    rw [List.getElem?_set_self (by simpa using hv1)]
  have hv0a : ∃ c, ((s.v_to_phy.set v0 (some a)).set v1 (some b))[v0]? = some (some c) := by
    by_cases he : v1 = v0
    · subst he; exact ⟨b, hv1b⟩
    · exact ⟨a, by rw [List.getElem?_set_ne he, List.getElem?_set_self hv0]⟩
  obtain ⟨c, hv0c⟩ := hv0a
  obtain ⟨s1, hs1⟩ := @jit_add_ok v0 c
    { s with v_to_phy := (s.v_to_phy.set v0 (some a)).set v1 (some b),
             phy_to_v := (s.phy_to_v.set a (some v0)).set b (some v1) } hb0 hv0c
  rw [hs1]
  simp only
  obtain ⟨_, phy, _, hs1e⟩ := jit_add_eq hs1
  exact @jit_add_ok v1 b s1 (by rw [hs1e]; simpa using hb1) (by rw [hs1e]; exact hv1b)

theorem place_two_v_result {dev : device} {v0 v1 : Nat} {s : jit_router} (hne : v0 ≠ v1)
    (h0 : s.v_to_phy[v0]? = some none) (h1 : s.v_to_phy[v1]? = some none)
    (hfree : 2 ≤ (find_free_phy s).length) (hdist : ∀ p q, dev.distance p q < 2 ^ 32)
    (hbuf : s.v_to_phy.length ≤ s.unexectued.length) :
    ∃ a b, place_two_choice dev (find_free_phy s) none none = (some a, some b) ∧
      place_two_v dev v0 v1 s = .ok (placed v1 b (placed v0 a s)) ∧
      v0 < s.v_to_phy.length ∧ v1 < s.v_to_phy.length := by
  have hv0 : v0 < s.v_to_phy.length := by
    rcases Nat.lt_or_ge v0 s.v_to_phy.length with h | h
    · exact h
    · rw [List.getElem?_eq_none h] at h0; cases h0
  have hv1 : v1 < s.v_to_phy.length := by
    rcases Nat.lt_or_ge v1 s.v_to_phy.length with h | h
    · exact h
    · rw [List.getElem?_eq_none h] at h1; cases h1
  obtain ⟨s2, hs2⟩ := @place_two_v_ok dev v0 v1 s h0 h1 hfree hdist (by omega) (by omega)
  obtain ⟨q0, q1, a, b, hq0, hq1, _, hc, _, _, _, _, hpl⟩ := place_two_v_placed hne hs2
  rw [h0] at hq0
  rw [h1] at hq1
  simp only [Option.some.injEq] at hq0 hq1
  subst hq0 hq1
  exact ⟨a, b, hc, by rw [hs2, hpl], hv0, hv1⟩

/-- C28: in a state with two distinct unplaced virtual qubits `v0`, `v1` and at least two
free physical qubits, `place_two_v` returns and assigns `v0` to `a` and `v1` to `b`, two
distinct free physical qubits with `a < b`. When exactly two physical qubits are free they
are `a` and `b`: the lower-indexed one goes to `v0`, the higher-indexed one to `v1`. When
more than two are free, no pair of free physical qubits is at a smaller device distance
than `(a, b)`: none of the pairs `x < y` that the code compares, and for a symmetric
distance no pair at all. Device distances are 32-bit values. -/
theorem place_two_v_nearest_pair (dev : device) (v0 v1 : Nat) (s : jit_router)
    (hne : v0 ≠ v1)
    (h0 : s.v_to_phy[v0]? = some none) (h1 : s.v_to_phy[v1]? = some none)
    (hfree : 2 ≤ (find_free_phy s).length) (hdist : ∀ p q, dev.distance p q < 2 ^ 32)
    (hbuf : s.v_to_phy.length ≤ s.unexectued.length) :
    ∃ a b : Nat, place_two_v dev v0 v1 s = .ok (placed v1 b (placed v0 a s)) ∧
      s.phy_to_v[a]? = some none ∧ s.phy_to_v[b]? = some none ∧ a < b ∧
      (placed v1 b (placed v0 a s)).v_to_phy[v0]? = some (some a) ∧
      (placed v1 b (placed v0 a s)).v_to_phy[v1]? = some (some b) ∧
      (placed v1 b (placed v0 a s)).phy_to_v[a]? = some (some v0) ∧
      (placed v1 b (placed v0 a s)).phy_to_v[b]? = some (some v1) ∧
      ((find_free_phy s).length = 2 → find_free_phy s = [a, b]) ∧
      (2 < (find_free_phy s).length →
        (∀ x y, s.phy_to_v[x]? = some none → s.phy_to_v[y]? = some none → x < y →
          dev.distance a b ≤ dev.distance x y) ∧
        ((∀ x y, dev.distance x y = dev.distance y x) →
          ∀ x y, s.phy_to_v[x]? = some none → s.phy_to_v[y]? = some none → x ≠ y →
            dev.distance a b ≤ dev.distance x y)) := by
  obtain ⟨a, b, hc, hres, hv0, hv1⟩ := place_two_v_result hne h0 h1 hfree hdist hbuf
  obtain ⟨a1, b1, hc1, hsub, hlen2, hmore⟩ :=
    place_two_choice_spec dev (find_free_phy s) none none hfree hdist
  rw [hc] at hc1
  simp only [Prod.mk.injEq, Option.some.injEq] at hc1
  obtain ⟨rfl, rfl⟩ := hc1
  have hsorted := find_free_phy_sorted s
  obtain ⟨hma, hmb, hab⟩ := (pair_sublist_sorted hsorted).mp hsub
  have hfa := mem_find_free_phy.mp hma
  have hfb := mem_find_free_phy.mp hmb
  have hal : a < s.phy_to_v.length := by
    rcases Nat.lt_or_ge a s.phy_to_v.length with h | h
    · exact h
    · rw [List.getElem?_eq_none h] at hfa; cases hfa
  have hbl : b < s.phy_to_v.length := by
    rcases Nat.lt_or_ge b s.phy_to_v.length with h | h
    · exact h
    · rw [List.getElem?_eq_none h] at hfb; cases hfb
  have hmin : 2 < (find_free_phy s).length →
      ∀ x y, s.phy_to_v[x]? = some none → s.phy_to_v[y]? = some none → x < y →
        dev.distance a b ≤ dev.distance x y := by
    intro h3 x y hx hy hxy
    obtain ⟨pre, post, hsplit, hpre, hpost⟩ := hmore h3
    have hmem : (x, y) ∈ scan_pairs (find_free_phy s) := by
      rw [mem_scan_pairs, pair_sublist_sorted hsorted]
      exact ⟨mem_find_free_phy.mpr hx, mem_find_free_phy.mpr hy, hxy⟩
    rw [hsplit] at hmem
    simp only [List.mem_append, List.mem_cons] at hmem
    rcases hmem with h | h | h
    · exact hpre _ h
    · simp only [Prod.mk.injEq] at h
      obtain ⟨rfl, rfl⟩ := h
      exact le_refl _
    · exact le_of_lt (hpost _ h)
  refine ⟨a, b, hres, hfa, hfb, hab, ?_, ?_, ?_, ?_, hlen2, ?_⟩
  · simp only [placed]
    rw [List.getElem?_set_ne (Ne.symm hne), List.getElem?_set_self hv0]
  · simp only [placed]
    rw [List.getElem?_set_self (by simpa using hv1)]
  · simp only [placed]
    rw [List.getElem?_set_ne (by omega), List.getElem?_set_self hal]
  · simp only [placed]
    rw [List.getElem?_set_self (by simpa using hbl)]
  · intro h3
    refine ⟨hmin h3, ?_⟩
    intro hsym x y hx hy hxy
    rcases Nat.lt_or_gt_of_ne hxy with h | h
    · exact hmin h3 x y hx hy h
    · rw [hsym x y]
      exact hmin h3 y x hy hx h

theorem place_two_v_nearest_pair_witness :
    ∃ a b : Nat, place_two_v line3 0 2 entered_unplaced_cx02
        = .ok (placed 2 b (placed 0 a entered_unplaced_cx02)) ∧
      entered_unplaced_cx02.phy_to_v[a]? = some none ∧
      entered_unplaced_cx02.phy_to_v[b]? = some none ∧ a < b ∧
      (placed 2 b (placed 0 a entered_unplaced_cx02)).v_to_phy[0]? = some (some a) ∧
      (placed 2 b (placed 0 a entered_unplaced_cx02)).v_to_phy[2]? = some (some b) ∧
      (placed 2 b (placed 0 a entered_unplaced_cx02)).phy_to_v[a]? = some (some 0) ∧
      (placed 2 b (placed 0 a entered_unplaced_cx02)).phy_to_v[b]? = some (some 2) ∧
      ((find_free_phy entered_unplaced_cx02).length = 2 →
        find_free_phy entered_unplaced_cx02 = [a, b]) ∧
      (2 < (find_free_phy entered_unplaced_cx02).length →
        (∀ x y, entered_unplaced_cx02.phy_to_v[x]? = some none →
          entered_unplaced_cx02.phy_to_v[y]? = some none → x < y →
          line3.distance a b ≤ line3.distance x y) ∧
        ((∀ x y, line3.distance x y = line3.distance y x) →
          ∀ x y, entered_unplaced_cx02.phy_to_v[x]? = some none →
            entered_unplaced_cx02.phy_to_v[y]? = some none → x ≠ y →
            line3.distance a b ≤ line3.distance x y)) :=
  place_two_v_nearest_pair line3 0 2 entered_unplaced_cx02 (by decide) rfl rfl (by decide)
    (by
      intro p q
      simp only [line3]
      split
      · decide
      · split <;> decide)
    (by decide)

/-- With all three qubits of `line3` free the scan of `place_two_v` visits `(0, 1)`,
`(0, 2)`, `(1, 2)`; the pairs `(0, 1)` and `(1, 2)` are both at the minimum distance 1, and
`place_two_v` takes `(1, 2)`, the later one. -/
theorem place_two_v_takes_last_nearest_pair :
    route_entry line3 circuit_cx02 [none, none, none] (jit_router.init line3)
      = .ok entered_unplaced_cx02 ∧
    find_free_phy entered_unplaced_cx02 = [0, 1, 2] ∧
    scan_pairs (find_free_phy entered_unplaced_cx02) = [(0, 1), (0, 2), (1, 2)] ∧
    line3.distance 0 1 = 1 ∧ line3.distance 0 2 = 2 ∧ line3.distance 1 2 = 1 ∧
    place_two_v line3 0 2 entered_unplaced_cx02
      = .ok (placed 2 2 (placed 0 1 entered_unplaced_cx02)) ∧
    place_two_v line3 0 2 entered_unplaced_cx02
      ≠ .ok (placed 2 1 (placed 0 0 entered_unplaced_cx02)) := by
  decide!

/-- C29 (amended): when more than two physical qubits are free, `place_two_v` chooses the
last pair at the minimum device distance that the scan over the pairs `i < j` of the
ascending free list visits: every pair visited before the chosen one is at least as far
apart and every pair visited after it is strictly farther apart. -/
theorem place_two_v_tie_break (dev : device) (v0 v1 : Nat) (s : jit_router)
    (hne : v0 ≠ v1)
    (h0 : s.v_to_phy[v0]? = some none) (h1 : s.v_to_phy[v1]? = some none)
    (hfree : 2 < (find_free_phy s).length) (hdist : ∀ p q, dev.distance p q < 2 ^ 32)
    (hbuf : s.v_to_phy.length ≤ s.unexectued.length) :
    ∃ (a b : Nat) (pre post : List (Nat × Nat)),
      place_two_v dev v0 v1 s = .ok (placed v1 b (placed v0 a s)) ∧
      scan_pairs (find_free_phy s) = pre ++ (a, b) :: post ∧
      (∀ q ∈ pre, dev.distance a b ≤ dev.distance q.1 q.2) ∧
      (∀ q ∈ post, dev.distance a b < dev.distance q.1 q.2) := by
  obtain ⟨a, b, hc, hres, _, _⟩ :=
    place_two_v_result hne h0 h1 (Nat.le_of_lt hfree) hdist hbuf
  obtain ⟨a1, b1, hc1, _, _, hmore⟩ :=
    place_two_choice_spec dev (find_free_phy s) none none (Nat.le_of_lt hfree) hdist
  rw [hc] at hc1
  simp only [Prod.mk.injEq, Option.some.injEq] at hc1
  obtain ⟨rfl, rfl⟩ := hc1
  obtain ⟨pre, post, hsplit, hpre, hpost⟩ := hmore hfree
  exact ⟨a, b, pre, post, hres, hsplit, hpre, hpost⟩

theorem place_two_v_tie_break_witness :
    ∃ (a b : Nat) (pre post : List (Nat × Nat)),
      place_two_v line3 0 2 entered_unplaced_cx02
        = .ok (placed 2 b (placed 0 a entered_unplaced_cx02)) ∧
      scan_pairs (find_free_phy entered_unplaced_cx02) = pre ++ (a, b) :: post ∧
      (∀ q ∈ pre, line3.distance a b ≤ line3.distance q.1 q.2) ∧
      (∀ q ∈ post, line3.distance a b < line3.distance q.1 q.2) :=
  place_two_v_tie_break line3 0 2 entered_unplaced_cx02 (by decide) rfl rfl (by decide)
    (by
      intro p q
      simp only [line3]
      split
      · decide
      · split <;> decide)
    (by decide)

theorem count_none_one {l : List (Option Nat)} {v : Nat} (h : l[v]? = some none) :
    1 ≤ l.count none :=
  List.count_pos_iff.mpr (List.mem_iff_getElem?.mpr ⟨v, h⟩)

theorem count_none_two {l : List (Option Nat)} : ∀ {v0 v1 : Nat}, v0 ≠ v1 →
    l[v0]? = some none → l[v1]? = some none → 2 ≤ l.count none := by
  induction l with
  | nil => intro v0 v1 _ h0; simp at h0
  | cons x xs ih =>
    intro v0 v1 hne h0 h1
    cases v0 with
    | zero =>
      cases v1 with
      | zero => exact absurd rfl hne
      | succ j =>
        simp only [List.getElem?_cons_zero, Option.some.injEq] at h0
        simp only [List.getElem?_cons_succ] at h1
        subst h0
        have := count_none_one h1
        simp only [List.count_cons_self]
        omega
    | succ i =>
      cases v1 with
      | zero =>
        simp only [List.getElem?_cons_zero, Option.some.injEq] at h1
        simp only [List.getElem?_cons_succ] at h0
        subst h1
        have := count_none_one h0
        simp only [List.count_cons_self]
        omega
      | succ j =>
        simp only [List.getElem?_cons_succ] at h0 h1
        have := ih (by omega) h0 h1
        have h2 := List.count_le_count_cons (a := (none : Option Nat)) (b := x) (l := xs)
        omega

/-- The precondition of `place_two_v` under placement coherence. -/
theorem place_two_v_precondition {N v0 v1 : Nat} {s : jit_router} (hc : coherent N s)
    (hne : v0 ≠ v1) (h0 : s.v_to_phy[v0]? = some none) (h1 : s.v_to_phy[v1]? = some none) :
    2 ≤ (find_free_phy s).length := by
  rw [free_count_eq_unplaced_count hc]
  exact count_none_two hne h0 h1

/-- The precondition of `place_one_v` under placement coherence. -/
theorem place_one_v_precondition {N v : Nat} {s : jit_router} (hc : coherent N s)
    (h : s.v_to_phy[v]? = some none) : 1 ≤ (find_free_phy s).length := by
  rw [free_count_eq_unplaced_count hc]
  exact count_none_one h

theorem wire_to_phy_error {s : jit_router} {w : wire_id} {e : Err}
    (h : wire_to_phy s w = .error e) : e = .out_of_range := by
  unfold wire_to_phy at h
  split at h
  · exact (at__error.mp h).2
  · rename_i e1 h1
    simp only [Except.error.injEq] at h
    subst h
    exact (at__error.mp h1).2

theorem lt_of_getElem?_eq_some {α : Type} {l : List α} {i : Nat} {x : α}
    (h : l[i]? = some x) : i < l.length := by
  rcases Nat.lt_or_ge i l.length with h1 | h1
  · exact h1
  · rw [List.getElem?_eq_none h1] at h; cases h

/-- Under placement coherence, with one buffer per virtual qubit and 32-bit distances, the
placement step of `try_add_op` on two different virtual qubits fails only on a wire or
qubit index that is out of range: no assertion of the JIT placer fails. -/
theorem try_add_op_place_error {dev : device} {N : Nat} {w0 w1 : wire_id} {s : jit_router}
    {e : Err} (hc : coherent N s) (hb : s.unexectued.length = N)
    (hdist : ∀ p q, dev.distance p q < 2 ^ 32)
    (hne : ∀ v0 v1, s.wire_to_v[w0.uid]? = some v0 → s.wire_to_v[w1.uid]? = some v1 → v0 ≠ v1)
    (h : try_add_op_place dev w0 w1 s = .error e) : e = .out_of_range := by
  unfold try_add_op_place at h
  split at h
  · rename_i phy0 phy1 hp0 hp1
    obtain ⟨v0, hw0, hv0⟩ := wire_to_phy_ok.mp hp0
    obtain ⟨v1, hw1, hv1⟩ := wire_to_phy_ok.mp hp1
    have hl0 : v0 < s.unexectued.length := by
      rw [hb, ← hc.1]; exact lt_of_getElem?_eq_some hv0
    have hl1 : v1 < s.unexectued.length := by
      rw [hb, ← hc.1]; exact lt_of_getElem?_eq_some hv1
    split at h
    · rename_i hnone
      rw [at__ok.mpr hw0, at__ok.mpr hw1] at h
      simp only at h
      split at h
      · split at h
        · simp at h
        · rename_i e1 _ he1
          simp only [Except.error.injEq] at h
          subst h
          exact wire_to_phy_error he1
        · rename_i e1 he1 _
          simp only [Except.error.injEq] at h
          subst h
          exact wire_to_phy_error he1
      · rename_i e1 hpl
        exfalso
        split at hpl
        · rename_i hboth
          obtain ⟨rfl, rfl⟩ := hboth
          obtain ⟨s2, hs2⟩ := @place_two_v_ok dev v0 v1 s hv0 hv1
            (place_two_v_precondition hc (hne v0 v1 hw0 hw1) hv0 hv1) hdist hl0 hl1
          rw [hs2] at hpl
          cases hpl
        · rename_i hnb
          have hpp : ∃ pp, (if phy1 = none then phy0 else phy1) = some pp := by
            cases phy1 with
            | none =>
              cases phy0 with
              | none => exact absurd ⟨rfl, rfl⟩ hnb
              | some p => exact ⟨p, by simp⟩
            | some p => exact ⟨p, by simp⟩
          obtain ⟨pp, hpp⟩ := hpp
          have hfree : find_free_phy s ≠ [] := by
            have h1 : 1 ≤ (find_free_phy s).length := by
              rcases hnone with h0 | h0
              · subst h0; exact place_one_v_precondition hc hv0
              · subst h0; exact place_one_v_precondition hc hv1
            intro h0
            rw [h0] at h1
            simp at h1
          obtain ⟨s2, hs2⟩ := @place_one_v_ok dev v0 v1 s phy0 phy1 pp hv0 hv1 hpp hfree
            (by split <;> assumption)
          rw [hs2] at hpl
          cases hpl
    · simp at h
  · rename_i e1 he1
    simp only [Except.error.injEq] at h
    subst h
    exact wire_to_phy_error he1
  · rename_i e1 he1 _
    simp only [Except.error.injEq] at h
    subst h
    exact wire_to_phy_error he1

theorem try_add_op_error {dev : device} {N : Nat} {g : gate_ref} {w0 w1 : wire_id}
    {s : jit_router} {e : Err} (hc : coherent N s) (hb : s.unexectued.length = N)
    (hdist : ∀ p q, dev.distance p q < 2 ^ 32)
    (hne : ∀ v0 v1, s.wire_to_v[w0.uid]? = some v0 → s.wire_to_v[w1.uid]? = some v1 → v0 ≠ v1)
    (h : try_add_op dev g w0 w1 s = .error e) : e = .out_of_range := by
  unfold try_add_op at h
  split at h
  · split at h <;> simp at h
  · simp only [Except.error.injEq] at h
    exact h.symm
  · rename_i e1 he1
    simp only [Except.error.injEq] at h
    subst h
    exact try_add_op_place_error hc hb hdist hne he1

theorem add_op_error {g : gate_ref} {w : wire_id} {s : jit_router} {e : Err}
    (h : add_op g w s = .error e) : e = .out_of_range := by
  unfold add_op at h
  split at h
  · split at h
    · split at h
      · simp at h
      · simp only [Except.error.injEq] at h
        exact h.symm
    · rename_i e1 he1
      simp only [Except.error.injEq] at h
      subst h
      exact (at__error.mp he1).2
  · simp at h
  · rename_i e1 he1
    simp only [Except.error.injEq] at h
    subst h
    exact wire_to_phy_error he1

theorem advance_children_error {net : Network} : ∀ {cs : List Nat} {acc : List Nat × List Nat}
    {e : Err}, advance_children net cs acc = .error e → e = .out_of_range := by
  intro cs
  induction cs with
  | nil => intro acc e h; simp [advance_children] at h
  | cons c cs ih =>
    intro acc e h
    simp only [advance_children] at h
    split at h
    · split at h
      · exact ih h
      · split at h
        · exact ih h
        · exact ih h
    · rename_i e1 he1
      simp only [Except.error.injEq] at h
      subst h
      exact (at__error.mp he1).2

theorem set_at_id_error {α : Type} {xs : List α} {i : Option Nat} {x : α} {e : Err}
    (h : set_at_id xs i x = .error e) : e = .out_of_range := by
  unfold set_at_id at h
  split at h
  · exact (set_at_error.mp h).2
  · simp only [Except.error.injEq] at h
    exact h.symm

theorem try_add_front_layer_step_error {dev : device} {net : Network} {N : Nat}
    {placement : List (Option Nat)} (hd : distinct_operands net)
    (hdist : ∀ p q, dev.distance p q < 2 ^ 32)
    {acc : Bool × List Nat × jit_router} {n : Nat} {e : Err}
    (hs : routing_state N net placement acc.2.2)
    (h : try_add_front_layer_step dev net acc n = .error e) : e = .out_of_range := by
  unfold try_add_front_layer_step at h
  split at h
  · rename_i op hop
    rw [at__ok] at hop
    split at h
    · simp at h
    · rename_i hmeta
      have hmeta : op.is_meta = false := by simpa using hmeta
      split at h
      · split at h
        · simp at h
        · rename_i e1 he1
          simp only [Except.error.injEq] at h
          subst h
          exact advance_children_error he1
      · split at h
        · split at h
          · split at h
            · simp at h
            · rename_i e1 he1
              simp only [Except.error.injEq] at h
              subst h
              exact set_at_id_error he1
          · rename_i e1 he1
            simp only [Except.error.injEq] at h
            subst h
            exact set_at_id_error he1
        · rename_i e1 _ he1
          simp only [Except.error.injEq] at h
          subst h
          exact wire_to_phy_error he1
        · rename_i e1 he1 _
          simp only [Except.error.injEq] at h
          subst h
          exact wire_to_phy_error he1
      · rename_i e1 he1
        simp only [Except.error.injEq] at h
        subst h
        split at he1
        · exact add_op_error he1
        · rename_i h1q
          refine try_add_op_error hs.2.1 hs.2.2.1 hdist ?_ he1
          intro v0 v1 h0 h1
          rw [hs.1] at h0 h1
          exact hd n op hop hmeta (by simpa using h1q) v0 v1 h0 h1
  · rename_i e1 he1
    simp only [Except.error.injEq] at h
    subst h
    exact (at__error.mp he1).2

theorem try_add_front_layer_loop_error {dev : device} {net : Network} {N : Nat}
    {placement : List (Option Nat)} (hd : distinct_operands net)
    (hdist : ∀ p q, dev.distance p q < 2 ^ 32) :
    ∀ {ns : List Nat} {acc : Bool × List Nat × jit_router} {e : Err},
    routing_state N net placement acc.2.2 →
    try_add_front_layer_loop dev net ns acc = .error e → e = .out_of_range := by
  intro ns
  induction ns with
  | nil => intro acc e _ h; simp [try_add_front_layer_loop] at h
  | cons n ns ih =>
    intro acc e hs h
    simp only [try_add_front_layer_loop] at h
    split at h
    · rename_i acc1 h1
      exact ih ((routing_state_loop_invariant dev net N placement hd).step h1 hs) h
    · rename_i e1 he1
      simp only [Except.error.injEq] at h
      subst h
      exact try_add_front_layer_step_error hd hdist hs he1

/-- In a placement state of a routing call the front-layer engine fails only on an index
that is out of range: no assertion fails in it, in particular none of the JIT placer. -/
theorem try_add_front_layer_error {dev : device} {net : Network} {N : Nat}
    {placement : List (Option Nat)} (hd : distinct_operands net)
    (hdist : ∀ p q, dev.distance p q < 2 ^ 32) {s : jit_router} {e : Err}
    (hs : routing_state N net placement s)
    (h : try_add_front_layer dev net s = .error e) : e = .out_of_range := by
  unfold try_add_front_layer at h
  split at h
  · simp at h
  · rename_i e1 he1
    simp only [Except.error.injEq] at h
    subst h
    exact try_add_front_layer_loop_error hd hdist hs he1

theorem line3_distance_lt (p q : Nat) : line3.distance p q < 2 ^ 32 := by
  simp only [line3]
  split
  · decide
  · split <;> decide

/-- C21: the number of free physical qubits equals the number of unplaced virtual qubits
at the entry of the driver loop (after `new_mapping` on an injective placement), after
every `add_swap`, `place_one_v` and `place_two_v` on a coherent placement state, and in
the state the driver loop ends in. In every placement state of the routing call the
preconditions of the JIT placer hold: at least two physical qubits are free when two
different virtual qubits are unplaced and at least one when one is, and `place_two_v` and
`place_one_v` return; the front-layer engine fails in such a state only on an index that
is out of range, never on an assertion. Device distances are 32-bit values. -/
theorem free_count_invariant (dev : device) (cfg : jit_config) (net : Network)
    (placement : List (Option Nat)) (s s1 : jit_router)
    (hinj : placement_injective placement) (hd : distinct_operands net)
    (hbuf : s.unexectued.length = dev.num_qubits)
    (hdist : ∀ p q, dev.distance p q < 2 ^ 32)
    (h1 : route_entry dev net placement s = .ok s1) :
    (find_free_phy s1).length = s1.v_to_phy.count none ∧
    (∀ (t t1 : jit_router) (phy0 phy1 : Nat), coherent dev.num_qubits t →
      add_swap dev phy0 phy1 t = .ok t1 →
      (find_free_phy t1).length = t1.v_to_phy.count none) ∧
    (∀ (t t1 : jit_router) (v0 v1 : Nat) (phy0 phy1 : Option Nat), coherent dev.num_qubits t →
      t.v_to_phy[v0]? = some phy0 → t.v_to_phy[v1]? = some phy1 → (phy0 = none ∨ phy1 = none) →
      place_one_v dev v0 v1 t = .ok t1 →
      (find_free_phy t1).length = t1.v_to_phy.count none) ∧
    (∀ (t t1 : jit_router) (v0 v1 : Nat), coherent dev.num_qubits t → v0 ≠ v1 →
      t.v_to_phy[v0]? = some none → t.v_to_phy[v1]? = some none →
      place_two_v dev v0 v1 t = .ok t1 →
      (find_free_phy t1).length = t1.v_to_phy.count none) ∧
    (∀ (fuel k : Nat) (s2 : jit_router), route_loop dev cfg net fuel k s1 = .ok s2 →
      routing_state dev.num_qubits net placement s2 ∧
      (find_free_phy s2).length = s2.v_to_phy.count none) ∧
    routing_state dev.num_qubits net placement s1 ∧
    (∀ t : jit_router, routing_state dev.num_qubits net placement t →
      (find_free_phy t).length = t.v_to_phy.count none ∧
      (∀ v0 v1 : Nat, v0 ≠ v1 → t.v_to_phy[v0]? = some none → t.v_to_phy[v1]? = some none →
        2 ≤ (find_free_phy t).length ∧ ∃ t1, place_two_v dev v0 v1 t = .ok t1) ∧
      (∀ (v0 v1 : Nat) (phy0 phy1 : Option Nat), t.v_to_phy[v0]? = some phy0 →
        t.v_to_phy[v1]? = some phy1 →
        ((phy0 = none ∧ phy1 ≠ none) ∨ (phy0 ≠ none ∧ phy1 = none)) →
        1 ≤ (find_free_phy t).length ∧ ∃ t1, place_one_v dev v0 v1 t = .ok t1) ∧
      (∀ (r : Bool × jit_router), try_add_front_layer dev net t = .ok r →
        routing_state dev.num_qubits net placement r.2) ∧
      (∀ e : Err, try_add_front_layer dev net t = .error e → e = .out_of_range)) := by
  have hr1 := route_entry_routing_state hinj hbuf h1
  have hI := routing_state_loop_invariant dev net dev.num_qubits placement hd
  refine ⟨free_count_eq_unplaced_count hr1.2.1,
    fun t t1 phy0 phy1 ht h => free_count_eq_unplaced_count (coherent_add_swap h ht),
    fun t t1 v0 v1 phy0 phy1 ht h0 h1 hn h =>
      free_count_eq_unplaced_count (coherent_placements (place_one_v_steps h0 h1 hn h) ht),
    fun t t1 v0 v1 ht hne h0 h1 h =>
      free_count_eq_unplaced_count (coherent_placements (place_two_v_steps hne h0 h1 h) ht),
    fun fuel k s2 h2 => ⟨hI.route_loop h2 hr1, free_count_eq_unplaced_count (hI.route_loop h2 hr1).2.1⟩,
    hr1, fun t ht => ⟨free_count_eq_unplaced_count ht.2.1, ?_, ?_, ?_, ?_⟩⟩
  · intro v0 v1 hne h0 h1
    have hpre := place_two_v_precondition ht.2.1 hne h0 h1
    have hl0 : v0 < t.unexectued.length := by
      rw [ht.2.2.1, ← ht.2.1.1]; exact lt_of_getElem?_eq_some h0
    have hl1 : v1 < t.unexectued.length := by
      rw [ht.2.2.1, ← ht.2.1.1]; exact lt_of_getElem?_eq_some h1
    exact ⟨hpre, place_two_v_ok h0 h1 hpre hdist hl0 hl1⟩
  · intro v0 v1 phy0 phy1 h0 h1 hone
    have hl0 : v0 < t.unexectued.length := by
      rw [ht.2.2.1, ← ht.2.1.1]; exact lt_of_getElem?_eq_some h0
    have hl1 : v1 < t.unexectued.length := by
      rw [ht.2.2.1, ← ht.2.1.1]; exact lt_of_getElem?_eq_some h1
    have hpre : 1 ≤ (find_free_phy t).length := by
      rcases hone with ⟨ha, _⟩ | ⟨_, hb⟩
      · subst ha; exact place_one_v_precondition ht.2.1 h0
      · subst hb; exact place_one_v_precondition ht.2.1 h1
    have hfree : find_free_phy t ≠ [] := by
      intro h
      rw [h] at hpre
      simp at hpre
    have hpp : ∃ pp, (if phy1 = none then phy0 else phy1) = some pp := by
      rcases hone with ⟨_, hb⟩ | ⟨ha, hb⟩
      · obtain ⟨p, rfl⟩ := Option.ne_none_iff_exists'.mp hb
        exact ⟨p, by simp⟩
      · obtain ⟨p, rfl⟩ := Option.ne_none_iff_exists'.mp ha
        subst hb
        exact ⟨p, by simp⟩
    obtain ⟨pp, hpp⟩ := hpp
    exact ⟨hpre, @place_one_v_ok dev v0 v1 t phy0 phy1 pp h0 h1 hpp hfree
      (by split <;> assumption)⟩
  · intro r hr
    exact hI.try_add_front_layer hr ht
  · intro e he
    exact try_add_front_layer_error hd hdist ht he

theorem free_count_invariant_witness :
    route_entry line3 circuit_h_cx [some 0, none, some 1] (jit_router.init line3)
      = .ok entered_h_cx ∧
    (find_free_phy entered_h_cx).length = entered_h_cx.v_to_phy.count none ∧
    routing_state 3 circuit_h_cx [some 0, none, some 1] looped_h_cx ∧
    (find_free_phy looped_h_cx).length = looped_h_cx.v_to_phy.count none ∧
    1 ≤ (find_free_phy entered_h_cx).length ∧
    ∃ t1, place_one_v line3 1 0 entered_h_cx = .ok t1 :=
  have h := free_count_invariant line3 {} circuit_h_cx [some 0, none, some 1]
    (jit_router.init line3) entered_h_cx line_placement_injective
    circuit_h_cx_distinct_operands rfl line3_distance_lt route_entry_h_cx
  ⟨route_entry_h_cx, h.1, (h.2.2.2.2.1 10 0 _ route_loop_h_cx).1,
    (h.2.2.2.2.1 10 0 _ route_loop_h_cx).2,
    ((h.2.2.2.2.2.2 entered_h_cx h.2.2.2.2.2.1).2.2.1 1 0 none (some 0) rfl rfl
      (Or.inl ⟨rfl, by decide⟩)).1,
    ((h.2.2.2.2.2.2 entered_h_cx h.2.2.2.2.2.1).2.2.1 1 0 none (some 0) rfl rfl
      (Or.inl ⟨rfl, by decide⟩)).2⟩

theorem tmp_v_to_phy_eq {s : jit_router} {p0 p1 : Nat} {tmp : List (Option Nat)}
    (h : tmp_v_to_phy s p0 p1 = .ok tmp) :
    ∃ v0 v1, s.phy_to_v[p0]? = some v0 ∧ s.phy_to_v[p1]? = some v1 ∧
      tmp = set_valid (set_valid s.v_to_phy v0 (some p1)) v1 (some p0) := by
  unfold tmp_v_to_phy at h
  split at h
  · rename_i v0 v1 h0 h1
    rw [at__ok] at h0 h1
    refine ⟨v0, v1, h0, h1, ?_⟩
    split at h
    · rename_i t1 ht1
      have e1 : t1 = set_valid s.v_to_phy v0 (some p1) := by
        cases v0 with
        | none => simp only [Except.ok.injEq] at ht1; exact ht1.symm
        | some a => exact (set_at_ok.mp ht1).2
      subst e1
      cases v1 with
      | none => simp only [Except.ok.injEq] at h; exact h.symm
      | some b => exact (set_at_ok.mp h).2
    · simp at h
  · simp at h
  · simp at h

theorem tmp_v_to_phy_swapped {N : Nat} {s : jit_router} {p0 p1 : Nat}
    {tmp : List (Option Nat)} (hc : coherent N s) (h : tmp_v_to_phy s p0 p1 = .ok tmp) :
    tmp = swapped_placement s.v_to_phy p0 p1 := by
  obtain ⟨v0, v1, h0, h1, rfl⟩ := tmp_v_to_phy_eq h
  apply List.ext_getElem?
  intro v
  rw [add_swap_v_to_phy hc h0 h1 v]
  simp [swapped_placement, List.getElem?_map]

theorem swap_phy_injective (p0 p1 : Nat) {a b : Nat}
    (h : swap_phy p0 p1 a = swap_phy p0 p1 b) : a = b := by
  have := congrArg (swap_phy p0 p1) h
  rwa [swap_phy_involutive, swap_phy_involutive] at this

/-- Under a coherent placement the two operands of a gate on two different virtual qubits
sit on two different physical qubits after the exchange of `p0` and `p1`. -/
theorem gate_phys_swapped_ne {N : Nat} {net : Network} {s : jit_router} {p0 p1 n : Nat}
    {a b : Nat} (hc : coherent N s)
    (hne : ∀ op, net.nodes[n]? = some op → ∀ vc vt, s.wire_to_v[op.control.uid]? = some vc →
      s.wire_to_v[op.target.uid]? = some vt → vc ≠ vt)
    (h : gate_phys net s.wire_to_v (swapped_placement s.v_to_phy p0 p1) n = some (a, b)) :
    a ≠ b := by
  unfold gate_phys at h
  split at h
  · rename_i op hop
    split at h
    · rename_i vc vt hvc hvt
      split at h
      · rename_i x y hx hy
        simp only [Option.some.injEq, Prod.mk.injEq] at h
        obtain ⟨rfl, rfl⟩ := h
        simp only [swapped_placement, List.getElem?_map, Option.map_eq_some'] at hx hy
        obtain ⟨ox, hox, hx1⟩ := hx
        obtain ⟨oy, hoy, hy1⟩ := hy
        obtain ⟨x1, rfl, rfl⟩ := hx1
        obtain ⟨y1, rfl, rfl⟩ := hy1
        intro he
        have hxy := swap_phy_injective p0 p1 he
        subst hxy
        exact hne op hop vc vt hvc hvt (coherent_injective hc vc vt x1 hox hoy)
      · simp at h
    · simp at h
  · simp at h

theorem compute_cost_spec {dev : device} {net : Network} {wire_to_v : List Nat}
    {tmp : List (Option Nat)} : ∀ {layer : List Nat} {c x : ℚ},
    (∀ n ∈ layer, ∀ p, gate_phys net wire_to_v tmp n = some p →
      1 ≤ dev.distance p.1 p.2 ∧ dev.distance p.1 p.2 < 2 ^ 32) →
    compute_cost dev net wire_to_v tmp layer c = .ok x →
    x = c + layer_cost dev net wire_to_v tmp layer := by
  intro layer
  induction layer with
  | nil =>
    intro c x _ h
    simp only [compute_cost, Except.ok.injEq] at h
    subst h
    simp [layer_cost]
  | cons n ns ih =>
    intro c x hpos h
    have hpos1 : ∀ m ∈ ns, ∀ p, gate_phys net wire_to_v tmp m = some p →
        1 ≤ dev.distance p.1 p.2 ∧ dev.distance p.1 p.2 < 2 ^ 32 :=
      fun m hm => hpos m (List.mem_cons_of_mem _ hm)
    simp only [compute_cost] at h
    split at h
    · rename_i op hop
      rw [at__ok] at hop
      split at h
      · rename_i vc vt hvc hvt
        rw [at__ok] at hvc hvt
        split at h
        · rename_i a b ha hb
          rw [at__ok] at ha hb
          have hg : gate_phys net wire_to_v tmp n = some (a, b) := by
            simp only [gate_phys, hop, hvc, hvt, ha, hb]
          obtain ⟨h1, h2⟩ := hpos n (List.mem_cons_self _ _) (a, b) hg
          simp only at h1 h2
          have hx := ih hpos1 h
          rw [hx]
          have hmod : (dev.distance a b + (2 ^ 32 - 1)) % 2 ^ 32 = dev.distance a b - 1 := by
            have : dev.distance a b + (2 ^ 32 - 1) = (dev.distance a b - 1) + 2 ^ 32 := by
              omega
            rw [this, Nat.add_mod_right]
            exact Nat.mod_eq_of_lt (by omega)
          rw [hmod, Nat.cast_sub h1]
          simp only [layer_cost, List.filterMap_cons, hg, List.map_cons, List.sum_cons,
            Nat.cast_one]
          ring
        · rename_i oa ob hnot hoa hob
          rw [at__ok] at hoa hob
          have hg : gate_phys net wire_to_v tmp n = none := by
            simp only [gate_phys, hop, hvc, hvt, hoa, hob]
            cases oa with
            | none => rfl
            | some a =>
              cases ob with
              | none => rfl
              | some b => exact (hnot a b rfl rfl).elim
          have hx := ih hpos1 h
          rw [hx]
          simp only [layer_cost, List.filterMap_cons, hg]
        · simp at h
        · simp at h
      · simp at h
      · simp at h
    · simp at h

/-- A state whose two placement maps are the identity on `N` qubits is coherent. -/
theorem coherent_of_identity {N : Nat} {s : jit_router}
    (h1 : s.v_to_phy = (List.range N).map some) (h2 : s.phy_to_v = (List.range N).map some) :
    coherent N s := by
  refine ⟨by simp [h1], by simp [h2], ?_⟩
  intro v p
  rw [h1, h2]
  simp only [List.getElem?_map, List.getElem?_range, Option.map_eq_some']
  constructor
  · rintro ⟨a, ha, hb⟩
    simp only [Option.some.injEq] at hb
    subst hb
    by_cases hv : v < N
    · rw [List.getElem?_range hv] at ha
      simp only [Option.some.injEq] at ha
      subst ha
      exact ⟨v, List.getElem?_range hv, rfl⟩
    · rw [List.getElem?_eq_none (by simpa using hv)] at ha
      cases ha
  · rintro ⟨a, ha, hb⟩
    simp only [Option.some.injEq] at hb
    subst hb
    by_cases hp : p < N
    · rw [List.getElem?_range hp] at ha
      simp only [Option.some.injEq] at ha
      subst ha
      exact ⟨p, List.getElem?_range hp, rfl⟩
    · rw [List.getElem?_eq_none (by simpa using hp)] at ha
      cases ha

theorem ring4_distance_lt (p q : Nat) : ring4.distance p q < 2 ^ 32 := by
  simp only [ring4]
  split
  · decide
  · split <;> decide

theorem ring4_distance_pos (p q : Nat) (h : p ≠ q) : 1 ≤ ring4.distance p q := by
  simp only [ring4]
  rw [if_neg h]
  split <;> decide

theorem circuit_square_operands (n : Nat) (op : op_type)
    (hn : circuit_square.nodes[n]? = some op) (vc vt : Nat)
    (h0 : circuit_square.wire_v[op.control.uid]? = some vc)
    (h1 : circuit_square.wire_v[op.target.uid]? = some vt) : vc ≠ vt := by
  rcases n with _ | _ | _ | _ | n
  all_goals simp [circuit_square] at hn
  all_goals subst hn
  all_goals simp [circuit_square] at h0 h1
  all_goals omega

/-- C25: reading the numbers as exact rationals, the score that `find_swap` computes for a
candidate `(p0, p1)` is `max(phy_decay[p0], phy_decay[p1]) * total`, where the raw cost of a
layer is the sum over its gates of the device distance of the gate's two physical qubits
under the placement with `p0` and `p1` exchanged, minus one, the gates with an unplaced
operand being skipped; `total` is the raw cost of the front layer when the extended layer
is empty, and otherwise the raw cost of the front layer divided by its size plus
`e_weight` times the raw cost of the extended layer divided by its size. The placement is
coherent, the gates of the two layers act on two different virtual qubits, two different
physical qubits are at a distance of at least one, and distances are 32-bit values (the
code forms `distance - 1` in unsigned 32-bit arithmetic). -/
theorem swap_score_formula (dev : device) (cfg : jit_config) (net : Network) (N : Nat)
    (s : jit_router) (p0 p1 : Nat) (x : ℚ) (hc : coherent N s)
    (hne : ∀ n ∈ s.front_layer ++ s.extended_layer, ∀ op, net.nodes[n]? = some op →
      ∀ vc vt, s.wire_to_v[op.control.uid]? = some vc →
        s.wire_to_v[op.target.uid]? = some vt → vc ≠ vt)
    (hpos : ∀ p q, p ≠ q → 1 ≤ dev.distance p q)
    (hdist : ∀ p q, dev.distance p q < 2 ^ 32)
    (h : swap_score dev cfg net s p0 p1 = .ok x) :
    x = spec_score dev cfg net s p0 p1 ∧
    ∃ d0 d1 : ℚ, s.phy_decay[p0]? = some d0 ∧ s.phy_decay[p1]? = some d1 ∧
      x = max d0 d1 *
        (if s.extended_layer = [] then
          layer_cost dev net s.wire_to_v (swapped_placement s.v_to_phy p0 p1) s.front_layer
         else
          layer_cost dev net s.wire_to_v (swapped_placement s.v_to_phy p0 p1) s.front_layer
              / (s.front_layer.length : ℚ)
            + cfg.e_weight *
              layer_cost dev net s.wire_to_v (swapped_placement s.v_to_phy p0 p1)
                s.extended_layer
              / (s.extended_layer.length : ℚ)) := by
  have hlayer : ∀ n ∈ s.front_layer ++ s.extended_layer, ∀ p,
      gate_phys net s.wire_to_v (swapped_placement s.v_to_phy p0 p1) n = some p →
      1 ≤ dev.distance p.1 p.2 ∧ dev.distance p.1 p.2 < 2 ^ 32 := by
    intro n hn p hp
    obtain ⟨a, b⟩ := p
    exact ⟨hpos a b (gate_phys_swapped_ne hc (hne n hn) hp), hdist a b⟩
  unfold swap_score at h
  split at h
  · rename_i tmp htmp
    have htmp1 := tmp_v_to_phy_swapped hc htmp
    subst htmp1
    split at h
    · rename_i swap_cost hsc
      have hf := compute_cost_spec
        (fun n hn => hlayer n (List.mem_append_left _ hn)) hsc
      rw [zero_add] at hf
      split at h
      · rename_i d0 d1 hd0 hd1
        rw [at__ok] at hd0 hd1
        have hg0 : s.phy_decay.getD p0 0 = d0 := by
          simp [List.getD_eq_getElem?_getD, hd0]
        have hg1 : s.phy_decay.getD p1 0 = d1 := by
          simp [List.getD_eq_getElem?_getD, hd1]
        split at h
        · rename_i hemp
          have hemp1 : s.extended_layer = [] := List.isEmpty_iff.mp hemp
          simp only [Except.ok.injEq] at h
          subst h
          refine ⟨?_, d0, d1, hd0, hd1, ?_⟩
          · simp only [spec_score, hg0, hg1, hemp1, if_true, hf]
          · simp only [hemp1, if_true, hf]
        · rename_i hemp
          have hemp1 : s.extended_layer ≠ [] := fun h0 => hemp (List.isEmpty_iff.mpr h0)
          split at h
          · rename_i e_cost hec
            have he := compute_cost_spec
              (fun n hn => hlayer n (List.mem_append_right _ hn)) hec
            rw [zero_add] at he
            simp only [Except.ok.injEq] at h
            subst h
            refine ⟨?_, d0, d1, hd0, hd1, ?_⟩
            · simp only [spec_score, hg0, hg1, hemp1, if_false, hf, he, mul_div_assoc]
            · simp only [hemp1, if_false, hf, he, mul_div_assoc]
          · simp at h
      · simp at h
      · simp at h
    · simp at h
  · simp at h

theorem swap_score_formula_witness :
    (1 / 2 : ℚ) = spec_score ring4 {} circuit_square
      { stuck_square with extended_layer := [2, 3] } 2 1 ∧
    ∃ d0 d1 : ℚ,
      ({ stuck_square with extended_layer := [2, 3] } : jit_router).phy_decay[2]? = some d0 ∧
      ({ stuck_square with extended_layer := [2, 3] } : jit_router).phy_decay[1]? = some d1 ∧
      (1 / 2 : ℚ) = max d0 d1 *
        (if ({ stuck_square with extended_layer := [2, 3] } : jit_router).extended_layer = []
         then
          layer_cost ring4 circuit_square
            ({ stuck_square with extended_layer := [2, 3] } : jit_router).wire_to_v
            (swapped_placement
              ({ stuck_square with extended_layer := [2, 3] } : jit_router).v_to_phy 2 1)
            ({ stuck_square with extended_layer := [2, 3] } : jit_router).front_layer
         else
          layer_cost ring4 circuit_square
            ({ stuck_square with extended_layer := [2, 3] } : jit_router).wire_to_v
            (swapped_placement
              ({ stuck_square with extended_layer := [2, 3] } : jit_router).v_to_phy 2 1)
            ({ stuck_square with extended_layer := [2, 3] } : jit_router).front_layer
              / (({ stuck_square with extended_layer := [2, 3] } :
                    jit_router).front_layer.length : ℚ)
            + ({} : jit_config).e_weight *
              layer_cost ring4 circuit_square
                ({ stuck_square with extended_layer := [2, 3] } : jit_router).wire_to_v
                (swapped_placement
                  ({ stuck_square with extended_layer := [2, 3] } : jit_router).v_to_phy 2 1)
                ({ stuck_square with extended_layer := [2, 3] } : jit_router).extended_layer
              / (({ stuck_square with extended_layer := [2, 3] } :
                    jit_router).extended_layer.length : ℚ)) :=
  swap_score_formula ring4 {} circuit_square 4 { stuck_square with extended_layer := [2, 3] }
    2 1 (1 / 2) (coherent_of_identity rfl rfl)
    (fun n _ op hop vc vt h0 h1 => circuit_square_operands n op hop vc vt h0 h1)
    ring4_distance_pos ring4_distance_lt (by decide!)

theorem executed_length_jit_add {v : Nat} {s s1 : jit_router} (h : jit_add v s = .ok s1) :
    (executed s1).length = (executed s).length := by
  obtain ⟨_, phy, _, rfl⟩ := jit_add_eq h
  exact (executed_assigned v phy s).length_eq

theorem executed_length_place_one_v {dev : device} {v0 v1 : Nat} {s s1 : jit_router}
    (h : place_one_v dev v0 v1 s = .ok s1) : (executed s1).length = (executed s).length := by
  obtain ⟨phy0, phy1, f0, fs, pp, _, _, _, _, _, _, hj⟩ := place_one_v_eq h
  have := executed_length_jit_add hj
  exact this

theorem executed_length_place_two_v {dev : device} {v0 v1 : Nat} {s s2 : jit_router}
    (h : place_two_v dev v0 v1 s = .ok s2) : (executed s2).length = (executed s).length := by
  obtain ⟨phy0, phy1, a, b, s1, _, _, _, _, _, _, hj0, hj1⟩ := place_two_v_eq h
  have h1 := executed_length_jit_add hj0
  have h2 := executed_length_jit_add hj1
  exact h2.trans h1

theorem executed_length_try_add_op_place {dev : device} {w0 w1 : wire_id} {s s1 : jit_router}
    {q0 q1 : Option Nat} (h : try_add_op_place dev w0 w1 s = .ok (s1, q0, q1)) :
    (executed s1).length = (executed s).length := by
  unfold try_add_op_place at h
  split at h
  · split at h
    · split at h
      · split at h
        · rename_i t ht
          split at h
          · simp only [Except.ok.injEq, Prod.mk.injEq] at h
            obtain ⟨rfl, _, _⟩ := h
            split at ht
            · exact executed_length_place_two_v ht
            · exact executed_length_place_one_v ht
          · simp at h
          · simp at h
        · simp at h
      · simp at h
      · simp at h
    · simp only [Except.ok.injEq, Prod.mk.injEq] at h
      obtain ⟨rfl, _, _⟩ := h
      rfl
  · simp at h
  · simp at h

/-- A successful `try_add_op` executes exactly one more gate, a failed one none. -/
theorem executed_length_try_add_op {dev : device} {n : Nat} {w0 w1 : wire_id}
    {s : jit_router} {r : Bool × jit_router}
    (h : try_add_op dev (.node n) w0 w1 s = .ok r) :
    (executed r.2).length = (executed s).length + (if r.1 then 1 else 0) := by
  unfold try_add_op at h
  split at h
  · rename_i s1 phy0 phy1 hp
    have hl := executed_length_try_add_op_place hp
    split at h
    · rename_i hconn
      simp only [Except.ok.injEq] at h
      subst h
      simp only [create_op2, hconn, if_true]
      rw [(executed_emit s1 (.two (.node n) ⟨phy0, w0.is_complemented⟩ phy1) n rfl).length_eq]
      simp [hl]
    · simp only [Except.ok.injEq] at h
      subst h
      simp [hl]
  · simp at h
  · simp at h

/-- The call `add_op` executes exactly one more gate. -/
theorem executed_length_add_op {n : Nat} {w : wire_id} {s : jit_router}
    {r : Bool × jit_router} (h : add_op (.node n) w s = .ok r) :
    r.1 = true ∧ (executed r.2).length = (executed s).length + 1 := by
  obtain ⟨hr, v, _, hcase⟩ := add_op_eq h
  refine ⟨hr, ?_⟩
  rcases hcase with ⟨_, hv, hr2⟩ | ⟨phy, _, hr2⟩
  · rw [hr2]
    have := (buffered_buffer s v n hv).length_eq
    simp only [List.length_cons] at this
    show (emitted s ++ buffered _).length = _
    rw [List.length_append, this]
    simp only [executed, List.length_append]
    omega
  · rw [hr2, (executed_emit s (.one (.node n) phy) n rfl).length_eq]
    simp

theorem executed_length_step {dev : device} {net : Network}
    {acc acc1 : Bool × List Nat × jit_router} {n : Nat}
    (h : try_add_front_layer_step dev net acc n = .ok acc1) :
    (acc1.1 = acc.1 ∧ (executed acc1.2.2).length = (executed acc.2.2).length) ∨
    (acc1.1 = true ∧ (executed acc1.2.2).length = (executed acc.2.2).length + 1) := by
  obtain ⟨op, _, hcase⟩ := try_add_front_layer_step_cases h
  rcases hcase with ⟨_, rfl⟩ | ⟨_, b, s1, hexec, hb⟩
  · exact Or.inl ⟨rfl, rfl⟩
  · have hlen : (executed s1).length = (executed acc.2.2).length + (if b then 1 else 0) := by
      split at hexec
      · obtain ⟨h1, h2⟩ := executed_length_add_op hexec
        simp only at h1 h2
        rw [h2, h1]
        rfl
      · exact executed_length_try_add_op hexec
    rcases hb with ⟨rfl, values, nfl, _, rfl⟩ | ⟨rfl, c, t, _, _, _, _, rfl⟩
    · right
      refine ⟨rfl, ?_⟩
      simpa using hlen
    · left
      refine ⟨rfl, ?_⟩
      simpa using hlen

theorem executed_length_loop {dev : device} {net : Network} : ∀ {ns : List Nat}
    {acc acc1 : Bool × List Nat × jit_router},
    try_add_front_layer_loop dev net ns acc = .ok acc1 →
    (acc1.1 = acc.1 ∧ (executed acc1.2.2).length = (executed acc.2.2).length) ∨
    (acc1.1 = true ∧ (executed acc.2.2).length < (executed acc1.2.2).length) := by
  intro ns
  induction ns with
  | nil =>
    intro acc acc1 h
    simp only [try_add_front_layer_loop, Except.ok.injEq] at h
    subst h
    exact Or.inl ⟨rfl, rfl⟩
  | cons n ns ih =>
    intro acc acc1 h
    simp only [try_add_front_layer_loop] at h
    split at h
    · rename_i acc2 h2
      rcases executed_length_step h2 with ⟨a1, a2⟩ | ⟨a1, a2⟩
      · rcases ih h with ⟨b1, b2⟩ | ⟨b1, b2⟩
        · exact Or.inl ⟨b1.trans a1, b2.trans a2⟩
        · exact Or.inr ⟨b1, by omega⟩
      · rcases ih h with ⟨b1, b2⟩ | ⟨b1, b2⟩
        · exact Or.inr ⟨b1.trans a1, by omega⟩
        · exact Or.inr ⟨b1, by omega⟩
    · simp at h

/-- The front-layer engine returns `true` exactly when it has executed at least one more
gate. -/
theorem executed_length_try_add_front_layer {dev : device} {net : Network} {s s1 : jit_router}
    {b : Bool} (h : try_add_front_layer dev net s = .ok (b, s1)) :
    (b = true → (executed s).length < (executed s1).length) ∧
    (b = false → (executed s1).length = (executed s).length) := by
  unfold try_add_front_layer at h
  split at h
  · rename_i b1 nfl s2 hl
    simp only [Except.ok.injEq, Prod.mk.injEq] at h
    obtain ⟨rfl, rfl⟩ := h
    rcases executed_length_loop hl with ⟨a1, a2⟩ | ⟨a1, a2⟩
    · simp only at a1 a2
      subst a1
      exact ⟨fun h => (by cases h), fun _ => a2⟩
    · simp only at a1 a2
      subst a1
      exact ⟨fun _ => a2, fun h => (by cases h)⟩
  · simp at h

theorem executed_swap_round {dev : device} {cfg : jit_config} {net : Network} {k : Nat}
    {s s2 : jit_router} (h : swap_round dev cfg net k s = .ok s2) :
    executed s2 = executed s := by
  unfold swap_round at h
  split at h
  · rename_i phy0 phy1 s1 hf
    obtain ⟨el, vals, hs1⟩ := find_swap_frame hf
    split at h
    · rename_i decay hu
      split at h
      · rename_i s3 ha
        simp only [Except.ok.injEq] at h
        subst h
        obtain ⟨_, v0, v1, _, _, _, _, hs3⟩ := add_swap_eq ha
        rw [hs3, hs1]
        simp [executed, emitted, buffered, List.filterMap_append, node_of]
      · simp at h
    · simp at h
  · simp at h

/-- The gates executed so far are distinct gates of the input. -/
theorem trav.executed_length_le {net : Network} {s : jit_router} {pending todo : List Nat}
    (h : trav net s pending todo) : (executed s).length ≤ (gates net).length := by
  have hnd : (executed s).Nodup := (List.nodup_append.mp h.nodup).1
  have hsub : executed s ⊆ gates net := by
    intro n hn
    exact mem_gates.mpr (h.gate n (List.mem_append_left _ hn))
  exact (List.subperm_of_subset hnd hsub).length_le

/-- The first iteration of the driver loop for `CX(q0, q1); H(q0); H(q1)` takes the advance
path (`try_add_front_layer` returns `true`, no SWAP search, the same `num_swap_searches`
goes into the next iteration) and the front layer grows from one node to two. -/
theorem advance_path_grows_front_layer :
    route_entry line3 circuit_cx_h_h [some 0, some 1, some 2] (jit_router.init line3)
      = .ok entered_cx_h_h ∧
    try_add_front_layer line3 circuit_cx_h_h entered_cx_h_h = .ok (true, advanced_cx_h_h) ∧
    entered_cx_h_h.front_layer.length = 1 ∧ advanced_cx_h_h.front_layer.length = 2 ∧
    ¬ advanced_cx_h_h.front_layer.length < entered_cx_h_h.front_layer.length ∧
    (∀ (cfg : jit_config) (fuel k : Nat),
      route_loop line3 cfg circuit_cx_h_h (fuel + 1) k entered_cx_h_h
        = route_loop line3 cfg circuit_cx_h_h fuel k advanced_cx_h_h) := by
  have h1 : route_entry line3 circuit_cx_h_h [some 0, some 1, some 2] (jit_router.init line3)
      = .ok entered_cx_h_h := by decide!
  have h2 : try_add_front_layer line3 circuit_cx_h_h entered_cx_h_h
      = .ok (true, advanced_cx_h_h) := by decide!
  refine ⟨h1, h2, rfl, rfl, by decide, ?_⟩
  intro cfg fuel k
  have he : entered_cx_h_h.front_layer.isEmpty = false := rfl
  simp only [route_loop, he, h2, Bool.false_eq_true, if_false]

/-- C30 (amended): in every iteration of the driver loop of `route` either the front-layer
engine returns `true` (advance path) and the number of gates of the input that are not yet
executed is strictly smaller after the iteration than before it, the next iteration running
with the same `num_swap_searches`; or it returns `false` (SWAP path), no gate is executed,
and the next iteration follows a SWAP search for which `num_swap_searches` is incremented
(modulo `2^32`, that is increased below the width of the counter), the SWAP round executing
no gate either. The number of executed gates never exceeds the number of gates. -/
theorem driver_iteration_progress (dev : device) (cfg : jit_config) (net : Network)
    (hw : well_formed net) (hd : distinct_operands net) (fuel k : Nat) (s s1 : jit_router)
    (b : Bool) (ht : trav net s s.front_layer []) (hne : s.front_layer ≠ [])
    (h : try_add_front_layer dev net s = .ok (b, s1)) :
    (executed s1).length ≤ (gates net).length ∧
    (b = true →
      (gates net).length - (executed s1).length < (gates net).length - (executed s).length ∧
      route_loop dev cfg net (fuel + 1) k s = route_loop dev cfg net fuel k s1) ∧
    (b = false →
      (gates net).length - (executed s1).length = (gates net).length - (executed s).length ∧
      route_loop dev cfg net (fuel + 1) k s
        = (swap_round dev cfg net ((k + 1) % 2 ^ 32) s1).bind
            (route_loop dev cfg net fuel ((k + 1) % 2 ^ 32)) ∧
      (k + 1 < 2 ^ 32 → k < (k + 1) % 2 ^ 32) ∧
      ∀ s2, swap_round dev cfg net ((k + 1) % 2 ^ 32) s1 = .ok s2 →
        executed s2 = executed s1) := by
  have ht1 := trav_try_add_front_layer hw hd h ht
  have hle1 := ht1.executed_length_le
  simp only at hle1
  obtain ⟨hadv, hstuck⟩ := executed_length_try_add_front_layer h
  have he : s.front_layer.isEmpty = false := by
    cases hf : s.front_layer with
    | nil => exact absurd hf hne
    | cons a l => rfl
  refine ⟨hle1, ?_, ?_⟩
  · intro hb
    subst hb
    refine ⟨by have := hadv rfl; omega, ?_⟩
    simp only [route_loop, he, h, Bool.false_eq_true, if_false]
  · intro hb
    subst hb
    refine ⟨by rw [hstuck rfl], ?_, ?_, fun s2 h2 => executed_swap_round h2⟩
    · simp only [route_loop, he, h, Bool.false_eq_true, if_false]
      cases swap_round dev cfg net ((k + 1) % 2 ^ 32) s1 <;> rfl
    · intro hk
      rw [Nat.mod_eq_of_lt hk]
      omega

theorem driver_iteration_progress_witness :
    (executed ({ entered_h_cx with front_layer := [1], unexectued := [[], [.node 0], []],
                                   values := [1, 2] } : jit_router)).length
      ≤ (gates circuit_h_cx).length ∧
    (gates circuit_h_cx).length
        - (executed ({ entered_h_cx with front_layer := [1], unexectued := [[], [.node 0], []],
                                         values := [1, 2] } : jit_router)).length
      < (gates circuit_h_cx).length - (executed entered_h_cx).length ∧
    route_loop line3 {} circuit_h_cx (9 + 1) 0 entered_h_cx
      = route_loop line3 {} circuit_h_cx 9 0
          { entered_h_cx with front_layer := [1], unexectued := [[], [.node 0], []],
                              values := [1, 2] } :=
  have h := driver_iteration_progress line3 {} circuit_h_cx circuit_h_cx_well_formed
    circuit_h_cx_distinct_operands 9 0 entered_h_cx
    { entered_h_cx with front_layer := [1], unexectued := [[], [.node 0], []],
                        values := [1, 2] } true
    (route_entry_trav circuit_h_cx_well_formed (ready_init line3) route_entry_h_cx)
    (by decide) (by decide!)
  ⟨h.1, (h.2.1 rfl).1, (h.2.1 rfl).2⟩

/-- One iteration of the loop of `try_add_front_layer` keeps the size of `involved_phy_` and
every mark in it; on a gate that it does not execute it sets a mark. -/
theorem try_add_front_layer_step_involved {dev : device} {net : Network}
    {acc acc1 : Bool × List Nat × jit_router} {n : Nat}
    (h : try_add_front_layer_step dev net acc n = .ok acc1) :
    acc1.2.2.involved_phy.length = acc.2.2.involved_phy.length ∧
    (∀ u : Nat, acc.2.2.involved_phy[u]? = some true → acc1.2.2.involved_phy[u]? = some true) ∧
    (is_gate net n → acc1.1 = false → ∃ u : Nat, acc1.2.2.involved_phy[u]? = some true) := by
  obtain ⟨op, hop, hcase⟩ := try_add_front_layer_step_cases h
  rcases hcase with ⟨hmeta, rfl⟩ | ⟨_, b, s1, hexec, hb⟩
  · refine ⟨rfl, fun u hu => hu, ?_⟩
    rintro ⟨op1, hop1, hm1⟩ _
    rw [hop] at hop1
    simp only [Option.some.injEq] at hop1
    subst hop1
    rw [hmeta] at hm1
    cases hm1
  · have hsc : same_control acc.2.2 s1 := by
      split at hexec
      · exact add_op_same_control hexec
      · exact try_add_op_same_control hexec
    have hinv : s1.involved_phy = acc.2.2.involved_phy := hsc.2.2.1
    rcases hb with ⟨_, values, nfl, _, rfl⟩ | ⟨_, c, t, _, _, hc, ht, rfl⟩
    · simp only
      rw [hinv]
      exact ⟨rfl, fun u hu => hu, fun _ h1 => by cases h1⟩
    · simp only
      rw [hinv] at hc ht ⊢
      refine ⟨by simp, ?_, fun _ _ => ⟨t, by
        rw [List.getElem?_set_self (by simpa using ht)]⟩⟩
      intro u hu
      by_cases hut : t = u
      · subst hut
        rw [List.getElem?_set_self (by simpa using ht)]
      · rw [List.getElem?_set_ne hut]
        by_cases huc : c = u
        · subst huc
          rw [List.getElem?_set_self hc]
        · rw [List.getElem?_set_ne huc]
          exact hu

theorem try_add_front_layer_loop_involved {dev : device} {net : Network} :
    ∀ {ns : List Nat} {acc acc1 : Bool × List Nat × jit_router},
    try_add_front_layer_loop dev net ns acc = .ok acc1 →
    acc1.2.2.involved_phy.length = acc.2.2.involved_phy.length ∧
    (∀ u : Nat, acc.2.2.involved_phy[u]? = some true → acc1.2.2.involved_phy[u]? = some true) ∧
    (ns ≠ [] → (∀ n ∈ ns, is_gate net n) → acc1.1 = false →
      ∃ u : Nat, acc1.2.2.involved_phy[u]? = some true) := by
  intro ns
  induction ns with
  | nil =>
    intro acc acc1 h
    simp only [try_add_front_layer_loop, Except.ok.injEq] at h
    subst h
    exact ⟨rfl, fun u hu => hu, fun h => absurd rfl h⟩
  | cons n ns ih =>
    intro acc acc1 h
    have hloop := h
    simp only [try_add_front_layer_loop] at h
    split at h
    · rename_i acc2 h2
      obtain ⟨a1, a2, a3⟩ := try_add_front_layer_step_involved h2
      obtain ⟨b1, b2, _⟩ := ih h
      refine ⟨b1.trans a1, fun u hu => b2 u (a2 u hu), ?_⟩
      intro _ hg hf
      have hf2 : acc2.1 = false := by
        rcases executed_length_loop h with ⟨c1, _⟩ | ⟨c1, _⟩
        · rw [← c1]; exact hf
        · rw [hf] at c1; cases c1
      obtain ⟨u, hu⟩ := a3 (hg n (List.mem_cons_self _ _)) hf2
      exact ⟨u, b2 u hu⟩
    · simp at h

/-- When the front-layer engine returns `false` on a non-empty front layer of gates, some
physical qubit is marked as involved. -/
theorem try_add_front_layer_involved {dev : device} {net : Network} {s s1 : jit_router}
    (h : try_add_front_layer dev net s = .ok (false, s1)) (hne : s.front_layer ≠ [])
    (hg : ∀ n ∈ s.front_layer, is_gate net n) :
    s1.involved_phy.length = s.involved_phy.length ∧
    ∃ u : Nat, s1.involved_phy[u]? = some true := by
  unfold try_add_front_layer at h
  split at h
  · rename_i b nfl s2 hl
    simp only [Except.ok.injEq, Prod.mk.injEq] at h
    obtain ⟨rfl, rfl⟩ := h
    obtain ⟨a1, _, a3⟩ := try_add_front_layer_loop_involved hl
    exact ⟨a1, a3 hne hg rfl⟩
  · simp at h

theorem swap_candidates_ok {inv : List Bool} : ∀ {es : List (Nat × Nat)},
    (∀ e ∈ es, e.1 < inv.length ∧ e.2 < inv.length) →
    ∃ cands, swap_candidates inv es = .ok cands := by
  intro es
  induction es with
  | nil => intro _; exact ⟨[], rfl⟩
  | cons e es ih =>
    intro h
    obtain ⟨u, v⟩ := e
    obtain ⟨hu, hv⟩ := h (u, v) (List.mem_cons_self _ _)
    obtain ⟨rest, hrest⟩ := ih (fun e he => h e (List.mem_cons_of_mem _ he))
    simp only at hu hv
    simp only [swap_candidates, at__of_lt hu, at__of_lt hv, hrest]
    cases hb : inv[u]
    · simp only [Bool.false_eq_true, if_false]
      exact ⟨_, rfl⟩
    · simp only [if_true]
      exact ⟨_, rfl⟩

theorem countP_lt_countP {α : Type} (p q : α → Bool) {c : α} : ∀ {l : List α},
    (∀ x ∈ l, q x = true → p x = true) → c ∈ l → p c = true → q c = false →
    l.countP q < l.countP p := by
  intro l
  induction l with
  | nil => intro _ hc; simp at hc
  | cons a l ih =>
    intro himp hc hp hq
    have hle : l.countP q ≤ l.countP p :=
      List.countP_mono_left (fun x hx => himp x (List.mem_cons_of_mem _ hx))
    simp only [List.countP_cons]
    rcases List.mem_cons.mp hc with rfl | hc1
    · simp only [hp, hq, if_true, Bool.false_eq_true, if_false]
      omega
    · have := ih (fun x hx => himp x (List.mem_cons_of_mem _ hx)) hc1 hp hq
      have h1 := himp a (List.mem_cons_self _ _)
      cases hqa : q a
      · cases hpa : p a
        · simp only [Bool.false_eq_true, if_false]
          omega
        · simp only [Bool.false_eq_true, if_false, if_true]
          omega
      · rw [h1 hqa]
        simp only [if_true]
        omega

theorem room_le (net : Network) (values : List Nat) : room net values ≤ net.nodes.length := by
  unfold room
  exact le_trans (List.countP_le_length _) (by simp)

theorem room_lt {net : Network} {v v1 : List Nat} (hmono : ∀ i, v.getD i 0 ≤ v1.getD i 0)
    {c : Nat} {op : op_type} (hop : net.nodes[c]? = some op) (h0 : v.getD c 0 < op.num_wires)
    (h1 : op.num_wires ≤ v1.getD c 0) : room net v1 < room net v := by
  unfold room
  apply countP_lt_countP _ _ (c := c)
  · intro i _ hi
    cases hn : net.nodes[i]? with
    | none => simp [hn] at hi
    | some o =>
      simp only [hn, decide_eq_true_eq] at hi ⊢
      exact lt_of_le_of_lt (hmono i) hi
  · exact List.mem_range.mpr (lt_of_getElem?_eq_some hop)
  · simp only [hop, decide_eq_true_eq]
    exact h0
  · simp only [hop, decide_eq_false_iff_not, not_lt]
    exact h1

theorem ext_round.start {net : Network} {acc : ext_acc}
    (hl : acc.values.length = net.nodes.length)
    (hg : ∀ c ∈ acc.extended_layer, is_gate net c)
    (hi : ∀ c ∈ acc.incremented_nodes, c < net.nodes.length) :
    ext_round net acc.values { acc with new_tmp_front_layer := [] } :=
  ⟨hl, fun _ => le_refl _, fun c hc => by simp at hc, hg, hi⟩

theorem extend_children_round {net : Network} {v0 : List Nat} : ∀ {cs : List Nat}
    {acc : ext_acc}, (∀ c ∈ cs, c < net.nodes.length) → ext_round net v0 acc →
    ∃ acc1, extend_children net cs acc = .ok acc1 ∧ ext_round net v0 acc1 := by
  intro cs
  induction cs with
  | nil => intro acc _ hr; exact ⟨acc, rfl, hr⟩
  | cons c cs ih =>
    intro acc hcs hr
    have hc : c < net.nodes.length := hcs c (List.mem_cons_self _ _)
    have hcs1 : ∀ x ∈ cs, x < net.nodes.length := fun x hx => hcs x (List.mem_cons_of_mem _ hx)
    have hcv : c < acc.values.length := by rw [hr.length]; exact hc
    simp only [extend_children, at__of_lt hc]
    have hop : net.nodes[c]? = some net.nodes[c] := List.getElem?_eq_getElem hc
    generalize net.nodes[c] = child at hop
    by_cases hm : child.is_meta = true
    · simp only [hm, if_true]
      exact ih hcs1 hr
    · simp only [hm, Bool.false_eq_true, if_false]
      have hm1 : child.is_meta = false := by simpa using hm
      have hget : ∀ i, (acc.values.set c (acc.values.getD c 0 + 1)).getD i 0
          = if i = c then acc.values.getD c 0 + 1 else acc.values.getD i 0 := by
        intro i
        by_cases hic : i = c
        · subst hic
          simp [List.getD_eq_getElem?_getD, List.getElem?_set_self hcv]
        · simp [List.getD_eq_getElem?_getD, List.getElem?_set_ne (Ne.symm hic), hic]
      have hmono1 : ∀ i, v0.getD i 0 ≤ (incr_value acc.values c).1.getD i 0 := by
        intro i
        simp only [incr_value, hget]
        split
        · rename_i hic
          subst hic
          exact Nat.le_succ_of_le (hr.mono i)
        · exact hr.mono i
      have hcross1 : ∀ x ∈ acc.new_tmp_front_layer, ∃ op, net.nodes[x]? = some op ∧
          v0.getD x 0 < op.num_wires ∧ op.num_wires ≤ (incr_value acc.values c).1.getD x 0 := by
        intro x hx
        obtain ⟨op, h1, h2, h3⟩ := hr.crossed x hx
        refine ⟨op, h1, h2, ?_⟩
        simp only [incr_value, hget]
        split
        · rename_i hxc
          subst hxc
          exact Nat.le_succ_of_le h3
        · exact h3
      have hinc1 : ∀ x ∈ acc.incremented_nodes ++ [c], x < net.nodes.length := by
        intro x hx
        simp only [List.mem_append, List.mem_singleton] at hx
        rcases hx with hx | rfl
        · exact hr.incremented_lt x hx
        · exact hc
      have hlen1 : (incr_value acc.values c).1.length = net.nodes.length := by
        simp [incr_value, hr.length]
      have hnew : (incr_value acc.values c).2 = child.num_wires →
          ∀ x ∈ acc.new_tmp_front_layer ++ [c], ∃ op, net.nodes[x]? = some op ∧
            v0.getD x 0 < op.num_wires ∧
            op.num_wires ≤ (incr_value acc.values c).1.getD x 0 := by
        intro heq x hx
        simp only [List.mem_append, List.mem_singleton] at hx
        rcases hx with hx | rfl
        · exact hcross1 x hx
        · refine ⟨child, hop, ?_, ?_⟩
          · have := hr.mono x
            simp only [incr_value] at heq
            omega
          · simp only [incr_value, hget, if_true] at heq ⊢
            omega
      split
      · rename_i heq
        split
        · apply ih hcs1
          refine ⟨hlen1, hmono1, hnew heq, ?_, hinc1⟩
          intro x hx
          simp only [List.mem_append, List.mem_singleton] at hx
          rcases hx with hx | rfl
          · exact hr.layer_gates x hx
          · exact ⟨child, hop, hm1⟩
        · apply ih hcs1
          exact ⟨hlen1, hmono1, hnew heq, hr.layer_gates, hinc1⟩
      · apply ih hcs1
        exact ⟨hlen1, hmono1, hcross1, hr.layer_gates, hinc1⟩

theorem extend_layer_round {net : Network} {e : Nat} {v0 : List Nat}
    (hch : ∀ n c, c ∈ net.children.getD n [] → c < net.nodes.length) :
    ∀ {ns : List Nat} {acc : ext_acc}, (∀ n ∈ ns, n < net.nodes.length) →
    ext_round net v0 acc →
    ∃ b acc1, extend_layer net e ns acc = .ok (b, acc1) ∧ ext_round net v0 acc1 := by
  intro ns
  induction ns with
  | nil => intro acc _ hr; exact ⟨false, acc, rfl, hr⟩
  | cons n ns ih =>
    intro acc hns hr
    have hn : n < net.nodes.length := hns n (List.mem_cons_self _ _)
    obtain ⟨acc1, h1, hr1⟩ := extend_children_round (hch n) hr
    simp only [extend_layer, at__of_lt hn, h1]
    split
    · exact ⟨true, acc1, rfl, hr1⟩
    · exact ih (fun x hx => hns x (List.mem_cons_of_mem _ hx)) hr1

/-- The `while` loop of `select_extended_layer` returns when it is given one round more
than there are nodes whose counter is below their arity. -/
theorem extend_loop_ok {net : Network} {e : Nat}
    (hch : ∀ n c, c ∈ net.children.getD n [] → c < net.nodes.length) :
    ∀ (fuel : Nat) (tmp : List Nat) (acc : ext_acc),
    acc.values.length = net.nodes.length → (∀ n ∈ tmp, n < net.nodes.length) →
    (tmp ≠ [] → room net acc.values < fuel) →
    (∀ c ∈ acc.extended_layer, is_gate net c) →
    (∀ c ∈ acc.incremented_nodes, c < net.nodes.length) →
    ∃ acc1, extend_loop net e fuel tmp acc = .ok acc1 ∧
      (∀ c ∈ acc1.extended_layer, is_gate net c) ∧
      (∀ c ∈ acc1.incremented_nodes, c < net.nodes.length) := by
  intro fuel
  induction fuel with
  | zero =>
    intro tmp acc _ _ hroom hg hi
    cases tmp with
    | nil => exact ⟨acc, rfl, hg, hi⟩
    | cons a l => exact absurd (hroom (by simp)) (by omega)
  | succ fuel ih =>
    intro tmp acc hl htmp hroom hg hi
    cases tmp with
    | nil => exact ⟨acc, rfl, hg, hi⟩
    | cons a l =>
      obtain ⟨b, acc1, h1, hr1⟩ :=
        @extend_layer_round net e acc.values hch (a :: l) _ htmp (ext_round.start hl hg hi)
      simp only [extend_loop, List.isEmpty_cons, Bool.false_eq_true, if_false, h1]
      cases b with
      | true => exact ⟨acc1, rfl, hr1.layer_gates, hr1.incremented_lt⟩
      | false =>
        simp only
        apply ih acc1.new_tmp_front_layer acc1 hr1.length
        · intro n hn
          obtain ⟨op, hop, _, _⟩ := hr1.crossed n hn
          exact lt_of_getElem?_eq_some hop
        · intro hne
          obtain ⟨c, hc⟩ := List.exists_mem_of_ne_nil _ hne
          obtain ⟨op, hop, h0, h2⟩ := hr1.crossed c hc
          have := room_lt hr1.mono hop h0 h2
          have := hroom (by simp)
          omega
        · exact hr1.layer_gates
        · exact hr1.incremented_lt

theorem undo_increment_ok {net : Network} : ∀ {ids values : List Nat},
    (∀ c ∈ ids, c < net.nodes.length) → (∀ n, ids.count n ≤ values.getD n 0) →
    ∃ v, undo_increment net ids values = .ok v := by
  intro ids
  induction ids with
  | nil => intro values _ _; exact ⟨values, rfl⟩
  | cons id ids ih =>
    intro values hids hcount
    have hid : id < net.nodes.length := hids id (List.mem_cons_self _ _)
    have hpos : 0 < values.getD id 0 := by
      have := hcount id
      simp only [List.count_cons_self] at this
      omega
    have hidv : id < values.length := by
      rcases Nat.lt_or_ge id values.length with h | h
      · exact h
      · simp [List.getD_eq_getElem?_getD, List.getElem?_eq_none h] at hpos
    simp only [undo_increment, at__of_lt hid, decr_value, hpos, if_true]
    apply ih (fun c hc => hids c (List.mem_cons_of_mem _ hc))
    intro n
    by_cases hn : n = id
    · subst hn
      have := hcount n
      simp only [List.count_cons_self] at this
      simp only [List.getD_eq_getElem?_getD, List.getElem?_set_self hidv, Option.getD_some]
      simp only [List.getD_eq_getElem?_getD] at this
      omega
    · have := hcount n
      rw [List.count_cons_of_ne hn] at this
      simp only [List.getD_eq_getElem?_getD, List.getElem?_set_ne (Ne.symm hn)]
      simpa [List.getD_eq_getElem?_getD] using this

/-- The method `select_extended_layer` returns when the front layer and the children of
every node are existing nodes and every node has a counter; the extended layer it selects
consists of gates, and nothing else changes. -/
theorem select_extended_layer_ok {net : Network} (cfg : jit_config) {s : jit_router}
    (hch : ∀ n c, c ∈ net.children.getD n [] → c < net.nodes.length)
    (hl : s.values.length = net.nodes.length)
    (hfl : ∀ n ∈ s.front_layer, n < net.nodes.length) :
    ∃ el, select_extended_layer net cfg s = .ok { s with extended_layer := el } ∧
      ∀ c ∈ el, is_gate net c := by
  obtain ⟨acc, hacc, hg, hi⟩ := extend_loop_ok (e := cfg.e_set_size) hch (net.nodes.length + 1)
    s.front_layer
    { values := s.values, incremented_nodes := [], new_tmp_front_layer := [],
      extended_layer := [] } hl hfl
    (fun _ => Nat.lt_succ_of_le (room_le net s.values)) (by simp) (by simp)
  have hc := (extend_loop_spec (children_length_le_max net) hacc (by simp)).2 s.values rfl
  unfold ext_consistent at hc
  obtain ⟨v, hv⟩ := @undo_increment_ok net acc.incremented_nodes acc.values hi (by
    intro n
    rw [hc]
    by_cases hn : n < s.values.length
    · rw [incr_all_getD _ _ _ hn]
      omega
    · have : acc.incremented_nodes.count n = 0 := by
        apply List.count_eq_zero_of_not_mem
        intro hmem
        have := hi n hmem
        omega
      omega)
  have hv0 : v = s.values := by
    rw [hc] at hv
    exact undo_increment_incr_all hv
  subst hv0
  refine ⟨acc.extended_layer, ?_, hg⟩
  unfold select_extended_layer
  rw [hacc]
  simp only
  rw [hv]

theorem try_add_front_layer_step_extended_layer {dev : device} {net : Network}
    {acc acc1 : Bool × List Nat × jit_router} {n : Nat}
    (h : try_add_front_layer_step dev net acc n = .ok acc1) :
    acc1.2.2.extended_layer = acc.2.2.extended_layer := by
  obtain ⟨op, _, hcase⟩ := try_add_front_layer_step_cases h
  rcases hcase with ⟨_, rfl⟩ | ⟨_, b, s1, hexec, hb⟩
  · rfl
  · have hsc : same_control acc.2.2 s1 := by
      split at hexec
      · exact add_op_same_control hexec
      · exact try_add_op_same_control hexec
    rcases hb with ⟨_, values, nfl, _, rfl⟩ | ⟨_, c, t, _, _, _, _, rfl⟩
    · exact hsc.2.1
    · exact hsc.2.1

theorem try_add_front_layer_loop_extended_layer {dev : device} {net : Network}
    {ns : List Nat} {acc acc1 : Bool × List Nat × jit_router}
    (h : try_add_front_layer_loop dev net ns acc = .ok acc1) :
    acc1.2.2.extended_layer = acc.2.2.extended_layer := by
  induction ns generalizing acc with
  | nil =>
    simp only [try_add_front_layer_loop, Except.ok.injEq] at h
    subst h; rfl
  | cons n ns ih =>
    simp only [try_add_front_layer_loop] at h
    split at h
    · rename_i acc2 h2
      exact (ih h).trans (try_add_front_layer_step_extended_layer h2)
    · simp at h

theorem try_add_front_layer_extended_layer {dev : device} {net : Network} {s : jit_router}
    {r : Bool × jit_router} (h : try_add_front_layer dev net s = .ok r) :
    r.2.extended_layer = s.extended_layer := by
  unfold try_add_front_layer at h
  split at h
  · rename_i b nfl s1 hl
    simp only [Except.ok.injEq] at h
    subst h
    exact try_add_front_layer_loop_extended_layer hl
  · simp at h

theorem coherent_phy_to_v_lt {N : Nat} {s : jit_router} (hc : coherent N s) {p a : Nat}
    (h : s.phy_to_v[p]? = some (some a)) : a < s.v_to_phy.length :=
  lt_of_getElem?_eq_some ((hc.2.2 a p).mpr h)

theorem tmp_v_to_phy_ok {N : Nat} {s : jit_router} {p0 p1 : Nat} (hc : coherent N s)
    (h0 : p0 < N) (h1 : p1 < N) :
    ∃ tmp, tmp_v_to_phy s p0 p1 = .ok tmp ∧ tmp.length = N := by
  have hl0 : p0 < s.phy_to_v.length := by rw [hc.2.1]; exact h0
  have hl1 : p1 < s.phy_to_v.length := by rw [hc.2.1]; exact h1
  have e0 : s.phy_to_v[p0]? = some s.phy_to_v[p0] := List.getElem?_eq_getElem hl0
  have e1 : s.phy_to_v[p1]? = some s.phy_to_v[p1] := List.getElem?_eq_getElem hl1
  simp only [tmp_v_to_phy, at__of_lt hl0, at__of_lt hl1]
  generalize s.phy_to_v[p0] = v0 at e0
  generalize s.phy_to_v[p1] = v1 at e1
  cases v0 with
  | none =>
    cases v1 with
    | none => exact ⟨_, rfl, hc.1⟩
    | some b =>
      simp only
      rw [set_at_ok.mpr ⟨coherent_phy_to_v_lt hc e1, rfl⟩]
      exact ⟨_, rfl, by simp [hc.1]⟩
  | some a =>
    simp only
    rw [set_at_ok.mpr ⟨coherent_phy_to_v_lt hc e0, rfl⟩]
    cases v1 with
    | none => exact ⟨_, rfl, by simp [hc.1]⟩
    | some b =>
      simp only
      rw [set_at_ok.mpr ⟨by simpa using coherent_phy_to_v_lt hc e1, rfl⟩]
      exact ⟨_, rfl, by simp [hc.1]⟩

theorem compute_cost_ok {dev : device} {net : Network} {wire_to_v : List Nat}
    {tmp : List (Option Nat)} : ∀ {layer : List Nat} (c : ℚ),
    (∀ n ∈ layer, ∃ op vc vt, net.nodes[n]? = some op ∧
      wire_to_v[op.control.uid]? = some vc ∧ wire_to_v[op.target.uid]? = some vt ∧
      vc < tmp.length ∧ vt < tmp.length) →
    ∃ x, compute_cost dev net wire_to_v tmp layer c = .ok x := by
  intro layer
  induction layer with
  | nil => intro c _; exact ⟨c, rfl⟩
  | cons n ns ih =>
    intro c h
    obtain ⟨op, vc, vt, hop, hvc, hvt, hlc, hlt⟩ := h n (List.mem_cons_self _ _)
    have ih1 := fun c1 => ih c1 (fun m hm => h m (List.mem_cons_of_mem _ hm))
    simp only [compute_cost, at__ok.mpr hop, at__ok.mpr hvc, at__ok.mpr hvt,
      at__of_lt hlc, at__of_lt hlt]
    split
    · exact ih1 _
    · exact ih1 _
    · rename_i he
      simp at he
    · rename_i he _
      simp at he

theorem swap_score_ok {dev : device} (cfg : jit_config) {net : Network} {N : Nat}
    {s : jit_router} {p0 p1 : Nat} (hc : coherent N s) (hdec : s.phy_decay.length = N)
    (h0 : p0 < N) (h1 : p1 < N)
    (hl : ∀ n ∈ s.front_layer ++ s.extended_layer, ∃ op vc vt, net.nodes[n]? = some op ∧
      s.wire_to_v[op.control.uid]? = some vc ∧ s.wire_to_v[op.target.uid]? = some vt ∧
      vc < N ∧ vt < N) :
    ∃ x, swap_score dev cfg net s p0 p1 = .ok x := by
  obtain ⟨tmp, htmp, hlen⟩ := tmp_v_to_phy_ok hc h0 h1
  have hlayer : ∀ layer : List Nat, (∀ n ∈ layer, n ∈ s.front_layer ++ s.extended_layer) →
      ∀ c, ∃ x, compute_cost dev net s.wire_to_v tmp layer c = .ok x := by
    intro layer hsub c
    apply compute_cost_ok
    intro n hn
    obtain ⟨op, vc, vt, a1, a2, a3, a4, a5⟩ := hl n (hsub n hn)
    exact ⟨op, vc, vt, a1, a2, a3, by rw [hlen]; exact a4, by rw [hlen]; exact a5⟩
  obtain ⟨f, hf⟩ := hlayer s.front_layer (fun n hn => List.mem_append_left _ hn) 0
  obtain ⟨e, he⟩ := hlayer s.extended_layer (fun n hn => List.mem_append_right _ hn) 0
  have hd0 : p0 < s.phy_decay.length := by rw [hdec]; exact h0
  have hd1 : p1 < s.phy_decay.length := by rw [hdec]; exact h1
  simp only [swap_score, htmp, hf, at__of_lt hd0, at__of_lt hd1, he]
  split
  · exact ⟨_, rfl⟩
  · exact ⟨_, rfl⟩

theorem swap_costs_ok {dev : device} (cfg : jit_config) {net : Network} {N : Nat}
    {s : jit_router} (hc : coherent N s) (hdec : s.phy_decay.length = N)
    (hl : ∀ n ∈ s.front_layer ++ s.extended_layer, ∃ op vc vt, net.nodes[n]? = some op ∧
      s.wire_to_v[op.control.uid]? = some vc ∧ s.wire_to_v[op.target.uid]? = some vt ∧
      vc < N ∧ vt < N) :
    ∀ {cands : List (Nat × Nat)}, (∀ e ∈ cands, e.1 < N ∧ e.2 < N) →
    ∃ cost, swap_costs dev cfg net s cands = .ok cost := by
  intro cands
  induction cands with
  | nil => intro _; exact ⟨[], rfl⟩
  | cons e es ih =>
    intro h
    obtain ⟨p0, p1⟩ := e
    obtain ⟨h0, h1⟩ := h (p0, p1) (List.mem_cons_self _ _)
    obtain ⟨x, hx⟩ := @swap_score_ok dev cfg net N s p0 p1 hc hdec h0 h1 hl
    obtain ⟨rest, hrest⟩ := ih (fun e he => h e (List.mem_cons_of_mem _ he))
    exact ⟨x :: rest, by simp only [swap_costs, hx, hrest]⟩

theorem add_swap_ok {dev : device} {N : Nat} {s : jit_router} {p0 p1 : Nat}
    (hc : coherent N s) (h0 : p0 < N) (h1 : p1 < N)
    (hconn : dev.are_connected p0 p1 = true) : ∃ s1, add_swap dev p0 p1 s = .ok s1 := by
  have hl0 : p0 < s.phy_to_v.length := by rw [hc.2.1]; exact h0
  have hl1 : p1 < s.phy_to_v.length := by rw [hc.2.1]; exact h1
  have e0 : s.phy_to_v[p0]? = some s.phy_to_v[p0] := List.getElem?_eq_getElem hl0
  have e1 : s.phy_to_v[p1]? = some s.phy_to_v[p1] := List.getElem?_eq_getElem hl1
  simp only [add_swap, hconn, if_true, at__of_lt hl0, at__of_lt hl1]
  generalize s.phy_to_v[p0] = v0 at e0
  generalize s.phy_to_v[p1] = v1 at e1
  cases v0 with
  | none =>
    cases v1 with
    | none => exact ⟨_, rfl⟩
    | some b =>
      simp only
      rw [set_at_ok.mpr ⟨coherent_phy_to_v_lt hc e1, rfl⟩]
      exact ⟨_, rfl⟩
  | some a =>
    simp only
    rw [set_at_ok.mpr ⟨coherent_phy_to_v_lt hc e0, rfl⟩]
    cases v1 with
    | none => exact ⟨_, rfl⟩
    | some b =>
      simp only
      rw [set_at_ok.mpr ⟨by simpa using coherent_phy_to_v_lt hc e1, rfl⟩]
      exact ⟨_, rfl⟩

theorem find_swap_ok {dev : device} {cfg : jit_config} {net : Network} {s s2 : jit_router}
    {cands : List (Nat × Nat)} {cost : List ℚ}
    (hc : swap_candidates s.involved_phy dev.edges = .ok cands) (hne : cands ≠ [])
    (hl : (if cfg.use_look_ahead then select_extended_layer net cfg s else .ok s) = .ok s2)
    (hcost : swap_costs dev cfg net s2 cands = .ok cost) :
    ∃ c, find_swap dev cfg net s = .ok (c, s2) ∧ c ∈ cands := by
  obtain ⟨hlen, _⟩ := swap_costs_spec hcost
  have hcne : cost ≠ [] := by
    intro h0
    rw [h0] at hlen
    exact hne (List.length_eq_zero.mp hlen.symm)
  obtain ⟨hm, _, _⟩ := find_min_first cost hcne
  rw [hlen] at hm
  have hcm : cands[find_min cost cost.tail 1 0]? = some (cands.get ⟨_, hm⟩) :=
    List.getElem?_eq_getElem hm
  refine ⟨cands.get ⟨_, hm⟩, ?_, List.get_mem _ _ _⟩
  unfold find_swap
  rw [hc]
  simp only [hl, hcost, at_, hcm]

/-- C23: whenever the driver calls `find_swap`, after a `try_add_front_layer` that returned
`false` on a non-empty front layer, on a device in which every qubit has an incident edge,
the candidate list is not empty and `find_swap` returns: its result is a device edge
`(u, v)` with `involved_phy[u]` or `involved_phy[v]` set, the pair is connected, and
`add_swap` on it returns. The state before the pass is a state of a routing call (placement
coherence, traversal invariant, vectors of device size), the input refers to existing
nodes, wires and virtual qubits only, and the edges of the device join connected qubits of
the device. -/
theorem find_swap_defined (dev : device) (cfg : jit_config) (net : Network)
    (placement : List (Option Nat)) (s s1 : jit_router)
    (hw : well_formed net) (hd : distinct_operands net)
    (hch : ∀ n c, c ∈ net.children.getD n [] → c < net.nodes.length)
    (hwires : ∀ (n : Nat) (op : op_type), net.nodes[n]? = some op → op.is_meta = false →
      ∃ vc vt, net.wire_v[op.control.uid]? = some vc ∧ net.wire_v[op.target.uid]? = some vt ∧
        vc < dev.num_qubits ∧ vt < dev.num_qubits)
    (hedges : ∀ e ∈ dev.edges, e.1 < dev.num_qubits ∧ e.2 < dev.num_qubits ∧
      dev.are_connected e.1 e.2 = true)
    (hincident : ∀ u, u < dev.num_qubits → ∃ e ∈ dev.edges, e.1 = u ∨ e.2 = u)
    (hr : routing_state dev.num_qubits net placement s) (ht : trav net s s.front_layer [])
    (hinv : s.involved_phy.length = dev.num_qubits)
    (hdec : s.phy_decay.length = dev.num_qubits)
    (hel : ∀ n ∈ s.extended_layer, is_gate net n)
    (hne : s.front_layer ≠ [])
    (h : try_add_front_layer dev net s = .ok (false, s1)) :
    ∃ (cands : List (Nat × Nat)) (c : Nat × Nat) (s2 : jit_router),
      swap_candidates s1.involved_phy dev.edges = .ok cands ∧ cands ≠ [] ∧
      find_swap dev cfg net s1 = .ok (c, s2) ∧ c ∈ cands ∧ c ∈ dev.edges ∧
      (s1.involved_phy[c.1]? = some true ∨ s1.involved_phy[c.2]? = some true) ∧
      dev.are_connected c.1 c.2 = true ∧
      ∀ decay : List ℚ, ∃ s3, add_swap dev c.1 c.2 { s2 with phy_decay := decay } = .ok s3 := by
  have hr1 := (routing_state_loop_invariant dev net dev.num_qubits placement hd).try_add_front_layer
    h hr
  have ht1 := trav_try_add_front_layer hw hd h ht
  simp only at hr1 ht1
  have hg : ∀ n ∈ s.front_layer, is_gate net n :=
    fun n hn => ht.gate n (List.mem_append_right _ hn)
  have hg1 : ∀ n ∈ s1.front_layer, is_gate net n :=
    fun n hn => ht1.gate n (List.mem_append_right _ hn)
  obtain ⟨hinv1, u, hu⟩ := try_add_front_layer_involved h hne hg
  rw [hinv] at hinv1
  have hdec1 : s1.phy_decay.length = dev.num_qubits := by
    have := try_add_front_layer_phy_decay h
    simp only at this
    rw [this]; exact hdec
  have hel1 : ∀ n ∈ s1.extended_layer, is_gate net n := by
    have := try_add_front_layer_extended_layer h
    simp only at this
    rw [this]; exact hel
  -- the candidate list
  obtain ⟨cands, hcands⟩ := @swap_candidates_ok s1.involved_phy dev.edges
    (fun e he => by rw [hinv1]; exact ⟨(hedges e he).1, (hedges e he).2.1⟩)
  have hmem := swap_candidates_involved hcands
  have hcne : cands ≠ [] := by
    have hul : u < dev.num_qubits := by
      rw [← hinv1]; exact lt_of_getElem?_eq_some hu
    obtain ⟨e, he, hend⟩ := hincident u hul
    have : e ∈ cands := by
      rw [hmem]
      refine ⟨he, ?_⟩
      rcases hend with h1 | h1
      · left; rw [h1]; exact hu
      · right; rw [h1]; exact hu
    exact List.ne_nil_of_mem this
  -- the look-ahead
  obtain ⟨s2, hlook, hs2, hel2⟩ : ∃ s2,
      (if cfg.use_look_ahead then select_extended_layer net cfg s1 else .ok s1) = .ok s2 ∧
      (∃ el, s2 = { s1 with extended_layer := el }) ∧
      ∀ n ∈ s2.extended_layer, is_gate net n := by
    by_cases hla : cfg.use_look_ahead = true
    · obtain ⟨el, hsel, hgel⟩ := select_extended_layer_ok cfg hch ht1.values_length
        (fun n hn => by
          obtain ⟨op, hop, _⟩ := hg1 n hn
          exact lt_of_getElem?_eq_some hop)
      exact ⟨_, by simp only [hla, if_true]; exact hsel, ⟨el, rfl⟩, hgel⟩
    · exact ⟨s1, by simp only [hla, Bool.false_eq_true, if_false], ⟨s1.extended_layer, rfl⟩, hel1⟩
  obtain ⟨el, rfl⟩ := hs2
  have hcoh2 : coherent dev.num_qubits ({ s1 with extended_layer := el } : jit_router) :=
    hr1.2.1
  -- the scores
  have hlayer : ∀ n ∈ ({ s1 with extended_layer := el } : jit_router).front_layer
        ++ ({ s1 with extended_layer := el } : jit_router).extended_layer,
      ∃ op vc vt, net.nodes[n]? = some op ∧
        ({ s1 with extended_layer := el } : jit_router).wire_to_v[op.control.uid]? = some vc ∧
        ({ s1 with extended_layer := el } : jit_router).wire_to_v[op.target.uid]? = some vt ∧
        vc < dev.num_qubits ∧ vt < dev.num_qubits := by
    intro n hn
    have hgn : is_gate net n := by
      rcases List.mem_append.mp hn with h1 | h1
      · exact hg1 n h1
      · exact hel2 n h1
    obtain ⟨op, hop, hmeta⟩ := hgn
    obtain ⟨vc, vt, a1, a2, a3, a4⟩ := hwires n op hop hmeta
    refine ⟨op, vc, vt, hop, ?_, ?_, a3, a4⟩
    · show s1.wire_to_v[op.control.uid]? = some vc
      rw [hr1.1]; exact a1
    · show s1.wire_to_v[op.target.uid]? = some vt
      rw [hr1.1]; exact a2
  obtain ⟨cost, hcost⟩ := @swap_costs_ok dev cfg net dev.num_qubits
    { s1 with extended_layer := el } hcoh2 hdec1 hlayer cands
    (fun e he => ⟨(hedges e ((hmem e).mp he).1).1, (hedges e ((hmem e).mp he).1).2.1⟩)
  obtain ⟨c, hfind, hc⟩ := find_swap_ok hcands hcne hlook hcost
  obtain ⟨hce, hci⟩ := (hmem c).mp hc
  obtain ⟨hc1, hc2, hconn⟩ := hedges c hce
  refine ⟨cands, c, _, hcands, hcne, hfind, hc, hce, hci, hconn, ?_⟩
  intro decay
  exact @add_swap_ok dev dev.num_qubits _ c.1 c.2 hr1.2.1 hc1 hc2 hconn

theorem try_add_front_layer_entered_h_cx :
    try_add_front_layer line3 circuit_h_cx entered_h_cx = .ok (true, advanced_h_cx) := by
  decide!

theorem try_add_front_layer_advanced_h_cx :
    try_add_front_layer line3 circuit_h_cx advanced_h_cx = .ok (false, stuck_h_cx) := by
  decide!

theorem circuit_h_cx_children_lt (n c : Nat) (h : c ∈ circuit_h_cx.children.getD n []) :
    c < circuit_h_cx.nodes.length := by
  rcases n with _ | _ | n
  · simp [circuit_h_cx] at h; subst h; decide
  · simp [circuit_h_cx] at h
  · simp [circuit_h_cx] at h

theorem circuit_h_cx_wires (n : Nat) (op : op_type) (hn : circuit_h_cx.nodes[n]? = some op)
    (_hm : op.is_meta = false) :
    ∃ vc vt, circuit_h_cx.wire_v[op.control.uid]? = some vc ∧
      circuit_h_cx.wire_v[op.target.uid]? = some vt ∧ vc < line3.num_qubits ∧
      vt < line3.num_qubits := by
  rcases n with _ | _ | n
  · simp [circuit_h_cx] at hn; subst hn; exact ⟨1, 1, rfl, rfl, by decide, by decide⟩
  · simp [circuit_h_cx] at hn; subst hn; exact ⟨0, 1, rfl, rfl, by decide, by decide⟩
  · simp [circuit_h_cx] at hn

theorem line3_edges (e : Nat × Nat) (he : e ∈ line3.edges) :
    e.1 < line3.num_qubits ∧ e.2 < line3.num_qubits ∧ line3.are_connected e.1 e.2 = true := by
  simp only [line3, List.mem_cons, List.mem_singleton, List.not_mem_nil, or_false] at he
  rcases he with rfl | rfl <;> decide

theorem line3_incident (u : Nat) (hu : u < line3.num_qubits) :
    ∃ e ∈ line3.edges, e.1 = u ∨ e.2 = u := by
  have hu3 : u < 3 := hu
  rcases u with _ | _ | _ | u
  · exact ⟨(0, 1), by decide, Or.inl rfl⟩
  · exact ⟨(0, 1), by decide, Or.inr rfl⟩
  · exact ⟨(1, 2), by decide, Or.inr rfl⟩
  · omega

theorem find_swap_defined_witness :
    ∃ (cands : List (Nat × Nat)) (c : Nat × Nat) (s2 : jit_router),
      swap_candidates stuck_h_cx.involved_phy line3.edges = .ok cands ∧ cands ≠ [] ∧
      find_swap line3 {} circuit_h_cx stuck_h_cx = .ok (c, s2) ∧ c ∈ cands ∧ c ∈ line3.edges ∧
      (stuck_h_cx.involved_phy[c.1]? = some true ∨ stuck_h_cx.involved_phy[c.2]? = some true) ∧
      line3.are_connected c.1 c.2 = true ∧
      ∀ decay : List ℚ, ∃ s3, add_swap line3 c.1 c.2 { s2 with phy_decay := decay } = .ok s3 :=
  find_swap_defined line3 {} circuit_h_cx [some 0, none, some 1] advanced_h_cx stuck_h_cx
    circuit_h_cx_well_formed circuit_h_cx_distinct_operands circuit_h_cx_children_lt
    circuit_h_cx_wires line3_edges line3_incident
    ((routing_state_loop_invariant line3 circuit_h_cx 3 [some 0, none, some 1]
        circuit_h_cx_distinct_operands).try_add_front_layer try_add_front_layer_entered_h_cx
      (route_entry_routing_state line_placement_injective rfl route_entry_h_cx))
    (trav_try_add_front_layer circuit_h_cx_well_formed circuit_h_cx_distinct_operands
      try_add_front_layer_entered_h_cx
      (route_entry_trav circuit_h_cx_well_formed (ready_init line3) route_entry_h_cx))
    rfl rfl (fun n hn => by simp [advanced_h_cx, entered_h_cx] at hn) (by decide)
    try_add_front_layer_advanced_h_cx

theorem swap_score_eq_placement_score (dev : device) (cfg : jit_config) (net : Network)
    (s : jit_router) (phy0 phy1 : Nat) :
    swap_score dev cfg net s phy0 phy1
      = (tmp_v_to_phy s phy0 phy1).bind (fun tmp => placement_score dev cfg net s tmp phy0 phy1) := by
  unfold swap_score placement_score
  cases tmp_v_to_phy s phy0 phy1 <;> rfl

theorem find_swap_eq {dev : device} {cfg : jit_config} {net : Network} {s s1 : jit_router}
    {c : Nat × Nat} (h : find_swap dev cfg net s = .ok (c, s1)) :
    ∃ (cands : List (Nat × Nat)) (cost : List ℚ) (m : Nat),
      swap_candidates s.involved_phy dev.edges = .ok cands ∧
      (if cfg.use_look_ahead then select_extended_layer net cfg s else .ok s) = .ok s1 ∧
      swap_costs dev cfg net s1 cands = .ok cost ∧ cands[m]? = some c := by
  unfold find_swap at h
  split at h
  · rename_i cands hc
    split at h
    · rename_i s2 hl
      split at h
      · rename_i cost hcost
        split at h
        · rename_i c1 hat
          simp only [Except.ok.injEq, Prod.mk.injEq] at h
          obtain ⟨rfl, rfl⟩ := h
          exact ⟨cands, cost, _, hc, hl, hcost, at__ok.mp hat⟩
        · simp at h
      · simp at h
    · simp at h
  · simp at h

/-- The placement that `add_swap` installs is the hypothetical placement of `find_swap`. -/
theorem add_swap_tmp_v_to_phy {dev : device} {p0 p1 : Nat} {s s2 : jit_router}
    (h : add_swap dev p0 p1 s = .ok s2) : tmp_v_to_phy s p0 p1 = .ok s2.v_to_phy := by
  obtain ⟨_, v0, v1, h0, h1, ha, hb, rfl⟩ := add_swap_eq h
  simp only [tmp_v_to_phy, at__ok.mpr h0, at__ok.mpr h1]
  cases v0 with
  | none =>
    cases v1 with
    | none => rfl
    | some b =>
      simp only
      rw [set_at_ok.mpr ⟨hb b rfl, rfl⟩]
      rfl
  | some a =>
    simp only
    rw [set_at_ok.mpr ⟨ha a rfl, rfl⟩]
    cases v1 with
    | none => rfl
    | some b =>
      simp only
      rw [set_at_ok.mpr ⟨by simpa using hb b rfl, rfl⟩]
      rfl

theorem tmp_v_to_phy_add_swap {dev : device} {p0 p1 : Nat} {s : jit_router}
    {tmp : List (Option Nat)} (h : tmp_v_to_phy s p0 p1 = .ok tmp)
    (hconn : dev.are_connected p0 p1 = true) :
    ∃ s2, add_swap dev p0 p1 s = .ok s2 ∧ s2.v_to_phy = tmp := by
  unfold tmp_v_to_phy at h
  split at h
  · rename_i v0 v1 h0 h1
    simp only [add_swap, hconn, if_true, h0, h1]
    split at h
    · rename_i t1 ht1
      rw [h]
      exact ⟨_, rfl, rfl⟩
    · simp at h
  · simp at h
  · simp at h

/-- C31: the hypothetical placement `tmp_v_to_phy` that `find_swap` scores for a candidate
`(p0, p1)` is the `v_to_phy` that `add_swap(p0, p1)` produces from the same state: when
`add_swap` returns, `tmp_v_to_phy` is its `v_to_phy`, and on a connected pair `add_swap`
returns whenever `tmp_v_to_phy` is defined. In a SWAP round of the driver the placement
after the round is the hypothetical placement of the selected SWAP, and the score that
`find_swap` gave to the selected SWAP is the score computed on the placement after the
round. -/
theorem swap_score_is_cost_of_next_placement (dev : device) (cfg : jit_config)
    (net : Network) (k : Nat) (s s2 : jit_router)
    (h : swap_round dev cfg net k s = .ok s2) :
    (∀ (t t2 : jit_router) (p0 p1 : Nat), add_swap dev p0 p1 t = .ok t2 →
      tmp_v_to_phy t p0 p1 = .ok t2.v_to_phy) ∧
    (∀ (t : jit_router) (p0 p1 : Nat) (tmp : List (Option Nat)),
      tmp_v_to_phy t p0 p1 = .ok tmp → dev.are_connected p0 p1 = true →
      ∃ t2, add_swap dev p0 p1 t = .ok t2 ∧ t2.v_to_phy = tmp) ∧
    ∃ (c : Nat × Nat) (s1 : jit_router) (x : ℚ), find_swap dev cfg net s = .ok (c, s1) ∧
      tmp_v_to_phy s1 c.1 c.2 = .ok s2.v_to_phy ∧
      swap_score dev cfg net s1 c.1 c.2 = .ok x ∧
      placement_score dev cfg net s1 s2.v_to_phy c.1 c.2 = .ok x := by
  refine ⟨fun t t2 p0 p1 ha => add_swap_tmp_v_to_phy ha,
    fun t p0 p1 tmp ht hc => tmp_v_to_phy_add_swap ht hc, ?_⟩
  unfold swap_round at h
  split at h
  · rename_i phy0 phy1 s1 hf
    split at h
    · rename_i decay hu
      split at h
      · rename_i s3 ha
        simp only [Except.ok.injEq] at h
        subst h
        have htmp : tmp_v_to_phy s1 phy0 phy1 = .ok s3.v_to_phy := by
          have h1 := add_swap_tmp_v_to_phy ha
          exact h1
        obtain ⟨cands, cost, m, _, _, hcost, hm⟩ := find_swap_eq hf
        have hx := (swap_costs_spec hcost).2 m (phy0, phy1) hm
        simp only at hx
        refine ⟨(phy0, phy1), s1, cost.getD m 0, hf, htmp, hx, ?_⟩
        rw [swap_score_eq_placement_score, htmp] at hx
        exact hx
      · simp at h
    · simp at h
  · simp at h

theorem swap_score_is_cost_of_next_placement_witness :
    ∃ (c : Nat × Nat) (s1 : jit_router) (x : ℚ),
      find_swap line3 {} circuit_cx02 stuck_cx02 = .ok (c, s1) ∧
      tmp_v_to_phy s1 c.1 c.2 = .ok swapped_cx02.v_to_phy ∧
      swap_score line3 {} circuit_cx02 s1 c.1 c.2 = .ok x ∧
      placement_score line3 {} circuit_cx02 s1 swapped_cx02.v_to_phy c.1 c.2 = .ok x :=
  (swap_score_is_cost_of_next_placement line3 {} circuit_cx02 1 stuck_cx02 swapped_cx02
    swap_round_cx02).2.2

theorem pass_keeps.refl_ (s : jit_router) : pass_keeps s s :=
  ⟨rfl, rfl, fun _ _ h => h, fun _ h => h⟩

theorem pass_keeps.chain {s s1 s2 : jit_router} (h1 : pass_keeps s s1)
    (h2 : pass_keeps s1 s2) : pass_keeps s s2 :=
  ⟨h2.1.trans h1.1, h2.2.1.trans h1.2.1, fun v p h => h2.2.2.1 v p (h1.2.2.1 v p h),
    fun u h => h2.2.2.2 u (h1.2.2.2 u h)⟩

theorem jit_placements_keeps {s s1 : jit_router} (h : jit_placements s s1) :
    pass_keeps s s1 := by
  induction h with
  | refl s => exact pass_keeps.refl_ s
  | step s s1 v c hv hc hb _ ih =>
    refine pass_keeps.chain ?_ ih
    exact ⟨rfl, rfl, fun v1 p h => set_unplaced_keeps hv v1 p h, fun _ h => h⟩

theorem stuck_on_keeps {dev : device} {net : Network} {s s1 : jit_router} {n : Nat}
    (hk : pass_keeps s s1) (h : stuck_on dev net s n) : stuck_on dev net s1 n := by
  obtain ⟨op, c, t, hop, hm, h1q, hc, ht, hne, hconn, hic, hit⟩ := h
  obtain ⟨vc, hwc, hvc⟩ := wire_to_phy_ok.mp hc
  obtain ⟨vt, hwt, hvt⟩ := wire_to_phy_ok.mp ht
  refine ⟨op, c, t, hop, hm, h1q, ?_, ?_, hne, hconn, hk.2.2.2 c hic, hk.2.2.2 t hit⟩
  · exact wire_to_phy_ok.mpr ⟨vc, by rw [hk.2.1]; exact hwc, hk.2.2.1 vc c hvc⟩
  · exact wire_to_phy_ok.mpr ⟨vt, by rw [hk.2.1]; exact hwt, hk.2.2.1 vt t hvt⟩

/-- An iteration of the loop of `try_add_front_layer` on a gate that leaves the flag
`executed` at `false` has not executed the gate: the node goes to the new front layer and is
stuck in the state after the iteration. -/
theorem try_add_front_layer_step_stuck {dev : device} {net : Network} {N : Nat}
    {placement : List (Option Nat)} (hd : distinct_operands net)
    {acc acc1 : Bool × List Nat × jit_router} {n : Nat}
    (hs : routing_state N net placement acc.2.2) (hg : is_gate net n)
    (h : try_add_front_layer_step dev net acc n = .ok acc1) (hf : acc1.1 = false) :
    acc1.2.1 = acc.2.1 ++ [n] ∧ pass_keeps acc.2.2 acc1.2.2 ∧ stuck_on dev net acc1.2.2 n := by
  obtain ⟨op, hop, hcase⟩ := try_add_front_layer_step_cases h
  rcases hcase with ⟨hmeta, _⟩ | ⟨hmeta, b, s1, hexec, hb⟩
  · obtain ⟨op1, hop1, hm1⟩ := hg
    rw [hop] at hop1
    simp only [Option.some.injEq] at hop1
    subst hop1
    rw [hmeta] at hm1
    cases hm1
  · rcases hb with ⟨_, values, nfl, _, rfl⟩ | ⟨rfl, c, t, hc, ht, hcl, htl, rfl⟩
    · cases hf
    · have h1q : op.is_one_qubit = false := by
        cases h1 : op.is_one_qubit with
        | false => rfl
        | true =>
          rw [h1] at hexec
          simp only [if_true] at hexec
          have := (add_op_eq hexec).1
          cases this
      rw [h1q] at hexec
      simp only [Bool.false_eq_true, if_false] at hexec
      have hne : ∀ v0 v1, acc.2.2.wire_to_v[op.control.uid]? = some v0 →
          acc.2.2.wire_to_v[op.target.uid]? = some v1 → v0 ≠ v1 := by
        intro v0 v1 h0 h1
        rw [hs.1] at h0 h1
        exact hd n op hop hmeta h1q v0 v1 h0 h1
      obtain ⟨sx, v0, v1, phy0, phy1, hpl, hw0, hw1, hp0, hp1, hres⟩ :=
        try_add_op_steps hne hexec
      rcases hres with ⟨htrue, _, _⟩ | ⟨_, hconn, hsx⟩
      · cases htrue
      · simp only at hsx
        subst hsx
        have hk := jit_placements_keeps hpl
        have hcoh := coherent_placements hpl hs.2.1
        obtain ⟨vc, hwc, hvc⟩ := wire_to_phy_ok.mp hc
        obtain ⟨vt, hwt, hvt⟩ := wire_to_phy_ok.mp ht
        rw [hk.2.1, hw0] at hwc
        rw [hk.2.1, hw1] at hwt
        simp only [Option.some.injEq] at hwc hwt
        subst hwc hwt
        rw [hp0] at hvc
        rw [hp1] at hvt
        simp only [Option.some.injEq] at hvc hvt
        subst hvc hvt
        have hct : phy0 ≠ phy1 := by
          intro he
          subst he
          exact hne v0 v1 hw0 hw1 (coherent_injective hcoh v0 v1 phy0 hp0 hp1)
        refine ⟨rfl, ?_, ?_⟩
        · refine ⟨hk.1, hk.2.1, hk.2.2.1, ?_⟩
          intro u hu
          have hu1 := hk.2.2.2 u hu
          simp only
          by_cases hut : phy1 = u
          · subst hut
            rw [List.getElem?_set_self (by simpa using htl)]
          · rw [List.getElem?_set_ne hut]
            by_cases huc : phy0 = u
            · subst huc
              rw [List.getElem?_set_self hcl]
            · rw [List.getElem?_set_ne huc]
              exact hu1
        · refine ⟨op, phy0, phy1, hop, hmeta, h1q, hc, ht, hct, hconn, ?_, ?_⟩
          · simp only
            rw [List.getElem?_set_ne (Ne.symm hct), List.getElem?_set_self hcl]
          · simp only
            rw [List.getElem?_set_self (by simpa using htl)]

theorem try_add_front_layer_loop_stuck {dev : device} {net : Network} {N : Nat}
    {placement : List (Option Nat)} (hd : distinct_operands net) :
    ∀ {ns : List Nat} {acc acc1 : Bool × List Nat × jit_router},
    routing_state N net placement acc.2.2 → (∀ n ∈ ns, is_gate net n) →
    try_add_front_layer_loop dev net ns acc = .ok acc1 → acc1.1 = false →
    acc1.2.1 = acc.2.1 ++ ns ∧ pass_keeps acc.2.2 acc1.2.2 ∧
    ∀ n ∈ ns, stuck_on dev net acc1.2.2 n := by
  intro ns
  induction ns with
  | nil =>
    intro acc acc1 _ _ h _
    simp only [try_add_front_layer_loop, Except.ok.injEq] at h
    subst h
    exact ⟨by simp, pass_keeps.refl_ _, fun n hn => by simp at hn⟩
  | cons n ns ih =>
    intro acc acc1 hs hg h hf
    simp only [try_add_front_layer_loop] at h
    split at h
    · rename_i acc2 h2
      have hf2 : acc2.1 = false := by
        rcases executed_length_loop h with ⟨c1, _⟩ | ⟨c1, _⟩
        · rw [← c1]; exact hf
        · rw [hf] at c1; cases c1
      obtain ⟨a1, a2, a3⟩ :=
        try_add_front_layer_step_stuck hd hs (hg n (List.mem_cons_self _ _)) h2 hf2
      have hs2 := (routing_state_loop_invariant dev net N placement hd).step h2 hs
      obtain ⟨b1, b2, b3⟩ := ih hs2 (fun m hm => hg m (List.mem_cons_of_mem _ hm)) h hf
      refine ⟨by rw [b1, a1]; simp, pass_keeps.chain a2 b2, ?_⟩
      intro m hm
      rcases List.mem_cons.mp hm with rfl | hm1
      · exact stuck_on_keeps b2 a3
      · exact b3 m hm1
    · simp at h

theorem routing_state_advanced_h_cx :
    routing_state 3 circuit_h_cx [some 0, none, some 1] advanced_h_cx :=
  (routing_state_loop_invariant line3 circuit_h_cx 3 [some 0, none, some 1]
    circuit_h_cx_distinct_operands).try_add_front_layer try_add_front_layer_entered_h_cx
    (route_entry_routing_state line_placement_injective rfl route_entry_h_cx)

theorem circuit_h_cx_arity (n : Nat) (op : op_type) (hn : circuit_h_cx.nodes[n]? = some op)
    (_hm : op.is_meta = false) : op.is_one_qubit = true ∨ op.is_two_qubit = true := by
  rcases n with _ | _ | n
  · simp [circuit_h_cx] at hn; subst hn; exact Or.inl rfl
  · simp [circuit_h_cx] at hn; subst hn; exact Or.inr rfl
  · simp [circuit_h_cx] at hn

/-- C32: whenever `try_add_front_layer` returns `false`, in a placement state of a routing
call whose front layer consists of gates of a circuit of one- and two-qubit gates, the
front layer after the pass is the front layer before it, no discharge counter has changed,
and every node of the front layer is a two-qubit operation whose control and target are
placed, after the pass, on two different physical qubits that are not connected and that
are both marked in `involved_phy_`. -/
theorem stuck_pass_keeps_front_layer (dev : device) (net : Network) (N : Nat)
    (placement : List (Option Nat)) (s s1 : jit_router) (hd : distinct_operands net)
    (harity : ∀ (n : Nat) (op : op_type), net.nodes[n]? = some op → op.is_meta = false →
      op.is_one_qubit = true ∨ op.is_two_qubit = true)
    (hr : routing_state N net placement s) (hg : ∀ n ∈ s.front_layer, is_gate net n)
    (h : try_add_front_layer dev net s = .ok (false, s1)) :
    s1.front_layer = s.front_layer ∧ s1.values = s.values ∧
    ∀ n ∈ s1.front_layer, ∃ (op : op_type) (c t : Nat), net.nodes[n]? = some op ∧
      op.is_meta = false ∧ op.is_two_qubit = true ∧
      wire_to_phy s1 op.control = .ok (some c) ∧ wire_to_phy s1 op.target = .ok (some t) ∧
      c ≠ t ∧ dev.are_connected c t = false ∧
      s1.involved_phy[c]? = some true ∧ s1.involved_phy[t]? = some true := by
  unfold try_add_front_layer at h
  split at h
  · rename_i b nfl s2 hl
    simp only [Except.ok.injEq, Prod.mk.injEq] at h
    obtain ⟨rfl, rfl⟩ := h
    obtain ⟨a1, a2, a3⟩ := try_add_front_layer_loop_stuck hd hr hg hl rfl
    simp only [List.nil_append] at a1
    subst a1
    refine ⟨rfl, a2.1, ?_⟩
    intro n hn
    obtain ⟨op, c, t, hop, hm, h1q, hc, ht, hne, hconn, hic, hit⟩ := a3 n hn
    have h2q : op.is_two_qubit = true := by
      rcases harity n op hop hm with h1 | h2
      · rw [h1q] at h1; cases h1
      · exact h2
    exact ⟨op, c, t, hop, hm, h2q, hc, ht, hne, hconn, hic, hit⟩
  · simp at h

theorem stuck_pass_keeps_front_layer_witness :
    stuck_h_cx.front_layer = advanced_h_cx.front_layer ∧
    stuck_h_cx.values = advanced_h_cx.values ∧
    ∀ n ∈ stuck_h_cx.front_layer, ∃ (op : op_type) (c t : Nat),
      circuit_h_cx.nodes[n]? = some op ∧ op.is_meta = false ∧ op.is_two_qubit = true ∧
      wire_to_phy stuck_h_cx op.control = .ok (some c) ∧
      wire_to_phy stuck_h_cx op.target = .ok (some t) ∧
      c ≠ t ∧ line3.are_connected c t = false ∧
      stuck_h_cx.involved_phy[c]? = some true ∧ stuck_h_cx.involved_phy[t]? = some true :=
  stuck_pass_keeps_front_layer line3 circuit_h_cx 3 [some 0, none, some 1] advanced_h_cx
    stuck_h_cx circuit_h_cx_distinct_operands circuit_h_cx_arity routing_state_advanced_h_cx
    (fun n hn => by
      simp only [advanced_h_cx, List.mem_singleton] at hn
      subst hn
      exact ⟨_, rfl, rfl⟩)
    try_add_front_layer_advanced_h_cx

theorem extend_layer_scans_initial (net : Network) (e : Nat) :
    ∀ (ns : List Nat) (acc : ext_acc), extend_layer_scans net e ns acc <+: ns := by
  intro ns
  induction ns with
  | nil => intro acc; exact List.prefix_refl _
  | cons n ns ih =>
    intro acc
    simp only [extend_layer_scans]
    split
    · split
      · split
        · exact ⟨ns, rfl⟩
        · exact List.cons_prefix_cons.mpr ⟨rfl, ih _⟩
      · exact List.nil_prefix
    · exact List.nil_prefix

theorem extend_children_sat {net : Network} {seen : List Nat} : ∀ {cs : List Nat}
    {acc acc1 : ext_acc}, extend_children net cs acc = .ok acc1 → ext_sat net seen acc →
    ext_sat net seen acc1 := by
  intro cs
  induction cs with
  | nil =>
    intro acc acc1 h hs
    simp only [extend_children, Except.ok.injEq] at h
    subst h
    exact hs
  | cons c cs ih =>
    intro acc acc1 h hs
    simp only [extend_children] at h
    split at h
    · rename_i child hchild
      rw [at__ok] at hchild
      have hc : c < net.nodes.length := lt_of_getElem?_eq_some hchild
      have hcv : c < acc.values.length := by rw [hs.length]; exact hc
      have hget : ∀ i, (acc.values.set c (acc.values.getD c 0 + 1)).getD i 0
          = if i = c then acc.values.getD c 0 + 1 else acc.values.getD i 0 := by
        intro i
        by_cases hic : i = c
        · subst hic
          simp [List.getD_eq_getElem?_getD, List.getElem?_set_self hcv]
        · simp [List.getD_eq_getElem?_getD, List.getElem?_set_ne (Ne.symm hic), hic]
      have hsat1 : ∀ l, saturated net acc.values l →
          saturated net (incr_value acc.values c).1 l := by
        intro l hl x hx
        obtain ⟨op, h1, h2⟩ := hl x hx
        refine ⟨op, h1, ?_⟩
        simp only [incr_value, hget]
        split
        · rename_i hxc
          subst hxc
          exact Nat.le_succ_of_le h2
        · exact h2
      have hlen1 : (incr_value acc.values c).1.length = net.nodes.length := by
        simp [incr_value, hs.length]
      have hpush : (incr_value acc.values c).2 = child.num_wires →
          (seen ++ (acc.new_tmp_front_layer ++ [c])).Nodup ∧
          saturated net (incr_value acc.values c).1 (seen ++ (acc.new_tmp_front_layer ++ [c])) := by
        intro heq
        simp only [incr_value] at heq
        have hnot : c ∉ seen ++ acc.new_tmp_front_layer := by
          intro hmem
          obtain ⟨op, h1, h2⟩ := hs.sat c hmem
          rw [hchild] at h1
          simp only [Option.some.injEq] at h1
          subst h1
          omega
        constructor
        · rw [← List.append_assoc]
          exact List.Nodup.append hs.nodup (List.nodup_singleton c)
            (by
              intro x hx hx1
              simp only [List.mem_singleton] at hx1
              subst hx1
              exact hnot hx)
        · intro x hx
          rw [← List.append_assoc, List.mem_append, List.mem_singleton] at hx
          rcases hx with hx | rfl
          · exact hsat1 _ hs.sat x hx
          · refine ⟨child, hchild, ?_⟩
            simp only [incr_value, hget, if_true]
            omega
      split at h
      · exact ih h hs
      · split at h
        · rename_i heq
          split at h
          · exact ih h ⟨hlen1, (hpush heq).1, (hpush heq).2⟩
          · exact ih h ⟨hlen1, (hpush heq).1, (hpush heq).2⟩
        · exact ih h ⟨hlen1, hs.nodup, hsat1 _ hs.sat⟩
    · simp at h

theorem extend_layer_sat {net : Network} {e : Nat} {seen : List Nat} : ∀ {ns : List Nat}
    {acc acc1 : ext_acc} {b : Bool}, extend_layer net e ns acc = .ok (b, acc1) →
    ext_sat net seen acc → ext_sat net seen acc1 := by
  intro ns
  induction ns with
  | nil =>
    intro acc acc1 b h hs
    simp only [extend_layer, Except.ok.injEq, Prod.mk.injEq] at h
    obtain ⟨_, rfl⟩ := h
    exact hs
  | cons n ns ih =>
    intro acc acc1 b h hs
    simp only [extend_layer] at h
    split at h
    · split at h
      · rename_i acc2 h2
        have hs2 := extend_children_sat h2 hs
        split at h
        · simp only [Except.ok.injEq, Prod.mk.injEq] at h
          obtain ⟨_, rfl⟩ := h
          exact hs2
        · exact ih h hs2
      · simp at h
    · simp at h

theorem ext_sat.next {net : Network} {seen : List Nat} {acc : ext_acc}
    (h : ext_sat net seen acc) :
    ext_sat net (seen ++ acc.new_tmp_front_layer) { acc with new_tmp_front_layer := [] } :=
  ⟨h.length, by simpa using h.nodup, by simpa using h.sat⟩

/-- During one call of `select_extended_layer` a node enters the working frontier at most
once, and never when it is among the nodes `seen` whose counter had reached their arity. -/
theorem extend_loop_entries_nodup {net : Network} {e : Nat} :
    ∀ (fuel : Nat) (tmp seen : List Nat) (acc : ext_acc),
    ext_sat net seen { acc with new_tmp_front_layer := [] } →
    (seen ++ extend_loop_entries net e fuel tmp acc).Nodup ∧
    ∀ c ∈ extend_loop_entries net e fuel tmp acc, c < net.nodes.length := by
  intro fuel
  induction fuel with
  | zero =>
    intro tmp seen acc hs
    simp only [extend_loop_entries, List.append_nil]
    exact ⟨by simpa using hs.nodup, fun c hc => by simp at hc⟩
  | succ fuel ih =>
    intro tmp seen acc hs
    have hnd : seen.Nodup := by simpa using hs.nodup
    simp only [extend_loop_entries]
    split
    · simp only [List.append_nil]
      exact ⟨hnd, fun c hc => by simp at hc⟩
    · split
      · rename_i acc1 h1
        have hs1 := extend_layer_sat h1 hs
        refine ⟨hs1.nodup, ?_⟩
        intro c hc
        obtain ⟨op, hop, _⟩ := hs1.sat c (List.mem_append_right _ hc)
        exact lt_of_getElem?_eq_some hop
      · rename_i acc1 h1
        have hs1 := extend_layer_sat h1 hs
        obtain ⟨a1, a2⟩ := ih acc1.new_tmp_front_layer (seen ++ acc1.new_tmp_front_layer) acc1
          hs1.next
        refine ⟨by rw [← List.append_assoc]; exact a1, ?_⟩
        intro c hc
        rcases List.mem_append.mp hc with h2 | h2
        · obtain ⟨op, hop, _⟩ := hs1.sat c (List.mem_append_right _ h2)
          exact lt_of_getElem?_eq_some hop
        · exact a2 c h2
      · simp only [List.append_nil]
        exact ⟨hnd, fun c hc => by simp at hc⟩

/-- Every child scan of a call of `select_extended_layer` is the scan of a node of the
frontier it started from or of a node that has entered the frontier during the call, and
in that order. -/
theorem extend_loop_scans_sublist (net : Network) (e : Nat) :
    ∀ (fuel : Nat) (tmp : List Nat) (acc : ext_acc),
    (extend_loop_scans net e fuel tmp acc).Sublist
      (tmp ++ extend_loop_entries net e fuel tmp acc) := by
  intro fuel
  induction fuel with
  | zero => intro tmp acc; simp [extend_loop_scans]
  | succ fuel ih =>
    intro tmp acc
    simp only [extend_loop_scans, extend_loop_entries]
    by_cases ht : tmp.isEmpty = true
    · simp [ht]
    · simp only [ht, Bool.false_eq_true, if_false]
      have hp := (extend_layer_scans_initial net e tmp
        { acc with new_tmp_front_layer := [] }).sublist
      cases h1 : extend_layer net e tmp { acc with new_tmp_front_layer := [] } with
      | error e1 =>
        simp only [List.append_nil]
        exact hp
      | ok r =>
        obtain ⟨b, acc1⟩ := r
        cases b with
        | true =>
          simp only [List.append_nil]
          exact hp.trans (List.sublist_append_left _ _)
        | false =>
          simp only
          exact List.Sublist.append hp (ih _ _)

theorem nodup_length_le_of_lt {l : List Nat} {n : Nat} (hnd : l.Nodup)
    (h : ∀ x ∈ l, x < n) : l.length ≤ n := by
  have := (List.subperm_of_subset hnd (fun x hx => List.mem_range.mpr (h x hx))).length_le
  simpa using this

theorem incr_all_mono (values ids : List Nat) (n : Nat) :
    values.getD n 0 ≤ (incr_all values ids).getD n 0 := by
  by_cases hn : n < values.length
  · rw [incr_all_getD _ _ _ hn]
    omega
  · have h1 : values.getD n 0 = 0 := by
      simp [List.getD_eq_getElem?_getD, List.getElem?_eq_none (not_lt.mp hn)]
    rw [h1]
    exact Nat.zero_le _

theorem circuit_square_children_lt (n c : Nat) (h : c ∈ circuit_square.children.getD n []) :
    c < circuit_square.nodes.length := by
  rcases n with _ | _ | _ | _ | n
  all_goals simp [circuit_square] at h
  all_goals rcases h with rfl | rfl <;> decide

/-- C33: `select_extended_layer` returns on every input whose node identifiers exist and
whose nodes all have a counter: its `while` loop ends within one round per node and one
more. During the call no counter decreases before the undo loop, the nodes that enter the
working frontier are distinct existing nodes (a node enters at most once), and every child
scan is the scan of a node of the given front layer or of a node that has entered the
frontier, in that order; so there are at most as many scans as the front layer has nodes
plus the number of nodes. For a front layer in the sense of the router, distinct nodes
whose counter has reached their arity, no node is scanned twice. -/
theorem select_extended_layer_terminates (net : Network) (cfg : jit_config) (s : jit_router)
    (hch : ∀ n c, c ∈ net.children.getD n [] → c < net.nodes.length)
    (hl : s.values.length = net.nodes.length)
    (hfl : ∀ n ∈ s.front_layer, n < net.nodes.length) :
    (∃ el, select_extended_layer net cfg s = .ok { s with extended_layer := el }) ∧
    (∃ acc, extend_loop net cfg.e_set_size (net.nodes.length + 1) s.front_layer
        { values := s.values, incremented_nodes := [], new_tmp_front_layer := [],
          extended_layer := [] } = .ok acc ∧
      ∀ n, s.values.getD n 0 ≤ acc.values.getD n 0) ∧
    (extend_loop_entries net cfg.e_set_size (net.nodes.length + 1) s.front_layer
        { values := s.values, incremented_nodes := [], new_tmp_front_layer := [],
          extended_layer := [] }).Nodup ∧
    (∀ c ∈ extend_loop_entries net cfg.e_set_size (net.nodes.length + 1) s.front_layer
        { values := s.values, incremented_nodes := [], new_tmp_front_layer := [],
          extended_layer := [] }, c < net.nodes.length) ∧
    (extend_loop_scans net cfg.e_set_size (net.nodes.length + 1) s.front_layer
        { values := s.values, incremented_nodes := [], new_tmp_front_layer := [],
          extended_layer := [] }).Sublist
      (s.front_layer ++
        extend_loop_entries net cfg.e_set_size (net.nodes.length + 1) s.front_layer
          { values := s.values, incremented_nodes := [], new_tmp_front_layer := [],
            extended_layer := [] }) ∧
    (extend_loop_scans net cfg.e_set_size (net.nodes.length + 1) s.front_layer
        { values := s.values, incremented_nodes := [], new_tmp_front_layer := [],
          extended_layer := [] }).length ≤ s.front_layer.length + net.nodes.length ∧
    (s.front_layer.Nodup → saturated net s.values s.front_layer →
      (extend_loop_scans net cfg.e_set_size (net.nodes.length + 1) s.front_layer
        { values := s.values, incremented_nodes := [], new_tmp_front_layer := [],
          extended_layer := [] }).Nodup ∧
      (extend_loop_scans net cfg.e_set_size (net.nodes.length + 1) s.front_layer
        { values := s.values, incremented_nodes := [], new_tmp_front_layer := [],
          extended_layer := [] }).length ≤ net.nodes.length) := by
  obtain ⟨el, hsel, _⟩ := select_extended_layer_ok cfg hch hl hfl
  obtain ⟨acc, hacc, _, _⟩ := extend_loop_ok (e := cfg.e_set_size) hch (net.nodes.length + 1)
    s.front_layer
    { values := s.values, incremented_nodes := [], new_tmp_front_layer := [],
      extended_layer := [] } hl hfl
    (fun _ => Nat.lt_succ_of_le (room_le net s.values)) (by simp) (by simp)
  have hc := (extend_loop_spec (children_length_le_max net) hacc (by simp)).2 s.values rfl
  unfold ext_consistent at hc
  obtain ⟨hnd0, hlt0⟩ := @extend_loop_entries_nodup net cfg.e_set_size (net.nodes.length + 1)
    s.front_layer []
    { values := s.values, incremented_nodes := [], new_tmp_front_layer := [],
      extended_layer := [] }
    ⟨hl, by simp, fun c hc => by simp at hc⟩
  simp only [List.nil_append] at hnd0
  have hsub := extend_loop_scans_sublist net cfg.e_set_size (net.nodes.length + 1)
    s.front_layer
    { values := s.values, incremented_nodes := [], new_tmp_front_layer := [],
      extended_layer := [] }
  refine ⟨⟨el, hsel⟩, ⟨acc, hacc, ?_⟩, hnd0, hlt0, hsub, ?_, ?_⟩
  · intro n
    rw [hc]
    exact incr_all_mono _ _ n
  · have h1 := hsub.length_le
    have h2 := nodup_length_le_of_lt hnd0 hlt0
    rw [List.length_append] at h1
    omega
  · intro hfnd hfsat
    obtain ⟨hnd1, _⟩ := @extend_loop_entries_nodup net cfg.e_set_size (net.nodes.length + 1)
      s.front_layer s.front_layer
      { values := s.values, incremented_nodes := [], new_tmp_front_layer := [],
        extended_layer := [] }
      ⟨hl, by simpa using hfnd, by simpa using hfsat⟩
    have hnd2 := hnd1.sublist hsub
    refine ⟨hnd2, nodup_length_le_of_lt hnd2 ?_⟩
    intro x hx
    rcases List.mem_append.mp (hsub.subset hx) with h1 | h1
    · exact hfl x h1
    · exact hlt0 x h1

theorem select_extended_layer_terminates_witness :
    (∃ el, select_extended_layer circuit_square {} stuck_square
      = .ok { stuck_square with extended_layer := el }) ∧
    (extend_loop_scans circuit_square ({} : jit_config).e_set_size
        (circuit_square.nodes.length + 1) stuck_square.front_layer
        { values := stuck_square.values, incremented_nodes := [], new_tmp_front_layer := [],
          extended_layer := [] }).Nodup ∧
    (extend_loop_scans circuit_square ({} : jit_config).e_set_size
        (circuit_square.nodes.length + 1) stuck_square.front_layer
        { values := stuck_square.values, incremented_nodes := [], new_tmp_front_layer := [],
          extended_layer := [] }).length ≤ circuit_square.nodes.length :=
  have h := select_extended_layer_terminates circuit_square {} stuck_square
    circuit_square_children_lt rfl (by decide)
  ⟨h.1, h.2.2.2.2.2.2 (by decide) (by
    intro c hc
    simp only [stuck_square, List.mem_cons, List.mem_singleton, List.not_mem_nil,
      or_false] at hc
    rcases hc with rfl | rfl
    · exact ⟨_, rfl, by decide⟩
    · exact ⟨_, rfl, by decide⟩)⟩

theorem digitChar_ne_newline : ∀ n : Nat, n < 10 → Nat.digitChar n ≠ '\n' := by
  decide

theorem toDigitsCore_no_newline : ∀ (fuel n : Nat) (ds : List Char),
    '\n' ∉ ds → '\n' ∉ Nat.toDigitsCore 10 fuel n ds := by
  intro fuel
  induction fuel with
  | zero => intro n ds h; simpa [Nat.toDigitsCore] using h
  | succ f ih =>
    intro n ds h
    rw [Nat.toDigitsCore]
    have hd : '\n' ∉ Nat.digitChar (n % 10) :: ds := by
      intro hm
      rcases List.mem_cons.mp hm with h1 | h1
      · exact digitChar_ne_newline _ (Nat.mod_lt _ (by decide)) h1.symm
      · exact h h1
    split_ifs
    · exact hd
    · exact ih _ _ hd

theorem toString_nat_no_newline (n : Nat) : '\n' ∉ (toString n).data := by
  show '\n' ∉ (Nat.repr n).data
  unfold Nat.repr Nat.toDigits
  exact toDigitsCore_no_newline _ _ _ (by simp)

theorem append_qs_no_newline (s : String) (i : Nat) (h : '\n' ∉ s.data) :
    '\n' ∉ (append_qs s i).data := by
  have h1 := toString_nat_no_newline i
  unfold append_qs
  split_ifs <;> simp [String.data_append, h, h1]

theorem append_qs_ne_empty (s : String) (i : Nat) : append_qs s i ≠ "" := by
  intro h
  have := congrArg String.data h
  unfold append_qs at this
  simp [String.data_append] at this

theorem append_qs_empty (i : Nat) : append_qs "" i = "qs[" ++ toString i ++ "]" := by
  unfold append_qs
  rw [if_pos rfl]
  exact String.ext (by simp [String.data_append])

theorem append_qs_of_ne (s : String) (i : Nat) (h : s ≠ "") :
    append_qs s i = s ++ ", " ++ ("qs[" ++ toString i ++ "]") := by
  unfold append_qs
  rw [if_neg h]

theorem foldl_append_qs_ne_empty (l : List wire_id) (acc : String) (h : acc ≠ "") :
    l.foldl (fun (s : String) (w : wire_id) => append_qs s w.index) acc ≠ "" := by
  induction l generalizing acc with
  | nil => exact h
  | cons w l ih => exact ih _ (append_qs_ne_empty _ _)

theorem foldl_append_qs_no_newline (l : List wire_id) (acc : String) (h : '\n' ∉ acc.data) :
    '\n' ∉ (l.foldl (fun (s : String) (w : wire_id) => append_qs s w.index) acc).data := by
  induction l generalizing acc with
  | nil => exact h
  | cons w l ih => exact ih _ (append_qs_no_newline _ _ h)

theorem foldl_append_qs_go (l : List wire_id) (acc : String) (h : acc ≠ "") :
    l.foldl (fun (s : String) (w : wire_id) => append_qs s w.index) acc =
      String.intercalate.go acc ", " (l.map fun c => "qs[" ++ toString c.index ++ "]") := by
  induction l generalizing acc with
  | nil => rfl
  | cons w l ih =>
    rw [List.foldl_cons, List.map_cons, String.intercalate.go, ih _ (append_qs_ne_empty _ _),
      append_qs_of_ne _ _ h]

theorem foldl_append_qs (l : List wire_id) :
    l.foldl (fun (s : String) (w : wire_id) => append_qs s w.index) "" =
      ", ".intercalate (l.map fun c => "qs[" ++ toString c.index ++ "]") := by
  cases l with
  | nil => rfl
  | cons w l =>
    rw [List.foldl_cons, List.map_cons, String.intercalate,
      foldl_append_qs_go _ _ (append_qs_ne_empty _ _), append_qs_empty]

theorem control_strings_foldl (l : List wire_id) (a b : String) :
    l.foldl (fun (acc : String × String) (control : wire_id) =>
      let cs := append_qs acc.1 control.index
      if control.is_complemented then (cs, append_qs acc.2 control.index) else (cs, acc.2))
      (a, b) =
    (l.foldl (fun (s : String) (w : wire_id) => append_qs s w.index) a,
     (l.filter fun c => c.is_complemented).foldl
       (fun (s : String) (w : wire_id) => append_qs s w.index) b) := by
  induction l generalizing a b with
  | nil => rfl
  | cons w l ih =>
    rw [List.foldl_cons]
    cases hw : w.is_complemented
    · simp only [Bool.false_eq_true, if_false]
      rw [ih, List.filter_cons_of_neg (by simp [hw]), List.foldl_cons]
    · simp only [if_true]
      rw [ih, List.filter_cons_of_pos (by simp [hw]), List.foldl_cons, List.foldl_cons]

theorem control_strings_fst (l : List wire_id) :
    (control_strings l).1 = l.foldl (fun (s : String) (w : wire_id) => append_qs s w.index) "" := by
  unfold control_strings
  rw [control_strings_foldl]

theorem control_strings_snd (l : List wire_id) :
    (control_strings l).2 = (l.filter fun c => c.is_complemented).foldl
      (fun (s : String) (w : wire_id) => append_qs s w.index) "" := by
  unfold control_strings
  rw [control_strings_foldl]

theorem control_strings_snd_eq_empty (l : List wire_id) :
    (control_strings l).2 = "" ↔ ∀ c ∈ l, c.is_complemented = false := by
  rw [control_strings_snd]
  constructor
  · intro h c hc
    cases hcc : c.is_complemented
    · rfl
    · exfalso
      have hm : c ∈ l.filter fun c => c.is_complemented := List.mem_filter.mpr ⟨hc, hcc⟩
      cases hf : l.filter fun c => c.is_complemented with
      | nil => rw [hf] at hm; cases hm
      | cons w r =>
        rw [hf, List.foldl_cons] at h
        exact foldl_append_qs_ne_empty _ _ (append_qs_ne_empty _ _) h
  · intro h
    have hf : (l.filter fun c => c.is_complemented) = [] := by
      rw [List.filter_eq_nil_iff]
      intro c hc
      simp [h c hc]
    rw [hf]
    rfl

theorem one_line_of_data (s : String) (b : List Char) (h : s.data = b ++ ['\n'])
    (hb : '\n' ∉ b) : one_line s := by
  unfold one_line
  rw [h]
  constructor
  · simp
  · simpa using hb

theorem target_string_no_newline (l : List wire_id) : '\n' ∉ (target_string l).data :=
  foldl_append_qs_no_newline l "" (by simp)

theorem control_strings_fst_no_newline (l : List wire_id) :
    '\n' ∉ (control_strings l).1.data := by
  rw [control_strings_fst]
  exact foldl_append_qs_no_newline l "" (by simp)

theorem control_strings_snd_no_newline (l : List wire_id) :
    '\n' ∉ (control_strings l).2.data := by
  rw [control_strings_snd]
  exact foldl_append_qs_no_newline _ "" (by simp)

theorem negative_controls_line_eq {angle : Type} (g : gate_base angle) :
    negative_controls_line g = "X | " ++ (control_strings g.controls).2 ++ "\n" := by
  unfold negative_controls_line
  rw [control_strings_snd, foldl_append_qs]

theorem one_line_negative_controls_line {angle : Type} (g : gate_base angle) :
    one_line (negative_controls_line g) := by
  rw [negative_controls_line_eq]
  refine one_line_of_data _ ("X | ".data ++ (control_strings g.controls).2.data) ?_ ?_
  · simp [String.data_append]
  · have := control_strings_snd_no_newline g.controls
    simp [this]

theorem one_line_gate_line {angle : Type} (A : angles angle) (g : gate_base angle)
    (controls targets line : String) (hc : '\n' ∉ controls.data) (ht : '\n' ∉ targets.data)
    (hfmt : '\n' ∉ (A.numeric_value g.rotation_angle).data)
    (h : gate_line A g controls targets = .ok line) : one_line line := by
  have hn := toString_nat_no_newline g.num_controls
  have h1 : (")\n" : String) = ")" ++ "\n" := rfl
  have h2 : ("])\n" : String) = "])" ++ "\n" := rfl
  unfold gate_line at h
  split at h
  · cases h
    exact one_line_of_data _ ("H | ".data ++ targets.data) (by simp [String.data_append])
      (by simp [ht])
  · split_ifs at h <;> cases h
    · exact one_line_of_data _ ("X | ".data ++ targets.data) (by simp [String.data_append])
        (by simp [ht])
    · exact one_line_of_data _ ("Rx(".data ++ (A.numeric_value g.rotation_angle).data
        ++ ") | ".data ++ targets.data) (by simp [String.data_append]) (by simp [ht, hfmt])
  · split_ifs at h <;> cases h
    · exact one_line_of_data _ ("Y | ".data ++ targets.data) (by simp [String.data_append])
        (by simp [ht])
    · exact one_line_of_data _ ("Ry(".data ++ (A.numeric_value g.rotation_angle).data
        ++ ") | ".data ++ targets.data) (by simp [String.data_append]) (by simp [ht, hfmt])
  · split_ifs at h <;> cases h
    · exact one_line_of_data _ ("T | ".data ++ targets.data) (by simp [String.data_append])
        (by simp [ht])
    · exact one_line_of_data _ ("Tdag | ".data ++ targets.data) (by simp [String.data_append])
        (by simp [ht])
    · exact one_line_of_data _ ("S | ".data ++ targets.data) (by simp [String.data_append])
        (by simp [ht])
    · exact one_line_of_data _ ("Sdag | ".data ++ targets.data) (by simp [String.data_append])
        (by simp [ht])
    · exact one_line_of_data _ ("Z | ".data ++ targets.data) (by simp [String.data_append])
        (by simp [ht])
    · exact one_line_of_data _ ("Rz(".data ++ (A.numeric_value g.rotation_angle).data
        ++ ") | ".data ++ targets.data) (by simp [String.data_append]) (by simp [ht, hfmt])
  · cases h
    exact one_line_of_data _ ("CNOT | (".data ++ controls.data ++ ", ".data ++ targets.data
      ++ ")".data) (by rw [h1]; simp [String.data_append]) (by simp [ht, hc])
  · cases h
    exact one_line_of_data _ ("CZ | (".data ++ controls.data ++ ", ".data ++ targets.data
      ++ ")".data) (by rw [h1]; simp [String.data_append]) (by simp [ht, hc])
  · cases h
    exact one_line_of_data _ ("C(All(X), ".data ++ (toString g.num_controls).data
      ++ ") | ([".data ++ controls.data ++ "], [".data ++ targets.data ++ "])".data)
      (by rw [h2]; simp [String.data_append]) (by simp [ht, hc, hn])
  · cases h
    exact one_line_of_data _ ("C(All(Z), ".data ++ (toString g.num_controls).data
      ++ ") | ([".data ++ controls.data ++ "], [".data ++ targets.data ++ "])".data)
      (by rw [h2]; simp [String.data_append]) (by simp [ht, hc, hn])
  · cases h
    exact one_line_of_data _ ("Swap | (".data ++ targets.data ++ ")".data)
      (by rw [h1]; simp [String.data_append]) (by simp [ht])
  · cases h

theorem write_gate_complemented {angle : Type} (A : angles angle) (g : gate_base angle)
    (os line : String) (hn : ∃ c ∈ g.controls, c.is_complemented = true)
    (hl : gate_line A g (control_strings g.controls).1 (target_string g.targets) = .ok line) :
    write_gate A g os =
      .ok (os ++ negative_controls_line g ++ line ++ negative_controls_line g) := by
  have hne : ¬ (control_strings g.controls).2 = "" := by
    intro h0
    obtain ⟨c, hc, hcc⟩ := hn
    rw [(control_strings_snd_eq_empty _).mp h0 c hc] at hcc
    cases hcc
  unfold write_gate
  simp only [hl, if_neg hne]
  rw [← negative_controls_line_eq]

theorem write_gate_plain {angle : Type} (A : angles angle) (g : gate_base angle)
    (os line : String) (hn : ∀ c ∈ g.controls, c.is_complemented = false)
    (hl : gate_line A g (control_strings g.controls).1 (target_string g.targets) = .ok line) :
    write_gate A g os = .ok (os ++ line) := by
  have he : (control_strings g.controls).2 = "" := (control_strings_snd_eq_empty _).mpr hn
  unfold write_gate
  simp only [hl, if_pos he]

theorem write_gate_line {angle : Type} (A : angles angle) (g : gate_base angle)
    (os out : String) (h : write_gate A g os = .ok out) :
    ∃ line, gate_line A g (control_strings g.controls).1 (target_string g.targets) = .ok line := by
  unfold write_gate at h
  cases hl : gate_line A g (control_strings g.controls).1 (target_string g.targets) with
  | error e => simp only [hl] at h; cases h
  | ok line => exact ⟨line, rfl⟩

theorem gate_line_ends {angle : Type} (A : angles angle) (g : gate_base angle)
    (controls targets line : String) (h : gate_line A g controls targets = .ok line) :
    ∃ b : String, line = b ++ "\n" := by
  have h1 : ∀ x : String, x ++ ")\n" = x ++ ")" ++ "\n" := by
    intro x
    rw [String.append_assoc]
    rfl
  have h2 : ∀ x : String, x ++ "])\n" = x ++ "])" ++ "\n" := by
    intro x
    rw [String.append_assoc]
    rfl
  unfold gate_line at h
  split at h <;> (try split_ifs at h) <;> cases h <;>
    first
    | exact ⟨_, rfl⟩
    | exact ⟨_, h1 _⟩
    | exact ⟨_, h2 _⟩

theorem write_gate_text {angle : Type} (A : angles angle) (g : gate_base angle)
    (os out : String) (h : write_gate A g os = .ok out) :
    ∃ t : String, t.data.getLast? = some '\n' ∧ ∀ o, write_gate A g o = .ok (o ++ t) := by
  obtain ⟨line, hl⟩ := write_gate_line A g os out h
  have hlast : ∀ x : String, one_line x → ∀ y : String, (y ++ x).data.getLast? = some '\n' := by
    intro x hx y
    have hx1 := hx.1
    have hne : x.data ≠ [] := by
      intro h0
      rw [h0] at hx1
      cases hx1
    rw [String.data_append, List.getLast?_append_of_ne_nil _ hne]
    exact hx1
  by_cases hn : ∃ c ∈ g.controls, c.is_complemented = true
  · refine ⟨negative_controls_line g ++ line ++ negative_controls_line g,
      hlast _ (one_line_negative_controls_line g) _, fun o => ?_⟩
    rw [write_gate_complemented A g o line hn hl]
    simp only [String.append_assoc]
  · have hn2 : ∀ c ∈ g.controls, c.is_complemented = false := by
      intro c hc
      cases hcc : c.is_complemented
      · rfl
      · exact absurd ⟨c, hc, hcc⟩ hn
    have hol : line.data.getLast? = some '\n' := by
      obtain ⟨b, hb⟩ := gate_line_ends A g _ _ line hl
      rw [hb]
      simp [String.data_append]
    refine ⟨line, hol, fun o => ?_⟩
    rw [write_gate_plain A g o line hn2 hl]

theorem write_projectq_text {angle : Type} (A : angles angle) :
    ∀ (network : List (gate_base angle)) (os out : String),
    write_projectq A network os = .ok out →
    ∃ t : String, (t = "" ∨ t.data.getLast? = some '\n') ∧
      ∀ o, write_projectq A network o = .ok (o ++ t) := by
  intro network
  induction network with
  | nil =>
    intro os out _
    refine ⟨"", Or.inl rfl, fun o => ?_⟩
    rw [String.append_empty]
    rfl
  | cons g rest ih =>
    intro os out h
    rw [write_projectq] at h
    cases hg : write_gate A g os with
    | error e => simp only [hg] at h; cases h
    | ok os1 =>
      simp only [hg] at h
      obtain ⟨t, ht, hw⟩ := write_gate_text A g os os1 hg
      obtain ⟨t2, ht2, hw2⟩ := ih os1 out h
      refine ⟨t ++ t2, Or.inr ?_, fun o => ?_⟩
      · rcases ht2 with h0 | h1
        · rw [h0, String.append_empty]
          exact ht
        · have hne : t2.data ≠ [] := by
            intro h0
            rw [h0] at h1
            cases h1
          rw [String.data_append, List.getLast?_append_of_ne_nil _ hne]
          exact h1
      · rw [write_projectq]
        simp only [hw o]
        rw [hw2, String.append_assoc]

theorem write_projectq_append {angle : Type} (A : angles angle) :
    ∀ (pre post : List (gate_base angle)) (os out : String),
    write_projectq A (pre ++ post) os = .ok out →
    ∃ o1, write_projectq A pre os = .ok o1 ∧ write_projectq A post o1 = .ok out := by
  intro pre
  induction pre with
  | nil => intro post os out h; exact ⟨os, rfl, h⟩
  | cons g rest ih =>
    intro post os out h
    rw [List.cons_append, write_projectq] at h
    cases hg : write_gate A g os with
    | error e => simp only [hg] at h; cases h
    | ok os1 =>
      simp only [hg] at h
      obtain ⟨o1, h1, h2⟩ := ih post os1 out h
      refine ⟨o1, ?_, h2⟩
      rw [write_projectq]
      simp only [hg]
      exact h1

theorem gate_line_ok {angle : Type} (A : angles angle) (g : gate_base angle)
    (controls targets : String) (hk : g.operation ≠ .unknown) :
    ∃ line, gate_line A g controls targets = .ok line := by
  unfold gate_line
  split <;> (try split_ifs) <;> first
    | exact ⟨_, rfl⟩
    | (rename_i hu; exact absurd hu hk)

theorem write_gate_ok {angle : Type} (A : angles angle) (g : gate_base angle) (os : String)
    (hk : g.operation ≠ .unknown) : ∃ out, write_gate A g os = .ok out := by
  obtain ⟨line, hl⟩ := gate_line_ok A g (control_strings g.controls).1
    (target_string g.targets) hk
  unfold write_gate
  simp only [hl]
  exact ⟨_, rfl⟩

theorem write_projectq_ok {angle : Type} (A : angles angle) :
    ∀ (network : List (gate_base angle)) (os : String),
    (∀ g ∈ network, g.operation ≠ .unknown) → ∃ out, write_projectq A network os = .ok out := by
  intro network
  induction network with
  | nil => intro os _; exact ⟨os, rfl⟩
  | cons g rest ih =>
    intro os hk
    obtain ⟨o1, h1⟩ := write_gate_ok A g os (hk g (List.mem_cons_self _ _))
    obtain ⟨out, h2⟩ := ih o1 (fun x hx => hk x (List.mem_cons_of_mem _ hx))
    refine ⟨out, ?_⟩
    rw [write_projectq]
    simp only [h1]
    exact h2

/-- C34: in every run of `write_projectq` that returns, the text written for a gate of the
network starts at the beginning of a line and is, when some control of the gate is
complemented, the line `X | qs[i], ...` over the complemented controls in control order, then
the gate line, then the same `X | ...` line again; when no control is complemented it is the
gate line alone, which is exactly one line. -/
theorem write_projectq_negative_controls {angle : Type} (A : angles angle)
    (pre post : List (gate_base angle)) (g : gate_base angle) (os out : String)
    (hfmt : '\n' ∉ (A.numeric_value g.rotation_angle).data)
    (h : write_projectq A (pre ++ g :: post) os = .ok out) :
    ∃ (before line after : String),
      write_projectq A pre os = .ok (os ++ before) ∧
      (before = "" ∨ before.data.getLast? = some '\n') ∧
      gate_line A g (control_strings g.controls).1 (target_string g.targets) = .ok line ∧
      one_line line ∧
      (∀ o, write_projectq A post o = .ok (o ++ after)) ∧
      ((∃ c ∈ g.controls, c.is_complemented = true) →
        one_line (negative_controls_line g) ∧
        (∀ o, write_gate A g o =
          .ok (o ++ negative_controls_line g ++ line ++ negative_controls_line g)) ∧
        out = os ++ before ++ negative_controls_line g ++ line ++ negative_controls_line g
          ++ after) ∧
      ((∀ c ∈ g.controls, c.is_complemented = false) →
        (∀ o, write_gate A g o = .ok (o ++ line)) ∧
        out = os ++ before ++ line ++ after) := by
  obtain ⟨o1, hpre, hrest⟩ := write_projectq_append A pre (g :: post) os out h
  obtain ⟨before, hb, hwb⟩ := write_projectq_text A pre os o1 hpre
  have ho1 : o1 = os ++ before := by
    have h1 := hwb os
    rw [hpre] at h1
    exact Except.ok.inj h1
  rw [write_projectq] at hrest
  cases hg : write_gate A g o1 with
  | error e => simp only [hg] at hrest; cases hrest
  | ok o2 =>
    simp only [hg] at hrest
    obtain ⟨line, hl⟩ := write_gate_line A g o1 o2 hg
    obtain ⟨after, _, hwa⟩ := write_projectq_text A post o2 out hrest
    have hout : out = o2 ++ after := by
      have h1 := hwa o2
      rw [hrest] at h1
      exact Except.ok.inj h1
    refine ⟨before, line, after, hwb os, hb, hl,
      one_line_gate_line A g _ _ line (control_strings_fst_no_newline _)
        (target_string_no_newline _) hfmt hl, hwa, ?_, ?_⟩
    · intro hn
      refine ⟨one_line_negative_controls_line g,
        fun o => write_gate_complemented A g o line hn hl, ?_⟩
      rw [write_gate_complemented A g o1 line hn hl] at hg
      rw [hout, ← Except.ok.inj hg, ho1]
    · intro hn
      refine ⟨fun o => write_gate_plain A g o line hn hl, ?_⟩
      rw [write_gate_plain A g o1 line hn hl] at hg
      rw [hout, ← Except.ok.inj hg, ho1]

theorem write_projectq_negative_controls_witness :
    ∃ (before line after : String),
      write_projectq quarter_angles [gate_h_0] "" = .ok ("" ++ before) ∧
      (before = "" ∨ before.data.getLast? = some '\n') ∧
      gate_line quarter_angles gate_mcx_012_3 (control_strings gate_mcx_012_3.controls).1
        (target_string gate_mcx_012_3.targets) = .ok line ∧
      one_line line ∧
      (∀ o, write_projectq quarter_angles [gate_cx_2_3] o = .ok (o ++ after)) ∧
      ((∃ c ∈ gate_mcx_012_3.controls, c.is_complemented = true) →
        one_line (negative_controls_line gate_mcx_012_3) ∧
        (∀ o, write_gate quarter_angles gate_mcx_012_3 o =
          .ok (o ++ negative_controls_line gate_mcx_012_3 ++ line
            ++ negative_controls_line gate_mcx_012_3)) ∧
        "H | qs[0]\nX | qs[0], qs[2]\nC(All(X), 3) | ([qs[0], qs[1], qs[2]], [qs[3]])\nX | qs[0], qs[2]\nCNOT | (qs[2], qs[3])\n"
          = "" ++ before ++ negative_controls_line gate_mcx_012_3 ++ line
            ++ negative_controls_line gate_mcx_012_3 ++ after) ∧
      ((∀ c ∈ gate_mcx_012_3.controls, c.is_complemented = false) →
        (∀ o, write_gate quarter_angles gate_mcx_012_3 o = .ok (o ++ line)) ∧
        "H | qs[0]\nX | qs[0], qs[2]\nC(All(X), 3) | ([qs[0], qs[1], qs[2]], [qs[3]])\nX | qs[0], qs[2]\nCNOT | (qs[2], qs[3])\n"
          = "" ++ before ++ line ++ after) :=
  write_projectq_negative_controls quarter_angles [gate_h_0] [gate_cx_2_3] gate_mcx_012_3 ""
    "H | qs[0]\nX | qs[0], qs[2]\nC(All(X), 3) | ([qs[0], qs[1], qs[2]], [qs[3]])\nX | qs[0], qs[2]\nCNOT | (qs[2], qs[3])\n"
    (by decide) (by decide)

end tweedledum
